import Mathlib

/-!
GraphSlick group manager (`groupman.h`, `groupman.cpp`)

A shallow embedding of the group manager and its containers.

* A `nodedef_t` object is written once, when `parse_nodeset` creates it, and is
  never modified afterwards.  A `pnodedef_t` is therefore modelled by the
  address of the object together with its three fields; pointer comparison is
  comparison of these records.  The addresses of the objects that
  `nodegroup_t::free_nodes` has deleted are recorded in the field `freed` of
  the manager; deleting an object a second time is undefined behaviour and
  makes the modelled operation return `none`.
* `nodegroup_t` and `supergroup_t` objects are mutable and are reached through
  pointers, so they live in two explicit stores indexed by address.  A freed
  or never allocated address maps to `none`; dereferencing it, or
  dereferencing a `NULL` location, is undefined behaviour in the source and
  makes the modelled operation return `none`.
* `std::map<int, T>` is an association list kept in ascending key order, which
  is the iteration order of the map.
* C strings are lists of characters (without the terminating NUL).  The C
  string of a `std::string` ends at its first NUL (`c_str`).
* The conversions `%d` and `%a` give the mathematical value of the digits
  read.  The source stores it in an `int` or in an `ea_t`; the statements that
  depend on the value stored are made for numbers that fit (`fits_int`,
  `fits_ea`).
-/

namespace GraphSlick

/-! ## Data model (`groupman.h`) -/

abbrev ea_t := Nat

abbrev qstring := List Char

/-- The struct `nodedef_t`, with the address of the object (`addr`). -/
structure nodedef_t where
  addr : Nat
  nid : Int
  start : ea_t
  end_ : ea_t
deriving DecidableEq, Repr

abbrev pnodedef_t := nodedef_t

/-- The class `nodegroup_t`: a `std::list<pnodedef_t>`. -/
abbrev nodegroup_t := List pnodedef_t

abbrev pnodegroup_t := Nat

/-- The class `nodegroup_list_t`: a `std::list<pnodegroup_t>`. -/
abbrev nodegroup_list_t := List pnodegroup_t

/-- The struct `supergroup_t`. -/
structure supergroup_t where
  id : qstring
  name : qstring
  is_synthetic : Bool
  groups : nodegroup_list_t
deriving DecidableEq, Repr

abbrev psupergroup_t := Nat

/-- The class `supergroup_listp_t`: a `std::list<psupergroup_t>`. -/
abbrev supergroup_listp_t := List psupergroup_t

/-- The struct `nodeloc_t`. -/
structure nodeloc_t where
  sg : psupergroup_t
  ng : pnodegroup_t
  nd : pnodedef_t
deriving DecidableEq, Repr

/-! ### `std::map<int, T>` -/

/-- The operation `m[k] = v` of `std::map`. -/
def map_set {α : Type} (k : Int) (v : α) : List (Int × α) → List (Int × α)
  | [] => [(k, v)]
  | (k1, v1) :: r =>
    if k < k1 then (k, v) :: (k1, v1) :: r
    else if k = k1 then (k, v) :: r
    else (k1, v1) :: map_set k v r

/-- The operation `m.find(k)` of `std::map`; `none` stands for `m.end()`. -/
def map_find {α : Type} (k : Int) : List (Int × α) → Option α
  | [] => none
  | (k1, v1) :: r => if k = k1 then some v1 else map_find k r

abbrev nid2ndef_t := List (Int × pnodedef_t)

abbrev nid2nloc_map_t := List (Int × nodeloc_t)

/-- The class `groupman_t`, together with the free store its pointers refer to:
`ngs` holds the `nodegroup_t` objects, `sgs` the `supergroup_t` objects,
`brk` is the next address handed out by `new`, and `freed` holds the addresses
of the `nodedef_t` objects that have been deleted. -/
structure groupman_t where
  ngs : pnodegroup_t → Option nodegroup_t
  sgs : psupergroup_t → Option supergroup_t
  brk : Nat
  nid2loc : nid2nloc_map_t
  path_sgl : supergroup_listp_t
  similar_sgl : supergroup_listp_t
  all_nodes : nid2ndef_t
  freed : List Nat := []

/-! ## `nodegroup_list_t` -/

/-- One iteration of the loop of `nodegroup_list_t::find_biggest`: `ng` is the
candidate so far (`none` for `NULL`), `ng_f` the element visited. -/
def find_biggest_step (ngs : pnodegroup_t → Option nodegroup_t)
    (ng : Option pnodegroup_t) (ng_f : pnodegroup_t) : Option (Option pnodegroup_t) :=
  match ng with
  | none => some (some ng_f)
  | some g => do
    let cur ← ngs g
    let cand ← ngs ng_f
    pure (if cur.length < cand.length then some ng_f else some g)

/-- The method `nodegroup_list_t::find_biggest`. -/
def find_biggest (ngs : pnodegroup_t → Option nodegroup_t) (ngl : nodegroup_list_t) :
    Option (Option pnodegroup_t) :=
  ngl.foldlM (find_biggest_step ngs) none

/-- Number of elements of the node group at `p` (`0` when `p` is not live). -/
def ng_size (ngs : pnodegroup_t → Option nodegroup_t) (p : pnodegroup_t) : Nat :=
  match ngs p with
  | some l => l.length
  | none => 0

/-- Every pointer of the list refers to a live node group. -/
def ngl_live (ngs : pnodegroup_t → Option nodegroup_t) (ngl : nodegroup_list_t) : Prop :=
  ∀ p ∈ ngl, (ngs p).isSome = true

instance (ngs : pnodegroup_t → Option nodegroup_t) (ngl : nodegroup_list_t) :
    Decidable (ngl_live ngs ngl) := by
  unfold ngl_live; infer_instance

/-- `g` is the first element of maximal size of `ngl`. -/
def first_biggest (ngs : pnodegroup_t → Option nodegroup_t) (ngl : nodegroup_list_t)
    (g : pnodegroup_t) : Prop :=
  ∃ pre post, ngl = pre ++ g :: post ∧
    (∀ p ∈ pre, ng_size ngs p < ng_size ngs g) ∧
    (∀ p ∈ post, ng_size ngs p ≤ ng_size ngs g)

/-! ## `supergroup_t` -/

/-- The constructor `supergroup_t::supergroup_t()`. -/
def supergroup_t.new : supergroup_t :=
  { id := [], name := [], is_synthetic := false, groups := [] }

/-- The method `std::list::remove(x)`: erases every element equal to `x`. -/
def list_remove {α : Type} [DecidableEq α] (l : List α) (x : α) : List α :=
  l.filter (fun y => !decide (y = x))

/-- The method `nodegroup_t::add_node(nd)` with a given node: `push_back`. -/
def add_node (ng : nodegroup_t) (nd : pnodedef_t) : nodegroup_t :=
  ng ++ [nd]

/-! ## `groupman_t`: lookups -/

/-- The method `groupman_t::find_nodeid_loc`; `none` stands for `NULL`. -/
def find_nodeid_loc (m : groupman_t) (nid : Int) : Option nodeloc_t :=
  map_find nid m.nid2loc

/-- The loop of `groupman_t::find_node_loc` over the entries of `all_nodes`
that remain to be visited. -/
def find_node_loc_from (m : groupman_t) (ea : ea_t) : nid2ndef_t → Option nodeloc_t
  | [] => none
  | (_, nd) :: r =>
    if nd.start ≥ ea ∧ ea < nd.end_ then find_nodeid_loc m nd.nid
    else find_node_loc_from m ea r

/-- The method `groupman_t::find_node_loc`. -/
def find_node_loc (m : groupman_t) (ea : ea_t) : Option nodeloc_t :=
  find_node_loc_from m ea m.all_nodes

/-- The innermost loop of `initialize_lookups`, over the nodes of the group
`ng` of the super group `sg`. -/
def index_ng (sg : psupergroup_t) (ng : pnodegroup_t) (idx : nid2nloc_map_t)
    (nds : nodegroup_t) : nid2nloc_map_t :=
  nds.foldl (fun i nd => map_set nd.nid (nodeloc_t.mk sg ng nd) i) idx

/-- The body of the middle loop of `initialize_lookups`, for the group `ng`. -/
def index_sg_step (ngs : pnodegroup_t → Option nodegroup_t) (sg : psupergroup_t)
    (idx : nid2nloc_map_t) (ng : pnodegroup_t) : Option nid2nloc_map_t :=
  match ngs ng with
  | none => none
  | some nds => some (index_ng sg ng idx nds)

/-- The middle loop of `initialize_lookups`, over the groups of `sg`. -/
def index_sg (ngs : pnodegroup_t → Option nodegroup_t) (sg : psupergroup_t)
    (idx : nid2nloc_map_t) (groups : nodegroup_list_t) : Option nid2nloc_map_t :=
  groups.foldlM (index_sg_step ngs sg) idx

/-- The body of the outer loop of `initialize_lookups`, for the super group `sg`. -/
def index_sgl_step (m : groupman_t) (idx : nid2nloc_map_t) (sg : psupergroup_t) :
    Option nid2nloc_map_t :=
  match m.sgs sg with
  | none => none
  | some s => index_sg m.ngs sg idx s.groups

/-- The outer loop of `initialize_lookups`, over a super group list. -/
def index_sgl (m : groupman_t) (idx : nid2nloc_map_t) (sgl : supergroup_listp_t) :
    Option nid2nloc_map_t :=
  sgl.foldlM (index_sgl_step m) idx

/-- The method `groupman_t::initialize_lookups`. -/
def initialize_lookups (m : groupman_t) : Option groupman_t :=
  match index_sgl m [] m.path_sgl with
  | none => none
  | some idx => some { m with nid2loc := idx }

/-- The method `groupman_t::get_first_nd`; the inner `none` stands for `NULL`. -/
def get_first_nd (m : groupman_t) : Option (Option pnodedef_t) :=
  match m.path_sgl with
  | [] => some none
  | first_sgroup :: _ => do
    let s ← m.sgs first_sgroup
    match s.groups with
    | [] => some none
    | ng :: _ => do
      let nds ← m.ngs ng
      pure nds.head?

/-! ## `groupman_t`: structural edits -/

/-- One iteration of the loop of `groupman_t::combine_ngl`, for the element
`ng` of the list, with destination `dest_ng`. -/
def combine_ngl_step (dest_ng : pnodegroup_t) (m : groupman_t) (ng : pnodegroup_t) :
    Option groupman_t :=
  if ng = dest_ng then some m
  else do
    let src ← m.ngs ng
    match src with
    | [] => some m
    | nd :: _ => do
      let loc := find_nodeid_loc m nd.nid
      let dst ← m.ngs dest_ng
      let ngs1 := Function.update m.ngs dest_ng (some (src.foldl add_node dst))
      let ngs2 := Function.update ngs1 ng (some [])
      let l ← loc
      let s ← m.sgs l.sg
      let s1 := { s with groups := list_remove s.groups ng }
      let sgs1 := Function.update m.sgs l.sg (some s1)
      let path1 := if s1.groups = [] then list_remove m.path_sgl l.sg else m.path_sgl
      pure { m with ngs := ngs2, sgs := sgs1, path_sgl := path1 }

/-- The method `groupman_t::combine_ngl`; in the result the first component
is the returned pointer (`none` for `NULL`). -/
def combine_ngl (m : groupman_t) (ngl : nodegroup_list_t) :
    Option (Option pnodegroup_t × groupman_t) := do
  let dest_ng ← find_biggest m.ngs ngl
  match dest_ng with
  | none => pure (none, m)
  | some d => do
    let m1 ← ngl.foldlM (combine_ngl_step d) m
    let m2 ← initialize_lookups m1
    pure (some d, m2)

/-- The loop state of `groupman_t::move_nodes_to_ng`: the locals `sg0` and
`new_ng` and the manager. -/
structure move_state where
  sg0 : Option psupergroup_t
  new_ng : Option pnodegroup_t
  m : groupman_t

/-- One iteration of the loop of `groupman_t::move_nodes_to_ng`, for the
element `nd0` of the input collection. -/
def move_nodes_step (st : move_state) (nd0 : pnodedef_t) : Option move_state := do
  let loc ← find_nodeid_loc st.m nd0.nid
  -- if (sg0 == NULL) { sg0 = loc->sg; new_ng = sg0->add_nodegroup(); }
  let st1 ← (match st.sg0 with
    | some _ => some st
    | none => do
      let s ← st.m.sgs loc.sg
      let p := st.m.brk
      pure { sg0 := some loc.sg, new_ng := some p,
             m := { st.m with
                    ngs := Function.update st.m.ngs p (some []),
                    sgs := Function.update st.m.sgs loc.sg
                      (some { s with groups := s.groups ++ [p] }),
                    brk := p + 1 } })
  -- loc->ng->remove(loc->nd);
  let g ← st1.m.ngs loc.ng
  let g1 := list_remove g loc.nd
  let m2 := { st1.m with ngs := Function.update st1.m.ngs loc.ng (some g1) }
  -- if (loc->ng->empty()) { ... }
  let m3 ← (if g1 = [] then do
      let s ← m2.sgs loc.sg
      let s1 := { s with groups := list_remove s.groups loc.ng }
      let m21 := { m2 with sgs := Function.update m2.sgs loc.sg (some s1),
                           ngs := Function.update m2.ngs loc.ng none }
      if s1.groups = [] then
        pure { m21 with path_sgl := list_remove m21.path_sgl loc.sg,
                        sgs := Function.update m21.sgs loc.sg none }
      else pure m21
    else pure m2)
  -- new_ng->add_node(loc->nd);
  let n ← st1.new_ng
  let gn ← m3.ngs n
  pure { st1 with m := { m3 with ngs := Function.update m3.ngs n (some (add_node gn loc.nd)) } }

/-- The method `groupman_t::move_nodes_to_ng`; the argument is the sequence of
elements of the input collection. -/
def move_nodes_to_ng (m : groupman_t) (ng : List pnodedef_t) :
    Option (Option pnodegroup_t × groupman_t) := do
  let st ← ng.foldlM move_nodes_step { sg0 := none, new_ng := none, m := m }
  let m1 ← initialize_lookups st.m
  pure (st.new_ng, m1)

/-- The statement `ng->clear()` of the first loop of `reset_groupping`. -/
def clear_refs_step (ngs : pnodegroup_t → Option nodegroup_t) (ng : pnodegroup_t) :
    Option (pnodegroup_t → Option nodegroup_t) :=
  match ngs ng with
  | none => none
  | some _ => some (Function.update ngs ng (some []))

/-- The inner loop of the first loop of `reset_groupping`, over the groups of
one super group. -/
def clear_refs_sg (ngs : pnodegroup_t → Option nodegroup_t) (groups : nodegroup_list_t) :
    Option (pnodegroup_t → Option nodegroup_t) :=
  groups.foldlM clear_refs_step ngs

/-- The body of the first loop of `reset_groupping`, for the super group `sg`. -/
def clear_refs_sgl_step (m : groupman_t) (sg : psupergroup_t) : Option groupman_t :=
  match m.sgs sg with
  | none => none
  | some s =>
    match clear_refs_sg m.ngs s.groups with
    | none => none
    | some h => some { m with ngs := h }

/-- The first loop of `reset_groupping`. -/
def clear_refs (m : groupman_t) (sgl : supergroup_listp_t) : Option groupman_t :=
  sgl.foldlM clear_refs_sgl_step m

/-- The statement `delete nd` of `nodegroup_t::free_nodes`; `freed` holds the
addresses of the NodeDefs deleted so far.  Deleting an object that has been
deleted has no defined outcome. -/
def delete_nd (freed : List Nat) (nd : pnodedef_t) : Option (List Nat) :=
  if nd.addr ∈ freed then none else some (nd.addr :: freed)

/-- The method `nodegroup_t::free_nodes`: every NodeDef of the group is
deleted. -/
def free_nodes (freed : List Nat) (ng : nodegroup_t) : Option (List Nat) :=
  ng.foldlM delete_nd freed

/-- The body of the loop of `nodegroup_list_t::free_nodegroup`:
`if (free_nodes) ng->free_nodes(); delete ng;`.  The state holds the store of
the node groups and the addresses of the NodeDefs deleted so far. -/
def free_nodegroup_step (free : Bool)
    (st : (pnodegroup_t → Option nodegroup_t) × List Nat) (ng : pnodegroup_t) :
    Option ((pnodegroup_t → Option nodegroup_t) × List Nat) :=
  match st.1 ng with
  | none => none
  | some l =>
    match (if free then free_nodes st.2 l else some st.2) with
    | none => none
    | some f => some (Function.update st.1 ng none, f)

/-- The method `nodegroup_list_t::free_nodegroup`: every group is deleted,
after its NodeDefs if `free` is set. -/
def free_nodegroup (free : Bool)
    (st : (pnodegroup_t → Option nodegroup_t) × List Nat) (groups : nodegroup_list_t) :
    Option ((pnodegroup_t → Option nodegroup_t) × List Nat) :=
  groups.foldlM (free_nodegroup_step free) st

/-- The statement `delete sg`: the destructor calls `supergroup_t::clear`,
which calls `groups.free_nodegroup(true)`, then the object is released. -/
def delete_sg (m : groupman_t) (sg : psupergroup_t) : Option groupman_t :=
  match m.sgs sg with
  | none => none
  | some s =>
    match free_nodegroup true (m.ngs, m.freed) s.groups with
    | none => none
    | some hf =>
      some { m with ngs := hf.1, freed := hf.2, sgs := Function.update m.sgs sg none }

/-- Which of the two lists of the manager a `psupergroup_listp_t` points to. -/
inductive sgl_ref where
  | path
  | similar
deriving DecidableEq, Repr

def get_sgl (m : groupman_t) : sgl_ref → supergroup_listp_t
  | .path => m.path_sgl
  | .similar => m.similar_sgl

def set_sgl (m : groupman_t) (r : sgl_ref) (l : supergroup_listp_t) : groupman_t :=
  match r with
  | .path => { m with path_sgl := l }
  | .similar => { m with similar_sgl := l }

/-- The method `groupman_t::clear_sgl`. -/
def clear_sgl (m : groupman_t) (r : sgl_ref) : Option groupman_t :=
  match (get_sgl m r).foldlM delete_sg m with
  | none => none
  | some m1 => some (set_sgl m1 r [])

/-- The method `groupman_t::clear`. -/
def clear (m : groupman_t) : Option groupman_t := do
  let m1 ← clear_sgl m .path
  let m2 ← clear_sgl m1 .similar
  pure { m2 with all_nodes := [] }

/-! ## Text conversions used by `reset_groupping`, `emit` and `parse` -/

/-- The conversion `%d` of the `printf` family. -/
def fmt_d (n : Int) : List Char :=
  match n with
  | Int.ofNat k => Nat.toDigits 10 k
  | Int.negSucc k => '-' :: Nat.toDigits 10 (k + 1)

/-- Modelled from the spec: the conversion `%a` of the host's `printf` family
for an address, which the repository does not define; the spec calls it the
native hexadecimal convention.  Written without prefix and without padding. -/
def fmt_a (a : ea_t) : List Char :=
  Nat.toDigits 16 a

/-- The C predicate `isspace`. -/
def isspace (c : Char) : Bool :=
  c = ' ' ∨ c = '\t' ∨ c = '\n' ∨ c = '\x0b' ∨ c = '\x0c' ∨ c = '\r'

/-- Modelled from the spec: `skipSpaces` of `util.h`, which is not part of the
sources at hand; it returns the position of the first character that is not
white space. -/
def skipSpaces (s : List Char) : List Char :=
  s.dropWhile isspace

/-- Value of a decimal digit. -/
def digit_of (c : Char) : Option Nat :=
  if '0' ≤ c ∧ c ≤ '9' then some (c.toNat - '0'.toNat) else none

/-- Value of a hexadecimal digit. -/
def hex_of (c : Char) : Option Nat :=
  if '0' ≤ c ∧ c ≤ '9' then some (c.toNat - '0'.toNat)
  else if 'a' ≤ c ∧ c ≤ 'f' then some (c.toNat - 'a'.toNat + 10)
  else if 'A' ≤ c ∧ c ≤ 'F' then some (c.toNat - 'A'.toNat + 10)
  else none

/-- Reads the longest run of digits, returning the number read (continuing
from `acc`) and the unread input. -/
def scan_num (dig : Char → Option Nat) (base : Nat) : Nat → List Char → Nat × List Char
  | acc, [] => (acc, [])
  | acc, c :: r =>
    match dig c with
    | some d => scan_num dig base (acc * base + d) r
    | none => (acc, c :: r)

/-- The optional sign of a number: whether it is `-`, and the input after it. -/
def scan_sign (s : List Char) : Bool × List Char :=
  match s with
  | '-' :: r => (true, r)
  | '+' :: r => (false, r)
  | _ => (false, s)

/-- The conversion `%d` of the `scanf` family: white space, an optional sign,
at least one decimal digit.  The result is the mathematical value of the
digits; it is the value that the source stores in its `int` when it fits
(`fits_int`), and the conversion of a number that does not fit has no defined
result. -/
def scan_d (s : List Char) : Option (Int × List Char) :=
  let s0 := s.dropWhile isspace
  let sign_rest := scan_sign s0
  match sign_rest.2 with
  | [] => none
  | c :: _ =>
    if (digit_of c).isSome then
      let vr := scan_num digit_of 10 0 sign_rest.2
      some (if sign_rest.1 then - (vr.1 : Int) else (vr.1 : Int), vr.2)
    else none

/-- The optional prefix `0x` of a hexadecimal number, skipped when a
hexadecimal digit follows it. -/
def scan_0x (s : List Char) : List Char :=
  match s with
  | '0' :: x :: h :: r => if (x = 'x' ∨ x = 'X') ∧ (hex_of h).isSome then h :: r else s
  | _ => s

/-- Modelled from the spec: the conversion `%a` of the host's `scanf` family,
the inverse of `fmt_a`: white space, an optional `0x`, at least one
hexadecimal digit.  The result is the mathematical value of the digits; it is
the value that the source stores in its `ea_t` when it fits (`fits_ea`). -/
def scan_a (s : List Char) : Option (ea_t × List Char) :=
  let s1 := scan_0x (s.dropWhile isspace)
  match s1 with
  | [] => none
  | c :: _ => if (hex_of c).isSome then some (scan_num hex_of 16 0 s1) else none

/-- The directive ` : ` of a `scanf` format: optional white space, a colon,
optional white space. -/
def scan_colon (s : List Char) : Option (List Char) :=
  match s.dropWhile isspace with
  | ':' :: r => some (r.dropWhile isspace)
  | _ => none

/-- The call `qsscanf(p, "%d : %a : %a", &nid, &start, &end)` with `start` and
`end` preset to `0`.  The result is `none` when the call returns a value
`<= 0` (no conversion), and otherwise the three variables after the call: the
call returns `1`, `2` or `3` and leaves the unconverted variables at `0`. -/
def qsscanf_d_a_a (p : List Char) : Option (Int × ea_t × ea_t) :=
  match scan_d p with
  | none => none
  | some (nid, r1) =>
    match scan_colon r1 with
    | none => some (nid, 0, 0)
    | some r2 =>
      match scan_a r2 with
      | none => some (nid, 0, 0)
      | some (start, r3) =>
        match scan_colon r3 with
        | none => some (nid, start, 0)
        | some r4 =>
          match scan_a r4 with
          | none => some (nid, start, 0)
          | some (end_, _) => some (nid, start, end_)

/-- The call `strchr(s, c)` followed by the overwriting of the character found
with NUL: the string before the first `c` and the string after it. -/
def strchr_cut (c : Char) : List Char → Option (List Char × List Char)
  | [] => none
  | x :: r =>
    if x = c then some ([], r)
    else
      match strchr_cut c r with
      | none => none
      | some (a, b) => some (x :: a, b)

/-- The call `qstrtok(s, d, &saved_ptr)` for a single delimiter `d`, with the
semantics of `strtok_r`: `none` when only delimiters are left, otherwise the
token and the new `saved_ptr`. -/
def qstrtok (d : Char) (s : List Char) : Option (List Char × List Char) :=
  let s1 := s.dropWhile (fun c => decide (c = d))
  match s1 with
  | [] => none
  | _ :: _ =>
    some (s1.takeWhile (fun c => decide (c ≠ d)),
          (s1.dropWhile (fun c => decide (c ≠ d))).drop 1)

/-- The tokens returned by successive calls `qstrtok(NULL, d, &saved_ptr)`
until `NULL` is returned, starting from `saved_ptr = s`; at most `fuel`
calls. -/
def strtok_all (d : Char) : Nat → List Char → List (List Char)
  | 0, _ => []
  | fuel + 1, s =>
    match qstrtok d s with
    | none => []
    | some (t, r) => t :: strtok_all d fuel r

/-- The function `stricmp(a, b) == 0`. -/
def stricmp_eq (a b : List Char) : Bool :=
  a.map Char.toLower = b.map Char.toLower

/-- The lines that the loop `while (in_file.good()) std::getline(in_file, line)`
reads: the pieces of the text between line feeds.  After a final line feed
one more, empty, line is read. -/
def getlines : List Char → List (List Char)
  | [] => [[]]
  | c :: r =>
    if c = '\n' then [] :: getlines r
    else
      match getlines r with
      | [] => [[c]]
      | l :: ls => (c :: l) :: ls

/-! ## `groupman_t`: rebuilding the partition -/

/-- The method `groupman_t::map_nodedef`. -/
def map_nodedef (m : groupman_t) (nid : Int) (nd : pnodedef_t) : groupman_t :=
  { m with all_nodes := map_set nid nd m.all_nodes }

/-- The method `groupman_t::add_supergroup(sgl)` with a new super group:
`new supergroup_t()` and `push_back`. -/
def add_supergroup (m : groupman_t) (r : sgl_ref) : psupergroup_t × groupman_t :=
  let sg := m.brk
  (sg, set_sgl { m with sgs := Function.update m.sgs sg (some supergroup_t.new),
                        brk := m.brk + 1 } r (get_sgl m r ++ [sg]))

/-- One iteration of the last loop of `reset_groupping`, for the node `nd` of
an entry of `all_nodes`. -/
def reset_add (m : groupman_t) (nd : pnodedef_t) : groupman_t :=
  let r := add_supergroup m .path
  let sg := r.1
  let m1 := r.2
  let ng := m1.brk
  { m1 with
    ngs := Function.update m1.ngs ng (some (add_node [] nd)),
    sgs := Function.update m1.sgs sg
      (some { supergroup_t.new with groups := [ng], id := "node".toList ++ fmt_d nd.nid }),
    brk := ng + 1 }

/-- The method `groupman_t::reset_groupping`. -/
def reset_groupping (m : groupman_t) : Option groupman_t := do
  let m1 ← clear_refs m m.path_sgl
  let m2 ← clear_sgl m1 .path
  let m3 := m2.all_nodes.foldl (fun a e => reset_add a e.2) m2
  initialize_lookups m3

/-! ## `groupman_t`: serialization -/

/-- The statement `qfprintf(fp, "%d : %a : %a", nd->nid, nd->start, nd->end)`
of `emit_sgl`: the text of one entry. -/
def emit_node (nd : pnodedef_t) : List Char :=
  fmt_d nd.nid ++ " : ".toList ++ fmt_a nd.start ++ " : ".toList ++ fmt_a nd.end_

/-- The entries of one node group as `emit_sgl` writes them, separated by `, `. -/
def emit_nodes : List pnodedef_t → List Char
  | [] => []
  | [nd] => emit_node nd
  | nd :: nd1 :: r => emit_node nd ++ ", ".toList ++ emit_nodes (nd1 :: r)

/-- The node groups of one super group as `emit_sgl` writes them. -/
def emit_groups : List nodegroup_t → List Char
  | [] => []
  | [ng] => "(".toList ++ emit_nodes ng ++ ")".toList
  | ng :: ng1 :: r =>
    "(".toList ++ emit_nodes ng ++ ")".toList ++ ", ".toList ++ emit_groups (ng1 :: r)

/-- The line that `emit_sgl` writes for a super group with the id `id`, the
name `name` and the node groups `gs`, without the final line feed. -/
def emit_line (id name : qstring) (gs : List nodegroup_t) : List Char :=
  (if id ≠ [] then "ID:".toList ++ id ++ ";".toList else [])
    ++ (if name ≠ [] then "GROUPNAME:".toList ++ name ++ ";".toList else [])
    ++ (if gs.length > 0 then "NODESET:".toList ++ emit_groups gs else [])

/-- The body of the loop of `emit_sgl`: the line of one super group. -/
def emit_sg (ngs : pnodegroup_t → Option nodegroup_t) (s : supergroup_t) :
    Option (List Char) := do
  let gs ← s.groups.mapM ngs
  pure (emit_line s.id s.name gs ++ "\n".toList)

/-- The method `groupman_t::emit_sgl`: the text written. -/
def emit_sgl (m : groupman_t) (sgl : supergroup_listp_t) : Option (List Char) := do
  let ls ← sgl.mapM (fun sg => do
    let s ← m.sgs sg
    emit_sg m.ngs s)
  pure ls.flatten

/-- The method `groupman_t::emit` when the file can be opened: the text written
to it. -/
def emit (m : groupman_t) (additional_sections : Option (List Char)) :
    Option (List Char) := do
  let p ← emit_sgl m m.path_sgl
  let s ← emit_sgl m m.similar_sgl
  pure ("--PATHINFO\n".toList ++ p ++ "--SIMILARINFO\n".toList ++ s
    ++ (match additional_sections with
        | some a => a ++ "\n".toList
        | none => []))

/-! ## `groupman_t`: parsing -/

/-- The body of the inner loop of `parse_nodeset` for the string `p`; `acc`
holds the manager and the node group under construction. -/
def parse_entry (acc : groupman_t × nodegroup_t) (p : List Char) :
    groupman_t × nodegroup_t :=
  match qsscanf_d_a_a (skipSpaces p) with
  | none => acc
  | some (nid, start, end_) =>
    let nd : nodedef_t := { addr := acc.1.brk, nid := nid, start := start, end_ := end_ }
    (map_nodedef { acc.1 with brk := acc.1.brk + 1 } nid nd, add_node acc.2 nd)

/-- The strings `p` visited by the inner loop of `parse_nodeset` for a group
body: first the body itself, as terminated by the first `qstrtok` call, then
the tokens of the following calls. -/
def entry_strings (body : List Char) : List (List Char) :=
  match qstrtok ',' body with
  | none => [body]
  | some (t, saved) =>
    (body.takeWhile (fun c => decide (c = ',')) ++ t) :: strtok_all ',' saved.length saved

/-- The outer loop of `parse_nodeset`; `sg` is the super group being filled
and `fuel` bounds the number of iterations. -/
def parse_nodeset_loop : Nat → groupman_t → supergroup_t → List Char →
    groupman_t × supergroup_t
  | 0, m, sg, _ => (m, sg)
  | fuel + 1, m, sg, grpstr =>
    match strchr_cut '(' grpstr with
    | none => (m, sg)
    | some (_, after_open) =>
      match strchr_cut ')' (skipSpaces after_open) with
      | none => (m, sg)
      | some (body, after_close) =>
        let ng := m.brk
        let r := (entry_strings body).foldl parse_entry ({ m with brk := ng + 1 }, [])
        parse_nodeset_loop fuel
          { r.1 with ngs := Function.update r.1.ngs ng (some r.2) }
          { sg with groups := sg.groups ++ [ng] }
          (skipSpaces after_close)

/-- The method `groupman_t::parse_nodeset`. -/
def parse_nodeset (m : groupman_t) (sg : supergroup_t) (grpstr : List Char) :
    groupman_t × supergroup_t :=
  parse_nodeset_loop grpstr.length m sg grpstr

/-- The body of the loop of `parse_line` for one token. -/
def parse_token (acc : groupman_t × supergroup_t) (token : List Char) :
    groupman_t × supergroup_t :=
  match strchr_cut ':' token with
  | none => acc
  | some (k, v) =>
    let val := skipSpaces v
    let key := skipSpaces k
    if stricmp_eq key "ID".toList then (acc.1, { acc.2 with id := val })
    else if stricmp_eq key "GROUPNAME".toList then (acc.1, { acc.2 with name := val })
    else if stricmp_eq key "NODESET".toList then parse_nodeset acc.1 acc.2 val
    else acc

/-- The method `groupman_t::parse_line`; the super group `sg` is passed and
returned by value. -/
def parse_line (m : groupman_t) (sg : supergroup_t) (line : List Char) :
    groupman_t × supergroup_t :=
  (strtok_all ';' line.length line).foldl parse_token (m, sg)

/-- The C string `line.c_str()` of a `std::string`, as the functions for C
strings see it: the characters before the first NUL. -/
def c_str (line : List Char) : List Char :=
  line.takeWhile (fun c => decide (c ≠ '\x00'))

/-- The body of the loop of `parse` after `std::getline`, for the C string
`line` of the line read; the first component is `cur_sgl` (`none` for
`NULL`). -/
def parse_cstr (st : Option sgl_ref × groupman_t) (line : List Char) :
    Option sgl_ref × groupman_t :=
  let s := skipSpaces line
  match s with
  | [] => st
  | c0 :: r0 =>
    if c0 = '#' then st
    else if c0 = '-' ∧ r0.head? = some '-' ∧ (r0.drop 1) ≠ [] then
      let s2 := s.drop 2
      if s2 = "PATHINFO".toList then (some .path, st.2)
      else if s2 = "SIMILARINFO".toList then (some .similar, st.2)
      else (none, st.2)
    else
      match st.1 with
      | none => st
      | some cur =>
        let a := add_supergroup st.2 cur
        let r := parse_line a.2 supergroup_t.new s
        (some cur, { r.1 with sgs := Function.update r.1.sgs a.1 (some r.2) })

/-- The body of the loop of `parse` for the line read by `std::getline`, which
is used through `line.c_str()` only. -/
def parse_step (st : Option sgl_ref × groupman_t) (line : List Char) :
    Option sgl_ref × groupman_t :=
  parse_cstr st (c_str line)

/-- The method `groupman_t::parse` when the file can be opened; `text` is the
content of the file. -/
def parse (m : groupman_t) (text : List Char) (init_cache : Bool) : Option groupman_t := do
  let m0 ← clear m
  let st := (getlines text).foldl parse_step (some .path, m0)
  if init_cache then initialize_lookups st.2 else pure st.2

/-- The state of a manager right after construction, with an empty store. -/
def groupman_t.new : groupman_t :=
  { ngs := fun _ => none, sgs := fun _ => none, brk := 0, nid2loc := [],
    path_sgl := [], similar_sgl := [], all_nodes := [] }

/-! ## Views of a state used in the statements -/

/-- The groups of the super group at `sg` (none when it is not live). -/
def sg_groups (m : groupman_t) (sg : psupergroup_t) : nodegroup_list_t :=
  match m.sgs sg with
  | some s => s.groups
  | none => []

/-- The nodes of the node group at `ng` (none when it is not live). -/
def ng_nodes (m : groupman_t) (ng : pnodegroup_t) : nodegroup_t :=
  match m.ngs ng with
  | some l => l
  | none => []

/-- The node groups of the path list, in order. -/
def path_ngs (m : groupman_t) : List pnodegroup_t :=
  m.path_sgl.flatMap (sg_groups m)

/-- The NodeDefs of the path list, in order. -/
def path_nds (m : groupman_t) : List pnodedef_t :=
  (path_ngs m).flatMap (ng_nodes m)

/-- The (id, start, end) triple of a NodeDef. -/
def nd_triple (nd : pnodedef_t) : Int × ea_t × ea_t :=
  (nd.nid, nd.start, nd.end_)

/-- The content of a super group: its id, its name and the (id, start, end)
triples of each of its groups. -/
abbrev sg_content := qstring × qstring × List (List (Int × ea_t × ea_t))

/-- The content of the super group object `s` in the state `m`. -/
def sg_view (m : groupman_t) (s : supergroup_t) : sg_content :=
  (s.id, s.name, s.groups.map (fun ng => (ng_nodes m ng).map nd_triple))

/-- The content of a super group list, super group by super group. -/
def sgl_view (m : groupman_t) (sgl : supergroup_listp_t) : List sg_content :=
  sgl.map (fun sg =>
    match m.sgs sg with
    | some s => sg_view m s
    | none => ([], [], []))

/-- The locations of the nodes of the super group at `sg`, in order. -/
def sg_locs (m : groupman_t) (sg : psupergroup_t) : List nodeloc_t :=
  (sg_groups m sg).flatMap (fun ng => (ng_nodes m ng).map (nodeloc_t.mk sg ng))

/-- The locations of the nodes of a super group list, in order. -/
def sgl_locs (m : groupman_t) (sgl : supergroup_listp_t) : List nodeloc_t :=
  sgl.flatMap (sg_locs m)

/-- The index obtained from `idx` by recording the locations `locs` in order. -/
def index_of (idx : nid2nloc_map_t) (locs : List nodeloc_t) : nid2nloc_map_t :=
  locs.foldl (fun i l => map_set l.nd.nid l i) idx

/-- Every pointer of the list `sgl`, and every group pointer of its super
groups, refers to a live object. -/
def sgl_live (m : groupman_t) (sgl : supergroup_listp_t) : Prop :=
  ∀ sg ∈ sgl, (m.sgs sg).isSome = true ∧ ∀ ng ∈ sg_groups m sg, (m.ngs ng).isSome = true

instance (m : groupman_t) (sgl : supergroup_listp_t) : Decidable (sgl_live m sgl) := by
  unfold sgl_live; infer_instance

/-- The location index answers every lookup as the specification of the rebuilt index
says: `NULL` exactly for the ids that no node of the path list carries, and
otherwise a location inside the path list whose node carries the id. -/
def index_sound (m : groupman_t) : Prop :=
  ∀ id : Int,
    (find_nodeid_loc m id = none ↔ ∀ nd ∈ path_nds m, nd.nid ≠ id) ∧
    ∀ loc, find_nodeid_loc m id = some loc →
      loc.sg ∈ m.path_sgl ∧ loc.ng ∈ sg_groups m loc.sg ∧
      loc.nd ∈ ng_nodes m loc.ng ∧ loc.nd.nid = id

/-! ## Sample data -/

/-- A NodeDef at address `a` with id `nid` and range `[start, end_)`. -/
def sample_nd (a : Nat) (nid : Int) (start end_ : ea_t) : nodedef_t :=
  { addr := a, nid := nid, start := start, end_ := end_ }

/-- A node group of `n` nodes: addresses and ids `base + 1, ..., base + n`. -/
def sample_group (base n : Nat) : nodegroup_t :=
  (List.range n).map (fun i => sample_nd (base + i + 1) (Int.ofNat (base + i + 1)) 0 0)

/-- A store with four node groups, at `0`, `1`, `2`, `3`, of sizes 3, 5, 5, 2. -/
def store_3552 : pnodegroup_t → Option nodegroup_t :=
  fun p =>
    if p = 0 then some (sample_group 0 3)
    else if p = 1 then some (sample_group 10 5)
    else if p = 2 then some (sample_group 20 5)
    else if p = 3 then some (sample_group 30 2)
    else none

/-! ## Well-formedness of a state -/

/-- The path list is well formed: no super group pointer occurs twice in it,
its pointers are live, and no node group pointer occurs twice in it, so
that every node group is owned by exactly one super group. -/
structure path_owned (m : groupman_t) : Prop where
  nodup_sg : m.path_sgl.Nodup
  live : sgl_live m m.path_sgl
  nodup_ng : (path_ngs m).Nodup

instance (m : groupman_t) : Decidable (path_owned m) :=
  decidable_of_iff (m.path_sgl.Nodup ∧ sgl_live m m.path_sgl ∧ (path_ngs m).Nodup)
    ⟨fun h => ⟨h.1, h.2.1, h.2.2⟩, fun h => ⟨h.nodup_sg, h.live, h.nodup_ng⟩⟩

/-- The location index is up to date: every lookup gives what a rebuild by
`initialize_lookups` would give for the current path list. -/
def index_current (m : groupman_t) : Prop :=
  ∀ id : Int, find_nodeid_loc m id = map_find id (index_of [] (sgl_locs m m.path_sgl))

/-- The ids of the NodeDefs of the path list, in order. -/
def path_ids (m : groupman_t) : List Int :=
  (path_nds m).map (fun nd => nd.nid)

/-- The groups of `l` that `combine_ngl` merges into the destination `d`:
those that are not `d` and are not empty in `m0`. -/
def merged_groups (m0 : groupman_t) (d : pnodegroup_t) (l : nodegroup_list_t) :
    nodegroup_list_t :=
  l.filter (fun g => !decide (g = d) && !decide (ng_nodes m0 g = []))

/-- The relation between the state `m0` at the call of `combine_ngl` and the
state `m` after the groups `done` have been merged into `d`. -/
structure combine_inv (m0 : groupman_t) (d : pnodegroup_t) (done : List pnodegroup_t)
    (m : groupman_t) : Prop where
  owned : path_owned m
  dest : d ∈ path_ngs m
  idx : m.nid2loc = m0.nid2loc
  sim : m.similar_sgl = m0.similar_sgl
  reg : m.all_nodes = m0.all_nodes
  brk : m.brk = m0.brk
  live_ng : ∀ g, (m.ngs g).isSome = (m0.ngs g).isSome
  live_sg : ∀ x, (m.sgs x).isSome = (m0.sgs x).isSome
  ngs : path_ngs m = (path_ngs m0).filter (fun g => !decide (g ∈ done))
  dnodes : ng_nodes m d = ng_nodes m0 d ++ done.flatMap (ng_nodes m0)
  others : ∀ g, g ≠ d → g ∉ done → ng_nodes m g = ng_nodes m0 g
  emptied : ∀ g ∈ done, ng_nodes m g = []
  groups : ∀ x ∈ m0.path_sgl,
    sg_groups m x = (sg_groups m0 x).filter (fun g => !decide (g ∈ done))
  path : m.path_sgl = m0.path_sgl.filter
    (fun x => decide (sg_groups m x ≠ [] ∨ sg_groups m0 x = []))
  perm : (path_nds m).Perm (path_nds m0)
  owner : ∀ g ∈ path_ngs m, g ≠ d → ∀ nd ∈ ng_nodes m g,
    ∃ loc, find_nodeid_loc m nd.nid = some loc ∧ loc.sg ∈ m.path_sgl ∧
      g ∈ sg_groups m loc.sg

/-- A state whose path list is `[0, 1]`: super group `0` ("a") owns the group
`2` and super group `1` ("b") owns the group `3`; each group holds one NodeDef
and both NodeDefs carry the id `1`.  It is the state that `parse` builds,
index included, from two lines `ID:a;NODESET:(1 : 0 : 1)` and
`ID:b;NODESET:(1 : 0 : 1)`. -/
def state_dup : groupman_t :=
  { ngs := fun p =>
      if p = 2 then some [sample_nd 10 1 0 1]
      else if p = 3 then some [sample_nd 11 1 0 1]
      else none
    sgs := fun p =>
      if p = 0 then some { id := "a".toList, name := [], is_synthetic := false, groups := [2] }
      else if p = 1 then
        some { id := "b".toList, name := [], is_synthetic := false, groups := [3] }
      else none
    brk := 12
    nid2loc := [(1, nodeloc_t.mk 1 3 (sample_nd 11 1 0 1))]
    path_sgl := [0, 1]
    similar_sgl := []
    all_nodes := [(1, sample_nd 11 1 0 1)] }

/-- A state whose path list is `[0, 1]`: super group `0` owns the group `2`
(node 1), super group `1` owns the groups `3` (nodes 2, 3) and `4` (node 4). -/
def state_two : groupman_t :=
  { ngs := fun p =>
      if p = 2 then some [sample_nd 10 1 0 16]
      else if p = 3 then some [sample_nd 11 2 16 32, sample_nd 12 3 32 48]
      else if p = 4 then some [sample_nd 13 4 48 64]
      else none
    sgs := fun p =>
      if p = 0 then some { id := "a".toList, name := [], is_synthetic := false, groups := [2] }
      else if p = 1 then
        some { id := "b".toList, name := [], is_synthetic := false, groups := [3, 4] }
      else none
    brk := 14
    nid2loc := [(1, nodeloc_t.mk 0 2 (sample_nd 10 1 0 16)),
                (2, nodeloc_t.mk 1 3 (sample_nd 11 2 16 32)),
                (3, nodeloc_t.mk 1 3 (sample_nd 12 3 32 48)),
                (4, nodeloc_t.mk 1 4 (sample_nd 13 4 48 64))]
    path_sgl := [0, 1]
    similar_sgl := []
    all_nodes := [(1, sample_nd 10 1 0 16), (2, sample_nd 11 2 16 32),
                  (3, sample_nd 12 3 32 48), (4, sample_nd 13 4 48 64)] }

/-- The relation between the state `m0` at the call of `move_nodes_to_ng` and
the state `m` after the nodes `done` have been moved to the new group `p`,
which was added to the super group `s0`. -/
structure move_inv (m0 : groupman_t) (s0 : psupergroup_t) (p : pnodegroup_t)
    (done : List pnodedef_t) (m : groupman_t) : Prop where
  owned : path_owned m
  idx : m.nid2loc = m0.nid2loc
  sim : m.similar_sgl = m0.similar_sgl
  reg : m.all_nodes = m0.all_nodes
  home : s0 ∈ m.path_sgl
  last : (sg_groups m s0).getLast? = some p
  newg : m.ngs p = some done
  perm : (path_nds m).Perm (path_nds m0)
  located : ∀ nd ∈ path_nds m0, nd ∉ done →
    ∃ loc, find_nodeid_loc m nd.nid = some loc ∧ loc.nd = nd ∧ loc.sg ∈ m.path_sgl ∧
      loc.ng ∈ sg_groups m loc.sg ∧ nd ∈ ng_nodes m loc.ng ∧ loc.ng ≠ p
  sub_sg : ∀ x ∈ m.path_sgl, x ∈ m0.path_sgl
  sub_ng : ∀ g ∈ path_ngs m, g ≠ p → g ∈ path_ngs m0
  empty_ng : ∀ g ∈ path_ngs m, g ≠ p → ng_nodes m g = [] → ng_nodes m0 g = []
  empty_sg : ∀ x ∈ m.path_sgl, sg_groups m x = [] → sg_groups m0 x = []

/-- The state after the first statement of the loop body of `move_nodes_to_ng`
in the first iteration: the new group at `m.brk` added to the super group at
`sg`, whose object is `s`. -/
def with_new_group (m : groupman_t) (sg : psupergroup_t) (s : supergroup_t) : groupman_t :=
  { m with
    ngs := Function.update m.ngs m.brk (some [])
    sgs := Function.update m.sgs sg (some { s with groups := s.groups ++ [m.brk] })
    brk := m.brk + 1 }

/-- The manager after one iteration of the loop of `move_nodes_to_ng` that
finds the location `loc`, where `G` is the content of the group `loc.ng`,
`done` the content of the new group `p` and `s` the object of the super group
`loc.sg`. -/
def after_move (m : groupman_t) (p : pnodegroup_t) (loc : nodeloc_t)
    (G done : nodegroup_t) (s : supergroup_t) : groupman_t :=
  if list_remove G loc.nd = [] then
    if list_remove s.groups loc.ng = [] then
      { m with
        ngs := Function.update (Function.update m.ngs loc.ng none) p (some (done ++ [loc.nd]))
        sgs := Function.update m.sgs loc.sg none
        path_sgl := list_remove m.path_sgl loc.sg }
    else
      { m with
        ngs := Function.update (Function.update m.ngs loc.ng none) p (some (done ++ [loc.nd]))
        sgs := Function.update m.sgs loc.sg
          (some { s with groups := list_remove s.groups loc.ng }) }
  else
    { m with
      ngs := Function.update (Function.update m.ngs loc.ng (some (list_remove G loc.nd))) p
        (some (done ++ [loc.nd])) }

/-- The partition invariant: every node id of the registry occurs exactly once
among the ids of the NodeDefs of the path list. -/
def partition_inv (m : groupman_t) : Prop :=
  ∀ e ∈ m.all_nodes, (path_ids m).count e.1 = 1

instance (m : groupman_t) : Decidable (partition_inv m) := by
  unfold partition_inv; infer_instance

/-- A state like `state_two` in which the path list also holds two NodeDefs
with the id `7`, which the registry does not know: super group `0` owns the
group `2` (node 1), super group `1` owns the groups `3` (first node 7) and `4`
(second node 7). -/
def state_stray : groupman_t :=
  { ngs := fun p =>
      if p = 2 then some [sample_nd 10 1 0 16]
      else if p = 3 then some [sample_nd 11 7 16 32]
      else if p = 4 then some [sample_nd 12 7 32 48]
      else none
    sgs := fun p =>
      if p = 0 then some { id := "a".toList, name := [], is_synthetic := false, groups := [2] }
      else if p = 1 then
        some { id := "b".toList, name := [], is_synthetic := false, groups := [3, 4] }
      else none
    brk := 13
    nid2loc := [(1, nodeloc_t.mk 0 2 (sample_nd 10 1 0 16)),
                (7, nodeloc_t.mk 1 4 (sample_nd 12 7 32 48))]
    path_sgl := [0, 1]
    similar_sgl := []
    all_nodes := [(1, sample_nd 10 1 0 16)] }

/-- The state `state_two` with an empty location index, as `parse` leaves it
when called with `init_cache = false`. -/
def state_stale : groupman_t :=
  { state_two with nid2loc := [] }

/-- The NodeDefs of the similar list, in order. -/
def similar_nds (m : groupman_t) : List pnodedef_t :=
  (m.similar_sgl.flatMap (sg_groups m)).flatMap (ng_nodes m)

/-- The registry is a map from node ids to NodeDefs: its entries are in
strictly ascending key order, as `std::map` keeps them, and every NodeDef is
filed under its own id, as `parse_nodeset` files it. -/
def registry_ok (m : groupman_t) : Prop :=
  (m.all_nodes.map Prod.fst).Pairwise (· < ·) ∧ ∀ e ∈ m.all_nodes, e.1 = e.2.nid

instance (m : groupman_t) : Decidable (registry_ok m) := by
  unfold registry_ok; infer_instance

/-- The super group object that `reset_groupping` builds for the NodeDef `nd`
with the new group `ng`. -/
def reset_sg (nd : pnodedef_t) (ng : pnodegroup_t) : supergroup_t :=
  { id := "node".toList ++ fmt_d nd.nid, name := [], is_synthetic := false, groups := [ng] }

/-- The super group at `sg` is the one that `reset_groupping` builds for the
NodeDef `nd`: its id is `node<nid>`, and its only group holds only `nd`. -/
def singleton_sg (m : groupman_t) (sg : psupergroup_t) (nd : pnodedef_t) : Prop :=
  ∃ ng, m.sgs sg = some (reset_sg nd ng) ∧ m.ngs ng = some [nd]

/-- A state with three registered nodes, of ids 1, 2, 3: super group `0` owns
the group `2` (node 1) and super group `1` owns the group `3` (nodes 2, 3). -/
def state_three : groupman_t :=
  { ngs := fun p =>
      if p = 2 then some [sample_nd 10 1 0 16]
      else if p = 3 then some [sample_nd 11 2 16 32, sample_nd 12 3 32 48]
      else none
    sgs := fun p =>
      if p = 0 then some { id := "a".toList, name := [], is_synthetic := false, groups := [2] }
      else if p = 1 then
        some { id := "b".toList, name := [], is_synthetic := false, groups := [3] }
      else none
    brk := 13
    nid2loc := [(1, nodeloc_t.mk 0 2 (sample_nd 10 1 0 16)),
                (2, nodeloc_t.mk 1 3 (sample_nd 11 2 16 32)),
                (3, nodeloc_t.mk 1 3 (sample_nd 12 3 32 48))]
    path_sgl := [0, 1]
    similar_sgl := []
    all_nodes := [(1, sample_nd 10 1 0 16), (2, sample_nd 11 2 16 32),
                  (3, sample_nd 12 3 32 48)] }


/-! ## The content that `parse` reads from a text

The functions below follow `parse`, `parse_line` and `parse_nodeset` step by
step but compute only the content of the super groups, without the store. -/

/-- The triples that the inner loop of `parse_nodeset` reads from a group body. -/
def body_triples (body : List Char) : List (Int × ea_t × ea_t) :=
  (entry_strings body).filterMap (fun p => qsscanf_d_a_a (skipSpaces p))

/-- The groups that the outer loop of `parse_nodeset` reads from `grpstr`. -/
def nodeset_triples : Nat → List Char → List (List (Int × ea_t × ea_t))
  | 0, _ => []
  | fuel + 1, grpstr =>
    match strchr_cut '(' grpstr with
    | none => []
    | some (_, after_open) =>
      match strchr_cut ')' (skipSpaces after_open) with
      | none => []
      | some (body, after_close) =>
        body_triples body :: nodeset_triples fuel (skipSpaces after_close)

/-- The effect of one token of a line on the content of its super group. -/
def token_content (acc : sg_content) (token : List Char) : sg_content :=
  match strchr_cut ':' token with
  | none => acc
  | some (k, v) =>
    let val := skipSpaces v
    let key := skipSpaces k
    if stricmp_eq key "ID".toList then (val, acc.2.1, acc.2.2)
    else if stricmp_eq key "GROUPNAME".toList then (acc.1, val, acc.2.2)
    else if stricmp_eq key "NODESET".toList then
      (acc.1, acc.2.1, acc.2.2 ++ nodeset_triples val.length val)
    else acc

/-- The content of the super group that `parse_line` reads from a line. -/
def line_content (line : List Char) : sg_content :=
  (strtok_all ';' line.length line).foldl token_content ([], [], [])

/-- The pair of the path list and the similar list after `c` is appended to
the list that `cur` selects. -/
def content_add {α : Type} (cur : sgl_ref) (ps : List α × List α) (c : α) :
    List α × List α :=
  match cur with
  | .path => (ps.1 ++ [c], ps.2)
  | .similar => (ps.1, ps.2 ++ [c])

/-- The effect of the C string of one line of the text on the current section
and on the contents of the path list and of the similar list. -/
def text_cstr (st : Option sgl_ref × List sg_content × List sg_content)
    (line : List Char) : Option sgl_ref × List sg_content × List sg_content :=
  let s := skipSpaces line
  match s with
  | [] => st
  | c0 :: r0 =>
    if c0 = '#' then st
    else if c0 = '-' ∧ r0.head? = some '-' ∧ (r0.drop 1) ≠ [] then
      let s2 := s.drop 2
      if s2 = "PATHINFO".toList then (some .path, st.2)
      else if s2 = "SIMILARINFO".toList then (some .similar, st.2)
      else (none, st.2)
    else
      match st.1 with
      | none => st
      | some cur => (some cur, content_add cur st.2 (line_content s))

/-- The effect of one line of the text on the current section and on the
contents of the path list and of the similar list. -/
def text_step (st : Option sgl_ref × List sg_content × List sg_content)
    (line : List Char) : Option sgl_ref × List sg_content × List sg_content :=
  text_cstr st (c_str line)

/-- The contents of the path list and of the similar list that `parse` reads
from a text. -/
def text_content (text : List Char) : List sg_content × List sg_content :=
  ((getlines text).foldl text_step (some .path, [], [])).2

/-- The node ids that occur in a list of super group contents. -/
def content_ids (l : List sg_content) : List Int :=
  l.flatMap (fun c => c.2.2.flatMap (fun g => g.map Prod.fst))

/-- The registry has an entry for the id `k`. -/
def has_key (m : groupman_t) (k : Int) : Prop :=
  (map_find k m.all_nodes).isSome = true

instance (m : groupman_t) (k : Int) : Decidable (has_key m k) := by
  unfold has_key; infer_instance

/-- The store of a state under construction by `parse`: every super group of
the two lists, and every group of these, is a live object at an address
below `brk`. -/
def lists_below_brk (m : groupman_t) : Prop :=
  ∀ sg ∈ m.path_sgl ++ m.similar_sgl, sg < m.brk ∧
    ∃ s, m.sgs sg = some s ∧ ∀ g ∈ s.groups, g < m.brk ∧ (m.ngs g).isSome = true

/-- The result `r` of running `parse_nodeset` from the manager `m` on the super
group object `sg` has appended groups with the contents `ts`, at addresses not
below `m.brk`, and has registered the ids of `ts`. -/
def nodeset_effect (m : groupman_t) (sg : supergroup_t)
    (ts : List (List (Int × ea_t × ea_t))) (r : groupman_t × supergroup_t) : Prop :=
  r.2.id = sg.id ∧ r.2.name = sg.name ∧ r.2.is_synthetic = sg.is_synthetic ∧
  (∃ gs, r.2.groups = sg.groups ++ gs ∧
    (∀ g ∈ gs, m.brk ≤ g ∧ g < r.1.brk ∧ (r.1.ngs g).isSome = true) ∧
    gs.map (fun g => (ng_nodes r.1 g).map nd_triple) = ts) ∧
  r.1.sgs = m.sgs ∧ r.1.path_sgl = m.path_sgl ∧ r.1.similar_sgl = m.similar_sgl ∧
  r.1.nid2loc = m.nid2loc ∧ m.brk ≤ r.1.brk ∧
  (∀ p, p < m.brk → r.1.ngs p = m.ngs p) ∧
  (∀ k, has_key r.1 k ↔ has_key m k ∨ k ∈ ts.flatMap (fun g => g.map Prod.fst))

/-- The pair `r` of the manager and the super group object under construction
while `parse_line`, started in the state `m0` on a new object, has read the
content `c`. -/
def line_effect (m0 : groupman_t) (c : sg_content) (r : groupman_t × supergroup_t) : Prop :=
  (∀ g ∈ r.2.groups, m0.brk ≤ g ∧ g < r.1.brk ∧ (r.1.ngs g).isSome = true) ∧
  r.1.sgs = m0.sgs ∧ r.1.path_sgl = m0.path_sgl ∧ r.1.similar_sgl = m0.similar_sgl ∧
  r.1.nid2loc = m0.nid2loc ∧ m0.brk ≤ r.1.brk ∧
  (∀ p, p < m0.brk → r.1.ngs p = m0.ngs p) ∧
  sg_view r.1 r.2 = c ∧
  (∀ k, has_key r.1 k ↔ has_key m0 k ∨ k ∈ c.2.2.flatMap (fun g => g.map Prod.fst))

/-- The registry holds exactly the node ids that occur in the two lists. -/
def registry_covers (m : groupman_t) : Prop :=
  ∀ k, has_key m k ↔
    k ∈ content_ids (sgl_view m m.path_sgl) ∨ k ∈ content_ids (sgl_view m m.similar_sgl)

/-- The state `st` of the loop of `parse` has read the content `ts`. -/
def parse_rel (st : Option sgl_ref × groupman_t)
    (ts : Option sgl_ref × List sg_content × List sg_content) : Prop :=
  st.1 = ts.1 ∧ sgl_view st.2 st.2.path_sgl = ts.2.1 ∧
    sgl_view st.2 st.2.similar_sgl = ts.2.2


/-- The invariant of the loop of `parse`, started from the state `m0`: the
state `st` is well formed, its registry holds the ids of its lists, its index
is that of `m0`, and it has read the content `ts`. -/
def parse_sim (m0 : groupman_t) (st : Option sgl_ref × groupman_t)
    (ts : Option sgl_ref × List sg_content × List sg_content) : Prop :=
  lists_below_brk st.2 ∧ registry_covers st.2 ∧ st.2.nid2loc = m0.nid2loc ∧ parse_rel st ts

/-- A string that the text format can carry as an id or as a name: it holds
no `;`, no line feed and no NUL, and it does not start with white space. -/
def plain_field (s : qstring) : Prop :=
  ';' ∉ s ∧ '\n' ∉ s ∧ '\x00' ∉ s ∧ skipSpaces s = s

instance (s : qstring) : Decidable (plain_field s) := by
  unfold plain_field; infer_instance

/-- The super group at `sg` can be written by `emit` and read back: it is
live and so are its groups, its id and its name are plain, and it is not
empty in all its three fields. -/
def sg_emittable (m : groupman_t) (sg : psupergroup_t) : Prop :=
  match m.sgs sg with
  | some s => (∀ g ∈ s.groups, (m.ngs g).isSome = true) ∧
      plain_field s.id ∧ plain_field s.name ∧ (s.id ≠ [] ∨ s.name ≠ [] ∨ s.groups ≠ [])
  | none => False

instance (m : groupman_t) (sg : psupergroup_t) : Decidable (sg_emittable m sg) := by
  unfold sg_emittable
  cases m.sgs sg with
  | none => exact isFalse (fun h => h)
  | some s =>
    exact (inferInstance : Decidable ((∀ g ∈ s.groups, (m.ngs g).isSome = true) ∧
      plain_field s.id ∧ plain_field s.name ∧ (s.id ≠ [] ∨ s.name ≠ [] ∨ s.groups ≠ [])))

/-- Every super group of the list `sgl` can be written by `emit` and read
back. -/
def emittable (m : groupman_t) (sgl : supergroup_listp_t) : Prop :=
  ∀ sg ∈ sgl, sg_emittable m sg

instance (m : groupman_t) (sgl : supergroup_listp_t) : Decidable (emittable m sgl) := by
  unfold emittable; infer_instance

/-- The id, the name and the node groups of the super group at `sg`, as `emit`
reads them. -/
def sg_parts (m : groupman_t) (sg : psupergroup_t) : qstring × qstring × List nodegroup_t :=
  match m.sgs sg with
  | some s => (s.id, s.name, s.groups.map (ng_nodes m))
  | none => ([], [], [])

/-- The line, with its line feed, that `emit` writes for the parts `p` of a
super group. -/
def parts_line (p : qstring × qstring × List nodegroup_t) : List Char :=
  emit_line p.1 p.2.1 p.2.2 ++ ['\n']

/-- The content of the parts `p` of a super group. -/
def parts_view (p : qstring × qstring × List nodegroup_t) : sg_content :=
  (p.1, p.2.1, p.2.2.map (fun g => g.map nd_triple))

/-- The parts `p` of a super group can be written and read back. -/
def parts_ok (p : qstring × qstring × List nodegroup_t) : Prop :=
  plain_field p.1 ∧ plain_field p.2.1 ∧ (p.1 ≠ [] ∨ p.2.1 ≠ [] ∨ p.2.2 ≠ [])

instance (p : qstring × qstring × List nodegroup_t) : Decidable (parts_ok p) := by
  unfold parts_ok; infer_instance

/-- A state whose only super group has the id `a;b`, the name `n` and one
group with one NodeDef. -/
def state_semicolon : groupman_t :=
  { ngs := fun p => if p = 1 then some [sample_nd 2 1 0 16] else none
    sgs := fun p =>
      if p = 0 then
        some { id := "a;b".toList, name := "n".toList, is_synthetic := false, groups := [1] }
      else none
    brk := 3
    nid2loc := [(1, nodeloc_t.mk 0 1 (sample_nd 2 1 0 16))]
    path_sgl := [0]
    similar_sgl := []
    all_nodes := [(1, sample_nd 2 1 0 16)] }

/-- The relation between the state `m0` at the call of `combine_ngl` and a
state `m` of its loop with destination `d`, whatever ids the NodeDefs carry:
the loop moves NodeDefs between groups of the path list and drops only groups
that it has emptied and super groups without groups. -/
structure merge_inv (m0 : groupman_t) (d : pnodegroup_t) (m : groupman_t) : Prop where
  idx : m.nid2loc = m0.nid2loc
  reg : m.all_nodes = m0.all_nodes
  live_ng : ∀ g, (m.ngs g).isSome = (m0.ngs g).isSome
  live_sg : ∀ x, (m.sgs x).isSome = (m0.sgs x).isSome
  sub_path : ∀ x ∈ m.path_sgl, x ∈ m0.path_sgl
  sub_groups : ∀ x, ∀ g ∈ sg_groups m x, g ∈ sg_groups m0 x
  nodup_ng : (path_ngs m).Nodup
  dest : d ∈ path_ngs m
  perm : (path_nds m).Perm (path_nds m0)
  kept : ∀ g ∈ path_ngs m0, g ∈ path_ngs m ∨ ng_nodes m g = []
  nodes : ∀ g, g ≠ d → ng_nodes m g = ng_nodes m0 g ∨ ng_nodes m g = []

/-! ## `supergroup_t`: display name and attribute copy -/

/-- The method `supergroup_t::get_display_name`; `none` stands for a `NULL`
pointer, which is the default value of `defval`. -/
def get_display_name (s : supergroup_t) (defval : Option qstring) : Option qstring :=
  if s.name = [] then
    if s.id = [] then defval
    else some s.id
  else some s.name

/-- The largest value of an `int`. -/
def INT_MAX : Int := 2147483647

/-- The call `sprnt("%s - copy_%d", str, ncopy)` of `qstring`: the text that is
assigned to the string. -/
def sprnt_copy (str : qstring) (ncopy : Int) : qstring :=
  str ++ " - copy_".toList ++ fmt_d ncopy

/-- The method `supergroup_t::copy_attr_from`, called on the object `this`
with the argument `sg`, a different object; `ncopy` is the value of the static
counter at the call.  The result holds the counter and the two objects after
the call.  The statement `++ncopy` overflows when the counter holds `INT_MAX`;
the call then has no defined outcome. -/
def copy_attr_from (ncopy : Int) (this sg : supergroup_t) :
    Option (Int × supergroup_t × supergroup_t) :=
  let this1 := { this with id := sprnt_copy sg.id ncopy }
  let this2 := { this1 with name := sprnt_copy sg.name ncopy }
  let sg1 := { sg with is_synthetic := false }
  let this3 := { this2 with is_synthetic := sg1.is_synthetic }
  if ncopy < INT_MAX then some (ncopy + 1, this3, sg1) else none

/-- The value of the static counter of `copy_attr_from` after a sequence of
calls, each on a pair (receiver, argument) of super groups, when the counter
holds `ncopy` before the first of them. -/
def copy_calls (ncopy : Int) (calls : List (supergroup_t × supergroup_t)) : Option Int :=
  calls.foldlM (fun n c => (copy_attr_from n c.1 c.2).map (fun r => r.1)) ncopy

/-! ## The text format in the words of its description -/

/-- An entry of a node group as the format describes it:
`<id> : <start> : <end>`. -/
def spec_entry (nd : pnodedef_t) : List Char :=
  fmt_d nd.nid ++ " : ".toList ++ fmt_a nd.start ++ " : ".toList ++ fmt_a nd.end_

/-- A node group as the format describes it: `(`, the entries joined by `, `,
and `)`. -/
def spec_group (ng : nodegroup_t) : List Char :=
  "(".toList ++ (", ".toList).intercalate (ng.map spec_entry) ++ ")".toList

/-- The line of a super group as the format describes it: `ID:<id>;` only if
the id is non-empty, `GROUPNAME:<name>;` only if the name is non-empty,
`NODESET:` and the groups joined by `, ` only if there is a group, and a
line feed. -/
def spec_line (id name : qstring) (gs : List nodegroup_t) : List Char :=
  (if id ≠ [] then "ID:".toList ++ id ++ ";".toList else [])
    ++ (if name ≠ [] then "GROUPNAME:".toList ++ name ++ ";".toList else [])
    ++ (if gs ≠ [] then "NODESET:".toList ++ (", ".toList).intercalate (gs.map spec_group)
        else [])
    ++ "\n".toList

/-- The lines of the super groups of a list, in list order. -/
def spec_section (m : groupman_t) (sgl : supergroup_listp_t) : List Char :=
  (sgl.map (fun sg =>
    spec_line (sg_parts m sg).1 (sg_parts m sg).2.1 (sg_parts m sg).2.2)).flatten

/-- The text of a manager as the format describes it: the line `--PATHINFO`,
the lines of the path list, the line `--SIMILARINFO`, the lines of the similar
list. -/
def spec_emit (m : groupman_t) : List Char :=
  "--PATHINFO\n".toList ++ spec_section m m.path_sgl
    ++ "--SIMILARINFO\n".toList ++ spec_section m m.similar_sgl

/-! ## The lines of a text in the words of the format description -/

/-- A blank line: it holds white space only. -/
def is_blank (line : List Char) : Prop :=
  skipSpaces line = []

instance (line : List Char) : Decidable (is_blank line) := by
  unfold is_blank; infer_instance

/-- A comment line: its first character that is not white space is `#`. -/
def is_comment (line : List Char) : Prop :=
  (skipSpaces line).head? = some '#'

instance (line : List Char) : Decidable (is_comment line) := by
  unfold is_comment; infer_instance

/-- The section directive of a line, if it is one: after leading white space
the line starts with `--` and at least one more character follows.  The
directive selects the path list for `--PATHINFO`, the similar list for
`--SIMILARINFO`, and the state in which lines are ignored (`none`) for any
other text after `--`. -/
def directive (line : List Char) : Option (Option sgl_ref) :=
  if (skipSpaces line).take 2 = "--".toList ∧ (skipSpaces line).drop 2 ≠ [] then
    some (if (skipSpaces line).drop 2 = "PATHINFO".toList then some .path
      else if (skipSpaces line).drop 2 = "SIMILARINFO".toList then some .similar
      else none)
  else none

/-- The effect of a line on the active section and on the lines that define a
super group, collected per section: blank lines and comment lines are
skipped, a directive selects the section, and any other line is collected for
the active section, if there is one. -/
def spec_step (st : Option sgl_ref × List (List Char) × List (List Char))
    (line : List Char) : Option sgl_ref × List (List Char) × List (List Char) :=
  if is_blank line ∨ is_comment line then st
  else
    match directive line with
    | some sec => (sec, st.2)
    | none =>
      match st.1 with
      | none => st
      | some cur => (some cur, content_add cur st.2 line)

/-- The lines of a text that define a super group of the path list, and those
that define a super group of the similar list, in the order of the text.  The
path section is active at the start. -/
def spec_lines (text : List Char) : List (List Char) × List (List Char) :=
  ((getlines text).foldl spec_step (some .path, [], [])).2

/-- The path list holds no empty node group and no super group without
groups. -/
def no_empty (m : groupman_t) : Prop :=
  (∀ g ∈ path_ngs m, ng_nodes m g ≠ []) ∧ (∀ sg ∈ m.path_sgl, sg_groups m sg ≠ [])

instance (m : groupman_t) : Decidable (no_empty m) := by
  unfold no_empty; infer_instance

/-- A state whose path list is `[0, 1]`: super group `0` owns the group `2`,
which holds the NodeDef with id 1, and super group `1` owns the group `3`,
which holds the NodeDef with id 2. -/
def state_pair : groupman_t :=
  { ngs := fun p =>
      if p = 2 then some [sample_nd 10 1 0 16]
      else if p = 3 then some [sample_nd 11 2 16 32]
      else none
    sgs := fun p =>
      if p = 0 then some { id := "a".toList, name := [], is_synthetic := false, groups := [2] }
      else if p = 1 then
        some { id := "b".toList, name := [], is_synthetic := false, groups := [3] }
      else none
    brk := 12
    nid2loc := [(1, nodeloc_t.mk 0 2 (sample_nd 10 1 0 16)),
                (2, nodeloc_t.mk 1 3 (sample_nd 11 2 16 32))]
    path_sgl := [0, 1]
    similar_sgl := []
    all_nodes := [(1, sample_nd 10 1 0 16), (2, sample_nd 11 2 16 32)] }

/-! ## The NodeDefs released by `reset_groupping` -/

/-- The NodeDefs that `nodegroup_list_t::free_nodegroup(true)` deletes through
`ng->free_nodes()`: the members of each group of the list, group by group
(a group is deleted after its members, and the deletion of one group does not
change the members of another). -/
def free_nodegroup_nodes (ngs : pnodegroup_t → Option nodegroup_t)
    (groups : nodegroup_list_t) : List pnodedef_t :=
  groups.flatMap (fun ng =>
    match ngs ng with
    | some l => l
    | none => [])

/-- The NodeDefs that `groupman_t::clear_sgl` deletes: those that the
destructor of each super group of the list deletes. -/
def clear_sgl_nodes (m : groupman_t) (r : sgl_ref) : List pnodedef_t :=
  (get_sgl m r).flatMap (fun sg => free_nodegroup_nodes m.ngs (sg_groups m sg))

/-- The NodeDefs that `reset_groupping` deletes: those that its call of
`clear_sgl` deletes, in the state that its first loop leaves. -/
def reset_groupping_nodes (m : groupman_t) : Option (List pnodedef_t) :=
  (clear_refs m m.path_sgl).map (fun m1 => clear_sgl_nodes m1 .path)

/-- A state with both lists: the path list is `[0, 1]` (super group `0` owns
the group `2` with node 1, super group `1` owns the group `3` with node 2),
the similar list is `[4]` (super group `4` owns the group `5` with its own
NodeDefs for the ids 1 and 2, which the registry refers to). -/
def state_both : groupman_t :=
  { ngs := fun p =>
      if p = 2 then some [sample_nd 10 1 0 16]
      else if p = 3 then some [sample_nd 11 2 16 32]
      else if p = 5 then some [sample_nd 12 1 0 16, sample_nd 13 2 16 32]
      else none
    sgs := fun p =>
      if p = 0 then some { id := "a".toList, name := [], is_synthetic := false, groups := [2] }
      else if p = 1 then
        some { id := "b".toList, name := [], is_synthetic := false, groups := [3] }
      else if p = 4 then
        some { id := "s".toList, name := [], is_synthetic := false, groups := [5] }
      else none
    brk := 14
    nid2loc := [(1, nodeloc_t.mk 0 2 (sample_nd 10 1 0 16)),
                (2, nodeloc_t.mk 1 3 (sample_nd 11 2 16 32))]
    path_sgl := [0, 1]
    similar_sgl := [4]
    all_nodes := [(1, sample_nd 12 1 0 16), (2, sample_nd 13 2 16 32)] }

/-- The NodeDefs of the two lists, in the order in which `clear` deletes
them. -/
def lists_nds (m : groupman_t) : List pnodedef_t :=
  ((m.path_sgl ++ m.similar_sgl).flatMap (sg_groups m)).flatMap (ng_nodes m)

/-- Both lists are well formed: no super group pointer occurs twice in the
two lists, their pointers are live, no node group pointer occurs twice in
them, no NodeDef object belongs to two of their groups or twice to one, and
none of their NodeDef objects has been deleted; so `clear` deletes every
super group, every node group and every NodeDef once. -/
structure lists_owned (m : groupman_t) : Prop where
  nodup_sg : (m.path_sgl ++ m.similar_sgl).Nodup
  live : sgl_live m (m.path_sgl ++ m.similar_sgl)
  nodup_ng : ((m.path_sgl ++ m.similar_sgl).flatMap (sg_groups m)).Nodup
  nodup_nd : ((lists_nds m).map (fun nd => nd.addr)).Nodup
  live_nd : ∀ nd ∈ lists_nds m, nd.addr ∉ m.freed

instance (m : groupman_t) : Decidable (lists_owned m) :=
  decidable_of_iff ((m.path_sgl ++ m.similar_sgl).Nodup ∧
      sgl_live m (m.path_sgl ++ m.similar_sgl) ∧
      ((m.path_sgl ++ m.similar_sgl).flatMap (sg_groups m)).Nodup ∧
      ((lists_nds m).map (fun nd => nd.addr)).Nodup ∧
      ∀ nd ∈ lists_nds m, nd.addr ∉ m.freed)
    ⟨fun h => ⟨h.1, h.2.1, h.2.2.1, h.2.2.2.1, h.2.2.2.2⟩,
     fun h => ⟨h.nodup_sg, h.live, h.nodup_ng, h.nodup_nd, h.live_nd⟩⟩

/-! ## Numbers that fit their variables -/

/-- The value fits an `int` (32 bits). -/
def fits_int (v : Int) : Prop :=
  -2147483648 ≤ v ∧ v ≤ 2147483647

instance (v : Int) : Decidable (fits_int v) := by
  unfold fits_int; infer_instance

/-- The value fits an `ea_t` of 32 bits, the smaller of the two sizes that
`ea_t` can have. -/
def fits_ea (a : ea_t) : Prop :=
  a < 4294967296

instance (a : ea_t) : Decidable (fits_ea a) := by
  unfold fits_ea; infer_instance

/-- The three numbers of an entry fit the fields `nid`, `start` and `end` of a
NodeDef. -/
def triple_fits (t : Int × ea_t × ea_t) : Prop :=
  fits_int t.1 ∧ fits_ea t.2.1 ∧ fits_ea t.2.2

instance (t : Int × ea_t × ea_t) : Decidable (triple_fits t) := by
  unfold triple_fits; infer_instance

/-- The numbers of the content of a super group fit. -/
def content_fits (c : sg_content) : Prop :=
  ∀ g ∈ c.2.2, ∀ t ∈ g, triple_fits t

instance (c : sg_content) : Decidable (content_fits c) := by
  unfold content_fits; infer_instance

/-- Every number read from a line of the text that defines a super group fits
the variable that it is stored in. -/
def lines_fit (text : List Char) : Prop :=
  ∀ l ∈ (spec_lines text).1 ++ (spec_lines text).2, content_fits (line_content (skipSpaces l))

instance (text : List Char) : Decidable (lines_fit text) := by
  unfold lines_fit; infer_instance

/-- The id and the name of the content of a super group. -/
def id_name (c : sg_content) : qstring × qstring :=
  (c.1, c.2.1)

/-! ## The entries of a node group in the words of the format description -/

/-- The pieces of a string between the occurrences of the character `d`. -/
def pieces (d : Char) : List Char → List (List Char)
  | [] => [[]]
  | c :: r =>
    if c = d then [] :: pieces d r
    else
      match pieces d r with
      | [] => [[c]]
      | l :: ls => (c :: l) :: ls

/-- The numbers read from one comma-separated entry, if it starts with an
integer id. -/
def read_entry (e : List Char) : Option (Int × ea_t × ea_t) :=
  qsscanf_d_a_a (skipSpaces e)

/-- The triples of the NodeDefs that the text `body` of a group (after its
leading white space) gives: those read from its comma-separated entries, in
order.  When the text begins with a comma, the first entry that is not empty
gives none. -/
def spec_group_read (body : List Char) : List (Int × ea_t × ea_t) :=
  if body.head? = some ',' then
    (((pieces ',' body).filter (fun e => e ≠ [])).drop 1).filterMap read_entry
  else (pieces ',' body).filterMap read_entry

/-- The node ids that the data of a list of super groups (id, name and node
groups of each) list, in order. -/
def data_ids (d : List (qstring × qstring × List nodegroup_t)) : List Int :=
  d.flatMap (fun p => p.2.2.flatMap (fun g => g.map (fun nd => nd.nid)))

/-- The ids and the addresses of the NodeDefs of the data of a super group fit
an `int` and an `ea_t`. -/
def parts_fit (p : qstring × qstring × List nodegroup_t) : Prop :=
  ∀ g ∈ p.2.2, ∀ nd ∈ g, triple_fits (nd_triple nd)

instance (p : qstring × qstring × List nodegroup_t) : Decidable (parts_fit p) := by
  unfold parts_fit; infer_instance
/-! ## Lemmas on `find_biggest` -/

theorem find_biggest_step_live (ngs : pnodegroup_t → Option nodegroup_t)
    (g f : pnodegroup_t) (hg : (ngs g).isSome = true) (hf : (ngs f).isSome = true) :
    find_biggest_step ngs (some g) f
      = some (some (if ng_size ngs g < ng_size ngs f then f else g)) := by
  obtain ⟨a, ha⟩ := Option.isSome_iff_exists.mp hg
  obtain ⟨b, hb⟩ := Option.isSome_iff_exists.mp hf
  simp only [find_biggest_step, ng_size, ha, hb, Option.bind_eq_bind, Option.some_bind,
    Option.pure_def]
  split <;> rfl

theorem find_biggest_loop (ngs : pnodegroup_t → Option nodegroup_t) :
    ∀ (l seen : List pnodegroup_t) (g : pnodegroup_t),
      ngl_live ngs l → (ngs g).isSome = true → first_biggest ngs seen g →
      ∃ g1, l.foldlM (find_biggest_step ngs) (some g) = some (some g1) ∧
        (ngs g1).isSome = true ∧ first_biggest ngs (seen ++ l) g1 := by
  intro l
  induction l with
  | nil =>
    intro seen g _ hg hfb
    exact ⟨g, rfl, hg, by simpa using hfb⟩
  | cons f l ih =>
    intro seen g hl hg hfb
    have hf : (ngs f).isSome = true := hl f (List.mem_cons_self _ _)
    have hl1 : ngl_live ngs l := fun p hp => hl p (List.mem_cons_of_mem _ hp)
    rw [List.foldlM_cons, find_biggest_step_live ngs g f hg hf]
    simp only [Option.bind_eq_bind, Option.some_bind]
    obtain ⟨pre, post, hseen, hpre, hpost⟩ := hfb
    by_cases hlt : ng_size ngs g < ng_size ngs f
    · rw [if_pos hlt]
      have hfb1 : first_biggest ngs (seen ++ [f]) f := by
        refine ⟨seen, [], rfl, ?_, by simp⟩
        intro p hp
        rw [hseen] at hp
        rcases List.mem_append.mp hp with h | h
        · exact lt_trans (hpre p h) hlt
        · rcases List.mem_cons.mp h with h | h
          · rw [h]; exact hlt
          · exact lt_of_le_of_lt (hpost p h) hlt
      obtain ⟨g1, h1, h2, h3⟩ := ih (seen ++ [f]) f hl1 hf hfb1
      exact ⟨g1, h1, h2, by simpa using h3⟩
    · rw [if_neg hlt]
      have hfb1 : first_biggest ngs (seen ++ [f]) g := by
        refine ⟨pre, post ++ [f], by simp [hseen], hpre, ?_⟩
        intro p hp
        rcases List.mem_append.mp hp with h | h
        · exact hpost p h
        · rw [List.mem_singleton.mp h]; exact Nat.le_of_not_lt hlt
      obtain ⟨g1, h1, h2, h3⟩ := ih (seen ++ [f]) g hl1 hg hfb1
      exact ⟨g1, h1, h2, by simpa using h3⟩

theorem find_biggest_cons (ngs : pnodegroup_t → Option nodegroup_t)
    (f : pnodegroup_t) (l : List pnodegroup_t) (hl : ngl_live ngs (f :: l)) :
    ∃ g, find_biggest ngs (f :: l) = some (some g) ∧ (ngs g).isSome = true ∧
      first_biggest ngs (f :: l) g := by
  have hf : (ngs f).isSome = true := hl f (List.mem_cons_self _ _)
  have hl1 : ngl_live ngs l := fun p hp => hl p (List.mem_cons_of_mem _ hp)
  have h0 : first_biggest ngs [f] f := ⟨[], [], rfl, by simp, by simp⟩
  obtain ⟨g, h1, h2, h3⟩ := find_biggest_loop ngs l [f] f hl1 hf h0
  refine ⟨g, ?_, h2, by simpa using h3⟩
  simp only [find_biggest, List.foldlM_cons, find_biggest_step, Option.bind_eq_bind,
    Option.some_bind]
  exact h1

theorem first_biggest_mem {ngs : pnodegroup_t → Option nodegroup_t}
    {ngl : nodegroup_list_t} {g : pnodegroup_t} (h : first_biggest ngs ngl g) : g ∈ ngl := by
  obtain ⟨pre, post, rfl, -, -⟩ := h
  simp

theorem first_biggest_max {ngs : pnodegroup_t → Option nodegroup_t}
    {ngl : nodegroup_list_t} {g : pnodegroup_t} (h : first_biggest ngs ngl g) :
    ∀ p ∈ ngl, ng_size ngs p ≤ ng_size ngs g := by
  obtain ⟨pre, post, rfl, hpre, hpost⟩ := h
  intro p hp
  rcases List.mem_append.mp hp with h | h
  · exact Nat.le_of_lt (hpre p h)
  · rcases List.mem_cons.mp h with h | h
    · rw [h]
    · exact hpost p h

/-! ## Lemmas on the location index -/

theorem map_find_set {α : Type} (k k1 : Int) (v : α) (l : List (Int × α)) :
    map_find k1 (map_set k v l) = if k1 = k then some v else map_find k1 l := by
  induction l with
  | nil => simp [map_set, map_find]
  | cons e r ih =>
    obtain ⟨k2, v2⟩ := e
    simp only [map_set]
    by_cases h1 : k < k2
    · simp [h1, map_find]
    · by_cases h2 : k = k2
      · subst h2
        by_cases h3 : k1 = k <;> simp [map_find, h3]
      · simp only [h1, h2, if_false, map_find, ih]
        by_cases h3 : k1 = k2
        · have : k1 ≠ k := fun h => h2 (h ▸ h3)
          simp [h3, this, Ne.symm h2]
        · simp [h3]

theorem index_of_append (idx : nid2nloc_map_t) (a b : List nodeloc_t) :
    index_of idx (a ++ b) = index_of (index_of idx a) b := by
  simp [index_of, List.foldl_append]

theorem index_of_miss (id : Int) : ∀ (locs : List nodeloc_t) (idx : nid2nloc_map_t),
    (∀ l ∈ locs, l.nd.nid ≠ id) → map_find id (index_of idx locs) = map_find id idx := by
  intro locs
  induction locs with
  | nil => intro idx _; rfl
  | cons l r ih =>
    intro idx h
    have h1 : id ≠ l.nd.nid := fun e => h l (List.mem_cons_self _ _) e.symm
    have := ih (map_set l.nd.nid l idx) (fun x hx => h x (List.mem_cons_of_mem _ hx))
    simp only [index_of, List.foldl_cons] at this ⊢
    rw [this, map_find_set, if_neg h1]

theorem index_of_last (id : Int) (idx : nid2nloc_map_t) (pre post : List nodeloc_t)
    (l : nodeloc_t) (hl : l.nd.nid = id) (hpost : ∀ x ∈ post, x.nd.nid ≠ id) :
    map_find id (index_of idx (pre ++ l :: post)) = some l := by
  rw [index_of_append]
  have : index_of (index_of idx pre) (l :: post)
      = index_of (map_set l.nd.nid l (index_of idx pre)) post := rfl
  rw [this, index_of_miss id post _ hpost, map_find_set, if_pos hl.symm]

theorem exists_last {α : Type} (p : α → Prop) : ∀ (l : List α), (∃ x ∈ l, p x) →
    ∃ pre x post, l = pre ++ x :: post ∧ p x ∧ ∀ y ∈ post, ¬ p y := by
  intro l
  induction l with
  | nil => rintro ⟨x, hx, -⟩; cases hx
  | cons a r ih =>
    rintro ⟨x, hx, hp⟩
    by_cases hr : ∃ y ∈ r, p y
    · obtain ⟨pre, y, post, e, hy, hpost⟩ := ih hr
      exact ⟨a :: pre, y, post, by simp [e], hy, hpost⟩
    · have hx' : x = a := by
        rcases List.mem_cons.mp hx with h | h
        · exact h
        · exact absurd ⟨x, h, hp⟩ hr
      subst hx'
      exact ⟨[], x, r, rfl, hp, fun y hy hpy => hr ⟨y, hy, hpy⟩⟩

theorem index_of_find (id : Int) (locs : List nodeloc_t) :
    (map_find id (index_of [] locs) = none ↔ ∀ l ∈ locs, l.nd.nid ≠ id) ∧
    ∀ loc, map_find id (index_of [] locs) = some loc → loc ∈ locs ∧ loc.nd.nid = id := by
  by_cases h : ∃ x ∈ locs, x.nd.nid = id
  · obtain ⟨pre, x, post, e, hx, hpost⟩ := exists_last (fun x => x.nd.nid = id) locs h
    have hf := index_of_last id [] pre post x hx hpost
    rw [← e] at hf
    constructor
    · rw [hf]
      constructor
      · intro h0; cases h0
      · intro h0
        exact absurd hx (h0 x (by rw [e]; simp))
    · intro loc hloc
      rw [hf] at hloc
      cases hloc
      exact ⟨by rw [e]; simp, hx⟩
  · have h' : ∀ l ∈ locs, l.nd.nid ≠ id := fun l hl e => h ⟨l, hl, e⟩
    have hf := index_of_miss id locs [] h'
    constructor
    · rw [hf]
      simp only [map_find, true_iff]
      exact h'
    · intro loc hloc
      rw [hf] at hloc
      cases hloc

theorem index_ng_eq (sg : psupergroup_t) (ng : pnodegroup_t) (idx : nid2nloc_map_t)
    (nds : nodegroup_t) :
    index_ng sg ng idx nds = index_of idx (nds.map (nodeloc_t.mk sg ng)) := by
  simp [index_ng, index_of, List.foldl_map]

theorem index_sg_iff (m : groupman_t) (sg : psupergroup_t) :
    ∀ (groups : nodegroup_list_t) (idx idx1 : nid2nloc_map_t),
      index_sg m.ngs sg idx groups = some idx1 ↔
        (∀ ng ∈ groups, (m.ngs ng).isSome = true) ∧
        idx1 = index_of idx
          (groups.flatMap (fun ng => (ng_nodes m ng).map (nodeloc_t.mk sg ng))) := by
  intro groups
  induction groups with
  | nil =>
    intro idx idx1
    simp only [index_sg, List.foldlM_nil, List.flatMap_nil, index_of, List.foldl_nil,
      Option.pure_def, Option.some.injEq, List.not_mem_nil, false_implies, implies_true,
      true_and]
    exact eq_comm
  | cons ng r ih =>
    intro idx idx1
    unfold index_sg at ih ⊢
    rw [List.foldlM_cons]
    cases hng : m.ngs ng with
    | none => simp [index_sg_step, hng]
    | some nds =>
      simp only [index_sg_step, hng, Option.bind_eq_bind, Option.some_bind]
      rw [ih, index_ng_eq]
      simp [hng, ng_nodes, index_of_append]

theorem index_sgl_iff (m : groupman_t) :
    ∀ (sgl : supergroup_listp_t) (idx idx1 : nid2nloc_map_t),
      index_sgl m idx sgl = some idx1 ↔
        sgl_live m sgl ∧ idx1 = index_of idx (sgl_locs m sgl) := by
  intro sgl
  induction sgl with
  | nil =>
    intro idx idx1
    simp only [index_sgl, List.foldlM_nil, sgl_live, sgl_locs, List.flatMap_nil, index_of,
      List.foldl_nil, Option.pure_def, Option.some.injEq, List.not_mem_nil, false_implies,
      implies_true, true_and]
    exact eq_comm
  | cons sg r ih =>
    intro idx idx1
    unfold index_sgl at ih ⊢
    rw [List.foldlM_cons]
    cases hsg : m.sgs sg with
    | none => simp [index_sgl_step, hsg, sgl_live]
    | some s =>
      simp only [index_sgl_step, hsg, Option.bind_eq_bind]
      cases hi : index_sg m.ngs sg idx s.groups with
      | none =>
        simp only [Option.none_bind]
        refine ⟨fun h => Option.noConfusion h, ?_⟩
        rintro ⟨hlive, -⟩
        exfalso
        have := (hlive sg (List.mem_cons_self _ _)).2
        simp only [sg_groups, hsg] at this
        have h2 := (index_sg_iff m sg s.groups idx
          (index_of idx (s.groups.flatMap
            (fun ng => (ng_nodes m ng).map (nodeloc_t.mk sg ng))))).mpr ⟨this, rfl⟩
        rw [hi] at h2
        cases h2
      | some idx2 =>
        obtain ⟨hl, he⟩ := (index_sg_iff m sg s.groups idx idx2).mp hi
        simp only [Option.some_bind]
        rw [ih]
        subst he
        simp only [sgl_live, List.mem_cons, forall_eq_or_imp, sgl_locs, List.flatMap_cons,
          index_of_append, sg_locs, sg_groups, hsg, Option.isSome_some, true_and]
        constructor
        · rintro ⟨h1, h2⟩
          exact ⟨⟨hl, h1⟩, h2⟩
        · rintro ⟨⟨-, h1⟩, h2⟩
          exact ⟨h1, h2⟩

theorem initialize_lookups_iff (m m1 : groupman_t) :
    initialize_lookups m = some m1 ↔
      sgl_live m m.path_sgl ∧
      m1 = { m with nid2loc := index_of [] (sgl_locs m m.path_sgl) } := by
  unfold initialize_lookups
  cases hi : index_sgl m [] m.path_sgl with
  | none =>
    refine ⟨fun h => Option.noConfusion h, ?_⟩
    rintro ⟨hl, -⟩
    exfalso
    have := (index_sgl_iff m m.path_sgl [] _).mpr ⟨hl, rfl⟩
    rw [hi] at this
    cases this
  | some idx =>
    obtain ⟨hl, he⟩ := (index_sgl_iff m m.path_sgl [] idx).mp hi
    subst he
    simp only [Option.some.injEq, hl, true_and]
    exact eq_comm

theorem mem_sgl_locs (m : groupman_t) (sgl : supergroup_listp_t) (loc : nodeloc_t) :
    loc ∈ sgl_locs m sgl ↔
      loc.sg ∈ sgl ∧ loc.ng ∈ sg_groups m loc.sg ∧ loc.nd ∈ ng_nodes m loc.ng := by
  simp only [sgl_locs, sg_locs, List.mem_flatMap, List.mem_map]
  constructor
  · rintro ⟨sg, hsg, ng, hng, nd, hnd, rfl⟩
    exact ⟨hsg, hng, hnd⟩
  · rintro ⟨h1, h2, h3⟩
    exact ⟨loc.sg, h1, loc.ng, h2, loc.nd, h3, rfl⟩

theorem path_nds_eq (m : groupman_t) :
    path_nds m = (sgl_locs m m.path_sgl).map (fun l => l.nd) := by
  simp [path_nds, path_ngs, sgl_locs, sg_locs, List.flatMap_def, List.map_flatten,
    List.map_map, Function.comp_def, List.flatten_flatten]

/-- A state whose index is the one `initialize_lookups` computes is sound. -/
theorem index_sound_of_eq (m : groupman_t)
    (h : m.nid2loc = index_of [] (sgl_locs m m.path_sgl)) : index_sound m := by
  intro id
  obtain ⟨h1, h2⟩ := index_of_find id (sgl_locs m m.path_sgl)
  unfold find_nodeid_loc
  rw [h]
  constructor
  · rw [h1, path_nds_eq]
    simp
  · intro loc hloc
    obtain ⟨h3, h4⟩ := h2 loc hloc
    obtain ⟨a, b, c⟩ := (mem_sgl_locs m m.path_sgl loc).mp h3
    exact ⟨a, b, c, h4⟩

theorem initialize_lookups_sound (m m1 : groupman_t) (h : initialize_lookups m = some m1) :
    index_sound m1 := by
  obtain ⟨-, rfl⟩ := (initialize_lookups_iff m m1).mp h
  exact index_sound_of_eq _ rfl

/-! ## `find_biggest`: the specified properties -/

/-- C9: for every list of (live) node groups, `find_biggest` returns `NULL`
exactly when the list is empty, and otherwise returns a member of the list
whose element count is greater than or equal to that of every member. -/
theorem find_biggest_is_max (ngs : pnodegroup_t → Option nodegroup_t)
    (ngl : nodegroup_list_t) (hl : ngl_live ngs ngl) :
    ∃ r, find_biggest ngs ngl = some r ∧ (r = none ↔ ngl = []) ∧
      ∀ g, r = some g → g ∈ ngl ∧ ∀ p ∈ ngl, ng_size ngs p ≤ ng_size ngs g := by
  cases ngl with
  | nil =>
    refine ⟨none, rfl, by simp, ?_⟩
    intro g hg
    cases hg
  | cons f l =>
    obtain ⟨g, h1, -, h3⟩ := find_biggest_cons ngs f l hl
    refine ⟨some g, h1, by simp, ?_⟩
    intro g1 hg1
    cases hg1
    exact ⟨first_biggest_mem h3, first_biggest_max h3⟩

theorem find_biggest_is_max_witness :
    ∃ r, find_biggest store_3552 [0, 1, 2, 3] = some r ∧
      (r = none ↔ ([0, 1, 2, 3] : nodegroup_list_t) = []) ∧
      ∀ g, r = some g → g ∈ ([0, 1, 2, 3] : nodegroup_list_t) ∧
        ∀ p ∈ ([0, 1, 2, 3] : nodegroup_list_t), ng_size store_3552 p ≤ ng_size store_3552 g :=
  find_biggest_is_max store_3552 [0, 1, 2, 3] (by decide)

/-- C10: for every non-empty list of (live) node groups, `find_biggest` returns
the first group of maximal size: every group before it is strictly smaller
and every group after it is not bigger.  For four groups of sizes 3, 5, 5, 2
it returns the second one; being a function of the list and the store, it
does so on every call. -/
theorem find_biggest_first_max :
    (∀ (ngs : pnodegroup_t → Option nodegroup_t) (ngl : nodegroup_list_t),
      ngl ≠ [] → ngl_live ngs ngl →
      ∃ g, find_biggest ngs ngl = some (some g) ∧ first_biggest ngs ngl g) ∧
    (∀ (ngs : pnodegroup_t → Option nodegroup_t) (a b c d : pnodegroup_t)
      (la lb lc ld : nodegroup_t),
      ngs a = some la → ngs b = some lb → ngs c = some lc → ngs d = some ld →
      la.length = 3 → lb.length = 5 → lc.length = 5 → ld.length = 2 →
      find_biggest ngs [a, b, c, d] = some (some b)) := by
  constructor
  · intro ngs ngl hne hl
    cases ngl with
    | nil => exact absurd rfl hne
    | cons f l =>
      obtain ⟨g, h1, -, h3⟩ := find_biggest_cons ngs f l hl
      exact ⟨g, h1, h3⟩
  · intro ngs a b c d la lb lc ld ha hb hc hd h3 h5 h5' h2
    simp [find_biggest, find_biggest_step, ha, hb, hc, hd, h3, h5, h5', h2]

theorem find_biggest_first_max_witness :
    (∃ g, find_biggest store_3552 [0, 1, 2, 3] = some (some g) ∧
      first_biggest store_3552 [0, 1, 2, 3] g) ∧
    find_biggest store_3552 [0, 1, 2, 3] = some (some 1) :=
  ⟨find_biggest_first_max.1 store_3552 [0, 1, 2, 3] (by decide) (by decide),
   find_biggest_first_max.2 store_3552 0 1 2 3 _ _ _ _ rfl rfl rfl rfl
     (by decide) (by decide) (by decide) (by decide)⟩

/-! ## Lists and stores -/

theorem foldl_add_node (src : List pnodedef_t) : ∀ dst : nodegroup_t,
    src.foldl add_node dst = dst ++ src := by
  induction src with
  | nil => intro dst; simp
  | cons a r ih => intro dst; simp [List.foldl_cons, ih, add_node]

theorem mem_list_remove {α : Type} [DecidableEq α] (l : List α) (x y : α) :
    y ∈ list_remove l x ↔ y ∈ l ∧ y ≠ x := by
  simp [list_remove]

theorem list_remove_of_not_mem {α : Type} [DecidableEq α] (l : List α) (x : α)
    (h : x ∉ l) : list_remove l x = l := by
  unfold list_remove
  rw [List.filter_eq_self]
  intro a ha
  simp only [Bool.not_eq_eq_eq_not, Bool.not_true, decide_eq_false_iff_not]
  exact fun e => h (e ▸ ha)

theorem flatMap_list_remove_nil {α β : Type} [DecidableEq α] (f : α → List β) (x : α)
    (hx : f x = []) (l : List α) : (list_remove l x).flatMap f = l.flatMap f := by
  induction l with
  | nil => rfl
  | cons a r ih =>
    unfold list_remove at ih ⊢
    by_cases h : a = x
    · subst h
      simp [List.filter_cons, hx, ih]
    · simp [List.filter_cons, h, ih]

theorem list_remove_flatMap {α β : Type} [DecidableEq β] (f : α → List β) (y : β)
    (l : List α) : list_remove (l.flatMap f) y = l.flatMap (fun a => list_remove (f a) y) := by
  unfold list_remove
  rw [List.filter_flatMap]

theorem nodup_flatMap_owner {α β : Type} {f : α → List β} {l : List α}
    (h : (l.flatMap f).Nodup) {a b : α} (ha : a ∈ l) (hb : b ∈ l) {x : β}
    (hxa : x ∈ f a) (hxb : x ∈ f b) : a = b := by
  by_contra hne
  have hp := (List.nodup_flatMap.mp h).2
  have hsym : Symmetric (Function.onFun List.Disjoint f) := by
    intro u v huv
    exact List.Disjoint.symm huv
  have := hp.forall hsym ha hb hne
  exact this hxa hxb

/-- Moving the elements `x` from the image of `a` to the image of `b` does not
change how often an element occurs in the concatenation of the images. -/
theorem count_flatMap_transfer {α β : Type} [DecidableEq α] [DecidableEq β]
    (f g : α → List β) (a b : α) (x : List β) (hab : a ≠ b) (z : β)
    (ha : List.count z (g a) + List.count z x = List.count z (f a))
    (hb : List.count z (g b) = List.count z (f b) + List.count z x)
    (hc : ∀ c, c ≠ a → c ≠ b → g c = f c) :
    ∀ l : List α, l.Nodup →
      List.count z (l.flatMap g) + (if a ∈ l then List.count z x else 0)
        = List.count z (l.flatMap f) + (if b ∈ l then List.count z x else 0) := by
  intro l
  induction l with
  | nil => intro _; simp
  | cons c r ih =>
    intro hnd
    have hr := ih (List.nodup_cons.mp hnd).2
    have hcr : c ∉ r := (List.nodup_cons.mp hnd).1
    simp only [List.flatMap_cons, List.count_append, List.mem_cons]
    by_cases h1 : c = a
    · subst h1
      have hb' : ¬ (b = c) := fun e => hab e.symm
      simp only [hcr, if_false, true_or, if_true, hb', false_or] at hr ⊢
      omega
    · by_cases h2 : c = b
      · subst h2
        have ha' : ¬ (a = c) := fun e => hab e
        simp only [hcr, if_false, true_or, if_true, ha', false_or] at hr ⊢
        omega
      · have e1 : ¬ (a = c) := fun e => h1 e.symm
        have e2 : ¬ (b = c) := fun e => h2 e.symm
        simp only [e1, e2, false_or, hc c h1 h2] at hr ⊢
        omega

theorem perm_flatMap_transfer {α β : Type} [DecidableEq α] [DecidableEq β]
    (f g : α → List β) (a b : α) (x : List β) (hab : a ≠ b)
    (ha : (g a ++ x).Perm (f a)) (hb : g b = f b ++ x)
    (hc : ∀ c, c ≠ a → c ≠ b → g c = f c)
    (l : List α) (hl : l.Nodup) (hal : a ∈ l) (hbl : b ∈ l) :
    (l.flatMap g).Perm (l.flatMap f) := by
  rw [List.perm_iff_count]
  intro z
  have h := count_flatMap_transfer f g a b x hab z
    (by rw [← List.count_append]; exact ha.count_eq z)
    (by rw [hb, List.count_append]) hc l hl
  simp only [hal, hbl, if_true] at h
  omega

/-! ## Views of a state after a store update -/

theorem ng_nodes_update (m : groupman_t) (h : pnodegroup_t → Option nodegroup_t)
    (sgs : psupergroup_t → Option supergroup_t) (p : supergroup_listp_t) (g : pnodegroup_t) :
    ng_nodes { m with ngs := h, sgs := sgs, path_sgl := p } g
      = match h g with
        | some l => l
        | none => [] := rfl

theorem sg_groups_update (m : groupman_t) (h : pnodegroup_t → Option nodegroup_t)
    (sgs : psupergroup_t → Option supergroup_t) (p : supergroup_listp_t) (sg : psupergroup_t) :
    sg_groups { m with ngs := h, sgs := sgs, path_sgl := p } sg
      = match sgs sg with
        | some s => s.groups
        | none => [] := rfl
/-! ## One iteration of `combine_ngl` -/

theorem path_ngs_mem (m : groupman_t) (g : pnodegroup_t) :
    g ∈ path_ngs m ↔ ∃ sg ∈ m.path_sgl, g ∈ sg_groups m sg := by
  simp [path_ngs, List.mem_flatMap]

theorem path_nds_mem (m : groupman_t) (nd : pnodedef_t) :
    nd ∈ path_nds m ↔ ∃ g ∈ path_ngs m, nd ∈ ng_nodes m g := by
  simp [path_nds, List.mem_flatMap]

theorem path_owned_live_sg {m : groupman_t} (h : path_owned m) {sg : psupergroup_t}
    (hsg : sg ∈ m.path_sgl) : ∃ s, m.sgs sg = some s ∧ sg_groups m sg = s.groups := by
  obtain ⟨s, hs⟩ := Option.isSome_iff_exists.mp (h.live sg hsg).1
  exact ⟨s, hs, by simp [sg_groups, hs]⟩

theorem path_owned_live_ng {m : groupman_t} (h : path_owned m) {g : pnodegroup_t}
    (hg : g ∈ path_ngs m) : ∃ l, m.ngs g = some l ∧ ng_nodes m g = l := by
  obtain ⟨sg, hsg, hgs⟩ := (path_ngs_mem m g).mp hg
  obtain ⟨l, hl⟩ := Option.isSome_iff_exists.mp ((h.live sg hsg).2 g hgs)
  exact ⟨l, hl, by simp [ng_nodes, hl]⟩

/-- The effect of one iteration of the loop of `combine_ngl` on a group `ng`
that is not the destination and is not empty, when the location found for its
first node names a live super group. -/
theorem combine_ngl_step_eq (d ng : pnodegroup_t) (m : groupman_t) (nd : pnodedef_t)
    (rest dst : nodegroup_t) (loc : nodeloc_t) (s : supergroup_t)
    (hne : ng ≠ d) (hsrc : m.ngs ng = some (nd :: rest))
    (hloc : find_nodeid_loc m nd.nid = some loc) (hd : m.ngs d = some dst)
    (hs : m.sgs loc.sg = some s) :
    combine_ngl_step d m ng = some
      { m with
        ngs := Function.update (Function.update m.ngs d (some (dst ++ nd :: rest))) ng (some [])
        sgs := Function.update m.sgs loc.sg (some { s with groups := list_remove s.groups ng })
        path_sgl := if list_remove s.groups ng = [] then list_remove m.path_sgl loc.sg
                    else m.path_sgl } := by
  simp only [combine_ngl_step, hne, if_false, hsrc, Option.bind_eq_bind, Option.some_bind,
    hloc, hd, hs, foldl_add_node, Option.pure_def]

/-- The views of the state after one iteration of the loop of `combine_ngl`,
when the location found names the super group that owns `ng`. -/
theorem combine_ngl_step_view (d ng : pnodegroup_t) (m : groupman_t)
    (hown : path_owned m) (hd : d ∈ path_ngs m) (hne : ng ≠ d)
    (nd : pnodedef_t) (rest : nodegroup_t) (hsrc : ng_nodes m ng = nd :: rest)
    (loc : nodeloc_t) (hloc : find_nodeid_loc m nd.nid = some loc)
    (hlsg : loc.sg ∈ m.path_sgl) (hlng : ng ∈ sg_groups m loc.sg) :
    ∃ m1, combine_ngl_step d m ng = some m1 ∧
      m1.nid2loc = m.nid2loc ∧ m1.similar_sgl = m.similar_sgl ∧
      m1.all_nodes = m.all_nodes ∧ m1.brk = m.brk ∧
      (∀ g, ng_nodes m1 g = if g = ng then [] else if g = d then ng_nodes m d ++ ng_nodes m ng
        else ng_nodes m g) ∧
      (∀ g, (m1.ngs g).isSome = (m.ngs g).isSome) ∧
      (∀ x, (m1.sgs x).isSome = (m.sgs x).isSome) ∧
      (∀ x, sg_groups m1 x = if x = loc.sg then list_remove (sg_groups m x) ng
        else sg_groups m x) ∧
      m1.path_sgl = (if list_remove (sg_groups m loc.sg) ng = [] then
        list_remove m.path_sgl loc.sg else m.path_sgl) := by
  obtain ⟨s, hs, hsg⟩ := path_owned_live_sg hown hlsg
  obtain ⟨dst, hdst, hdn⟩ := path_owned_live_ng hown hd
  have hngp : ng ∈ path_ngs m := (path_ngs_mem m ng).mpr ⟨loc.sg, hlsg, hlng⟩
  obtain ⟨src, hsrc1, hsrc2⟩ := path_owned_live_ng hown hngp
  rw [hsrc] at hsrc2
  subst hsrc2
  refine ⟨_, combine_ngl_step_eq d ng m nd rest dst loc s hne hsrc1 hloc hdst hs,
    rfl, rfl, rfl, rfl, ?_, ?_, ?_, ?_, ?_⟩
  · intro g
    rw [ng_nodes_update]
    by_cases h1 : g = ng
    · subst h1
      simp
    · by_cases h2 : g = d
      · subst h2
        simp [Function.update_noteq h1, ← hdn, hsrc, h1]
      · simp [Function.update_noteq h1, Function.update_noteq h2, h1, h2, ng_nodes]
  · intro g
    by_cases h1 : g = ng
    · subst h1
      simp [hsrc1]
    · by_cases h2 : g = d
      · subst h2
        simp [Function.update_noteq h1, hdst]
      · simp [Function.update_noteq h1, Function.update_noteq h2]
  · intro x
    by_cases h1 : x = loc.sg
    · subst h1
      simp [hs]
    · simp [Function.update_noteq h1]
  · intro x
    rw [sg_groups_update]
    by_cases h1 : x = loc.sg
    · subst h1
      simp [hsg]
    · simp [Function.update_noteq h1, h1, sg_groups]
  · simp [hsg]
/-- Removing the group `ng` from the super group `s0` that owns it, and `s0`
from the path list when it has no group left, removes `ng` from the groups of
the path list and nothing else. -/
theorem path_ngs_remove (m m1 : groupman_t) (s0 : psupergroup_t) (ng : pnodegroup_t)
    (hnd : (path_ngs m).Nodup) (hs0 : s0 ∈ m.path_sgl) (hng : ng ∈ sg_groups m s0)
    (hG : ∀ x, sg_groups m1 x = if x = s0 then list_remove (sg_groups m x) ng
      else sg_groups m x)
    (hP : m1.path_sgl = (if list_remove (sg_groups m s0) ng = [] then
      list_remove m.path_sgl s0 else m.path_sgl)) :
    path_ngs m1 = list_remove (path_ngs m) ng := by
  have hA : m1.path_sgl.flatMap (sg_groups m1) = m.path_sgl.flatMap (sg_groups m1) := by
    rw [hP]
    split
    · rename_i he
      apply flatMap_list_remove_nil
      rw [hG, if_pos rfl, he]
    · rfl
  have hB : m.path_sgl.flatMap (sg_groups m1)
      = m.path_sgl.flatMap (fun x => list_remove (sg_groups m x) ng) := by
    apply List.flatMap_congr
    intro x hx
    rw [hG]
    split
    · rename_i he; rw [he]
    · rename_i he
      symm
      apply list_remove_of_not_mem
      intro hmem
      exact he (nodup_flatMap_owner hnd hx hs0 hmem hng)
  unfold path_ngs
  rw [hA, hB, list_remove_flatMap]

theorem filter_not_mem_concat {α : Type} [DecidableEq α] (l done : List α) (x : α) :
    list_remove (l.filter (fun g => !decide (g ∈ done))) x
      = l.filter (fun g => !decide (g ∈ done ++ [x])) := by
  unfold list_remove
  rw [List.filter_filter]
  apply List.filter_congr
  intro a _
  simp only [List.mem_append, List.mem_singleton, Bool.and_eq_true, Bool.not_eq_eq_eq_not,
    Bool.not_true, decide_eq_false_iff_not, Bool.decide_or, Bool.not_or]
  by_cases h1 : a = x <;> by_cases h2 : a ∈ done <;> simp [h1, h2]

theorem combine_inv_init (m0 : groupman_t) (d : pnodegroup_t) (hown : path_owned m0)
    (hd : d ∈ path_ngs m0) (hidx : index_current m0) (hids : (path_ids m0).Nodup) :
    combine_inv m0 d [] m0 := by
  refine ⟨hown, hd, rfl, rfl, rfl, rfl, fun _ => rfl, fun _ => rfl, by simp, by simp,
    fun _ _ _ => rfl, by simp, by simp, ?_, List.Perm.refl _, ?_⟩
  · symm
    rw [List.filter_eq_self]
    intro x _
    by_cases h : sg_groups m0 x = [] <;> simp [h]
  · intro g hg _ nd hnd
    obtain ⟨sg, hsg, hgs⟩ := (path_ngs_mem m0 g).mp hg
    have hmem : nodeloc_t.mk sg g nd ∈ sgl_locs m0 m0.path_sgl :=
      (mem_sgl_locs m0 m0.path_sgl _).mpr ⟨hsg, hgs, hnd⟩
    have hnone : map_find nd.nid (index_of [] (sgl_locs m0 m0.path_sgl)) ≠ none := by
      intro h0
      exact (index_of_find nd.nid _).1.mp h0 _ hmem rfl
    obtain ⟨loc, hloc⟩ := Option.ne_none_iff_exists'.mp hnone
    obtain ⟨hl1, hl2⟩ := (index_of_find nd.nid _).2 loc hloc
    obtain ⟨a, b, c⟩ := (mem_sgl_locs m0 m0.path_sgl loc).mp hl1
    refine ⟨loc, (hidx nd.nid).trans hloc, a, ?_⟩
    -- the node found carries the same id, hence is the same node, hence the same group
    have hndp : nd ∈ path_nds m0 := (path_nds_mem m0 nd).mpr ⟨g, hg, hnd⟩
    have hlp : loc.nd ∈ path_nds m0 :=
      (path_nds_mem m0 loc.nd).mpr ⟨loc.ng, (path_ngs_mem m0 _).mpr ⟨loc.sg, a, b⟩, c⟩
    have heq : loc.nd = nd :=
      List.inj_on_of_nodup_map hids hlp hndp hl2
    have hgeq : loc.ng = g := by
      have hN : (path_nds m0).Nodup := List.Nodup.of_map _ hids
      exact nodup_flatMap_owner hN ((path_ngs_mem m0 _).mpr ⟨loc.sg, a, b⟩) hg
        (heq ▸ c) hnd
    rw [← hgeq]
    exact b
theorem combine_inv_step (m0 m : groupman_t) (d ng : pnodegroup_t) (done : List pnodegroup_t)
    (hown0 : path_owned m0) (inv : combine_inv m0 d done m)
    (hnot : ng ∉ done) (hne : ng ≠ d) (hng0 : ng ∈ path_ngs m0)
    (hsrc0 : ng_nodes m0 ng ≠ []) :
    ∃ m1, combine_ngl_step d m ng = some m1 ∧ combine_inv m0 d (done ++ [ng]) m1 := by
  have hngm : ng ∈ path_ngs m := by
    rw [inv.ngs, List.mem_filter]
    exact ⟨hng0, by simpa using hnot⟩
  have hnodes : ng_nodes m ng = ng_nodes m0 ng := inv.others ng hne hnot
  obtain ⟨nd, rest, hsrc⟩ : ∃ nd rest, ng_nodes m ng = nd :: rest := by
    rw [hnodes]
    cases h : ng_nodes m0 ng with
    | nil => exact absurd h hsrc0
    | cons a r => exact ⟨a, r, rfl⟩
  obtain ⟨loc, hloc, hlsg, hlng⟩ := inv.owner ng hngm hne nd (by rw [hsrc]; simp)
  obtain ⟨m1, hstep, hidx, hsim, hreg, hbrk, hN, hLng, hLsg, hG, hP⟩ :=
    combine_ngl_step_view d ng m inv.owned inv.dest hne nd rest hsrc loc hloc hlsg hlng
  have hpath_sub : ∀ x ∈ m.path_sgl, x ∈ m0.path_sgl := by
    intro x hx
    rw [inv.path] at hx
    exact (List.mem_filter.mp hx).1
  have hls0 : loc.sg ∈ m0.path_sgl := hpath_sub _ hlsg
  have hlng0 : ng ∈ sg_groups m0 loc.sg := by
    have := inv.groups loc.sg hls0
    rw [this] at hlng
    exact (List.mem_filter.mp hlng).1
  have hngs1 : path_ngs m1 = list_remove (path_ngs m) ng :=
    path_ngs_remove m m1 loc.sg ng inv.owned.nodup_ng hlsg hlng hG hP
  have hsub1 : ∀ x ∈ m1.path_sgl, x ∈ m.path_sgl := by
    intro x hx
    rw [hP] at hx
    split at hx
    · exact ((mem_list_remove _ _ _).mp hx).1
    · exact hx
  have hGsub : ∀ x g, g ∈ sg_groups m1 x → g ∈ sg_groups m x := by
    intro x g hg
    rw [hG] at hg
    split at hg
    · exact ((mem_list_remove _ _ _).mp hg).1
    · exact hg
  have hnd1 : ng_nodes m1 ng = [] := by rw [hN, if_pos rfl]
  refine ⟨m1, hstep, ?_⟩
  refine
    { owned := ?_, dest := ?_, idx := hidx.trans inv.idx, sim := hsim.trans inv.sim,
      reg := hreg.trans inv.reg, brk := hbrk.trans inv.brk,
      live_ng := fun g => (hLng g).trans (inv.live_ng g),
      live_sg := fun x => (hLsg x).trans (inv.live_sg x),
      ngs := ?_, dnodes := ?_, others := ?_, emptied := ?_, groups := ?_, path := ?_,
      perm := ?_, owner := ?_ }
  · -- owned
    refine ⟨?_, ?_, ?_⟩
    · rw [hP]
      split
      · exact inv.owned.nodup_sg.filter _
      · exact inv.owned.nodup_sg
    · intro x hx
      have hx' := hsub1 x hx
      refine ⟨by rw [hLsg]; exact (inv.owned.live x hx').1, ?_⟩
      intro g hg
      rw [hLng]
      exact (inv.owned.live x hx').2 g (hGsub x g hg)
    · rw [hngs1]
      exact inv.owned.nodup_ng.filter _
  · -- dest
    rw [hngs1, mem_list_remove]
    exact ⟨inv.dest, fun e => hne e.symm⟩
  · -- ngs
    rw [hngs1, inv.ngs, filter_not_mem_concat]
  · -- dnodes
    rw [hN, if_neg (fun e => hne e.symm), if_pos rfl, inv.dnodes, hnodes]
    simp [List.flatMap_append]
  · -- others
    intro g hgd hgn
    have h1 : g ≠ ng := fun e => hgn (by simp [e])
    have h2 : g ∉ done := fun e => hgn (by simp [e])
    rw [hN, if_neg h1, if_neg hgd]
    exact inv.others g hgd h2
  · -- emptied
    intro g hg
    rcases List.mem_append.mp hg with h | h
    · have h1 : g ≠ ng := fun e => hnot (e ▸ h)
      have h2 : g ≠ d := by
        intro e
        have := inv.dest
        rw [inv.ngs, List.mem_filter] at this
        subst e
        simp [h] at this
      rw [hN, if_neg h1, if_neg h2]
      exact inv.emptied g h
    · rw [List.mem_singleton.mp h]
      exact hnd1
  · -- groups
    intro x hx
    rw [hG, ← filter_not_mem_concat, ← inv.groups x hx]
    split
    · rfl
    · rename_i he
      symm
      apply list_remove_of_not_mem
      intro hmem
      have hmem0 : ng ∈ sg_groups m0 x := by
        rw [inv.groups x hx] at hmem
        exact (List.mem_filter.mp hmem).1
      exact he (nodup_flatMap_owner hown0.nodup_ng hx hls0 hmem0 hlng0)
  · -- path
    rw [hP, inv.path]
    have key : ∀ x ∈ m0.path_sgl,
        decide (sg_groups m1 x ≠ [] ∨ sg_groups m0 x = [])
          = (decide (sg_groups m x ≠ [] ∨ sg_groups m0 x = [])
              && (if list_remove (sg_groups m loc.sg) ng = [] then !decide (x = loc.sg)
                  else true)) := by
      intro x _
      rw [hG]
      by_cases hx : x = loc.sg
      · subst hx
        have h0 : sg_groups m0 loc.sg ≠ [] := List.ne_nil_of_mem hlng0
        have h1 : sg_groups m loc.sg ≠ [] := List.ne_nil_of_mem hlng
        by_cases he : list_remove (sg_groups m loc.sg) ng = [] <;> simp [he, h0, h1]
      · by_cases he : list_remove (sg_groups m loc.sg) ng = [] <;> simp [he, hx]
    split
    · rename_i he
      unfold list_remove
      rw [List.filter_filter]
      apply List.filter_congr
      intro x hx
      rw [key x hx, if_pos he, Bool.and_comm]
    · rename_i he
      apply List.filter_congr
      intro x hx
      rw [key x hx, if_neg he, Bool.and_true]
  · -- perm
    refine List.Perm.trans ?_ inv.perm
    have e1 : path_nds m1 = (path_ngs m).flatMap (ng_nodes m1) := by
      unfold path_nds
      rw [hngs1]
      exact flatMap_list_remove_nil _ _ hnd1 _
    rw [e1]
    unfold path_nds
    apply perm_flatMap_transfer (ng_nodes m) (ng_nodes m1) ng d (ng_nodes m ng) hne
    · rw [hnd1]; simp
    · rw [hN, if_neg (fun e => hne e.symm), if_pos rfl]
    · intro c hc1 hc2
      rw [hN, if_neg hc1, if_neg hc2]
    · exact inv.owned.nodup_ng
    · exact hngm
    · exact inv.dest
  · -- owner
    intro g hg hgd nd1 hnd1'
    rw [hngs1, mem_list_remove] at hg
    obtain ⟨hgm, hgng⟩ := hg
    rw [hN, if_neg hgng, if_neg hgd] at hnd1'
    obtain ⟨l1, hl1, hl2, hl3⟩ := inv.owner g hgm hgd nd1 hnd1'
    have hfind : find_nodeid_loc m1 nd1.nid = some l1 := by
      unfold find_nodeid_loc at hl1 ⊢
      rw [hidx]; exact hl1
    have hg1 : g ∈ sg_groups m1 l1.sg := by
      rw [hG]
      split
      · rename_i he
        rw [mem_list_remove]
        exact ⟨he ▸ hl3, hgng⟩
      · exact hl3
    refine ⟨l1, hfind, ?_, hg1⟩
    rw [hP]
    split
    · rename_i he
      rw [mem_list_remove]
      refine ⟨hl2, ?_⟩
      intro e
      rw [hG, if_pos e, e, he] at hg1
      cases hg1
    · exact hl2
theorem combine_inv_loop (m0 : groupman_t) (d : pnodegroup_t) (hown0 : path_owned m0) :
    ∀ (l : List pnodegroup_t) (m : groupman_t) (done : List pnodegroup_t),
      combine_inv m0 d done m → l.Nodup → (∀ g ∈ l, g ∉ done) →
      (∀ g ∈ l, g ∈ path_ngs m0) →
      ∃ m1, l.foldlM (combine_ngl_step d) m = some m1 ∧
        combine_inv m0 d (done ++ merged_groups m0 d l) m1 := by
  intro l
  induction l with
  | nil =>
    intro m done inv _ _ _
    exact ⟨m, rfl, by simpa [merged_groups] using inv⟩
  | cons g r ih =>
    intro m done inv hnd hnot hin
    have hr_nd : r.Nodup := (List.nodup_cons.mp hnd).2
    have hg_r : g ∉ r := (List.nodup_cons.mp hnd).1
    have hr_in : ∀ x ∈ r, x ∈ path_ngs m0 := fun x hx => hin x (List.mem_cons_of_mem _ hx)
    have hr_not : ∀ x ∈ r, x ∉ done := fun x hx => hnot x (List.mem_cons_of_mem _ hx)
    have hg_not : g ∉ done := hnot g (List.mem_cons_self _ _)
    have hg_in : g ∈ path_ngs m0 := hin g (List.mem_cons_self _ _)
    rw [List.foldlM_cons]
    by_cases hgd : g = d
    · have hstep : combine_ngl_step d m g = some m := by simp [combine_ngl_step, hgd]
      have hmg : merged_groups m0 d (g :: r) = merged_groups m0 d r := by
        simp [merged_groups, List.filter_cons, hgd]
      rw [hstep, hmg]
      exact ih m done inv hr_nd hr_not hr_in
    · by_cases hemp : ng_nodes m0 g = []
      · obtain ⟨l0, hl0, hl0'⟩ := path_owned_live_ng hown0 hg_in
        have hlive : (m.ngs g).isSome = true := by rw [inv.live_ng, hl0]; rfl
        obtain ⟨l1, hl1⟩ := Option.isSome_iff_exists.mp hlive
        have hl1' : l1 = [] := by
          have := inv.others g hgd hg_not
          simp only [ng_nodes, hl1] at this
          rw [this]; exact hemp
        subst hl1'
        have hstep : combine_ngl_step d m g = some m := by
          simp [combine_ngl_step, hgd, hl1]
        have hmg : merged_groups m0 d (g :: r) = merged_groups m0 d r := by
          simp [merged_groups, List.filter_cons, hemp]
        rw [hstep, hmg]
        exact ih m done inv hr_nd hr_not hr_in
      · obtain ⟨m1, hstep, inv1⟩ :=
          combine_inv_step m0 m d g done hown0 inv hg_not hgd hg_in hemp
        have hmg : merged_groups m0 d (g :: r) = g :: merged_groups m0 d r := by
          simp [merged_groups, List.filter_cons, hgd, hemp]
        have hnot1 : ∀ x ∈ r, x ∉ done ++ [g] := by
          intro x hx hmem
          rcases List.mem_append.mp hmem with h | h
          · exact hr_not x hx h
          · exact hg_r (List.mem_singleton.mp h ▸ hx)
        obtain ⟨m2, h2, inv2⟩ := ih m1 (done ++ [g]) inv1 hr_nd hnot1 hr_in
        rw [hstep, hmg]
        refine ⟨m2, h2, ?_⟩
        simpa using inv2

theorem find_biggest_loop_some (ngs : pnodegroup_t → Option nodegroup_t) :
    ∀ (l : List pnodegroup_t) (g : pnodegroup_t) (r : Option pnodegroup_t),
      l.foldlM (find_biggest_step ngs) (some g) = some r → r ≠ none := by
  intro l
  induction l with
  | nil =>
    intro g r h
    simp only [List.foldlM_nil, Option.pure_def, Option.some.injEq] at h
    rw [← h]; simp
  | cons f l ih =>
    intro g r h
    rw [List.foldlM_cons] at h
    cases hs : find_biggest_step ngs (some g) f with
    | none => rw [hs] at h; cases h
    | some a =>
      rw [hs] at h
      simp only [Option.bind_eq_bind, Option.some_bind] at h
      cases a with
      | none =>
        exfalso
        simp only [find_biggest_step, Option.bind_eq_bind, Option.pure_def] at hs
        cases h1 : ngs g with
        | none => rw [h1] at hs; cases hs
        | some a1 =>
          cases h2 : ngs f with
          | none => rw [h1, h2] at hs; cases hs
          | some a2 =>
            rw [h1, h2] at hs
            simp only [Option.some_bind, Option.some.injEq] at hs
            split at hs <;> cases hs
      | some a => exact ih a r h

theorem find_biggest_nonempty (ngs : pnodegroup_t → Option nodegroup_t)
    (f : pnodegroup_t) (l : List pnodegroup_t) (r : Option pnodegroup_t)
    (h : find_biggest ngs (f :: l) = some r) : r ≠ none := by
  simp only [find_biggest, List.foldlM_cons, find_biggest_step, Option.bind_eq_bind,
    Option.some_bind] at h
  exact find_biggest_loop_some ngs l f r h

theorem combine_ngl_null_iff (m m1 : groupman_t) (ngl : nodegroup_list_t)
    (r : Option pnodegroup_t) (h : combine_ngl m ngl = some (r, m1)) :
    r = none ↔ ngl = [] := by
  cases ngl with
  | nil =>
    simp only [combine_ngl, find_biggest, List.foldlM_nil, Option.pure_def,
      Option.bind_eq_bind, Option.some_bind, Option.some.injEq, Prod.mk.injEq] at h
    simp [← h.1]
  | cons f l =>
    simp only [combine_ngl, Option.bind_eq_bind] at h
    cases hf : find_biggest m.ngs (f :: l) with
    | none => rw [hf] at h; cases h
    | some r0 =>
      have hr0 := find_biggest_nonempty m.ngs f l r0 hf
      rw [hf] at h
      simp only [Option.some_bind] at h
      cases r0 with
      | none => exact absurd rfl hr0
      | some d =>
        simp only at h
        cases h1 : List.foldlM (combine_ngl_step d) m (f :: l) with
        | none => rw [h1] at h; cases h
        | some m2 =>
          rw [h1] at h
          simp only [Option.some_bind] at h
          cases h2 : initialize_lookups m2 with
          | none => rw [h2] at h; cases h
          | some m3 =>
            rw [h2] at h
            simp only [Option.some_bind, Option.pure_def, Option.some.injEq,
              Prod.mk.injEq] at h
            simp [← h.1]

/-- The run of `combine_ngl` on groups of the path list of a well-formed state
whose index locates every node: the call returns the group chosen by
`find_biggest`, and the state before the final index rebuild is related to the
initial state by `combine_inv`. -/
theorem combine_ngl_run (m : groupman_t) (ngl : nodegroup_list_t)
    (hown : path_owned m) (hidx : index_current m) (hids : (path_ids m).Nodup)
    (hne : ngl ≠ []) (hnd : ngl.Nodup) (hin : ∀ g ∈ ngl, g ∈ path_ngs m) :
    ∃ d m1, find_biggest m.ngs ngl = some (some d) ∧ d ∈ ngl ∧
      first_biggest m.ngs ngl d ∧
      combine_inv m d (merged_groups m d ngl) m1 ∧
      combine_ngl m ngl = some (some d,
        { m1 with nid2loc := index_of [] (sgl_locs m1 m1.path_sgl) }) := by
  have hlive : ngl_live m.ngs ngl := by
    intro g hg
    obtain ⟨l, hl, -⟩ := path_owned_live_ng hown (hin g hg)
    rw [hl]; rfl
  cases ngl with
  | nil => exact absurd rfl hne
  | cons f l =>
    obtain ⟨d, hfb, -, hfirst⟩ := find_biggest_cons m.ngs f l hlive
    have hdm := first_biggest_mem hfirst
    have inv0 := combine_inv_init m d hown (hin d hdm) hidx hids
    obtain ⟨m1, hloop, inv1⟩ := combine_inv_loop m d hown (f :: l) m [] inv0 hnd
      (by simp) hin
    simp only [List.nil_append] at inv1
    refine ⟨d, m1, hfb, hdm, hfirst, inv1, ?_⟩
    have hinit := (initialize_lookups_iff m1 _).mpr ⟨inv1.owned.live, rfl⟩
    simp only [combine_ngl, hfb, Option.bind_eq_bind, Option.some_bind, hloop, hinit,
      Option.pure_def]
theorem index_current_of_eq (m : groupman_t)
    (h : m.nid2loc = index_of [] (sgl_locs m m.path_sgl)) : index_current m := by
  intro id
  unfold find_nodeid_loc
  rw [h]

theorem merged_groups_eq (m : groupman_t) (d : pnodegroup_t) (l : nodegroup_list_t)
    (h : ∀ g ∈ l, ng_nodes m g ≠ []) : merged_groups m d l = list_remove l d := by
  unfold merged_groups list_remove
  apply List.filter_congr
  intro g hg
  simp [h g hg]

/-! ## `combine_ngl`: the specified properties -/

/-- C2 (amended): `combine_ngl` returns `NULL` exactly when the list is empty.
For a state whose path list owns its groups, carries no node id twice and has
an up-to-date index, and a non-empty list of distinct non-empty groups of the
path list, it returns the group `d` chosen by `find_biggest`; afterwards `d`
holds its own nodes followed by the nodes of the other listed groups, in list
order, and every other listed group is in no super group of the path list. -/
theorem combine_ngl_merges :
    (∀ m : groupman_t, combine_ngl m [] = some (none, m)) ∧
    (∀ (m m1 : groupman_t) (ngl : nodegroup_list_t) (r : Option pnodegroup_t),
      combine_ngl m ngl = some (r, m1) → (r = none ↔ ngl = [])) ∧
    (∀ (m : groupman_t) (ngl : nodegroup_list_t),
      path_owned m → index_current m → (path_ids m).Nodup →
      ngl ≠ [] → ngl.Nodup → (∀ g ∈ ngl, g ∈ path_ngs m ∧ ng_nodes m g ≠ []) →
      ∃ d m1, find_biggest m.ngs ngl = some (some d) ∧
        combine_ngl m ngl = some (some d, m1) ∧
        ng_nodes m1 d = ng_nodes m d ++ (list_remove ngl d).flatMap (ng_nodes m) ∧
        ∀ g ∈ ngl, g ≠ d →
          g ∉ path_ngs m1 ∧ ∀ sg ∈ m.path_sgl, g ∉ sg_groups m1 sg) := by
  refine ⟨fun m => rfl, fun m m1 ngl r h => combine_ngl_null_iff m m1 ngl r h, ?_⟩
  intro m ngl hown hidx hids hne hnd hin
  obtain ⟨d, m1, hfb, -, -, inv, hrun⟩ :=
    combine_ngl_run m ngl hown hidx hids hne hnd (fun g hg => (hin g hg).1)
  have hmg := merged_groups_eq m d ngl (fun g hg => (hin g hg).2)
  refine ⟨d, _, hfb, hrun, ?_, ?_⟩
  · show ng_nodes m1 d = _
    rw [inv.dnodes, hmg]
  · intro g hg hgd
    have hdone : g ∈ merged_groups m d ngl := by
      rw [hmg, mem_list_remove]; exact ⟨hg, hgd⟩
    constructor
    · show g ∉ path_ngs m1
      rw [inv.ngs, List.mem_filter]
      simp [hdone]
    · intro sg hsg
      show g ∉ sg_groups m1 sg
      rw [inv.groups sg hsg, List.mem_filter]
      simp [hdone]

theorem combine_ngl_merges_witness :
    ∃ d m1, find_biggest state_two.ngs [2, 3] = some (some d) ∧
      combine_ngl state_two [2, 3] = some (some d, m1) ∧
      ng_nodes m1 d = ng_nodes state_two d
        ++ (list_remove [2, 3] d).flatMap (ng_nodes state_two) ∧
      ∀ g ∈ ([2, 3] : nodegroup_list_t), g ≠ d →
        g ∉ path_ngs m1 ∧ ∀ sg ∈ state_two.path_sgl, g ∉ sg_groups m1 sg :=
  combine_ngl_merges.2.2 state_two [2, 3] (by decide) (index_current_of_eq _ (by decide))
    (by decide) (by decide) (by decide) (by decide)

/-- C2, as stated, fails when two NodeDefs of the path list carry the same id:
in `state_dup` the hypotheses of the claim hold for the list `[3, 2]`, the call
returns the group `3`, and the other listed group `2` is still a group of its
owning super group `0`, which is still in the path list. -/
theorem combine_ngl_duplicate_ids :
    path_owned state_dup ∧ index_current state_dup ∧
    ([3, 2] : nodegroup_list_t).Nodup ∧
    (∀ g ∈ ([3, 2] : nodegroup_list_t), g ∈ path_ngs state_dup ∧ ng_nodes state_dup g ≠ []) ∧
    (combine_ngl state_dup [3, 2]).map
        (fun r => (r.1, sg_groups r.2 0, r.2.path_sgl, ng_nodes r.2 3))
      = some (some 3, [2], [0, 1], [sample_nd 11 1 0 1, sample_nd 10 1 0 1]) :=
  ⟨by decide, index_current_of_eq _ (by decide), by decide, by decide, by decide⟩
/-! ## The index of a state without duplicate ids -/

/-- In a well-formed state without duplicate ids whose index is up to date,
the index maps the id of every node of the path list to the place of that
node. -/
theorem index_locates (m : groupman_t) (hown : path_owned m) (hidx : index_current m)
    (hids : (path_ids m).Nodup) (sg : psupergroup_t) (g : pnodegroup_t) (nd : pnodedef_t)
    (hsg : sg ∈ m.path_sgl) (hg : g ∈ sg_groups m sg) (hnd : nd ∈ ng_nodes m g) :
    find_nodeid_loc m nd.nid = some (nodeloc_t.mk sg g nd) := by
  have hgp : g ∈ path_ngs m := (path_ngs_mem m g).mpr ⟨sg, hsg, hg⟩
  have hmem : nodeloc_t.mk sg g nd ∈ sgl_locs m m.path_sgl :=
    (mem_sgl_locs m m.path_sgl _).mpr ⟨hsg, hg, hnd⟩
  have hnone : map_find nd.nid (index_of [] (sgl_locs m m.path_sgl)) ≠ none := by
    intro h0
    exact (index_of_find nd.nid _).1.mp h0 _ hmem rfl
  obtain ⟨loc, hloc⟩ := Option.ne_none_iff_exists'.mp hnone
  obtain ⟨hl1, hl2⟩ := (index_of_find nd.nid _).2 loc hloc
  obtain ⟨a, b, c⟩ := (mem_sgl_locs m m.path_sgl loc).mp hl1
  have hndp : nd ∈ path_nds m := (path_nds_mem m nd).mpr ⟨g, hgp, hnd⟩
  have hlgp : loc.ng ∈ path_ngs m := (path_ngs_mem m _).mpr ⟨loc.sg, a, b⟩
  have hlp : loc.nd ∈ path_nds m := (path_nds_mem m loc.nd).mpr ⟨loc.ng, hlgp, c⟩
  have heq : loc.nd = nd := List.inj_on_of_nodup_map hids hlp hndp hl2
  have hN : (path_nds m).Nodup := List.Nodup.of_map _ hids
  have hgeq : loc.ng = g := nodup_flatMap_owner hN hlgp hgp (heq ▸ c) hnd
  have hseq : loc.sg = sg := nodup_flatMap_owner hown.nodup_ng a hsg b (hgeq ▸ hg)
  rw [hidx nd.nid, hloc]
  cases loc
  simp only at heq hgeq hseq
  rw [heq, hgeq, hseq]

theorem perm_list_remove_concat {α : Type} [DecidableEq α] (l : List α) (x : α)
    (hl : l.Nodup) (hx : x ∈ l) : (list_remove l x ++ [x]).Perm l := by
  rw [List.perm_iff_count]
  intro z
  unfold list_remove
  rw [List.count_append]
  by_cases hz : z = x
  · subst hz
    have h0 : List.count z (List.filter (fun y => !decide (y = z)) l) = 0 := by
      rw [List.count_eq_zero]; simp
    rw [h0, List.count_eq_one_of_mem hl hx]
    simp
  · have h0 : List.count z [x] = 0 := by
      rw [List.count_eq_zero]; simpa using hz
    rw [h0, List.count_filter (by simpa using hz)]
    rfl
/-! ## One iteration of `move_nodes_to_ng` -/

/-- The effect of one iteration of the loop of `move_nodes_to_ng` once the new
group `p` exists, when the location found names a live group and a live super
group. -/
theorem move_nodes_step_eq (s0 : psupergroup_t) (p : pnodegroup_t) (m : groupman_t)
    (nd0 : pnodedef_t) (loc : nodeloc_t) (G done : nodegroup_t) (s : supergroup_t)
    (hloc : find_nodeid_loc m nd0.nid = some loc) (hg : m.ngs loc.ng = some G)
    (hp : m.ngs p = some done) (hpne : p ≠ loc.ng) (hs : m.sgs loc.sg = some s) :
    move_nodes_step { sg0 := some s0, new_ng := some p, m := m } nd0
      = some { sg0 := some s0, new_ng := some p, m := after_move m p loc G done s } := by
  unfold after_move
  by_cases h1 : list_remove G loc.nd = []
  · by_cases h2 : list_remove s.groups loc.ng = []
    · simp [move_nodes_step, hloc, hg, h1, hs, h2, Function.update_noteq hpne, hp, add_node]
    · simp [move_nodes_step, hloc, hg, h1, hs, h2, Function.update_noteq hpne, hp, add_node]
  · simp [move_nodes_step, hloc, hg, h1, Function.update_noteq hpne, hp, add_node]

theorem after_move_frame (m : groupman_t) (p : pnodegroup_t) (loc : nodeloc_t)
    (G done : nodegroup_t) (s : supergroup_t) :
    (after_move m p loc G done s).nid2loc = m.nid2loc ∧
    (after_move m p loc G done s).similar_sgl = m.similar_sgl ∧
    (after_move m p loc G done s).all_nodes = m.all_nodes ∧
    (after_move m p loc G done s).brk = m.brk := by
  unfold after_move
  split
  · split <;> exact ⟨rfl, rfl, rfl, rfl⟩
  · exact ⟨rfl, rfl, rfl, rfl⟩

theorem after_move_ngs (m : groupman_t) (p : pnodegroup_t) (loc : nodeloc_t)
    (G done : nodegroup_t) (s : supergroup_t) (x : pnodegroup_t) :
    (after_move m p loc G done s).ngs x
      = if x = p then some (done ++ [loc.nd])
        else if x = loc.ng then
          (if list_remove G loc.nd = [] then none else some (list_remove G loc.nd))
        else m.ngs x := by
  unfold after_move
  by_cases hx1 : x = p
  · subst hx1
    split
    · split <;> simp
    · simp
  · by_cases hx2 : x = loc.ng
    · subst hx2
      split
      · split <;> simp [Function.update_noteq hx1]
      · simp [Function.update_noteq hx1]
    · split
      · split <;> simp [Function.update_noteq hx1, Function.update_noteq hx2, hx1, hx2]
      · simp [Function.update_noteq hx1, Function.update_noteq hx2, hx1, hx2]

theorem after_move_sgs (m : groupman_t) (p : pnodegroup_t) (loc : nodeloc_t)
    (G done : nodegroup_t) (s : supergroup_t) (x : psupergroup_t) :
    (after_move m p loc G done s).sgs x
      = if x = loc.sg ∧ list_remove G loc.nd = [] then
          (if list_remove s.groups loc.ng = [] then none
           else some { s with groups := list_remove s.groups loc.ng })
        else m.sgs x := by
  unfold after_move
  by_cases hx : x = loc.sg
  · subst hx
    split
    · split <;> simp [*]
    · simp [*]
  · split
    · split <;> simp [Function.update_noteq hx, hx]
    · simp [hx]

theorem after_move_path (m : groupman_t) (p : pnodegroup_t) (loc : nodeloc_t)
    (G done : nodegroup_t) (s : supergroup_t) :
    (after_move m p loc G done s).path_sgl
      = if list_remove G loc.nd = [] ∧ list_remove s.groups loc.ng = [] then
          list_remove m.path_sgl loc.sg
        else m.path_sgl := by
  unfold after_move
  split
  · split <;> simp [*]
  · simp [*]

/-- The nodes of the groups after one iteration of the loop of
`move_nodes_to_ng`. -/
theorem after_move_nodes (m : groupman_t) (p : pnodegroup_t) (loc : nodeloc_t)
    (G done : nodegroup_t) (s : supergroup_t) (x : pnodegroup_t) :
    ng_nodes (after_move m p loc G done s) x
      = if x = p then done ++ [loc.nd]
        else if x = loc.ng then list_remove G loc.nd
        else ng_nodes m x := by
  unfold ng_nodes
  rw [after_move_ngs]
  by_cases hx1 : x = p
  · simp [hx1]
  · by_cases hx2 : x = loc.ng
    · subst hx2
      by_cases h : list_remove G loc.nd = [] <;> simp [hx1, h]
    · simp [hx1, hx2]

/-- The groups of the super groups after one iteration of the loop of
`move_nodes_to_ng`. -/
theorem after_move_groups (m : groupman_t) (p : pnodegroup_t) (loc : nodeloc_t)
    (G done : nodegroup_t) (s : supergroup_t) (hs : m.sgs loc.sg = some s)
    (x : psupergroup_t) :
    sg_groups (after_move m p loc G done s) x
      = if x = loc.sg ∧ list_remove G loc.nd = [] then list_remove (sg_groups m x) loc.ng
        else sg_groups m x := by
  unfold sg_groups
  rw [after_move_sgs]
  by_cases hx : x = loc.sg ∧ list_remove G loc.nd = []
  · obtain ⟨hx1, hx2⟩ := hx
    subst hx1
    by_cases h : list_remove s.groups loc.ng = [] <;> simp [hx2, h, hs]
  · simp [hx]
theorem getLast?_list_remove {α : Type} [DecidableEq α] (l : List α) (p x : α)
    (h : l.getLast? = some p) (hpx : p ≠ x) : (list_remove l x).getLast? = some p := by
  obtain ⟨ys, rfl⟩ := List.getLast?_eq_some_iff.mp h
  unfold list_remove
  rw [List.filter_append]
  have : List.filter (fun y => !decide (y = x)) [p] = [p] := by
    simp [List.filter_cons, hpx]
  rw [this, List.getLast?_concat]

theorem move_inv_step (m0 m : groupman_t) (s0 : psupergroup_t) (p : pnodegroup_t)
    (done : List pnodedef_t) (nd : pnodedef_t) (hN0 : (path_nds m0).Nodup)
    (inv : move_inv m0 s0 p done m) (hnd : nd ∈ path_nds m0) (hnot : nd ∉ done) :
    ∃ m1, move_nodes_step { sg0 := some s0, new_ng := some p, m := m } nd
        = some { sg0 := some s0, new_ng := some p, m := m1 } ∧
      move_inv m0 s0 p (done ++ [nd]) m1 := by
  obtain ⟨loc, hloc, hlnd, hlsg, hlng, hmem, hpne⟩ := inv.located nd hnd hnot
  obtain ⟨s, hs, hsg⟩ := path_owned_live_sg inv.owned hlsg
  have hngp : loc.ng ∈ path_ngs m := (path_ngs_mem m _).mpr ⟨loc.sg, hlsg, hlng⟩
  obtain ⟨G, hG0, hGn⟩ := path_owned_live_ng inv.owned hngp
  have hstep := move_nodes_step_eq s0 p m nd loc G done s hloc hG0 inv.newg
    (fun e => hpne e.symm) hs
  obtain ⟨f1, f2, f3, f4⟩ := after_move_frame m p loc G done s
  have hN := after_move_nodes m p loc G done s
  have hG := after_move_groups m p loc G done s hs
  have hP := after_move_path m p loc G done s
  have hA := after_move_ngs m p loc G done s
  have hS := after_move_sgs m p loc G done s
  generalize after_move m p loc G done s = m1 at hstep f1 f2 f3 f4 hN hG hP hA hS
  rw [hlnd] at hN hA
  rw [← hsg] at hP
  have hNm : (path_nds m).Nodup := (inv.perm.nodup_iff).mpr hN0
  have hGnd : G.Nodup := by
    rw [← hGn]
    have := (List.nodup_flatMap.mp hNm).1 loc.ng hngp
    exact this
  have hndG : nd ∈ G := hGn ▸ hmem
  have hp_last : p ∈ sg_groups m s0 := List.mem_of_getLast?_eq_some inv.last
  have hp_path : p ∈ path_ngs m := (path_ngs_mem m p).mpr ⟨s0, inv.home, hp_last⟩
  have hpd : ng_nodes m p = done := by simp [ng_nodes, inv.newg]
  -- the groups of the path list
  have hngs1 : path_ngs m1 = if list_remove G nd = [] then list_remove (path_ngs m) loc.ng
      else path_ngs m := by
    by_cases hE : list_remove G nd = []
    · rw [if_pos hE]
      rw [hlnd] at hG hP
      apply path_ngs_remove m m1 loc.sg loc.ng inv.owned.nodup_ng hlsg hlng
      · intro x; rw [hG]; simp [hE]
      · rw [hP]; simp [hE]
    · rw [if_neg hE]
      rw [hlnd] at hG hP
      unfold path_ngs
      rw [hP]
      simp only [hE, false_and, if_false]
      apply List.flatMap_congr
      intro x _
      rw [hG]; simp [hE]
  rw [hlnd] at hG hP hS
  have hsub_ng : ∀ g ∈ path_ngs m1, g ∈ path_ngs m := by
    intro g hg
    rw [hngs1] at hg
    split at hg
    · exact ((mem_list_remove _ _ _).mp hg).1
    · exact hg
  have hsub_sg : ∀ x ∈ m1.path_sgl, x ∈ m.path_sgl := by
    intro x hx
    rw [hP] at hx
    split at hx
    · exact ((mem_list_remove _ _ _).mp hx).1
    · exact hx
  have hGsub : ∀ x g, g ∈ sg_groups m1 x → g ∈ sg_groups m x := by
    intro x g hg
    rw [hG] at hg
    split at hg
    · exact ((mem_list_remove _ _ _).mp hg).1
    · exact hg
  have hkeep : ∀ g ∈ path_ngs m1, g = loc.ng → list_remove G nd ≠ [] := by
    intro g hg hgl hE
    rw [hngs1, if_pos hE, mem_list_remove] at hg
    exact hg.2 hgl
  have hhome : s0 ∈ m1.path_sgl := by
    rw [hP]
    split
    · rename_i hc
      rw [mem_list_remove]
      refine ⟨inv.home, ?_⟩
      intro e
      have : p ∈ list_remove (sg_groups m loc.sg) loc.ng := by
        rw [mem_list_remove]
        exact ⟨e ▸ hp_last, fun e2 => hpne e2.symm⟩
      rw [hc.2] at this
      cases this
    · exact inv.home
  refine ⟨m1, hstep, ?_⟩
  refine
    { owned := ⟨?_, ?_, ?_⟩, idx := f1.trans inv.idx, sim := f2.trans inv.sim,
      reg := f3.trans inv.reg, home := hhome, last := ?_, newg := ?_, perm := ?_,
      located := ?_, sub_sg := fun x hx => inv.sub_sg x (hsub_sg x hx), sub_ng := ?_,
      empty_ng := ?_, empty_sg := ?_ }
  · -- nodup_sg
    rw [hP]
    split
    · exact inv.owned.nodup_sg.filter _
    · exact inv.owned.nodup_sg
  · -- live
    intro x hx
    have hx' := hsub_sg x hx
    constructor
    · rw [hS]
      split
      · rename_i hc
        split
        · rename_i hc2
          exfalso
          rw [hP, hsg, if_pos ⟨hc.2, hc2⟩, mem_list_remove] at hx
          exact hx.2 hc.1
        · rfl
      · exact (inv.owned.live x hx').1
    · intro g hg
      have hg' := hGsub x g hg
      have hgp1 : g ∈ path_ngs m1 := (path_ngs_mem m1 g).mpr ⟨x, hx, hg⟩
      rw [hA]
      split
      · rfl
      · split
        · rename_i hgl
          rw [if_neg (hkeep g hgp1 hgl)]
          rfl
        · exact (inv.owned.live x hx').2 g hg'
  · -- nodup_ng
    rw [hngs1]
    split
    · exact inv.owned.nodup_ng.filter _
    · exact inv.owned.nodup_ng
  · -- last
    rw [hG]
    split
    · rename_i hc
      exact getLast?_list_remove _ p loc.ng inv.last (fun e => hpne e.symm)
    · exact inv.last
  · -- newg
    rw [hA, if_pos rfl]
  · -- perm
    refine List.Perm.trans ?_ inv.perm
    have e1 : path_nds m1 = (path_ngs m).flatMap (ng_nodes m1) := by
      unfold path_nds
      rw [hngs1]
      split
      · rename_i hE
        apply flatMap_list_remove_nil
        rw [hN, if_neg hpne, if_pos rfl, hE]
      · rfl
    rw [e1]
    unfold path_nds
    apply perm_flatMap_transfer (ng_nodes m) (ng_nodes m1) loc.ng p [nd] hpne
    · rw [hN, if_neg hpne, if_pos rfl, hGn]
      exact perm_list_remove_concat G nd hGnd hndG
    · rw [hN, if_pos rfl, hpd]
    · intro c hc1 hc2
      rw [hN, if_neg hc2, if_neg hc1]
    · exact inv.owned.nodup_ng
    · exact hngp
    · exact hp_path
  · -- located
    intro nd1 hnd1 hnot1
    have hne1 : nd1 ≠ nd := fun e => hnot1 (by simp [e])
    have hnot1' : nd1 ∉ done := fun e => hnot1 (by simp [e])
    obtain ⟨l1, hl1, hl2, hl3, hl4, hl5, hl6⟩ := inv.located nd1 hnd1 hnot1'
    have hfind : find_nodeid_loc m1 nd1.nid = some l1 := by
      unfold find_nodeid_loc at hl1 ⊢
      rw [f1]; exact hl1
    have hmem1 : nd1 ∈ ng_nodes m1 l1.ng := by
      rw [hN, if_neg hl6]
      split
      · rename_i hc
        rw [mem_list_remove]
        refine ⟨?_, hne1⟩
        rw [← hGn, ← hc]; exact hl5
      · exact hl5
    have hgrp1 : l1.ng ∈ sg_groups m1 l1.sg := by
      rw [hG]
      split
      · rename_i hc
        rw [mem_list_remove]
        refine ⟨hl4, ?_⟩
        intro e
        rw [hN, if_neg hl6, if_pos e, hc.2] at hmem1
        cases hmem1
      · exact hl4
    refine ⟨l1, hfind, hl2, ?_, hgrp1, hmem1, hl6⟩
    rw [hP]
    split
    · rename_i hc
      rw [mem_list_remove]
      refine ⟨hl3, ?_⟩
      intro e
      rw [hG, if_pos ⟨e, hc.1⟩, e, hc.2] at hgrp1
      cases hgrp1
    · exact hl3
  · -- sub_ng
    intro g hg hgp
    exact inv.sub_ng g (hsub_ng g hg) hgp
  · -- empty_ng
    intro g hg hgp hemp
    rw [hN, if_neg hgp] at hemp
    split at hemp
    · rename_i hgl
      exact absurd hemp (hkeep g hg hgl)
    · exact inv.empty_ng g (hsub_ng g hg) hgp hemp
  · -- empty_sg
    intro x hx hemp
    rw [hG] at hemp
    split at hemp
    · rename_i hc
      exfalso
      rw [hP, if_pos ⟨hc.2, hc.1 ▸ hemp⟩, mem_list_remove] at hx
      exact hx.2 hc.1
    · exact inv.empty_sg x (hsub_sg x hx) hemp
/-! ## The first iteration of `move_nodes_to_ng` -/

theorem move_nodes_step_first (m0 : groupman_t) (nd : pnodedef_t) (loc : nodeloc_t)
    (s : supergroup_t) (hloc : find_nodeid_loc m0 nd.nid = some loc)
    (hs : m0.sgs loc.sg = some s) :
    move_nodes_step { sg0 := none, new_ng := none, m := m0 } nd
      = move_nodes_step { sg0 := some loc.sg, new_ng := some m0.brk,
                          m := with_new_group m0 loc.sg s } nd := by
  have hloc' : find_nodeid_loc (with_new_group m0 loc.sg s) nd.nid = some loc := hloc
  simp only [move_nodes_step, hloc, hloc', hs, Option.bind_eq_bind, Option.some_bind,
    Option.pure_def]
  rfl

theorem perm_flatMap_insert {α β : Type} [DecidableEq α] (f : α → List β) (a : α) (y : β) :
    ∀ l : List α, l.Nodup → a ∈ l →
      (l.flatMap (fun x => if x = a then f x ++ [y] else f x)).Perm (y :: l.flatMap f) := by
  intro l
  induction l with
  | nil => intro _ h; cases h
  | cons c r ih =>
    intro hnd ha
    have hcr : c ∉ r := (List.nodup_cons.mp hnd).1
    simp only [List.flatMap_cons]
    by_cases hc : c = a
    · subst hc
      have hr : r.flatMap (fun x => if x = c then f x ++ [y] else f x) = r.flatMap f := by
        apply List.flatMap_congr
        intro x hx
        have hxc : x ≠ c := fun e => hcr (by rw [← e]; exact hx)
        rw [if_neg hxc]
      rw [if_pos rfl, hr, List.append_assoc]
      exact List.perm_middle
    · have har : a ∈ r := by
        rcases List.mem_cons.mp ha with h | h
        · exact absurd h.symm hc
        · exact h
      rw [if_neg hc]
      refine List.Perm.trans (List.Perm.append_left _ (ih (List.nodup_cons.mp hnd).2 har)) ?_
      exact List.perm_middle

theorem with_new_group_groups (m : groupman_t) (sg : psupergroup_t) (s : supergroup_t)
    (hs : m.sgs sg = some s) (x : psupergroup_t) :
    sg_groups (with_new_group m sg s) x
      = if x = sg then sg_groups m x ++ [m.brk] else sg_groups m x := by
  unfold sg_groups with_new_group
  by_cases hx : x = sg
  · subst hx
    simp [hs]
  · simp [Function.update_noteq hx, hx]

theorem with_new_group_nodes (m : groupman_t) (sg : psupergroup_t) (s : supergroup_t)
    (hfresh : m.ngs m.brk = none) (x : pnodegroup_t) :
    ng_nodes (with_new_group m sg s) x = ng_nodes m x := by
  unfold ng_nodes with_new_group
  by_cases hx : x = m.brk
  · subst hx
    simp [hfresh]
  · simp [Function.update_noteq hx]

theorem fresh_not_in_path (m : groupman_t) (hown : path_owned m)
    (hfresh : m.ngs m.brk = none) : m.brk ∉ path_ngs m := by
  intro h
  obtain ⟨l, hl, -⟩ := path_owned_live_ng hown h
  rw [hfresh] at hl
  cases hl

theorem move_inv_init (m0 : groupman_t) (s0 : psupergroup_t) (s : supergroup_t)
    (hown : path_owned m0) (hfresh : m0.ngs m0.brk = none) (hidx : index_current m0)
    (hids : (path_ids m0).Nodup) (hs0 : s0 ∈ m0.path_sgl) (hs : m0.sgs s0 = some s) :
    move_inv m0 s0 m0.brk [] (with_new_group m0 s0 s) := by
  have hG := with_new_group_groups m0 s0 s hs
  have hN := with_new_group_nodes m0 s0 s hfresh
  have hp := fresh_not_in_path m0 hown hfresh
  have hP : (with_new_group m0 s0 s).path_sgl = m0.path_sgl := rfl
  have hngs : path_ngs (with_new_group m0 s0 s)
      = m0.path_sgl.flatMap (fun x => if x = s0 then sg_groups m0 x ++ [m0.brk]
          else sg_groups m0 x) := by
    unfold path_ngs
    rw [hP]
    apply List.flatMap_congr
    intro x _
    exact hG x
  have hperm := perm_flatMap_insert (sg_groups m0) s0 m0.brk m0.path_sgl hown.nodup_sg hs0
  have hmem_ngs : ∀ g, g ∈ path_ngs (with_new_group m0 s0 s) ↔ g = m0.brk ∨ g ∈ path_ngs m0 := by
    intro g
    rw [hngs, hperm.mem_iff]
    simp [path_ngs]
  have hnds : path_nds (with_new_group m0 s0 s) = path_nds m0 := by
    unfold path_nds
    rw [hngs]
    have : ng_nodes (with_new_group m0 s0 s) = ng_nodes m0 := funext hN
    rw [this]
    unfold path_ngs
    simp only [List.flatMap_assoc]
    apply List.flatMap_congr
    intro x _
    split
    · simp [List.flatMap_append, ng_nodes, hfresh]
    · rfl
  refine
    { owned := ⟨hown.nodup_sg, ?_, ?_⟩, idx := rfl, sim := rfl, reg := rfl, home := hs0,
      last := ?_, newg := ?_, perm := by rw [hnds], located := ?_,
      sub_sg := fun x hx => hx, sub_ng := ?_, empty_ng := ?_, empty_sg := ?_ }
  · intro x hx
    constructor
    · unfold with_new_group
      by_cases hx0 : x = s0
      · subst hx0
        simp
      · simp only [Function.update_noteq hx0]
        exact (hown.live x hx).1
    · intro g hg
      unfold with_new_group
      by_cases hgp : g = m0.brk
      · subst hgp
        simp
      · simp only [Function.update_noteq hgp]
        rw [hG] at hg
        split at hg
        · rcases List.mem_append.mp hg with h | h
          · exact (hown.live x hx).2 g h
          · exact absurd (List.mem_singleton.mp h) hgp
        · exact (hown.live x hx).2 g hg
  · rw [hngs, hperm.nodup_iff, List.nodup_cons]
    exact ⟨hp, hown.nodup_ng⟩
  · rw [hG, if_pos rfl, List.getLast?_concat]
  · simp [with_new_group]
  · intro nd hnd _
    obtain ⟨g, hg, hndg⟩ := (path_nds_mem m0 nd).mp hnd
    obtain ⟨sg, hsg, hgs⟩ := (path_ngs_mem m0 g).mp hg
    have hl := index_locates m0 hown hidx hids sg g nd hsg hgs hndg
    refine ⟨_, hl, rfl, hsg, ?_, ?_, ?_⟩
    · show g ∈ sg_groups (with_new_group m0 s0 s) sg
      rw [hG]
      split
      · exact List.mem_append_left _ hgs
      · exact hgs
    · show nd ∈ ng_nodes (with_new_group m0 s0 s) g
      rw [hN]; exact hndg
    · show g ≠ m0.brk
      intro e
      exact hp (e ▸ hg)
  · intro g hg hgp
    rcases (hmem_ngs g).mp hg with h | h
    · exact absurd h hgp
    · exact h
  · intro g _ _ hemp
    rw [hN] at hemp
    exact hemp
  · intro x _ hemp
    rw [hG] at hemp
    split at hemp
    · simp at hemp
    · exact hemp

theorem move_inv_loop (m0 : groupman_t) (s0 : psupergroup_t) (p : pnodegroup_t)
    (hN0 : (path_nds m0).Nodup) :
    ∀ (l : List pnodedef_t) (m : groupman_t) (done : List pnodedef_t),
      move_inv m0 s0 p done m → l.Nodup → (∀ nd ∈ l, nd ∉ done) →
      (∀ nd ∈ l, nd ∈ path_nds m0) →
      ∃ m1, l.foldlM move_nodes_step { sg0 := some s0, new_ng := some p, m := m }
          = some { sg0 := some s0, new_ng := some p, m := m1 } ∧
        move_inv m0 s0 p (done ++ l) m1 := by
  intro l
  induction l with
  | nil =>
    intro m done inv _ _ _
    exact ⟨m, rfl, by simpa using inv⟩
  | cons nd r ih =>
    intro m done inv hnd hnot hin
    obtain ⟨m1, hstep, inv1⟩ := move_inv_step m0 m s0 p done nd hN0 inv
      (hin nd (List.mem_cons_self _ _)) (hnot nd (List.mem_cons_self _ _))
    have hnot1 : ∀ x ∈ r, x ∉ done ++ [nd] := by
      intro x hx hmem
      rcases List.mem_append.mp hmem with h | h
      · exact hnot x (List.mem_cons_of_mem _ hx) h
      · exact (List.nodup_cons.mp hnd).1 (List.mem_singleton.mp h ▸ hx)
    obtain ⟨m2, h2, inv2⟩ := ih m1 (done ++ [nd]) inv1 (List.nodup_cons.mp hnd).2 hnot1
      (fun x hx => hin x (List.mem_cons_of_mem _ hx))
    rw [List.foldlM_cons, hstep]
    exact ⟨m2, h2, by simpa using inv2⟩

/-- The run of `move_nodes_to_ng` on distinct nodes of the path list of a
well-formed state without duplicate ids: the call returns the new group
`m.brk`, added to the super group `s0` of the first node, and the state before
the final index rebuild is related to the initial state by `move_inv`. -/
theorem move_nodes_run (m : groupman_t) (nd : pnodedef_t) (rest : List pnodedef_t)
    (hown : path_owned m) (hfresh : m.ngs m.brk = none) (hidx : index_current m)
    (hids : (path_ids m).Nodup) (hnd : (nd :: rest).Nodup)
    (hin : ∀ x ∈ nd :: rest, x ∈ path_nds m) :
    ∃ s0 g0 m1, s0 ∈ m.path_sgl ∧ g0 ∈ sg_groups m s0 ∧ nd ∈ ng_nodes m g0 ∧
      move_inv m s0 m.brk (nd :: rest) m1 ∧
      move_nodes_to_ng m (nd :: rest) = some (some m.brk,
        { m1 with nid2loc := index_of [] (sgl_locs m1 m1.path_sgl) }) := by
  have hN0 : (path_nds m).Nodup := List.Nodup.of_map _ hids
  obtain ⟨g0, hg0, hndg⟩ := (path_nds_mem m nd).mp (hin nd (List.mem_cons_self _ _))
  obtain ⟨s0, hs0, hgs⟩ := (path_ngs_mem m g0).mp hg0
  obtain ⟨s, hs, -⟩ := path_owned_live_sg hown hs0
  have hl := index_locates m hown hidx hids s0 g0 nd hs0 hgs hndg
  have inv0 := move_inv_init m s0 s hown hfresh hidx hids hs0 hs
  obtain ⟨m1, hloop, inv1⟩ := move_inv_loop m s0 m.brk hN0 (nd :: rest)
    (with_new_group m s0 s) [] inv0 hnd (by simp) hin
  simp only [List.nil_append] at inv1
  refine ⟨s0, g0, m1, hs0, hgs, hndg, inv1, ?_⟩
  have hfirst := move_nodes_step_first m nd _ s hl hs
  simp only at hfirst
  rw [List.foldlM_cons] at hloop
  have hinit := (initialize_lookups_iff m1 _).mpr ⟨inv1.owned.live, rfl⟩
  simp only [move_nodes_to_ng, List.foldlM_cons, hfirst, hloop, Option.bind_eq_bind,
    Option.some_bind, hinit, Option.pure_def]
/-! ## `move_nodes_to_ng`: the specified properties -/

/-- C3 (amended): for a state whose path list owns its groups, carries no node
id twice and has an up-to-date index, and a non-empty collection of distinct
NodeDefs of the path list, `move_nodes_to_ng` returns a new group `p` that is
the last group of the super group `s0` which owned the first input node; `p`
holds exactly the input nodes in input order, and no input node is left in
another group of the path list. -/
theorem move_nodes_to_ng_collects (m : groupman_t) (nds : List pnodedef_t)
    (hown : path_owned m) (hfresh : m.ngs m.brk = none) (hidx : index_current m)
    (hids : (path_ids m).Nodup) (hne : nds ≠ []) (hnd : nds.Nodup)
    (hin : ∀ x ∈ nds, x ∈ path_nds m) :
    ∃ p m1 s0 g0 first, move_nodes_to_ng m nds = some (some p, m1) ∧
      nds.head? = some first ∧ s0 ∈ m.path_sgl ∧ g0 ∈ sg_groups m s0 ∧
      first ∈ ng_nodes m g0 ∧ p ∉ path_ngs m ∧
      s0 ∈ m1.path_sgl ∧ (sg_groups m1 s0).getLast? = some p ∧
      ng_nodes m1 p = nds ∧
      ∀ g ∈ path_ngs m1, g ≠ p → ∀ x ∈ nds, x ∉ ng_nodes m1 g := by
  cases nds with
  | nil => exact absurd rfl hne
  | cons nd rest =>
    obtain ⟨s0, g0, m1, hs0, hg0, hndg, inv, hrun⟩ :=
      move_nodes_run m nd rest hown hfresh hidx hids hnd hin
    refine ⟨m.brk, _, s0, g0, nd, hrun, rfl, hs0, hg0, hndg,
      fresh_not_in_path m hown hfresh, inv.home, inv.last, ?_, ?_⟩
    · show ng_nodes m1 m.brk = nd :: rest
      simp [ng_nodes, inv.newg]
    · intro g hg hgp x hx hxg
      have hN1 : (path_nds m1).Nodup :=
        (inv.perm.nodup_iff).mpr (List.Nodup.of_map _ hids)
      have hp : m.brk ∈ path_ngs m1 :=
        (path_ngs_mem m1 _).mpr ⟨s0, inv.home, List.mem_of_getLast?_eq_some inv.last⟩
      have hxp : x ∈ ng_nodes m1 m.brk := by
        simp only [ng_nodes, inv.newg]
        exact hx
      exact hgp (nodup_flatMap_owner hN1 hg hp hxg hxp)

theorem move_nodes_to_ng_collects_witness :
    ∃ p m1 s0 g0 first,
      move_nodes_to_ng state_two [sample_nd 10 1 0 16, sample_nd 12 3 32 48]
        = some (some p, m1) ∧
      [sample_nd 10 1 0 16, sample_nd 12 3 32 48].head? = some first ∧
      s0 ∈ state_two.path_sgl ∧ g0 ∈ sg_groups state_two s0 ∧
      first ∈ ng_nodes state_two g0 ∧ p ∉ path_ngs state_two ∧
      s0 ∈ m1.path_sgl ∧ (sg_groups m1 s0).getLast? = some p ∧
      ng_nodes m1 p = [sample_nd 10 1 0 16, sample_nd 12 3 32 48] ∧
      ∀ g ∈ path_ngs m1, g ≠ p →
        ∀ x ∈ [sample_nd 10 1 0 16, sample_nd 12 3 32 48], x ∉ ng_nodes m1 g :=
  move_nodes_to_ng_collects state_two [sample_nd 10 1 0 16, sample_nd 12 3 32 48]
    (by decide) (by decide) (index_current_of_eq _ (by decide)) (by decide) (by decide)
    (by decide) (by decide)

/-- C3, as stated, fails when two NodeDefs of the path list carry the same id:
in `state_dup` the claim's hypotheses hold for the input consisting of the
node at address 10, owned by group `2` of super group `0`; the call returns
the new group `12`, which is put into super group `1`, holds the node at
address 11 instead, and the input node is still in group `2`. -/
theorem move_nodes_to_ng_duplicate_ids :
    path_owned state_dup ∧ state_dup.ngs state_dup.brk = none ∧ index_current state_dup ∧
    [sample_nd 10 1 0 1].Nodup ∧ (∀ x ∈ [sample_nd 10 1 0 1], x ∈ path_nds state_dup) ∧
    sample_nd 10 1 0 1 ∈ ng_nodes state_dup 2 ∧ 2 ∈ sg_groups state_dup 0 ∧
    (move_nodes_to_ng state_dup [sample_nd 10 1 0 1]).map
        (fun r => (r.1, r.2.path_sgl, sg_groups r.2 0, sg_groups r.2 1))
      = some (some 12, [0, 1], [2], [12]) ∧
    (move_nodes_to_ng state_dup [sample_nd 10 1 0 1]).map
        (fun r => (ng_nodes r.2 12, ng_nodes r.2 2))
      = some ([sample_nd 11 1 0 1], [sample_nd 10 1 0 1]) :=
  ⟨by decide, by decide, index_current_of_eq _ (by decide), by decide, by decide, by decide,
    by decide, by decide, by decide⟩

/-! ## The partition invariant under `combine_ngl` and `move_nodes_to_ng` -/

theorem partition_inv_of_perm (m m1 : groupman_t) (hreg : m1.all_nodes = m.all_nodes)
    (hperm : (path_nds m1).Perm (path_nds m)) (h : partition_inv m) : partition_inv m1 := by
  intro e he
  rw [hreg] at he
  have : (path_ids m1).Perm (path_ids m) := hperm.map _
  rw [this.count_eq]
  exact h e he

/-! ## `combine_ngl` without any assumption on the ids -/

/-- The groups of the path list after one iteration of the loop of
`combine_ngl`, whatever super group the location found names: the group `ng`
may have left the path list, and nothing else has changed. -/
theorem path_ngs_after_step (m m1 : groupman_t) (s0 : psupergroup_t) (ng : pnodegroup_t)
    (hnd : (path_ngs m).Nodup)
    (hG : ∀ x, sg_groups m1 x = if x = s0 then list_remove (sg_groups m x) ng
      else sg_groups m x)
    (hP : m1.path_sgl = (if list_remove (sg_groups m s0) ng = [] then
      list_remove m.path_sgl s0 else m.path_sgl)) :
    path_ngs m1 = list_remove (path_ngs m) ng ∨ path_ngs m1 = path_ngs m := by
  by_cases hs0 : s0 ∈ m.path_sgl
  · by_cases hng : ng ∈ sg_groups m s0
    · exact Or.inl (path_ngs_remove m m1 s0 ng hnd hs0 hng hG hP)
    · right
      have hrem : list_remove (sg_groups m s0) ng = sg_groups m s0 :=
        list_remove_of_not_mem _ _ hng
      have hG1 : ∀ x, sg_groups m1 x = sg_groups m x := by
        intro x
        rw [hG]
        split
        · rename_i he; rw [he, hrem]
        · rfl
      have hfun : sg_groups m1 = sg_groups m := funext hG1
      unfold path_ngs
      rw [hP, hfun, hrem]
      split
      · rename_i he
        exact flatMap_list_remove_nil (sg_groups m) s0 he m.path_sgl
      · rfl
  · right
    have hP1 : m1.path_sgl = m.path_sgl := by
      rw [hP]
      split
      · exact list_remove_of_not_mem _ _ hs0
      · rfl
    unfold path_ngs
    rw [hP1]
    apply List.flatMap_congr
    intro x hx
    have hxs : x ≠ s0 := fun e => hs0 (by rw [← e]; exact hx)
    rw [hG, if_neg hxs]

/-- One iteration of the loop of `combine_ngl` keeps `merge_inv`. -/
theorem merge_inv_step (m0 m : groupman_t) (d ng : pnodegroup_t)
    (hown0 : path_owned m0) (hidx0 : index_current m0) (inv : merge_inv m0 d m)
    (hng0 : ng ∈ path_ngs m0) :
    ∃ m1, combine_ngl_step d m ng = some m1 ∧ merge_inv m0 d m1 := by
  by_cases hne : ng = d
  · exact ⟨m, by simp [combine_ngl_step, hne], inv⟩
  · -- the source group is live
    obtain ⟨src0, hsrc0, -⟩ := path_owned_live_ng hown0 hng0
    have hlive : (m.ngs ng).isSome = true := by rw [inv.live_ng, hsrc0]; rfl
    obtain ⟨src, hsrc⟩ := Option.isSome_iff_exists.mp hlive
    have hnodes : ng_nodes m ng = src := by simp [ng_nodes, hsrc]
    cases src with
    | nil =>
      exact ⟨m, by simp [combine_ngl_step, hne, hsrc], inv⟩
    | cons nd rest =>
      -- the group has kept its nodes, and it is still in the path list
      have hsame : ng_nodes m ng = ng_nodes m0 ng := by
        rcases inv.nodes ng hne with h | h
        · exact h
        · rw [hnodes] at h; cases h
      have hngm : ng ∈ path_ngs m := by
        rcases inv.kept ng hng0 with h | h
        · exact h
        · rw [hnodes] at h; cases h
      -- the index of `m0` has an entry for the id of the first node
      have hnd0 : nd ∈ ng_nodes m0 ng := by
        rw [← hsame, hnodes]; exact List.mem_cons_self _ _
      obtain ⟨sg, hsg, hgs⟩ := (path_ngs_mem m0 ng).mp hng0
      have hmem : nodeloc_t.mk sg ng nd ∈ sgl_locs m0 m0.path_sgl :=
        (mem_sgl_locs m0 m0.path_sgl _).mpr ⟨hsg, hgs, hnd0⟩
      have hfind : find_nodeid_loc m nd.nid
          = map_find nd.nid (index_of [] (sgl_locs m0 m0.path_sgl)) := by
        rw [← hidx0 nd.nid]
        unfold find_nodeid_loc
        rw [inv.idx]
      have hnone : find_nodeid_loc m nd.nid ≠ none := by
        rw [hfind]
        intro h0
        exact (index_of_find nd.nid _).1.mp h0 _ hmem rfl
      obtain ⟨loc, hloc⟩ := Option.ne_none_iff_exists'.mp hnone
      have hloc0 : loc ∈ sgl_locs m0 m0.path_sgl := by
        rw [hfind] at hloc
        exact ((index_of_find nd.nid _).2 loc hloc).1
      obtain ⟨hl1, -, -⟩ := (mem_sgl_locs m0 m0.path_sgl loc).mp hloc0
      -- the super group found is live
      obtain ⟨s00, hs00, -⟩ := path_owned_live_sg hown0 hl1
      have hslive : (m.sgs loc.sg).isSome = true := by rw [inv.live_sg, hs00]; rfl
      obtain ⟨s, hs⟩ := Option.isSome_iff_exists.mp hslive
      have hsg_eq : sg_groups m loc.sg = s.groups := by simp [sg_groups, hs]
      -- the destination is live
      have hd0 : d ∈ path_ngs m0 := by
        obtain ⟨x, hx, hdx⟩ := (path_ngs_mem m d).mp inv.dest
        exact (path_ngs_mem m0 d).mpr ⟨x, inv.sub_path x hx, inv.sub_groups x d hdx⟩
      obtain ⟨dst0, hdst0, -⟩ := path_owned_live_ng hown0 hd0
      have hdlive : (m.ngs d).isSome = true := by rw [inv.live_ng, hdst0]; rfl
      obtain ⟨dst, hdst⟩ := Option.isSome_iff_exists.mp hdlive
      have hdn : ng_nodes m d = dst := by simp [ng_nodes, hdst]
      have hstep := combine_ngl_step_eq d ng m nd rest dst loc s hne hsrc hloc hdst hs
      generalize hm1 : ({ m with
        ngs := Function.update (Function.update m.ngs d (some (dst ++ nd :: rest))) ng (some [])
        sgs := Function.update m.sgs loc.sg (some { s with groups := list_remove s.groups ng })
        path_sgl := if list_remove s.groups ng = [] then list_remove m.path_sgl loc.sg
                    else m.path_sgl } : groupman_t) = m1 at hstep
      -- the views of the new state
      have hN : ∀ g, ng_nodes m1 g = if g = ng then [] else
          if g = d then ng_nodes m d ++ nd :: rest else ng_nodes m g := by
        intro g
        rw [← hm1, ng_nodes_update]
        by_cases h1 : g = ng
        · subst h1
          simp
        · by_cases h2 : g = d
          · subst h2
            simp [Function.update_noteq h1, hdn, h1]
          · simp [Function.update_noteq h1, Function.update_noteq h2, h1, h2, ng_nodes]
      have hLng : ∀ g, (m1.ngs g).isSome = (m.ngs g).isSome := by
        intro g
        rw [← hm1]
        by_cases h1 : g = ng
        · subst h1
          simp [hsrc]
        · by_cases h2 : g = d
          · subst h2
            simp [Function.update_noteq h1, hdst]
          · simp [Function.update_noteq h1, Function.update_noteq h2]
      have hLsg : ∀ x, (m1.sgs x).isSome = (m.sgs x).isSome := by
        intro x
        rw [← hm1]
        by_cases h1 : x = loc.sg
        · subst h1
          simp [hs]
        · simp [Function.update_noteq h1]
      have hG : ∀ x, sg_groups m1 x = if x = loc.sg then list_remove (sg_groups m x) ng
          else sg_groups m x := by
        intro x
        rw [← hm1, sg_groups_update]
        by_cases h1 : x = loc.sg
        · subst h1
          simp [hsg_eq]
        · simp [Function.update_noteq h1, h1, sg_groups]
      have hP : m1.path_sgl = (if list_remove (sg_groups m loc.sg) ng = [] then
          list_remove m.path_sgl loc.sg else m.path_sgl) := by
        rw [← hm1, hsg_eq]
      have hI : m1.nid2loc = m.nid2loc := by rw [← hm1]
      have hR : m1.all_nodes = m.all_nodes := by rw [← hm1]
      -- the groups of the path list
      have hPN := path_ngs_after_step m m1 loc.sg ng inv.nodup_ng hG hP
      have hmem : ∀ g, g ≠ ng → (g ∈ path_ngs m1 ↔ g ∈ path_ngs m) := by
        intro g hg
        rcases hPN with h | h
        · rw [h, mem_list_remove]
          exact ⟨fun x => x.1, fun x => ⟨x, hg⟩⟩
        · rw [h]
      have hnd1 : (path_ngs m1).Nodup := by
        rcases hPN with h | h
        · rw [h]; exact inv.nodup_ng.filter _
        · rw [h]; exact inv.nodup_ng
      have hflat : (path_ngs m1).flatMap (ng_nodes m1)
          = (path_ngs m).flatMap (ng_nodes m1) := by
        rcases hPN with h | h
        · rw [h]
          exact flatMap_list_remove_nil (ng_nodes m1) ng (by rw [hN, if_pos rfl]) _
        · rw [h]
      have hsubP : ∀ x ∈ m1.path_sgl, x ∈ m.path_sgl := by
        intro x hx
        rw [hP] at hx
        split at hx
        · exact ((mem_list_remove _ _ _).mp hx).1
        · exact hx
      have hsubG : ∀ x, ∀ g ∈ sg_groups m1 x, g ∈ sg_groups m x := by
        intro x g hg
        rw [hG] at hg
        split at hg
        · exact ((mem_list_remove _ _ _).mp hg).1
        · exact hg
      refine ⟨m1, hstep, ?_⟩
      refine ⟨hI.trans inv.idx, hR.trans inv.reg, fun g => (hLng g).trans (inv.live_ng g),
        fun x => (hLsg x).trans (inv.live_sg x),
        fun x hx => inv.sub_path x (hsubP x hx),
        fun x g hg => inv.sub_groups x g (hsubG x g hg),
        hnd1, (hmem d (fun e => hne e.symm)).mpr inv.dest, ?_, ?_, ?_⟩
      · -- the nodes of the path list are the same, up to their order
        refine List.Perm.trans ?_ inv.perm
        unfold path_nds
        rw [hflat]
        refine perm_flatMap_transfer (ng_nodes m) (ng_nodes m1) ng d (nd :: rest) hne ?_ ?_ ?_
          (path_ngs m) inv.nodup_ng hngm inv.dest
        · rw [hN, if_pos rfl, hnodes]
          exact List.Perm.refl _
        · rw [hN, if_neg (fun e => hne e.symm), if_pos rfl]
        · intro c h1 h2
          rw [hN, if_neg h1, if_neg h2]
      · intro g hg
        by_cases h1 : g = ng
        · right
          rw [h1, hN, if_pos rfl]
        · rcases inv.kept g hg with h | h
          · exact Or.inl ((hmem g h1).mpr h)
          · by_cases h2 : g = d
            · left
              rw [h2]
              exact (hmem d (fun e => hne e.symm)).mpr inv.dest
            · right
              rw [hN, if_neg h1, if_neg h2]
              exact h
      · intro g hg
        by_cases h1 : g = ng
        · right
          rw [h1, hN, if_pos rfl]
        · rw [hN, if_neg h1, if_neg hg]
          exact inv.nodes g hg

/-- The loop of `combine_ngl` keeps `merge_inv`. -/
theorem merge_inv_loop (m0 : groupman_t) (d : pnodegroup_t) (hown0 : path_owned m0)
    (hidx0 : index_current m0) :
    ∀ (l : List pnodegroup_t) (m : groupman_t), merge_inv m0 d m →
      (∀ g ∈ l, g ∈ path_ngs m0) →
      ∃ m1, l.foldlM (combine_ngl_step d) m = some m1 ∧ merge_inv m0 d m1 := by
  intro l
  induction l with
  | nil => intro m inv _; exact ⟨m, rfl, inv⟩
  | cons g r ih =>
    intro m inv hin
    obtain ⟨m1, hstep, inv1⟩ :=
      merge_inv_step m0 m d g hown0 hidx0 inv (hin g (List.mem_cons_self _ _))
    obtain ⟨m2, hloop, inv2⟩ := ih m1 inv1 (fun x hx => hin x (List.mem_cons_of_mem _ hx))
    refine ⟨m2, ?_, inv2⟩
    simp only [List.foldlM_cons, Option.bind_eq_bind, hstep, Option.some_bind, hloop]

/-- On a well-formed state with an up-to-date index, `combine_ngl` on groups
of the path list returns, and the NodeDefs of the path list are the same
afterwards, up to their order. -/
theorem combine_ngl_perm (m : groupman_t) (ngl : nodegroup_list_t)
    (hown : path_owned m) (hidx : index_current m) (hin : ∀ g ∈ ngl, g ∈ path_ngs m) :
    ∃ r m1, combine_ngl m ngl = some (r, m1) ∧ m1.all_nodes = m.all_nodes ∧
      (path_nds m1).Perm (path_nds m) := by
  cases ngl with
  | nil => exact ⟨none, m, rfl, rfl, List.Perm.refl _⟩
  | cons f l =>
    have hlive : ngl_live m.ngs (f :: l) := by
      intro g hg
      obtain ⟨x, hx, -⟩ := path_owned_live_ng hown (hin g hg)
      rw [hx]; rfl
    obtain ⟨d, hfb, -, hfirst⟩ := find_biggest_cons m.ngs f l hlive
    have hdm := first_biggest_mem hfirst
    have inv0 : merge_inv m d m :=
      ⟨rfl, rfl, fun _ => rfl, fun _ => rfl, fun _ h => h, fun _ _ h => h, hown.nodup_ng,
        hin d hdm, List.Perm.refl _, fun _ h => Or.inl h, fun _ _ => Or.inl rfl⟩
    obtain ⟨m1, hloop, inv1⟩ := merge_inv_loop m d hown hidx (f :: l) m inv0 hin
    have hlive1 : sgl_live m1 m1.path_sgl := by
      intro sg hsg
      obtain ⟨h1, h2⟩ := hown.live sg (inv1.sub_path sg hsg)
      refine ⟨by rw [inv1.live_sg]; exact h1, ?_⟩
      intro g hg
      rw [inv1.live_ng]
      exact h2 g (inv1.sub_groups sg g hg)
    have hinit := (initialize_lookups_iff m1 _).mpr ⟨hlive1, rfl⟩
    refine ⟨some d, { m1 with nid2loc := index_of [] (sgl_locs m1 m1.path_sgl) }, ?_,
      inv1.reg, inv1.perm⟩
    simp only [combine_ngl, hfb, Option.bind_eq_bind, Option.some_bind, hloop, hinit,
      Option.pure_def]

/-- C5 (amended): on a well-formed state with an up-to-date index in which
every node id of the registry occurs exactly once among the nodes of the path
list, `combine_ngl` on distinct groups of the path list returns, and so does
`move_nodes_to_ng` on distinct NodeDefs of the path list when no node id
occurs twice in the path list; afterwards every node id of the registry still
occurs exactly once among the nodes of the path list. -/
theorem partition_inv_preserved :
    (∀ (m : groupman_t) (ngl : nodegroup_list_t),
      path_owned m → index_current m → partition_inv m →
      ngl.Nodup → (∀ g ∈ ngl, g ∈ path_ngs m) →
      ∃ r m1, combine_ngl m ngl = some (r, m1) ∧ partition_inv m1) ∧
    (∀ (m : groupman_t) (nds : List pnodedef_t),
      path_owned m → m.ngs m.brk = none → index_current m → partition_inv m →
      (path_ids m).Nodup → nds.Nodup → (∀ x ∈ nds, x ∈ path_nds m) →
      ∃ r m1, move_nodes_to_ng m nds = some (r, m1) ∧ partition_inv m1) := by
  constructor
  · intro m ngl hown hidx hpart _ hin
    obtain ⟨r, m1, hrun, hreg, hperm⟩ := combine_ngl_perm m ngl hown hidx hin
    exact ⟨r, m1, hrun, partition_inv_of_perm m m1 hreg hperm hpart⟩
  · intro m nds hown hfresh hidx hpart hids hnd hin
    cases nds with
    | nil =>
      have hinit := (initialize_lookups_iff m _).mpr ⟨hown.live, rfl⟩
      refine ⟨none, { m with nid2loc := index_of [] (sgl_locs m m.path_sgl) }, ?_, ?_⟩
      · simp only [move_nodes_to_ng, List.foldlM_nil, Option.pure_def, Option.bind_eq_bind,
          Option.some_bind, hinit]
      · exact partition_inv_of_perm m _ rfl (List.Perm.refl _) hpart
    | cons nd rest =>
      obtain ⟨s0, g0, m1, -, -, -, inv, hrun⟩ :=
        move_nodes_run m nd rest hown hfresh hidx hids hnd hin
      exact ⟨_, _, hrun, partition_inv_of_perm m _ inv.reg inv.perm hpart⟩

theorem partition_inv_preserved_witness :
    (∃ r m1, combine_ngl state_two [2, 3] = some (r, m1) ∧ partition_inv m1) ∧
    (∃ r m1, move_nodes_to_ng state_two [sample_nd 10 1 0 16, sample_nd 12 3 32 48]
        = some (r, m1) ∧ partition_inv m1) :=
  ⟨partition_inv_preserved.1 state_two [2, 3] (by decide) (index_current_of_eq _ (by decide))
      (by decide) (by decide) (by decide),
   partition_inv_preserved.2 state_two [sample_nd 10 1 0 16, sample_nd 12 3 32 48]
      (by decide) (by decide) (index_current_of_eq _ (by decide)) (by decide) (by decide)
      (by decide) (by decide)⟩

/-- C5, as stated, fails for `move_nodes_to_ng` when the path list holds two
NodeDefs with the same id that the registry does not know: in `state_stray`
every id of the registry occurs exactly once in the path list and the index is
up to date, but for the two distinct nodes with id `7` the second iteration
dereferences the group that the first iteration has deleted, so that the call
has no defined outcome. -/
theorem move_nodes_to_ng_stray_ids :
    path_owned state_stray ∧ state_stray.ngs state_stray.brk = none ∧
    index_current state_stray ∧ partition_inv state_stray ∧
    [sample_nd 11 7 16 32, sample_nd 12 7 32 48].Nodup ∧
    (∀ x ∈ [sample_nd 11 7 16 32, sample_nd 12 7 32 48], x ∈ path_nds state_stray) ∧
    (move_nodes_step { sg0 := none, new_ng := none, m := state_stray }
        (sample_nd 11 7 16 32)).map (fun st => (st.m.ngs 4).isSome) = some false ∧
    find_nodeid_loc state_stray 7 = some (nodeloc_t.mk 1 4 (sample_nd 12 7 32 48)) ∧
    (move_nodes_to_ng state_stray [sample_nd 11 7 16 32, sample_nd 12 7 32 48]).isSome
      = false :=
  ⟨by decide, by decide, index_current_of_eq _ (by decide), by decide, by decide, by decide,
    by decide, by decide, by decide⟩
/-! ## `find_node_loc` -/

theorem find_node_loc_from_eq (m : groupman_t) (ea : ea_t) : ∀ l : nid2ndef_t,
    find_node_loc_from m ea l
      = (l.find? (fun e => decide (e.2.start ≥ ea ∧ ea < e.2.end_))).bind
          (fun e => find_nodeid_loc m e.2.nid) := by
  intro l
  induction l with
  | nil => rfl
  | cons e r ih =>
    obtain ⟨k, nd⟩ := e
    by_cases h : nd.start ≥ ea ∧ ea < nd.end_
    · simp [find_node_loc_from, List.find?_cons, h]
    · simp only [find_node_loc_from, h, if_false, ih, List.find?_cons, decide_False]

/-- C8 (the code at the failing input): `find_node_loc` answers with the first
registered NodeDef whose range satisfies `start >= ea && ea < end`, not
`start <= ea && ea < end`.  In `state_two`, whose registry holds the ranges
`[0,16)`, `[16,32)`, `[32,48)`, `[48,64)` for the ids 1 to 4, the address `20`
lies in the range of node 2 only, and the result is the location of node 3;
the address `60` lies in the range of node 4, and the result is `NULL`. -/
theorem find_node_loc_compares_start_wrongly :
    (∀ (m : groupman_t) (ea : ea_t),
      find_node_loc m ea
        = (m.all_nodes.find? (fun e => decide (e.2.start ≥ ea ∧ ea < e.2.end_))).bind
            (fun e => find_nodeid_loc m e.2.nid)) ∧
    state_two.all_nodes.filter (fun e => decide (e.2.start ≤ 20 ∧ 20 < e.2.end_))
      = [(2, sample_nd 11 2 16 32)] ∧
    find_nodeid_loc state_two 2 = some (nodeloc_t.mk 1 3 (sample_nd 11 2 16 32)) ∧
    find_node_loc state_two 20 = some (nodeloc_t.mk 1 3 (sample_nd 12 3 32 48)) ∧
    state_two.all_nodes.filter (fun e => decide (e.2.start ≤ 60 ∧ 60 < e.2.end_))
      = [(4, sample_nd 13 4 48 64)] ∧
    find_node_loc state_two 60 = none :=
  ⟨fun m ea => find_node_loc_from_eq m ea m.all_nodes, by decide, by decide, by decide,
    by decide, by decide⟩

/-! ## The index after the operations -/

theorem combine_ngl_rebuilds (m m1 : groupman_t) (ngl : nodegroup_list_t)
    (r : Option pnodegroup_t) (hne : ngl ≠ []) (h : combine_ngl m ngl = some (r, m1)) :
    ∃ m0, initialize_lookups m0 = some m1 := by
  cases ngl with
  | nil => exact absurd rfl hne
  | cons f l =>
    simp only [combine_ngl, Option.bind_eq_bind] at h
    cases hf : find_biggest m.ngs (f :: l) with
    | none => rw [hf] at h; cases h
    | some r0 =>
      have hr0 := find_biggest_nonempty m.ngs f l r0 hf
      rw [hf] at h
      simp only [Option.some_bind] at h
      cases r0 with
      | none => exact absurd rfl hr0
      | some d =>
        simp only at h
        cases h1 : List.foldlM (combine_ngl_step d) m (f :: l) with
        | none => rw [h1] at h; cases h
        | some m2 =>
          rw [h1] at h
          simp only [Option.some_bind] at h
          cases h2 : initialize_lookups m2 with
          | none => rw [h2] at h; cases h
          | some m3 =>
            rw [h2] at h
            simp only [Option.some_bind, Option.pure_def, Option.some.injEq,
              Prod.mk.injEq] at h
            exact ⟨m2, by rw [h2, h.2]⟩

theorem move_nodes_to_ng_rebuilds (m m1 : groupman_t) (nds : List pnodedef_t)
    (r : Option pnodegroup_t) (h : move_nodes_to_ng m nds = some (r, m1)) :
    ∃ m0, initialize_lookups m0 = some m1 := by
  simp only [move_nodes_to_ng, Option.bind_eq_bind] at h
  cases h1 : List.foldlM move_nodes_step { sg0 := none, new_ng := none, m := m } nds with
  | none => rw [h1] at h; cases h
  | some st =>
    rw [h1] at h
    simp only [Option.some_bind] at h
    cases h2 : initialize_lookups st.m with
    | none => rw [h2] at h; cases h
    | some m3 =>
      rw [h2] at h
      simp only [Option.some_bind, Option.pure_def, Option.some.injEq, Prod.mk.injEq] at h
      exact ⟨st.m, by rw [h2, h.2]⟩

theorem reset_groupping_rebuilds (m m1 : groupman_t) (h : reset_groupping m = some m1) :
    ∃ m0, initialize_lookups m0 = some m1 := by
  simp only [reset_groupping, Option.bind_eq_bind] at h
  cases h1 : clear_refs m m.path_sgl with
  | none => rw [h1] at h; cases h
  | some a =>
    rw [h1] at h
    simp only [Option.some_bind] at h
    cases h2 : clear_sgl a .path with
    | none => rw [h2] at h; cases h
    | some b =>
      rw [h2] at h
      simp only [Option.some_bind] at h
      exact ⟨_, h⟩

theorem parse_rebuilds (m m1 : groupman_t) (text : List Char)
    (h : parse m text true = some m1) : ∃ m0, initialize_lookups m0 = some m1 := by
  simp only [parse, Option.bind_eq_bind] at h
  cases h1 : clear m with
  | none => rw [h1] at h; cases h
  | some a =>
    rw [h1] at h
    simp only [Option.some_bind, if_true] at h
    exact ⟨_, h⟩

/-! ## `reset_groupping` -/

theorem clear_refs_sg_ok : ∀ (groups : nodegroup_list_t)
    (h : pnodegroup_t → Option nodegroup_t), (∀ g ∈ groups, (h g).isSome = true) →
    ∃ h1, clear_refs_sg h groups = some h1 ∧ ∀ g, (h1 g).isSome = (h g).isSome := by
  intro groups
  induction groups with
  | nil => intro h _; exact ⟨h, rfl, fun _ => rfl⟩
  | cons g r ih =>
    intro h hl
    obtain ⟨l, hg⟩ := Option.isSome_iff_exists.mp (hl g (List.mem_cons_self _ _))
    have hkeep : ∀ x, (Function.update h g (some []) x).isSome = (h x).isSome := by
      intro x
      by_cases hx : x = g
      · subst hx; simp [hg]
      · simp [Function.update_noteq hx]
    obtain ⟨h1, e1, k1⟩ := ih (Function.update h g (some []))
      (fun x hx => by rw [hkeep]; exact hl x (List.mem_cons_of_mem _ hx))
    refine ⟨h1, ?_, fun x => (k1 x).trans (hkeep x)⟩
    unfold clear_refs_sg at e1 ⊢
    rw [List.foldlM_cons]
    simp only [clear_refs_step, hg, Option.bind_eq_bind, Option.some_bind]
    exact e1

theorem clear_refs_ok : ∀ (sgl : supergroup_listp_t) (m : groupman_t), sgl_live m sgl →
    ∃ m1, clear_refs m sgl = some m1 ∧ m1.sgs = m.sgs ∧ m1.path_sgl = m.path_sgl ∧
      m1.similar_sgl = m.similar_sgl ∧ m1.all_nodes = m.all_nodes ∧ m1.brk = m.brk ∧
      ∀ g, (m1.ngs g).isSome = (m.ngs g).isSome := by
  intro sgl
  induction sgl with
  | nil => intro m _; exact ⟨m, rfl, rfl, rfl, rfl, rfl, rfl, fun _ => rfl⟩
  | cons sg r ih =>
    intro m hl
    obtain ⟨hsg, hgs⟩ := hl sg (List.mem_cons_self _ _)
    obtain ⟨s, hs⟩ := Option.isSome_iff_exists.mp hsg
    have hgs' : ∀ g ∈ s.groups, (m.ngs g).isSome = true := by
      intro g hg
      apply hgs
      simp [sg_groups, hs, hg]
    obtain ⟨h1, e1, k1⟩ := clear_refs_sg_ok s.groups m.ngs hgs'
    have hl1 : sgl_live { m with ngs := h1 } r := by
      intro x hx
      obtain ⟨a, b⟩ := hl x (List.mem_cons_of_mem _ hx)
      refine ⟨a, ?_⟩
      intro g hg
      show (h1 g).isSome = true
      rw [k1]
      exact b g hg
    obtain ⟨m1, e2, a1, a2, a3, a4, a5, a6⟩ := ih { m with ngs := h1 } hl1
    refine ⟨m1, ?_, a1, a2, a3, a4, a5, fun g => (a6 g).trans (k1 g)⟩
    unfold clear_refs at e2 ⊢
    rw [List.foldlM_cons]
    simp only [clear_refs_sgl_step, hs, e1, Option.bind_eq_bind, Option.some_bind]
    exact e2

theorem clear_refs_sg_eq : ∀ (groups : nodegroup_list_t)
    (h h1 : pnodegroup_t → Option nodegroup_t), clear_refs_sg h groups = some h1 →
    ∀ g, h1 g = if g ∈ groups then some [] else h g := by
  intro groups
  induction groups with
  | nil =>
    intro h h1 e g
    simp only [clear_refs_sg, List.foldlM_nil, Option.pure_def, Option.some.injEq] at e
    simp [e]
  | cons g0 r ih =>
    intro h h1 e g
    unfold clear_refs_sg at e
    rw [List.foldlM_cons] at e
    simp only [clear_refs_step, Option.bind_eq_bind] at e
    cases hg : h g0 with
    | none => rw [hg] at e; cases e
    | some l =>
      rw [hg] at e
      simp only [Option.some_bind] at e
      have := ih _ h1 e g
      rw [this]
      by_cases hx : g = g0
      · subst hx
        simp
      · by_cases hr : g ∈ r
        · simp [hr]
        · simp [hr, hx, Function.update_noteq hx]

theorem clear_refs_eq : ∀ (sgl : supergroup_listp_t) (m m1 : groupman_t),
    clear_refs m sgl = some m1 →
    m1.sgs = m.sgs ∧
    ∀ g, m1.ngs g = if g ∈ sgl.flatMap (sg_groups m) then some [] else m.ngs g := by
  intro sgl
  induction sgl with
  | nil =>
    intro m m1 e
    simp only [clear_refs, List.foldlM_nil, Option.pure_def, Option.some.injEq] at e
    subst e
    exact ⟨rfl, fun g => by simp⟩
  | cons sg r ih =>
    intro m m1 e
    unfold clear_refs at e
    rw [List.foldlM_cons] at e
    simp only [clear_refs_sgl_step, Option.bind_eq_bind] at e
    cases hs : m.sgs sg with
    | none => rw [hs] at e; cases e
    | some s =>
      rw [hs] at e
      cases hc : clear_refs_sg m.ngs s.groups with
      | none => simp only [hc, Option.none_bind] at e; cases e
      | some h =>
        simp only [hc, Option.some_bind] at e
        obtain ⟨a1, a2⟩ := ih { m with ngs := h } m1 e
        have hG : sg_groups { m with ngs := h } = sg_groups m := rfl
        refine ⟨a1, ?_⟩
        intro g
        rw [a2 g, hG]
        show (if g ∈ r.flatMap (sg_groups m) then some [] else h g) = _
        rw [clear_refs_sg_eq _ _ _ hc g, List.flatMap_cons]
        have hgs : sg_groups m sg = s.groups := by simp [sg_groups, hs]
        rw [hgs]
        by_cases h1 : g ∈ s.groups <;> by_cases h2 : g ∈ r.flatMap (sg_groups m) <;>
          simp [h1, h2]

/-- After the first loop of `reset_groupping` the groups of the list hold no
NodeDef. -/
theorem clear_refs_nodes (m ma : groupman_t) (sgl : supergroup_listp_t)
    (h : clear_refs m sgl = some ma) :
    (sgl.flatMap (sg_groups ma)).flatMap (ng_nodes ma) = [] := by
  obtain ⟨a1, a7⟩ := clear_refs_eq _ _ _ h
  have hGa : sg_groups ma = sg_groups m := by
    funext x; simp [sg_groups, a1]
  rw [hGa]
  apply List.flatMap_eq_nil_iff.mpr
  intro g hg
  simp only [ng_nodes, a7, if_pos hg]

/-- The NodeDefs of the groups of a list do not depend on the other groups. -/
theorem group_nodes_congr (h h1 : pnodegroup_t → Option nodegroup_t)
    (groups : nodegroup_list_t) (e : ∀ g ∈ groups, h1 g = h g) :
    free_nodegroup_nodes h1 groups = free_nodegroup_nodes h groups := by
  unfold free_nodegroup_nodes
  apply List.flatMap_congr
  intro g hg
  rw [e g hg]

theorem free_nodes_ok : ∀ (ng : nodegroup_t) (f : List Nat),
    (ng.map (fun nd => nd.addr)).Nodup → (∀ nd ∈ ng, nd.addr ∉ f) →
    free_nodes f ng = some ((ng.map (fun nd => nd.addr)).reverse ++ f) := by
  intro ng
  induction ng with
  | nil => intro f _ _; rfl
  | cons nd r ih =>
    intro f hnd hf
    rw [List.map_cons, List.nodup_cons] at hnd
    have h0 : nd.addr ∉ f := hf nd (List.mem_cons_self _ _)
    have h1 : ∀ x ∈ r, x.addr ∉ nd.addr :: f := by
      intro x hx hm
      rcases List.mem_cons.mp hm with e | e
      · exact hnd.1 (List.mem_map.mpr ⟨x, hx, e⟩)
      · exact hf x (List.mem_cons_of_mem _ hx) e
    have := ih (nd.addr :: f) hnd.2 h1
    unfold free_nodes at this ⊢
    rw [List.foldlM_cons]
    simp only [delete_nd, if_neg h0, Option.bind_eq_bind, Option.some_bind]
    rw [this]
    simp

/-- When `free_nodes` returns, the addresses it was given were not deleted
before, and they are deleted afterwards together with those deleted before. -/
theorem free_nodes_some : ∀ (ng : nodegroup_t) (f f1 : List Nat),
    free_nodes f ng = some f1 →
    (ng.map (fun nd => nd.addr)).Nodup ∧ (∀ nd ∈ ng, nd.addr ∉ f) ∧
    f1 = (ng.map (fun nd => nd.addr)).reverse ++ f := by
  intro ng
  induction ng with
  | nil =>
    intro f f1 h
    simp only [free_nodes, List.foldlM_nil, Option.pure_def, Option.some.injEq] at h
    subst h
    simp
  | cons nd r ih =>
    intro f f1 h
    unfold free_nodes at h
    rw [List.foldlM_cons] at h
    simp only [delete_nd, Option.bind_eq_bind] at h
    by_cases h0 : nd.addr ∈ f
    · rw [if_pos h0] at h
      cases h
    · rw [if_neg h0] at h
      simp only [Option.some_bind] at h
      obtain ⟨a, b, c⟩ := ih (nd.addr :: f) f1 h
      refine ⟨?_, ?_, ?_⟩
      · rw [List.map_cons, List.nodup_cons]
        refine ⟨?_, a⟩
        intro hm
        obtain ⟨x, hx, e⟩ := List.mem_map.mp hm
        exact b x hx (by rw [e]; exact List.mem_cons_self _ _)
      · intro x hx
        rcases List.mem_cons.mp hx with e | e
        · rw [e]; exact h0
        · exact fun hm => b x e (List.mem_cons_of_mem _ hm)
      · rw [c]
        simp

theorem free_nodegroup_ok : ∀ (groups : nodegroup_list_t)
    (h : pnodegroup_t → Option nodegroup_t) (f : List Nat), groups.Nodup →
    (∀ g ∈ groups, (h g).isSome = true) →
    ((free_nodegroup_nodes h groups).map (fun nd => nd.addr)).Nodup →
    (∀ nd ∈ free_nodegroup_nodes h groups, nd.addr ∉ f) →
    ∃ h1, free_nodegroup true (h, f) groups
        = some (h1, ((free_nodegroup_nodes h groups).map (fun nd => nd.addr)).reverse ++ f) ∧
      ∀ g, h1 g = if g ∈ groups then none else h g := by
  intro groups
  induction groups with
  | nil => intro h f _ _ _ _; exact ⟨h, rfl, fun _ => by simp⟩
  | cons g r ih =>
    intro h f hnd hl hna hf
    obtain ⟨l, hg⟩ := Option.isSome_iff_exists.mp (hl g (List.mem_cons_self _ _))
    have hgr : g ∉ r := (List.nodup_cons.mp hnd).1
    have e0 : free_nodegroup_nodes h (g :: r) = l ++ free_nodegroup_nodes h r := by
      simp only [free_nodegroup_nodes, List.flatMap_cons, hg]
    rw [e0] at hna hf
    rw [List.map_append] at hna
    obtain ⟨n1, n2, n3⟩ := List.nodup_append.mp hna
    have hfl := free_nodes_ok l f n1 (fun nd hx => hf nd (List.mem_append_left _ hx))
    have hcong : free_nodegroup_nodes (Function.update h g none) r
        = free_nodegroup_nodes h r := by
      apply group_nodes_congr
      intro x hx
      have : x ≠ g := fun e => hgr (e ▸ hx)
      rw [Function.update_noteq this]
    obtain ⟨h1, e1, k1⟩ := ih (Function.update h g none)
      ((l.map (fun nd => nd.addr)).reverse ++ f) (List.nodup_cons.mp hnd).2
      (fun x hx => by
        have : x ≠ g := fun e => hgr (e ▸ hx)
        rw [Function.update_noteq this]
        exact hl x (List.mem_cons_of_mem _ hx))
      (by rw [hcong]; exact n2)
      (by
        rw [hcong]
        intro nd hx hm
        rcases List.mem_append.mp hm with e | e
        · exact n3 (List.mem_reverse.mp e) (List.mem_map.mpr ⟨nd, hx, rfl⟩)
        · exact hf nd (List.mem_append_right _ hx) e)
    refine ⟨h1, ?_, ?_⟩
    · unfold free_nodegroup at e1 ⊢
      rw [List.foldlM_cons]
      simp only [free_nodegroup_step, hg, if_true, hfl, Option.bind_eq_bind, Option.some_bind]
      rw [e1, hcong, e0]
      simp
    · intro x
      rw [k1]
      by_cases hx : x = g
      · subst hx
        simp [hgr]
      · simp [hx, Function.update_noteq hx]

/-- The NodeDefs of the super groups of a list, in order. -/
theorem sgl_nodes_cons (m : groupman_t) (sg : psupergroup_t) (r : supergroup_listp_t) :
    ((sg :: r).flatMap (sg_groups m)).flatMap (ng_nodes m)
      = free_nodegroup_nodes m.ngs (sg_groups m sg)
        ++ (r.flatMap (sg_groups m)).flatMap (ng_nodes m) := by
  rw [List.flatMap_cons, List.flatMap_append]
  rfl

theorem delete_all_ok : ∀ (l : supergroup_listp_t) (m : groupman_t), l.Nodup →
    sgl_live m l → (l.flatMap (sg_groups m)).Nodup →
    (((l.flatMap (sg_groups m)).flatMap (ng_nodes m)).map (fun nd => nd.addr)).Nodup →
    (∀ nd ∈ (l.flatMap (sg_groups m)).flatMap (ng_nodes m), nd.addr ∉ m.freed) →
    ∃ m1, l.foldlM delete_sg m = some m1 ∧ m1.path_sgl = m.path_sgl ∧
      m1.similar_sgl = m.similar_sgl ∧ m1.all_nodes = m.all_nodes ∧ m1.brk = m.brk ∧
      m1.nid2loc = m.nid2loc ∧
      (∀ x, m1.sgs x = if x ∈ l then none else m.sgs x) ∧
      (∀ g, m1.ngs g = if g ∈ l.flatMap (sg_groups m) then none else m.ngs g) ∧
      m1.freed = (((l.flatMap (sg_groups m)).flatMap (ng_nodes m)).map
        (fun nd => nd.addr)).reverse ++ m.freed := by
  intro l
  induction l with
  | nil =>
    intro m _ _ _ _ _
    exact ⟨m, rfl, rfl, rfl, rfl, rfl, rfl, by simp, by simp, by simp⟩
  | cons sg r ih =>
    intro m hnd hl hng hna hfr
    obtain ⟨hsg, hgs⟩ := hl sg (List.mem_cons_self _ _)
    obtain ⟨s, hs⟩ := Option.isSome_iff_exists.mp hsg
    have hsgr : sg ∉ r := (List.nodup_cons.mp hnd).1
    have hgeq : sg_groups m sg = s.groups := by simp [sg_groups, hs]
    rw [sgl_nodes_cons, hgeq] at hna hfr
    rw [List.flatMap_cons, hgeq] at hng
    rw [List.map_append] at hna
    obtain ⟨n1, n2, n3⟩ := List.nodup_append.mp hna
    have hnd_s : s.groups.Nodup := (List.nodup_append.mp hng).1
    have hdisj := (List.nodup_append.mp hng).2.2
    obtain ⟨h1, e1, k1⟩ := free_nodegroup_ok s.groups m.ngs m.freed hnd_s (hgeq ▸ hgs) n1
      (fun nd hx => hfr nd (List.mem_append_left _ hx))
    generalize hf1 : ((free_nodegroup_nodes m.ngs s.groups).map (fun nd => nd.addr)).reverse
      ++ m.freed = f1 at e1
    have hG : ∀ x ∈ r, sg_groups
        { m with ngs := h1, freed := f1, sgs := Function.update m.sgs sg none } x
        = sg_groups m x := by
      intro x hx
      have : x ≠ sg := fun e => hsgr (e ▸ hx)
      simp [sg_groups, Function.update_noteq this]
    have hfl : r.flatMap (sg_groups
        { m with ngs := h1, freed := f1, sgs := Function.update m.sgs sg none })
        = r.flatMap (sg_groups m) := List.flatMap_congr hG
    have hN : ∀ g ∈ r.flatMap (sg_groups m), ng_nodes
        { m with ngs := h1, freed := f1, sgs := Function.update m.sgs sg none } g
        = ng_nodes m g := by
      intro g hg
      have hgs' : g ∉ s.groups := fun hh => hdisj hh hg
      show (match h1 g with | some l => l | none => []) = _
      rw [k1, if_neg hgs']
      rfl
    have hnl : (r.flatMap (sg_groups
        { m with ngs := h1, freed := f1, sgs := Function.update m.sgs sg none })).flatMap
        (ng_nodes { m with ngs := h1, freed := f1, sgs := Function.update m.sgs sg none })
        = (r.flatMap (sg_groups m)).flatMap (ng_nodes m) := by
      rw [hfl]
      exact List.flatMap_congr hN
    have hl1 : sgl_live
        { m with ngs := h1, freed := f1, sgs := Function.update m.sgs sg none } r := by
      intro x hx
      have hxs : x ≠ sg := fun e => hsgr (e ▸ hx)
      obtain ⟨a, b⟩ := hl x (List.mem_cons_of_mem _ hx)
      refine ⟨by simpa [Function.update_noteq hxs] using a, ?_⟩
      intro g hg
      rw [hG x hx] at hg
      show (h1 g).isSome = true
      rw [k1, if_neg]
      · exact b g hg
      · intro hgs'
        exact hdisj hgs' (List.mem_flatMap.mpr ⟨x, hx, hg⟩)
    obtain ⟨m1, e2, a1, a2, a3, a4, a5, a6, a7, a8⟩ := ih _ (List.nodup_cons.mp hnd).2 hl1
      (by rw [hfl]; exact (List.nodup_append.mp hng).2.1)
      (by rw [hnl]; exact n2)
      (by
        rw [hnl]
        intro nd hx hm
        have hm' : nd.addr ∈ f1 := hm
        rw [← hf1] at hm'
        rcases List.mem_append.mp hm' with e | e
        · exact n3 (List.mem_reverse.mp e) (List.mem_map.mpr ⟨nd, hx, rfl⟩)
        · exact hfr nd (List.mem_append_right _ hx) e)
    refine ⟨m1, ?_, a1, a2, a3, a4, a5, ?_, ?_, ?_⟩
    · rw [List.foldlM_cons]
      simp only [delete_sg, hs, e1, Option.bind_eq_bind, Option.some_bind]
      exact e2
    · intro x
      rw [a6]
      by_cases hx : x = sg
      · subst hx
        simp
      · simp [hx, Function.update_noteq hx]
    · intro g
      rw [a7, hfl, List.flatMap_cons, hgeq]
      show (if g ∈ r.flatMap (sg_groups m) then none else h1 g) = _
      rw [k1]
      by_cases h1' : g ∈ s.groups <;> by_cases h2' : g ∈ r.flatMap (sg_groups m) <;>
        simp [h1', h2']
    · rw [a8, hnl, sgl_nodes_cons, hgeq]
      show _ ++ f1 = _
      rw [← hf1]
      simp

theorem forall₂_left {α β : Type} {R : α → β → Prop} {l1 : List α} {l2 : List β}
    (h : List.Forall₂ R l1 l2) : ∀ x ∈ l1, ∃ y ∈ l2, R x y := by
  induction h with
  | nil => intro x hx; cases hx
  | cons hab _ ih =>
    intro x hx
    rcases List.mem_cons.mp hx with e | e
    · subst e
      exact ⟨_, List.mem_cons_self _ _, hab⟩
    · obtain ⟨y, hy, hr⟩ := ih x e
      exact ⟨y, List.mem_cons_of_mem _ hy, hr⟩

/-- The loop of `reset_groupping` over the registry builds one super group per
entry, after the super groups already in the path list. -/
theorem reset_add_loop : ∀ (es : nid2ndef_t) (m : groupman_t) (done : List pnodedef_t),
    List.Forall₂ (fun sg nd => sg < m.brk ∧ ∃ ng, ng < m.brk ∧
      m.sgs sg = some (reset_sg nd ng) ∧ m.ngs ng = some [nd]) m.path_sgl done →
    List.Forall₂ (singleton_sg (es.foldl (fun a e => reset_add a e.2) m))
      (es.foldl (fun a e => reset_add a e.2) m).path_sgl (done ++ es.map Prod.snd) ∧
    (es.foldl (fun a e => reset_add a e.2) m).similar_sgl = m.similar_sgl ∧
    (es.foldl (fun a e => reset_add a e.2) m).all_nodes = m.all_nodes := by
  intro es
  induction es with
  | nil =>
    intro m done h
    refine ⟨?_, rfl, rfl⟩
    simp only [List.foldl_nil, List.map_nil, List.append_nil]
    exact h.imp (fun _ _ hx => by
      obtain ⟨-, ng, -, h1, h2⟩ := hx
      exact ⟨ng, h1, h2⟩)
  | cons e r ih =>
    intro m done h
    have hb : (reset_add m e.2).brk = m.brk + 2 := rfl
    have hstep : List.Forall₂ (fun sg nd => sg < (reset_add m e.2).brk ∧
        ∃ ng, ng < (reset_add m e.2).brk ∧
        (reset_add m e.2).sgs sg = some (reset_sg nd ng) ∧
        (reset_add m e.2).ngs ng = some [nd]) (reset_add m e.2).path_sgl (done ++ [e.2]) := by
      have hp : (reset_add m e.2).path_sgl = m.path_sgl ++ [m.brk] := rfl
      rw [hp]
      apply List.rel_append
      · refine h.imp ?_
        intro sg nd hx
        obtain ⟨h0, ng, h1, h2, h3⟩ := hx
        refine ⟨by rw [hb]; omega, ng, by rw [hb]; omega, ?_, ?_⟩
        · have : sg ≠ m.brk := by omega
          simp only [reset_add, add_supergroup, set_sgl, get_sgl,
            Function.update_noteq this]
          exact h2
        · have : ng ≠ m.brk + 1 := by omega
          simp only [reset_add, add_supergroup, set_sgl, get_sgl,
            Function.update_noteq this]
          exact h3
      · refine List.Forall₂.cons ?_ List.Forall₂.nil
        refine ⟨by rw [hb]; omega, m.brk + 1, by rw [hb]; omega, ?_, ?_⟩
        · simp [reset_add, add_supergroup, set_sgl, get_sgl, supergroup_t.new, reset_sg]
        · simp [reset_add, add_supergroup, set_sgl, get_sgl, add_node]
    obtain ⟨a, b, c⟩ := ih (reset_add m e.2) (done ++ [e.2]) hstep
    simp only [List.foldl_cons, List.map_cons]
    refine ⟨by simpa using a, b, c⟩

theorem singleton_sgl_live (m : groupman_t) (nds : List pnodedef_t)
    (h : List.Forall₂ (singleton_sg m) m.path_sgl nds) : sgl_live m m.path_sgl := by
  intro x hx
  obtain ⟨nd, -, ng, h1, h2⟩ := forall₂_left h x hx
  refine ⟨by rw [h1]; rfl, ?_⟩
  intro g hg
  simp only [sg_groups, h1, reset_sg, List.mem_singleton] at hg
  rw [hg, h2]; rfl

/-- The run of `reset_groupping` on a well-formed state. -/
theorem reset_groupping_run (m : groupman_t) (hown : path_owned m) :
    ∃ m1, reset_groupping m = some m1 ∧
      List.Forall₂ (singleton_sg m1) m1.path_sgl (m.all_nodes.map Prod.snd) ∧
      m1.similar_sgl = m.similar_sgl ∧ m1.all_nodes = m.all_nodes := by
  obtain ⟨ma, ea, a1, a2, a3, a4, a5, a6⟩ := clear_refs_ok m.path_sgl m hown.live
  have hGa : ∀ x, sg_groups ma x = sg_groups m x := by
    intro x; simp [sg_groups, a1]
  have hla : sgl_live ma ma.path_sgl := by
    rw [a2]
    intro x hx
    obtain ⟨u, v⟩ := hown.live x hx
    refine ⟨by rw [a1]; exact u, ?_⟩
    intro g hg
    rw [a6]
    rw [hGa] at hg
    exact v g hg
  have hna : (ma.path_sgl.flatMap (sg_groups ma)).Nodup := by
    rw [a2]
    have : sg_groups ma = sg_groups m := funext hGa
    rw [this]
    exact hown.nodup_ng
  have hN : (ma.path_sgl.flatMap (sg_groups ma)).flatMap (ng_nodes ma) = [] := by
    rw [a2]
    exact clear_refs_nodes m ma m.path_sgl ea
  obtain ⟨mb, eb, b1, b2, b3, b4, b5, b6, b7, b8⟩ :=
    delete_all_ok ma.path_sgl ma (a2 ▸ hown.nodup_sg) hla hna
      (by rw [hN]; exact List.nodup_nil) (by rw [hN]; intro nd hx; cases hx)
  have hclear : clear_sgl ma .path = some (set_sgl mb .path []) := by
    simp only [clear_sgl, get_sgl, eb]
  obtain ⟨c1, c2, c3⟩ := reset_add_loop (set_sgl mb .path []).all_nodes (set_sgl mb .path [])
    [] List.Forall₂.nil
  simp only [List.nil_append] at c1
  have hlive := singleton_sgl_live _ _ c1
  have hreg : (set_sgl mb .path []).all_nodes = m.all_nodes := by
    show mb.all_nodes = m.all_nodes
    rw [b3, a4]
  have hsim : (set_sgl mb .path []).similar_sgl = m.similar_sgl := by
    show mb.similar_sgl = m.similar_sgl
    rw [b2, a3]
  generalize hm3 : ((set_sgl mb .path []).all_nodes).foldl (fun a e => reset_add a e.2)
    (set_sgl mb .path []) = m3 at c1 c2 c3 hlive
  refine ⟨{ m3 with nid2loc := index_of [] (sgl_locs m3 m3.path_sgl) }, ?_, ?_, ?_, ?_⟩
  · simp only [reset_groupping, ea, Option.bind_eq_bind, Option.some_bind, hclear, hm3]
    exact (initialize_lookups_iff _ _).mpr ⟨hlive, rfl⟩
  · rw [hreg] at c1
    exact c1
  · exact c2.trans hsim
  · exact c3.trans hreg
theorem singleton_sgl_nds (m : groupman_t) : ∀ (l : supergroup_listp_t)
    (nds : List pnodedef_t), List.Forall₂ (singleton_sg m) l nds →
    (l.flatMap (sg_groups m)).flatMap (ng_nodes m) = nds := by
  intro l nds h
  induction h with
  | nil => rfl
  | cons hab _ ih =>
    obtain ⟨ng, h1, h2⟩ := hab
    simp only [List.flatMap_cons, List.flatMap_append, ih]
    simp [sg_groups, h1, reset_sg, ng_nodes, h2]

/-- C4: on a well-formed state `reset_groupping` returns, and afterwards the
path list holds one super group per registry entry, in the order of the
registry: the super group of an entry has the id `node<nid>` of the entry's
NodeDef, written with `%d`, and exactly one group, which holds exactly that
NodeDef.  The registry being kept in ascending key order with every NodeDef
filed under its id, the node ids of the path list are the keys, in strictly
ascending order.  With three entries of ids 1, 2, 3 the path list has three
super groups with the ids `node1`, `node2`, `node3`. -/
theorem reset_groupping_singletons :
    (∀ m : groupman_t, path_owned m →
      ∃ m1, reset_groupping m = some m1 ∧
        List.Forall₂ (singleton_sg m1) m1.path_sgl (m.all_nodes.map Prod.snd) ∧
        m1.path_sgl.length = m.all_nodes.length ∧
        path_nds m1 = m.all_nodes.map Prod.snd ∧
        (registry_ok m →
          path_ids m1 = m.all_nodes.map Prod.fst ∧ (path_ids m1).Pairwise (· < ·))) ∧
    (∀ (m : groupman_t) (a b c : pnodedef_t), path_owned m →
      m.all_nodes = [(1, a), (2, b), (3, c)] → a.nid = 1 → b.nid = 2 → c.nid = 3 →
      ∃ m1, reset_groupping m = some m1 ∧
        m1.path_sgl.map (fun sg => (m1.sgs sg).map
            (fun s => (s.id, s.groups.map (ng_nodes m1))))
          = [some ("node1".toList, [[a]]), some ("node2".toList, [[b]]),
             some ("node3".toList, [[c]])]) := by
  have main : ∀ m : groupman_t, path_owned m →
      ∃ m1, reset_groupping m = some m1 ∧
        List.Forall₂ (singleton_sg m1) m1.path_sgl (m.all_nodes.map Prod.snd) ∧
        m1.path_sgl.length = m.all_nodes.length ∧
        path_nds m1 = m.all_nodes.map Prod.snd ∧
        (registry_ok m →
          path_ids m1 = m.all_nodes.map Prod.fst ∧ (path_ids m1).Pairwise (· < ·)) := by
    intro m hown
    obtain ⟨m1, h1, h2, -, -⟩ := reset_groupping_run m hown
    have hnds : path_nds m1 = m.all_nodes.map Prod.snd := singleton_sgl_nds m1 _ _ h2
    refine ⟨m1, h1, h2, by simpa using h2.length_eq, hnds, ?_⟩
    intro hreg
    have hids : path_ids m1 = m.all_nodes.map Prod.fst := by
      unfold path_ids
      rw [hnds, List.map_map]
      apply List.map_congr_left
      intro e he
      exact (hreg.2 e he).symm
    exact ⟨hids, hids ▸ hreg.1⟩
  refine ⟨main, ?_⟩
  intro m a b c hown hreg ha hb hc
  obtain ⟨m1, h1, h2, -, -, -⟩ := main m hown
  refine ⟨m1, h1, ?_⟩
  rw [hreg] at h2
  simp only [List.map_cons, List.map_nil] at h2
  generalize m1.path_sgl = P at h2 ⊢
  cases h2 with
  | cons ha' h2 =>
    cases h2 with
    | cons hb' h2 =>
      cases h2 with
      | cons hc' h2 =>
        cases h2
        obtain ⟨g1, e1, f1⟩ := ha'
        obtain ⟨g2, e2, f2⟩ := hb'
        obtain ⟨g3, e3, f3⟩ := hc'
        have d1 : fmt_d 1 = "1".toList := by decide
        have d2 : fmt_d 2 = "2".toList := by decide
        have d3 : fmt_d 3 = "3".toList := by decide
        simp [e1, e2, e3, reset_sg, ng_nodes, f1, f2, f3, ha, hb, hc, d1, d2, d3]

theorem reset_groupping_singletons_witness :
    (∃ m1, reset_groupping state_two = some m1 ∧
        List.Forall₂ (singleton_sg m1) m1.path_sgl (state_two.all_nodes.map Prod.snd) ∧
        m1.path_sgl.length = state_two.all_nodes.length ∧
        path_nds m1 = state_two.all_nodes.map Prod.snd ∧
        (registry_ok state_two →
          path_ids m1 = state_two.all_nodes.map Prod.fst ∧
          (path_ids m1).Pairwise (· < ·))) ∧
    (∃ m1, reset_groupping state_three = some m1 ∧
        m1.path_sgl.map (fun sg => (m1.sgs sg).map
            (fun s => (s.id, s.groups.map (ng_nodes m1))))
          = [some ("node1".toList, [[sample_nd 10 1 0 16]]),
             some ("node2".toList, [[sample_nd 11 2 16 32]]),
             some ("node3".toList, [[sample_nd 12 3 32 48]])]) ∧
    registry_ok state_two :=
  ⟨reset_groupping_singletons.1 state_two (by decide),
   reset_groupping_singletons.2 state_three _ _ _ (by decide) rfl rfl rfl rfl,
   by decide⟩
/-! ## `parse`: what is read from the text -/

/-! ## `parse` and the content of the text -/

theorem has_key_map_nodedef (m : groupman_t) (nid : Int) (nd : pnodedef_t) (k : Int) :
    has_key (map_nodedef m nid nd) k ↔ k = nid ∨ has_key m k := by
  unfold has_key map_nodedef
  simp only [map_find_set]
  by_cases h : k = nid <;> simp [h]

/-- The inner loop of `parse_nodeset`: the nodes appended to the group and the
effect on the manager. -/
theorem parse_entries_spec : ∀ (ps : List (List Char)) (m : groupman_t) (nds : nodegroup_t),
    ((ps.foldl parse_entry (m, nds)).2).map nd_triple
        = nds.map nd_triple ++ ps.filterMap (fun p => qsscanf_d_a_a (skipSpaces p)) ∧
    (ps.foldl parse_entry (m, nds)).1.ngs = m.ngs ∧
    (ps.foldl parse_entry (m, nds)).1.sgs = m.sgs ∧
    (ps.foldl parse_entry (m, nds)).1.path_sgl = m.path_sgl ∧
    (ps.foldl parse_entry (m, nds)).1.similar_sgl = m.similar_sgl ∧
    (ps.foldl parse_entry (m, nds)).1.nid2loc = m.nid2loc ∧
    m.brk ≤ (ps.foldl parse_entry (m, nds)).1.brk ∧
    (∀ k, has_key (ps.foldl parse_entry (m, nds)).1 k ↔
      has_key m k ∨ k ∈ (ps.filterMap (fun p => qsscanf_d_a_a (skipSpaces p))).map Prod.fst) := by
  intro ps
  induction ps with
  | nil => intro m nds; simp
  | cons p r ih =>
    intro m nds
    simp only [List.foldl_cons]
    cases hq : qsscanf_d_a_a (skipSpaces p) with
    | none =>
      have hstep : parse_entry (m, nds) p = (m, nds) := by simp [parse_entry, hq]
      rw [hstep]
      simpa [List.filterMap_cons, hq] using ih m nds
    | some t =>
      obtain ⟨nid, start, end_⟩ := t
      have hstep : parse_entry (m, nds) p
          = (map_nodedef { m with brk := m.brk + 1 } nid
              { addr := m.brk, nid := nid, start := start, end_ := end_ },
             add_node nds { addr := m.brk, nid := nid, start := start, end_ := end_ }) := by
        simp [parse_entry, hq]
      rw [hstep]
      obtain ⟨h1, h2, h3, h4, h5, h6, h7, h8⟩ := ih
        (map_nodedef { m with brk := m.brk + 1 } nid
          { addr := m.brk, nid := nid, start := start, end_ := end_ })
        (add_node nds { addr := m.brk, nid := nid, start := start, end_ := end_ })
      refine ⟨?_, h2, h3, h4, h5, h6, ?_, ?_⟩
      · rw [h1]
        simp [List.filterMap_cons, hq, add_node, nd_triple]
      · have : m.brk ≤ (map_nodedef { m with brk := m.brk + 1 } nid
            { addr := m.brk, nid := nid, start := start, end_ := end_ }).brk := by
          show m.brk ≤ m.brk + 1
          omega
        exact le_trans this h7
      · intro k
        rw [h8, has_key_map_nodedef]
        have : has_key { m with brk := m.brk + 1 } k ↔ has_key m k := Iff.rfl
        rw [this]
        simp only [List.filterMap_cons, hq, List.map_cons, List.mem_cons]
        tauto

theorem nodeset_effect_refl (m : groupman_t) (sg : supergroup_t) :
    nodeset_effect m sg [] (m, sg) :=
  ⟨rfl, rfl, rfl, ⟨[], by simp, by simp, rfl⟩, rfl, rfl, rfl, rfl, le_refl _,
    fun _ _ => rfl, by simp⟩

/-- The outer loop of `parse_nodeset`: the groups appended to the super group
and the effect on the manager. -/
theorem parse_nodeset_loop_spec : ∀ (fuel : Nat) (m : groupman_t) (sg : supergroup_t)
    (grpstr : List Char),
    nodeset_effect m sg (nodeset_triples fuel grpstr)
      (parse_nodeset_loop fuel m sg grpstr) := by
  intro fuel
  induction fuel with
  | zero =>
    intro m sg grpstr
    exact nodeset_effect_refl m sg
  | succ fuel ih =>
    intro m sg grpstr
    cases h1 : strchr_cut '(' grpstr with
    | none =>
      have e1 : parse_nodeset_loop (fuel + 1) m sg grpstr = (m, sg) := by
        simp [parse_nodeset_loop, h1]
      have e2 : nodeset_triples (fuel + 1) grpstr = [] := by
        simp [nodeset_triples, h1]
      rw [e1, e2]
      exact nodeset_effect_refl m sg
    | some ab =>
      obtain ⟨before, after_open⟩ := ab
      cases h2 : strchr_cut ')' (skipSpaces after_open) with
      | none =>
        have e1 : parse_nodeset_loop (fuel + 1) m sg grpstr = (m, sg) := by
          simp [parse_nodeset_loop, h1, h2]
        have e2 : nodeset_triples (fuel + 1) grpstr = [] := by
          simp [nodeset_triples, h1, h2]
        rw [e1, e2]
        exact nodeset_effect_refl m sg
      | some bc =>
        obtain ⟨body, after_close⟩ := bc
        obtain ⟨e1, e2, e3, e4, e5, e6, e7, e8⟩ :=
          parse_entries_spec (entry_strings body) { m with brk := m.brk + 1 } []
        generalize hr : (entry_strings body).foldl parse_entry ({ m with brk := m.brk + 1 }, [])
          = r at e1 e2 e3 e4 e5 e6 e7 e8
        have ih1 := ih { r.1 with ngs := Function.update r.1.ngs m.brk (some r.2) }
            { sg with groups := sg.groups ++ [m.brk] } (skipSpaces after_close)
        have eq1 : parse_nodeset_loop (fuel + 1) m sg grpstr
            = parse_nodeset_loop fuel
                { r.1 with ngs := Function.update r.1.ngs m.brk (some r.2) }
                { sg with groups := sg.groups ++ [m.brk] } (skipSpaces after_close) := by
          simp only [parse_nodeset_loop, h1, h2, hr]
        have eq2 : nodeset_triples (fuel + 1) grpstr
            = body_triples body :: nodeset_triples fuel (skipSpaces after_close) := by
          simp only [nodeset_triples, h1, h2]
        rw [eq1, eq2]
        generalize parse_nodeset_loop fuel
          { r.1 with ngs := Function.update r.1.ngs m.brk (some r.2) }
          { sg with groups := sg.groups ++ [m.brk] } (skipSpaces after_close) = q at ih1
        obtain ⟨i1, i2, i3, ⟨gs, i4, i5, i6⟩, i7, i8, i9, i10, i11, i12, i13⟩ := ih1
        have hb1 : m.brk + 1 ≤ r.1.brk := e7
        have hb2 : r.1.brk ≤ q.1.brk := i11
        have hq_ng : q.1.ngs m.brk = some r.2 := by
          rw [i12 m.brk (Nat.lt_of_succ_le hb1)]
          simp
        refine ⟨i1, i2, i3, ⟨m.brk :: gs, ?_, ?_, ?_⟩, ?_, ?_, ?_, ?_, ?_, ?_, ?_⟩
        · rw [i4]; simp
        · intro g hg
          rcases List.mem_cons.mp hg with h | h
          · subst h
            exact ⟨le_refl _, Nat.lt_of_lt_of_le (Nat.lt_of_succ_le hb1) hb2,
              by rw [hq_ng]; rfl⟩
          · obtain ⟨a, b, c⟩ := i5 g h
            have a' : r.1.brk ≤ g := a
            exact ⟨le_trans (Nat.le_of_succ_le hb1) a', b, c⟩
        · simp only [List.map_cons, i6]
          congr 1
          simp only [ng_nodes, hq_ng, e1, body_triples]
          simp
        · rw [i7]; exact e3
        · rw [i8]; exact e4
        · rw [i9]; exact e5
        · rw [i10]; exact e6
        · exact le_trans (Nat.le_of_succ_le hb1) hb2
        · intro p hp
          rw [i12 p (Nat.lt_of_lt_of_le hp (Nat.le_of_succ_le hb1))]
          have : p ≠ m.brk := Nat.ne_of_lt hp
          simp only [Function.update_noteq this]
          rw [e2]
        · intro k
          rw [i13]
          have h' : has_key { r.1 with ngs := Function.update r.1.ngs m.brk (some r.2) } k
              ↔ has_key r.1 k := Iff.rfl
          rw [h', e8]
          have h'' : has_key { m with brk := m.brk + 1 } k ↔ has_key m k := Iff.rfl
          rw [h'']
          simp only [List.flatMap_cons, List.mem_append, body_triples]
          tauto

theorem line_effect_init (m0 : groupman_t) :
    line_effect m0 ([], [], []) (m0, supergroup_t.new) :=
  ⟨by simp [supergroup_t.new], rfl, rfl, rfl, rfl, le_refl _, fun _ _ => rfl, rfl,
    by simp⟩

theorem line_effect_token (m0 : groupman_t) (c : sg_content)
    (r : groupman_t × supergroup_t) (token : List Char) (h : line_effect m0 c r) :
    line_effect m0 (token_content c token) (parse_token r token) := by
  obtain ⟨l1, l2, l3, l4, l5, l6, l7, l8, l9⟩ := h
  unfold parse_token token_content
  cases hc : strchr_cut ':' token with
  | none => exact ⟨l1, l2, l3, l4, l5, l6, l7, l8, l9⟩
  | some kv =>
    obtain ⟨k, v⟩ := kv
    simp only
    cases h1 : stricmp_eq (skipSpaces k) "ID".toList
    swap
    · simp only [if_true]
      refine ⟨l1, l2, l3, l4, l5, l6, l7, ?_, ?_⟩
      · rw [← l8]; rfl
      · rw [← l8] at l9 ⊢; exact l9
    · simp only [Bool.false_eq_true, if_false]
      cases h2 : stricmp_eq (skipSpaces k) "GROUPNAME".toList
      swap
      · simp only [if_true]
        refine ⟨l1, l2, l3, l4, l5, l6, l7, ?_, ?_⟩
        · rw [← l8]; rfl
        · rw [← l8] at l9 ⊢; exact l9
      · simp only [Bool.false_eq_true, if_false]
        cases h3 : stricmp_eq (skipSpaces k) "NODESET".toList
        swap
        · simp only [if_true]
          have hn := parse_nodeset_loop_spec (skipSpaces v).length r.1 r.2 (skipSpaces v)
          unfold parse_nodeset
          generalize parse_nodeset_loop (skipSpaces v).length r.1 r.2 (skipSpaces v) = q at hn
          generalize nodeset_triples (skipSpaces v).length (skipSpaces v) = ts at hn
          obtain ⟨n1, n2, n3, ⟨gs, n4, n5, n6⟩, n7, n8, n9, n10, n11, n12, n13⟩ := hn
          have hold : ∀ g ∈ r.2.groups, ng_nodes q.1 g = ng_nodes r.1 g := by
            intro g hg
            have : g < r.1.brk := (l1 g hg).2.1
            simp only [ng_nodes, n12 g this]
          refine ⟨?_, n7.trans l2, n8.trans l3, n9.trans l4, n10.trans l5,
            le_trans l6 n11, ?_, ?_, ?_⟩
          · intro g hg
            rw [n4] at hg
            rcases List.mem_append.mp hg with e | e
            · obtain ⟨a, b, c'⟩ := l1 g e
              have b' : g < r.1.brk := b
              refine ⟨a, Nat.lt_of_lt_of_le b' n11, ?_⟩
              rw [n12 g b']; exact c'
            · obtain ⟨a, b, c'⟩ := n5 g e
              exact ⟨le_trans l6 a, b, c'⟩
          · intro p hp
            rw [n12 p (Nat.lt_of_lt_of_le hp l6)]
            exact l7 p hp
          · rw [← l8]
            simp only [sg_view, n1, n2, n4, List.map_append, n6]
            congr 3
            apply List.map_congr_left
            intro g hg
            rw [hold g hg]
          · intro k'
            rw [n13, l9]
            simp only [List.flatMap_append, List.mem_append]
            tauto
        · simp only [Bool.false_eq_true, if_false]
          exact ⟨l1, l2, l3, l4, l5, l6, l7, l8, l9⟩

theorem parse_line_spec (m0 : groupman_t) (line : List Char) :
    line_effect m0 (line_content line) (parse_line m0 supergroup_t.new line) := by
  unfold parse_line line_content
  generalize strtok_all ';' line.length line = toks
  have : ∀ (toks : List (List Char)) (c : sg_content) (r : groupman_t × supergroup_t),
      line_effect m0 c r →
      line_effect m0 (toks.foldl token_content c) (toks.foldl parse_token r) := by
    intro toks
    induction toks with
    | nil => intro c r h; exact h
    | cons t ts ih =>
      intro c r h
      exact ih _ _ (line_effect_token m0 c r t h)
  exact this toks _ _ (line_effect_init m0)

theorem sgl_view_congr (m m1 : groupman_t) (l : supergroup_listp_t)
    (h : ∀ sg ∈ l, m1.sgs sg = m.sgs sg ∧
      ∀ s, m.sgs sg = some s → ∀ g ∈ s.groups, m1.ngs g = m.ngs g) :
    sgl_view m1 l = sgl_view m l := by
  unfold sgl_view
  apply List.map_congr_left
  intro sg hsg
  obtain ⟨h1, h2⟩ := h sg hsg
  rw [h1]
  cases hs : m.sgs sg with
  | none => rfl
  | some s =>
    simp only [sg_view]
    congr 2
    apply List.map_congr_left
    intro g hg
    simp only [ng_nodes, h2 s hs g hg]

theorem sgl_view_append (m : groupman_t) (l1 l2 : supergroup_listp_t) :
    sgl_view m (l1 ++ l2) = sgl_view m l1 ++ sgl_view m l2 := by
  simp [sgl_view]

theorem content_ids_append (a b : List sg_content) :
    content_ids (a ++ b) = content_ids a ++ content_ids b := by
  simp [content_ids]

/-- The effect of a line that defines a super group on the state of `parse`:
`m1` is the state after the line `s` has been read in section `cur`. -/
theorem parse_content_line (m m1 : groupman_t) (cur : sgl_ref) (s : List Char)
    (hW : lists_below_brk m) (hR : registry_covers m)
    (e_sgs : m1.sgs = Function.update
      (parse_line (add_supergroup m cur).2 supergroup_t.new s).1.sgs
      (add_supergroup m cur).1 (some (parse_line (add_supergroup m cur).2 supergroup_t.new s).2))
    (e_ngs : m1.ngs = (parse_line (add_supergroup m cur).2 supergroup_t.new s).1.ngs)
    (e_brk : m1.brk = (parse_line (add_supergroup m cur).2 supergroup_t.new s).1.brk)
    (e_path : m1.path_sgl = (parse_line (add_supergroup m cur).2 supergroup_t.new s).1.path_sgl)
    (e_sim : m1.similar_sgl
      = (parse_line (add_supergroup m cur).2 supergroup_t.new s).1.similar_sgl)
    (e_reg : m1.all_nodes = (parse_line (add_supergroup m cur).2 supergroup_t.new s).1.all_nodes)
    (e_idx : m1.nid2loc = (parse_line (add_supergroup m cur).2 supergroup_t.new s).1.nid2loc) :
    lists_below_brk m1 ∧ registry_covers m1 ∧ m1.nid2loc = m.nid2loc ∧
    parse_rel (some cur, m1)
      (some cur, content_add cur (sgl_view m m.path_sgl, sgl_view m m.similar_sgl)
        (line_content s)) := by
  have le := parse_line_spec (add_supergroup m cur).2 s
  generalize parse_line (add_supergroup m cur).2 supergroup_t.new s = r
    at le e_sgs e_ngs e_brk e_path e_sim e_reg e_idx
  obtain ⟨l1, l2, l3, l4, l5, l6, l7, l8, l9⟩ := le
  have ha1 : (add_supergroup m cur).1 = m.brk := rfl
  have hab : (add_supergroup m cur).2.brk = m.brk + 1 := by cases cur <;> rfl
  have has : (add_supergroup m cur).2.sgs
      = Function.update m.sgs m.brk (some supergroup_t.new) := by cases cur <;> rfl
  have han : (add_supergroup m cur).2.ngs = m.ngs := by cases cur <;> rfl
  have hak : ∀ k, has_key (add_supergroup m cur).2 k ↔ has_key m k := by
    intro k; cases cur <;> exact Iff.rfl
  have hai : (add_supergroup m cur).2.nid2loc = m.nid2loc := by cases cur <;> rfl
  rw [ha1] at e_sgs
  rw [hab] at l1 l6 l7
  rw [has] at l2
  rw [han] at l7
  rw [← e_brk] at l1 l6
  rw [← e_ngs] at l1 l7
  have hbrk : m.brk + 1 ≤ m1.brk := l6
  have hk1 : ∀ k, has_key m1 k ↔ has_key r.1 k := by
    intro k; unfold has_key; rw [e_reg]
  -- the objects already in the lists are not touched
  have hold : ∀ sg ∈ m.path_sgl ++ m.similar_sgl,
      m1.sgs sg = m.sgs sg ∧
      ∀ s0, m.sgs sg = some s0 → ∀ g ∈ s0.groups, m1.ngs g = m.ngs g := by
    intro sg hsg
    obtain ⟨w1, s0, w2, w3⟩ := hW sg hsg
    have hne : sg ≠ m.brk := Nat.ne_of_lt w1
    refine ⟨by rw [e_sgs, Function.update_noteq hne, l2, Function.update_noteq hne], ?_⟩
    intro s1 hs1 g hg
    rw [w2] at hs1
    cases hs1
    exact l7 g (Nat.lt_succ_of_lt (w3 g hg).1)
  have hview_old : ∀ l, (∀ sg ∈ l, sg ∈ m.path_sgl ++ m.similar_sgl) →
      sgl_view m1 l = sgl_view m l := by
    intro l hl
    apply sgl_view_congr
    intro sg hsg
    exact hold sg (hl sg hsg)
  have hview_new : sgl_view m1 [m.brk] = [line_content s] := by
    simp only [sgl_view, List.map_cons, List.map_nil, e_sgs, Function.update_same]
    rw [← l8]
    simp only [sg_view, ng_nodes, e_ngs]
  have hvp := hview_old m.path_sgl (fun sg h => List.mem_append_left _ h)
  have hvs := hview_old m.similar_sgl (fun sg h => List.mem_append_right _ h)
  have hp1 : m1.path_sgl = (content_add cur (m.path_sgl, m.similar_sgl) m.brk).1 := by
    rw [e_path, l3]; cases cur <;> rfl
  have hs1 : m1.similar_sgl = (content_add cur (m.path_sgl, m.similar_sgl) m.brk).2 := by
    rw [e_sim, l4]; cases cur <;> rfl
  refine ⟨?_, ?_, ?_, ?_⟩
  · -- lists_below_brk
    intro sg hsg
    have hsg' : sg ∈ m.path_sgl ++ m.similar_sgl ∨ sg = m.brk := by
      rw [hp1, hs1] at hsg
      cases cur <;> simp only [content_add, List.mem_append, List.mem_singleton] at hsg ⊢ <;>
        tauto
    rcases hsg' with h | h
    · obtain ⟨w1, s0, w2, w3⟩ := hW sg h
      refine ⟨Nat.lt_of_lt_of_le w1 (Nat.le_of_succ_le hbrk), s0, ?_, ?_⟩
      · rw [(hold sg h).1, w2]
      · intro g hg
        refine ⟨Nat.lt_of_lt_of_le (w3 g hg).1 (Nat.le_of_succ_le hbrk), ?_⟩
        rw [(hold sg h).2 s0 w2 g hg]
        exact (w3 g hg).2
    · subst h
      refine ⟨Nat.lt_of_succ_le hbrk, r.2, ?_, ?_⟩
      · rw [e_sgs]; simp
      · intro g hg
        exact ⟨(l1 g hg).2.1, (l1 g hg).2.2⟩
  · -- registry_covers
    intro k
    rw [hk1, l9, hak, hR k, hp1, hs1]
    cases cur
    · simp only [content_add, sgl_view_append, hview_new, hvp, hvs, content_ids_append]
      simp only [List.mem_append, content_ids, List.flatMap_cons, List.flatMap_nil,
        List.append_nil]
      tauto
    · simp only [content_add, sgl_view_append, hview_new, hvp, hvs, content_ids_append]
      simp only [List.mem_append, content_ids, List.flatMap_cons, List.flatMap_nil,
        List.append_nil]
      tauto
  · rw [e_idx, l5, hai]
  · unfold parse_rel
    refine ⟨rfl, ?_, ?_⟩
    · show sgl_view m1 m1.path_sgl = _
      rw [hp1]
      cases cur
      · simp only [sgl_view_append, hview_new, hvp, content_add]
      · exact hvp
    · show sgl_view m1 m1.similar_sgl = _
      rw [hs1]
      cases cur
      · exact hvs
      · simp only [sgl_view_append, hview_new, hvs, content_add]

/-- A step of `parse` that changes only the current section keeps the
invariant. -/
theorem parse_sim_section (m0 m : groupman_t) (cur c1 : Option sgl_ref)
    (tp tq : List sg_content) (h : parse_sim m0 (cur, m) (cur, tp, tq)) :
    parse_sim m0 (c1, m) (c1, tp, tq) :=
  ⟨h.1, h.2.1, h.2.2.1, rfl, h.2.2.2.2.1, h.2.2.2.2.2⟩

/-- One line of the text has the same effect on the state of `parse` as on the
contents that `text_cstr` computes. -/
theorem parse_step_spec (m0 : groupman_t) (st : Option sgl_ref × groupman_t)
    (ts : Option sgl_ref × List sg_content × List sg_content) (line : List Char)
    (h : parse_sim m0 st ts) :
    parse_sim m0 (parse_cstr st line) (text_cstr ts line) := by
  obtain ⟨cur, m⟩ := st
  obtain ⟨tcur, tp, tq⟩ := ts
  have h1 : cur = tcur := h.2.2.2.1
  subst h1
  unfold parse_cstr text_cstr
  simp only
  cases hs : skipSpaces line with
  | nil => exact h
  | cons c0 r0 =>
    simp only
    split_ifs
    · exact h
    · exact parse_sim_section m0 m cur _ tp tq h
    · exact parse_sim_section m0 m cur _ tp tq h
    · exact parse_sim_section m0 m cur _ tp tq h
    · cases cur with
      | none => exact h
      | some cur =>
        obtain ⟨hW, hR, hI, -, h2, h3⟩ := h
        have h2 : sgl_view m m.path_sgl = tp := h2
        have h3 : sgl_view m m.similar_sgl = tq := h3
        have hI : m.nid2loc = m0.nid2loc := hI
        have hh := parse_content_line m
          { (parse_line (add_supergroup m cur).2 supergroup_t.new (c0 :: r0)).1 with
            sgs := Function.update
              (parse_line (add_supergroup m cur).2 supergroup_t.new (c0 :: r0)).1.sgs
              (add_supergroup m cur).1
              (some (parse_line (add_supergroup m cur).2 supergroup_t.new (c0 :: r0)).2) }
          cur (c0 :: r0) hW hR rfl rfl rfl rfl rfl rfl rfl
        rw [h2, h3] at hh
        exact ⟨hh.1, hh.2.1, hh.2.2.1.trans hI, hh.2.2.2⟩

/-- Deleting super groups changes neither the lists nor the registry nor the
index. -/
theorem delete_all_frame : ∀ (l : supergroup_listp_t) (m m1 : groupman_t),
    l.foldlM delete_sg m = some m1 →
    m1.path_sgl = m.path_sgl ∧ m1.similar_sgl = m.similar_sgl ∧
    m1.all_nodes = m.all_nodes ∧ m1.nid2loc = m.nid2loc := by
  intro l
  induction l with
  | nil =>
    intro m m1 h
    simp only [List.foldlM_nil] at h
    cases h
    exact ⟨rfl, rfl, rfl, rfl⟩
  | cons sg r ih =>
    intro m m1 h
    simp only [List.foldlM_cons, Option.bind_eq_bind] at h
    cases hd : delete_sg m sg with
    | none => rw [hd] at h; cases h
    | some m2 =>
      rw [hd] at h
      simp only [Option.some_bind] at h
      obtain ⟨a, b, c, d⟩ := ih m2 m1 h
      unfold delete_sg at hd
      cases hs : m.sgs sg with
      | none => rw [hs] at hd; cases hd
      | some s =>
        rw [hs] at hd
        simp only at hd
        cases hf : free_nodegroup true (m.ngs, m.freed) s.groups with
        | none => rw [hf] at hd; cases hd
        | some hp =>
          rw [hf] at hd
          simp only [Option.some.injEq] at hd
          subst hd
          exact ⟨a, b, c, d⟩

/-- After `clear` both lists and the registry are empty; the index is kept. -/
theorem clear_frame (m mc : groupman_t) (h : clear m = some mc) :
    mc.path_sgl = [] ∧ mc.similar_sgl = [] ∧ mc.all_nodes = [] ∧ mc.nid2loc = m.nid2loc := by
  simp only [clear, Option.bind_eq_bind] at h
  cases h1 : clear_sgl m .path with
  | none => rw [h1] at h; cases h
  | some m1 =>
    rw [h1] at h
    simp only [Option.some_bind] at h
    cases h2 : clear_sgl m1 .similar with
    | none => rw [h2] at h; cases h
    | some m2 =>
      rw [h2] at h
      simp only [Option.some_bind, Option.pure_def, Option.some.injEq] at h
      subst h
      unfold clear_sgl at h1 h2
      cases f1 : (get_sgl m .path).foldlM delete_sg m with
      | none => rw [f1] at h1; cases h1
      | some a =>
        rw [f1] at h1
        simp only [Option.some.injEq] at h1
        cases f2 : (get_sgl m1 .similar).foldlM delete_sg m1 with
        | none => rw [f2] at h2; cases h2
        | some b =>
          rw [f2] at h2
          simp only [Option.some.injEq] at h2
          obtain ⟨a1, a2, a3, a4⟩ := delete_all_frame _ _ _ f1
          obtain ⟨b1, b2, b3, b4⟩ := delete_all_frame _ _ _ f2
          subst h1 h2
          refine ⟨?_, rfl, rfl, ?_⟩
          · show b.path_sgl = []
            rw [b1]; rfl
          · show b.nid2loc = m.nid2loc
            rw [b4]
            show a.nid2loc = m.nid2loc
            exact a4

/-! ### Lines without NUL -/

/-- A line without NUL is its own C string. -/
theorem c_str_no_nul (l : List Char) (h : '\x00' ∉ l) : c_str l = l := by
  unfold c_str
  apply List.takeWhile_eq_self_iff.mpr
  intro c hc
  have : c ≠ '\x00' := fun e => h (e ▸ hc)
  simpa using this

/-- The characters of the lines of a text are characters of the text. -/
theorem getlines_subset : ∀ (text : List Char), ∀ l ∈ getlines text, ∀ c ∈ l, c ∈ text := by
  intro text
  induction text with
  | nil =>
    intro l hl c hc
    simp only [getlines, List.mem_singleton] at hl
    rw [hl] at hc
    cases hc
  | cons x r ih =>
    intro l hl c hc
    unfold getlines at hl
    by_cases hx : x = '\n'
    · rw [if_pos hx] at hl
      rcases List.mem_cons.mp hl with e | e
      · rw [e] at hc; cases hc
      · exact List.mem_cons_of_mem _ (ih l e c hc)
    · rw [if_neg hx] at hl
      cases hg : getlines r with
      | nil =>
        rw [hg] at hl
        simp only [List.mem_singleton] at hl
        rw [hl] at hc
        simp only [List.mem_singleton] at hc
        rw [hc]
        exact List.mem_cons_self _ _
      | cons l0 ls =>
        rw [hg] at hl ih
        rcases List.mem_cons.mp hl with e | e
        · rw [e] at hc
          rcases List.mem_cons.mp hc with e1 | e1
          · rw [e1]; exact List.mem_cons_self _ _
          · exact List.mem_cons_of_mem _ (ih l0 (List.mem_cons_self _ _) c e1)
        · exact List.mem_cons_of_mem _ (ih l (List.mem_cons_of_mem _ e) c hc)

/-- The lines of a text without NUL hold no NUL. -/
theorem getlines_no_nul (text : List Char) (h : '\x00' ∉ text) :
    ∀ l ∈ getlines text, '\x00' ∉ l :=
  fun l hl hc => h (getlines_subset text l hl _ hc)

theorem parse_step_no_nul (st : Option sgl_ref × groupman_t) (l : List Char)
    (h : '\x00' ∉ l) : parse_step st l = parse_cstr st l := by
  unfold parse_step
  rw [c_str_no_nul l h]

theorem text_step_no_nul (ts : Option sgl_ref × List sg_content × List sg_content)
    (l : List Char) (h : '\x00' ∉ l) : text_step ts l = text_cstr ts l := by
  unfold text_step
  rw [c_str_no_nul l h]

theorem foldl_parse_step_no_nul : ∀ (ls : List (List Char)) (st : Option sgl_ref × groupman_t),
    (∀ l ∈ ls, '\x00' ∉ l) → ls.foldl parse_step st = ls.foldl parse_cstr st := by
  intro ls
  induction ls with
  | nil => intro st _; rfl
  | cons l r ih =>
    intro st h
    rw [List.foldl_cons, List.foldl_cons, parse_step_no_nul st l (h l (List.mem_cons_self _ _)),
      ih _ (fun x hx => h x (List.mem_cons_of_mem _ hx))]

theorem foldl_text_step_no_nul : ∀ (ls : List (List Char))
    (ts : Option sgl_ref × List sg_content × List sg_content),
    (∀ l ∈ ls, '\x00' ∉ l) → ls.foldl text_step ts = ls.foldl text_cstr ts := by
  intro ls
  induction ls with
  | nil => intro ts _; rfl
  | cons l r ih =>
    intro ts h
    rw [List.foldl_cons, List.foldl_cons, text_step_no_nul ts l (h l (List.mem_cons_self _ _)),
      ih _ (fun x hx => h x (List.mem_cons_of_mem _ hx))]

/-- The contents read from a text without NUL, line by line. -/
theorem text_content_no_nul (text : List Char) (h : '\x00' ∉ text) :
    text_content text = ((getlines text).foldl text_cstr (some .path, [], [])).2 := by
  unfold text_content
  rw [foldl_text_step_no_nul _ _ (getlines_no_nul text h)]

/-- The loop of `parse` over the lines keeps the invariant. -/
theorem parse_loop_spec (m0 : groupman_t) : ∀ (lines : List (List Char))
    (st : Option sgl_ref × groupman_t)
    (ts : Option sgl_ref × List sg_content × List sg_content),
    parse_sim m0 st ts →
    parse_sim m0 (lines.foldl parse_step st) (lines.foldl text_step ts) := by
  intro lines
  induction lines with
  | nil => intro st ts h; exact h
  | cons l r ih =>
    intro st ts h
    exact ih _ _ (parse_step_spec m0 st ts (c_str l) h)

/-- The ids of the NodeDefs of a list are the ids of its content. -/
theorem content_ids_view (m : groupman_t) (l : supergroup_listp_t) :
    content_ids (sgl_view m l)
      = ((l.flatMap (sg_groups m)).flatMap (ng_nodes m)).map (fun nd => nd.nid) := by
  induction l with
  | nil => rfl
  | cons sg r ih =>
    have e : sgl_view m (sg :: r) = sgl_view m [sg] ++ sgl_view m r := rfl
    rw [e, content_ids_append, ih, List.flatMap_cons, List.flatMap_append, List.map_append]
    congr 1
    have e1 : sgl_view m [sg] = [match m.sgs sg with
        | some s => sg_view m s
        | none => ([], [], [])] := rfl
    have e2 : sg_groups m sg = match m.sgs sg with
        | some s => s.groups
        | none => [] := rfl
    rw [e1, e2]
    cases m.sgs sg with
    | none => rfl
    | some s =>
      simp only [content_ids, List.flatMap_cons, List.flatMap_nil, List.append_nil, sg_view]
      generalize s.groups = gs
      induction gs with
      | nil => rfl
      | cons g gr ihg =>
        simp only [List.map_cons, List.flatMap_cons, List.map_append, ihg]
        congr 1
        simp [nd_triple]

theorem content_ids_path (m : groupman_t) :
    content_ids (sgl_view m m.path_sgl) = path_ids m :=
  content_ids_view m m.path_sgl

/-- A state whose lists are live below `brk` has a live path list. -/
theorem lists_below_brk_live (m : groupman_t) (h : lists_below_brk m) :
    sgl_live m m.path_sgl := by
  intro sg hsg
  obtain ⟨-, s, hs, hg⟩ := h sg (List.mem_append_left _ hsg)
  refine ⟨by rw [hs]; rfl, ?_⟩
  intro ng hng
  have e : sg_groups m sg = s.groups := by simp [sg_groups, hs]
  rw [e] at hng
  exact (hg ng hng).2

/-- The text decides what `parse` builds: when `clear` succeeds, `parse`
returns a state whose path list and similar list have the contents that
`text_content` reads from the text, and whose registry holds exactly the ids
of these contents. -/
theorem parse_content (m0 mc : groupman_t) (text : List Char) (ic : Bool)
    (hc : clear m0 = some mc) :
    ∃ m1, parse m0 text ic = some m1 ∧
      sgl_view m1 m1.path_sgl = (text_content text).1 ∧
      sgl_view m1 m1.similar_sgl = (text_content text).2 ∧
      registry_covers m1 ∧ lists_below_brk m1 := by
  obtain ⟨c1, c2, c3, c4⟩ := clear_frame m0 mc hc
  have h0 : parse_sim mc (some .path, mc) (some .path, [], []) := by
    refine ⟨?_, ?_, rfl, rfl, ?_, ?_⟩
    · intro sg hsg
      simp only [c1, c2, List.append_nil, List.not_mem_nil] at hsg
    · intro k
      simp only [has_key, c1, c2, c3, sgl_view, content_ids, map_find, List.map_nil,
        List.flatMap_nil, List.not_mem_nil, or_self, Option.isSome_none, Bool.false_eq_true]
    · show sgl_view mc mc.path_sgl = []
      rw [c1]; rfl
    · show sgl_view mc mc.similar_sgl = []
      rw [c2]; rfl
  have h := parse_loop_spec mc (getlines text) _ _ h0
  obtain ⟨hW, hR, -, -, hp, hs⟩ := h
  have hp : sgl_view ((getlines text).foldl parse_step (some .path, mc)).2
      ((getlines text).foldl parse_step (some .path, mc)).2.path_sgl
      = (text_content text).1 := hp
  have hs : sgl_view ((getlines text).foldl parse_step (some .path, mc)).2
      ((getlines text).foldl parse_step (some .path, mc)).2.similar_sgl
      = (text_content text).2 := hs
  simp only [parse, hc, Option.bind_eq_bind, Option.some_bind]
  generalize ((getlines text).foldl parse_step (some .path, mc)).2 = m2 at hW hR hp hs
  cases ic with
  | false =>
    exact ⟨m2, rfl, hp, hs, hR, hW⟩
  | true =>
    refine ⟨{ m2 with nid2loc := index_of [] (sgl_locs m2 m2.path_sgl) }, ?_, hp, hs, hR, hW⟩
    simp only [if_true]
    exact (initialize_lookups_iff m2 _).mpr ⟨lists_below_brk_live m2 hW, rfl⟩

/-! ## `parse`: the partition invariant -/

theorem has_key_iff (m : groupman_t) (k : Int) :
    has_key m k ↔ ∃ e ∈ m.all_nodes, e.1 = k := by
  unfold has_key
  generalize m.all_nodes = l
  induction l with
  | nil => simp [map_find]
  | cons a r ih =>
    obtain ⟨k1, v1⟩ := a
    unfold map_find
    by_cases h : k = k1
    · subst h
      simp
    · simp only [h, if_false, ih, List.mem_cons, exists_eq_or_imp]
      constructor
      · intro hh; exact Or.inr hh
      · rintro (hh | hh)
        · exact absurd hh.symm h
        · exact hh

/-- The partition invariant after `parse`, in terms of the contents read: it
holds exactly when no node id is read twice for the path list and every node
id read for the similar list is read for the path list. -/
theorem parse_partition_iff (m0 mc : groupman_t) (text : List Char) (ic : Bool)
    (hc : clear m0 = some mc) :
    ∃ m1, parse m0 text ic = some m1 ∧
      (partition_inv m1 ↔
        (content_ids (text_content text).1).Nodup ∧
        ∀ k ∈ content_ids (text_content text).2, k ∈ content_ids (text_content text).1) := by
  obtain ⟨m1, hp, v1, v2, hR, -⟩ := parse_content m0 mc text ic hc
  refine ⟨m1, hp, ?_⟩
  rw [← v1, ← v2, content_ids_path]
  have hR1 : ∀ k, has_key m1 k ↔
      k ∈ path_ids m1 ∨ k ∈ content_ids (sgl_view m1 m1.similar_sgl) := by
    intro k
    rw [← content_ids_path]
    exact hR k
  constructor
  · intro hpi
    have hcount : ∀ k, has_key m1 k → (path_ids m1).count k = 1 := by
      intro k hk
      obtain ⟨e, he, rfl⟩ := (has_key_iff m1 k).mp hk
      exact hpi e he
    refine ⟨?_, ?_⟩
    · rw [List.nodup_iff_count_le_one]
      intro a
      by_cases ha : a ∈ path_ids m1
      · exact le_of_eq (hcount a ((hR1 a).mpr (Or.inl ha)))
      · rw [List.count_eq_zero_of_not_mem ha]
        exact Nat.zero_le 1
    · intro k hk
      have h1 := hcount k ((hR1 k).mpr (Or.inr hk))
      apply List.count_pos_iff.mp
      rw [h1]
      exact Nat.one_pos
  · rintro ⟨hnd, hsub⟩ e he
    have hk : has_key m1 e.1 := (has_key_iff m1 e.1).mpr ⟨e, he, rfl⟩
    have hmem : e.1 ∈ path_ids m1 := by
      rcases (hR1 e.1).mp hk with h | h
      · exact h
      · exact hsub _ h
    exact List.count_eq_one_of_mem hnd hmem

/-! ## Numbers written by `emit` and read back by `parse` -/

theorem digit_of_digitChar : ∀ k, k < 10 → digit_of (Nat.digitChar k) = some k := by
  intro k hk
  interval_cases k <;> rfl

theorem hex_of_digitChar : ∀ k, k < 16 → hex_of (Nat.digitChar k) = some k := by
  intro k hk
  interval_cases k <;> rfl

/-- Reading from `0` the digits that `Nat.toDigitsCore` writes for `n` gives
the accumulator `n`. -/
theorem scan_num_toDigitsCore (dig : Char → Option Nat) (b : Nat) (hb : 2 ≤ b)
    (hdig : ∀ k, k < b → dig (Nat.digitChar k) = some k) :
    ∀ (f n : Nat) (ds : List Char), n < f →
      scan_num dig b 0 (Nat.toDigitsCore b f n ds) = scan_num dig b n ds := by
  intro f
  induction f with
  | zero => intro n ds h; exact absurd h (Nat.not_lt_zero _)
  | succ f ih =>
    intro n ds h
    have hb0 : 0 < b := Nat.lt_of_lt_of_le (by decide) hb
    have hmod : n % b < b := Nat.mod_lt _ hb0
    unfold Nat.toDigitsCore
    simp only
    by_cases h0 : n / b = 0
    · rw [if_pos h0]
      have hn : n % b = n := by
        have := Nat.div_add_mod n b
        rw [h0, Nat.mul_zero, Nat.zero_add] at this
        exact this
      rw [scan_num, hdig _ hmod, hn]
      simp only [Nat.zero_mul, Nat.zero_add]
    · rw [if_neg h0]
      have hlt : n / b < f := by
        have h1 : n / b < n := Nat.div_lt_self (Nat.pos_of_ne_zero (fun e => h0 (by rw [e]; exact Nat.zero_div b))) hb
        exact Nat.lt_of_lt_of_le h1 (Nat.le_of_lt_succ h)
      rw [ih (n / b) _ hlt, scan_num, hdig _ hmod]
      have : n / b * b + n % b = n := by
        rw [Nat.mul_comm]; exact Nat.div_add_mod n b
      simp only [this]

theorem scan_num_toDigits (dig : Char → Option Nat) (b : Nat) (hb : 2 ≤ b)
    (hdig : ∀ k, k < b → dig (Nat.digitChar k) = some k) (n : Nat) (rest : List Char) :
    scan_num dig b 0 (Nat.toDigits b n ++ rest) = scan_num dig b n rest := by
  have happ : ∀ (f n : Nat) (ds : List Char),
      Nat.toDigitsCore b f n ds = Nat.toDigitsCore b f n [] ++ ds := by
    intro f
    induction f with
    | zero => intro n ds; rfl
    | succ f ih =>
      intro n ds
      unfold Nat.toDigitsCore
      simp only
      by_cases h0 : n / b = 0
      · rw [if_pos h0, if_pos h0]; rfl
      · rw [if_neg h0, if_neg h0, ih (n / b) (_ :: ds), ih (n / b) [_]]
        simp
  unfold Nat.toDigits
  rw [← happ]
  exact scan_num_toDigitsCore dig b hb hdig (n + 1) n rest (Nat.lt_succ_self n)

/-- Every character that `Nat.toDigits` writes is a digit of the base. -/
theorem toDigits_chars (b : Nat) (hb : 0 < b) (n : Nat) :
    ∀ c ∈ Nat.toDigits b n, ∃ k, k < b ∧ c = Nat.digitChar k := by
  have hcore : ∀ (f n : Nat) (ds : List Char),
      ∀ c ∈ Nat.toDigitsCore b f n ds, c ∈ ds ∨ ∃ k, k < b ∧ c = Nat.digitChar k := by
    intro f
    induction f with
    | zero => intro n ds c hc; exact Or.inl hc
    | succ f ih =>
      intro n ds c hc
      unfold Nat.toDigitsCore at hc
      simp only at hc
      by_cases h0 : n / b = 0
      · rw [if_pos h0] at hc
        rcases List.mem_cons.mp hc with h | h
        · exact Or.inr ⟨n % b, Nat.mod_lt _ hb, h⟩
        · exact Or.inl h
      · rw [if_neg h0] at hc
        rcases ih _ _ c hc with h | h
        · rcases List.mem_cons.mp h with h | h
          · exact Or.inr ⟨n % b, Nat.mod_lt _ hb, h⟩
          · exact Or.inl h
        · exact Or.inr h
  intro c hc
  rcases hcore _ _ _ c hc with h | h
  · cases h
  · exact h

theorem toDigits_ne_nil (b n : Nat) : Nat.toDigits b n ≠ [] := by
  have hcore : ∀ (f n : Nat) (ds : List Char), ds ≠ [] → Nat.toDigitsCore b f n ds ≠ [] := by
    intro f
    induction f with
    | zero => intro n ds h; exact h
    | succ f ih =>
      intro n ds _
      unfold Nat.toDigitsCore
      simp only
      by_cases h0 : n / b = 0
      · rw [if_pos h0]; exact List.cons_ne_nil _ _
      · rw [if_neg h0]; exact ih _ _ (List.cons_ne_nil _ _)
  unfold Nat.toDigits Nat.toDigitsCore
  simp only
  by_cases h0 : n / b = 0
  · rw [if_pos h0]; exact List.cons_ne_nil _ _
  · rw [if_neg h0]; exact hcore _ _ _ (List.cons_ne_nil _ _)

theorem digit_not_space (c : Char) (hd : (digit_of c).isSome = true) :
    isspace c = false ∧ c ≠ '-' ∧ c ≠ '+' := by
  unfold digit_of at hd
  by_cases h : '0' ≤ c ∧ c ≤ '9'
  · refine ⟨?_, ?_, ?_⟩
    · cases hs : isspace c with
      | false => rfl
      | true =>
        exfalso
        simp only [isspace, Bool.decide_or, Bool.or_eq_true, decide_eq_true_eq] at hs
        rcases hs with hs | hs | hs | hs | hs | hs <;> subst hs <;> revert h <;> decide
    · intro hs; subst hs; revert h; decide
    · intro hs; subst hs; revert h; decide
  · rw [if_neg h] at hd
    cases hd

theorem hex_not_space (c : Char) (hd : (hex_of c).isSome = true) :
    isspace c = false ∧ c ≠ 'x' ∧ c ≠ 'X' ∧ c ≠ ',' ∧ c ≠ '(' ∧ c ≠ ')' ∧ c ≠ ';' ∧
      c ≠ '\n' ∧ c ≠ ':' := by
  have key : ∀ d : Char, hex_of d = none → c ≠ d := by
    intro d hd2 e
    rw [e, hd2] at hd
    cases hd
  refine ⟨?_, key _ (by decide), key _ (by decide), key _ (by decide), key _ (by decide),
    key _ (by decide), key _ (by decide), key _ (by decide), key _ (by decide)⟩
  cases hs : isspace c with
  | false => rfl
  | true =>
    exfalso
    simp only [isspace, Bool.decide_or, Bool.or_eq_true, decide_eq_true_eq] at hs
    rcases hs with hs | hs | hs | hs | hs | hs
    · exact key _ (by decide) hs
    · exact key _ (by decide) hs
    · exact key _ (by decide) hs
    · exact key _ (by decide) hs
    · exact key _ (by decide) hs
    · exact key _ (by decide) hs

theorem dropWhile_head {α : Type} (p : α → Bool) (c : α) (t : List α) (h : p c = false) :
    (c :: t).dropWhile p = c :: t := by
  rw [List.dropWhile_cons, h]; rfl

/-- The conversion `%d` on a string that starts with a digit. -/
theorem scan_d_digit (c : Char) (t : List Char) (hd : (digit_of c).isSome = true) :
    scan_d (c :: t) = some (((scan_num digit_of 10 0 (c :: t)).1 : Int),
      (scan_num digit_of 10 0 (c :: t)).2) := by
  obtain ⟨h1, h2, h3⟩ := digit_not_space c hd
  have hs : scan_sign (c :: t) = (false, c :: t) := by
    unfold scan_sign
    split
    · rename_i r e
      exact absurd (List.cons.inj e).1 h2
    · rename_i r e
      exact absurd (List.cons.inj e).1 h3
    · rfl
  unfold scan_d
  simp only [dropWhile_head isspace c t h1, hs, hd, if_true, Bool.false_eq_true, if_false]

/-- The conversion `%d` on a string that starts with `-` and a digit. -/
theorem scan_d_minus (c : Char) (t : List Char) (hd : (digit_of c).isSome = true) :
    scan_d ('-' :: c :: t) = some (- ((scan_num digit_of 10 0 (c :: t)).1 : Int),
      (scan_num digit_of 10 0 (c :: t)).2) := by
  unfold scan_d
  have e : List.dropWhile isspace ('-' :: c :: t) = '-' :: c :: t :=
    dropWhile_head isspace '-' _ (by decide)
  have hs : scan_sign ('-' :: c :: t) = (true, c :: t) := rfl
  simp only [e, hs, hd, if_true]

theorem scan_num_stop (dig : Char → Option Nat) (b n : Nat) (rest : List Char)
    (hr : rest = [] ∨ ∃ c r, rest = c :: r ∧ dig c = none) :
    scan_num dig b n rest = (n, rest) := by
  rcases hr with rfl | ⟨c, r, rfl, hc⟩
  · rfl
  · rw [scan_num, hc]

theorem toDigits_cons (b : Nat) (hb : 0 < b) (n : Nat) :
    ∃ k t, k < b ∧ Nat.toDigits b n = Nat.digitChar k :: t := by
  cases h : Nat.toDigits b n with
  | nil => exact absurd h (toDigits_ne_nil b n)
  | cons c t =>
    obtain ⟨k, hk, e⟩ := toDigits_chars b hb n c (by rw [h]; exact List.mem_cons_self _ _)
    exact ⟨k, t, hk, by rw [e]⟩

/-- Reading back with `%d` what `%d` has written, when no digit follows. -/
theorem scan_d_fmt_d (n : Int) (rest : List Char)
    (hr : rest = [] ∨ ∃ c r, rest = c :: r ∧ digit_of c = none) :
    scan_d (fmt_d n ++ rest) = some (n, rest) := by
  have hread : ∀ k : Nat, scan_num digit_of 10 0 (Nat.toDigits 10 k ++ rest) = (k, rest) := by
    intro k
    rw [scan_num_toDigits digit_of 10 (by decide) digit_of_digitChar]
    exact scan_num_stop _ _ _ _ hr
  cases n with
  | ofNat k =>
    obtain ⟨j, t, hj, e⟩ := toDigits_cons 10 (by decide) k
    have hd : (digit_of (Nat.digitChar j)).isSome = true := by
      rw [digit_of_digitChar j hj]; rfl
    have h := scan_d_digit (Nat.digitChar j) (t ++ rest) hd
    have e2 : fmt_d (Int.ofNat k) ++ rest = Nat.digitChar j :: (t ++ rest) := by
      show Nat.toDigits 10 k ++ rest = _
      rw [e]; rfl
    rw [e2, h, ← List.cons_append, ← e, hread k]
    rfl
  | negSucc k =>
    obtain ⟨j, t, hj, e⟩ := toDigits_cons 10 (by decide) (k + 1)
    have hd : (digit_of (Nat.digitChar j)).isSome = true := by
      rw [digit_of_digitChar j hj]; rfl
    have h := scan_d_minus (Nat.digitChar j) (t ++ rest) hd
    have e2 : fmt_d (Int.negSucc k) ++ rest = '-' :: Nat.digitChar j :: (t ++ rest) := by
      show '-' :: (Nat.toDigits 10 (k + 1) ++ rest) = _
      rw [e]; rfl
    rw [e2, h, ← List.cons_append, ← e, hread (k + 1)]
    rfl

/-- The conversion `%a` on a string that starts with a hexadecimal digit and
not with the prefix `0x`. -/
theorem scan_a_hex (c : Char) (t : List Char) (hd : (hex_of c).isSome = true)
    (hx : ∀ x r, t = x :: r → x ≠ 'x' ∧ x ≠ 'X') :
    scan_a (c :: t) = some (scan_num hex_of 16 0 (c :: t)) := by
  obtain ⟨h1, -⟩ := hex_not_space c hd
  have hs : scan_0x (c :: t) = c :: t := by
    unfold scan_0x
    split
    · rename_i x h r e
      obtain ⟨-, e2⟩ := List.cons.inj e
      obtain ⟨hx1, hx2⟩ := hx x (h :: r) e2
      have hn : ¬ ((x = 'x' ∨ x = 'X') ∧ (hex_of h).isSome = true) := by
        rintro ⟨h3 | h3, -⟩
        · exact hx1 h3
        · exact hx2 h3
      rw [if_neg hn]
    · rfl
  unfold scan_a
  simp only [dropWhile_head isspace c t h1, hs, hd, if_true]

/-- Reading back with `%a` what `%a` has written, when the end of the string or
a blank follows. -/
theorem scan_a_fmt_a (a : ea_t) (rest : List Char)
    (hr : rest = [] ∨ ∃ r, rest = ' ' :: r) :
    scan_a (fmt_a a ++ rest) = some (a, rest) := by
  obtain ⟨j, t, hj, e⟩ := toDigits_cons 16 (by decide) a
  have hd : (hex_of (Nat.digitChar j)).isSome = true := by
    rw [hex_of_digitChar j hj]; rfl
  have hx : ∀ x r, t ++ rest = x :: r → x ≠ 'x' ∧ x ≠ 'X' := by
    intro x r hxr
    cases t with
    | nil =>
      rcases hr with rfl | ⟨r0, rfl⟩
      · cases hxr
      · obtain ⟨e1, -⟩ := List.cons.inj hxr
        rw [← e1]
        exact ⟨by decide, by decide⟩
    | cons y t0 =>
      obtain ⟨e1, -⟩ := List.cons.inj hxr
      obtain ⟨k, hk, ek⟩ := toDigits_chars 16 (by decide) a y
        (by rw [e]; exact List.mem_cons_of_mem _ (List.mem_cons_self _ _))
      have hy : (hex_of y).isSome = true := by
        rw [ek, hex_of_digitChar k hk]; rfl
      obtain ⟨-, h2, h3, -⟩ := hex_not_space y hy
      rw [← e1]
      exact ⟨h2, h3⟩
  have h := scan_a_hex (Nat.digitChar j) (t ++ rest) hd hx
  have e2 : fmt_a a ++ rest = Nat.digitChar j :: (t ++ rest) := by
    show Nat.toDigits 16 a ++ rest = _
    rw [e]; rfl
  rw [e2, h, ← List.cons_append, ← e,
    scan_num_toDigits hex_of 16 (by decide) hex_of_digitChar]
  rw [scan_num_stop]
  rcases hr with rfl | ⟨r0, rfl⟩
  · exact Or.inl rfl
  · exact Or.inr ⟨' ', r0, rfl, by decide⟩

/-! ## Tokens -/

theorem takeWhile_stop {α : Type} (p : α → Bool) : ∀ (t : List α) (x : α) (rest : List α),
    (∀ c ∈ t, p c = true) → p x = false →
    (t ++ x :: rest).takeWhile p = t ∧ (t ++ x :: rest).dropWhile p = x :: rest := by
  intro t
  induction t with
  | nil =>
    intro x rest _ hx
    rw [List.nil_append, List.takeWhile_cons, List.dropWhile_cons, hx]
    exact ⟨rfl, rfl⟩
  | cons y t ih =>
    intro x rest h hx
    have hy : p y = true := h y (List.mem_cons_self _ _)
    obtain ⟨a, b⟩ := ih x rest (fun c hc => h c (List.mem_cons_of_mem _ hc)) hx
    rw [List.cons_append, List.takeWhile_cons, List.dropWhile_cons, hy, a, b]
    exact ⟨rfl, rfl⟩

theorem takeWhile_all_of {α : Type} (p : α → Bool) : ∀ (t : List α),
    (∀ c ∈ t, p c = true) → t.takeWhile p = t ∧ t.dropWhile p = [] := by
  intro t
  induction t with
  | nil => intro _; exact ⟨rfl, rfl⟩
  | cons y t ih =>
    intro h
    have hy : p y = true := h y (List.mem_cons_self _ _)
    obtain ⟨a, b⟩ := ih (fun c hc => h c (List.mem_cons_of_mem _ hc))
    rw [List.takeWhile_cons, List.dropWhile_cons, hy, a, b]
    exact ⟨rfl, rfl⟩

theorem not_delim (d : Char) (t : List Char) (hd : d ∉ t) :
    ∀ c ∈ t, (fun c => decide (c ≠ d)) c = true := by
  intro c hc
  exact decide_eq_true (fun e => hd (e ▸ hc))

theorem takeWhile_token (d : Char) (t rest : List Char) (hd : d ∉ t) :
    (t ++ d :: rest).takeWhile (fun c => decide (c ≠ d)) = t ∧
    (t ++ d :: rest).dropWhile (fun c => decide (c ≠ d)) = d :: rest :=
  takeWhile_stop _ t d rest (not_delim d t hd) (decide_eq_false (fun h => h rfl))

theorem takeWhile_all (d : Char) (t : List Char) (hd : d ∉ t) :
    t.takeWhile (fun c => decide (c ≠ d)) = t ∧
    t.dropWhile (fun c => decide (c ≠ d)) = [] :=
  takeWhile_all_of _ t (not_delim d t hd)

/-- The first call of `qstrtok` on a token followed by the delimiter. -/
theorem qstrtok_token (d : Char) (t rest : List Char) (hne : t ≠ []) (hd : d ∉ t) :
    qstrtok d (t ++ d :: rest) = some (t, rest) := by
  cases t with
  | nil => exact absurd rfl hne
  | cons x t0 =>
    have hx : x ≠ d := fun e => hd (e ▸ List.mem_cons_self _ _)
    obtain ⟨a, b⟩ := takeWhile_token d (x :: t0) rest hd
    have e1 : List.dropWhile (fun c => decide (c = d)) ((x :: t0) ++ d :: rest)
        = (x :: t0) ++ d :: rest :=
      dropWhile_head _ x _ (decide_eq_false hx)
    unfold qstrtok
    simp only [e1]
    rw [List.cons_append] at a b ⊢
    simp only [a, b, List.drop_one, List.tail_cons]

/-- The first call of `qstrtok` on a token that ends the string. -/
theorem qstrtok_last (d : Char) (t : List Char) (hne : t ≠ []) (hd : d ∉ t) :
    qstrtok d t = some (t, []) := by
  cases t with
  | nil => exact absurd rfl hne
  | cons x t0 =>
    have hx : x ≠ d := fun e => hd (e ▸ List.mem_cons_self _ _)
    obtain ⟨a, b⟩ := takeWhile_all d (x :: t0) hd
    have e1 : List.dropWhile (fun c => decide (c = d)) (x :: t0) = x :: t0 :=
      dropWhile_head _ x _ (decide_eq_false hx)
    unfold qstrtok
    simp only [e1]
    simp only [a, b, List.drop_nil]

theorem length_dropWhile_le {α : Type} (p : α → Bool) : ∀ l : List α,
    (l.dropWhile p).length ≤ l.length := by
  intro l
  induction l with
  | nil => exact Nat.le_refl _
  | cons x r ih =>
    unfold List.dropWhile
    cases p x with
    | true => exact Nat.le_succ_of_le ih
    | false => exact Nat.le_refl _

theorem dropWhile_head_not {α : Type} (p : α → Bool) : ∀ (l : List α) (x : α) (r : List α),
    l.dropWhile p = x :: r → p x = false := by
  intro l
  induction l with
  | nil => intro x r h; cases h
  | cons y l ih =>
    intro x r h
    rw [List.dropWhile_cons] at h
    cases hy : p y with
    | true =>
      rw [hy] at h
      exact ih x r h
    | false =>
      rw [hy] at h
      simp only [Bool.false_eq_true, if_false] at h
      obtain ⟨e, -⟩ := List.cons.inj h
      rw [← e]; exact hy

/-- A call of `qstrtok` that returns a token shortens the string. -/
theorem qstrtok_length (d : Char) (s t r : List Char) (h : qstrtok d s = some (t, r)) :
    r.length < s.length := by
  unfold qstrtok at h
  have h1 := length_dropWhile_le (fun c => decide (c = d)) s
  cases hs : List.dropWhile (fun c => decide (c = d)) s with
  | nil => rw [hs] at h; cases h
  | cons x s1 =>
    rw [hs] at h h1
    simp only [Option.some.injEq, Prod.mk.injEq] at h
    obtain ⟨-, h2⟩ := h
    have h3 := length_dropWhile_le (fun c => decide (c ≠ d)) (x :: s1)
    have h4 : r.length ≤ (List.dropWhile (fun c => decide (c ≠ d)) (x :: s1)).length - 1 := by
      rw [← h2, List.length_drop]
    have hx : decide (x ≠ d) = true := by
      have := dropWhile_head_not (fun c => decide (c = d)) s x s1 hs
      simp only [decide_eq_false_iff_not] at this
      exact decide_eq_true this
    have h5 : List.dropWhile (fun c => decide (c ≠ d)) (x :: s1)
        = List.dropWhile (fun c => decide (c ≠ d)) s1 := by
      rw [List.dropWhile, hx]
    rw [h5] at h4
    have h6 := length_dropWhile_le (fun c => decide (c ≠ d)) s1
    simp only [List.length_cons] at h1
    omega

theorem strtok_all_nil (d : Char) (f : Nat) : strtok_all d f [] = [] := by
  cases f <;> rfl

/-- With enough fuel, the tokens do not depend on the fuel. -/
theorem strtok_all_fuel (d : Char) : ∀ (f : Nat) (s : List Char) (f2 : Nat),
    s.length ≤ f → s.length ≤ f2 → strtok_all d f s = strtok_all d f2 s := by
  intro f
  induction f with
  | zero =>
    intro s f2 h _
    have hs : s = [] := List.length_eq_zero.mp (Nat.le_zero.mp h)
    subst hs
    rw [strtok_all_nil, strtok_all_nil]
  | succ f ih =>
    intro s f2 h h2
    cases f2 with
    | zero =>
      have hs : s = [] := List.length_eq_zero.mp (Nat.le_zero.mp h2)
      subst hs
      rw [strtok_all_nil, strtok_all_nil]
    | succ f2 =>
      unfold strtok_all
      cases hq : qstrtok d s with
      | none => rfl
      | some tr =>
        obtain ⟨t, r⟩ := tr
        have hl := qstrtok_length d s t r hq
        simp only
        rw [ih r f2 (Nat.le_of_lt_succ (Nat.lt_of_lt_of_le hl h))
          (Nat.le_of_lt_succ (Nat.lt_of_lt_of_le hl h2))]

/-- The tokens of a string that starts with a token and the delimiter. -/
theorem strtok_all_cons (d : Char) (t rest : List Char) (hne : t ≠ []) (hd : d ∉ t)
    (f : Nat) (hf : (t ++ d :: rest).length ≤ f) :
    strtok_all d f (t ++ d :: rest) = t :: strtok_all d rest.length rest := by
  cases f with
  | zero =>
    simp only [List.length_append, List.length_cons] at hf
    omega
  | succ f =>
    have hl : rest.length ≤ f := by
      simp only [List.length_append, List.length_cons] at hf
      omega
    simp only [strtok_all, qstrtok_token d t rest hne hd]
    rw [strtok_all_fuel d f rest rest.length hl (Nat.le_refl _)]

/-- The tokens of a string that is one token. -/
theorem strtok_all_last (d : Char) (t : List Char) (hne : t ≠ []) (hd : d ∉ t)
    (f : Nat) (hf : t.length ≤ f) :
    strtok_all d f t = [t] := by
  cases f with
  | zero =>
    exact absurd (List.length_eq_zero.mp (Nat.le_zero.mp hf)) hne
  | succ f =>
    simp only [strtok_all, qstrtok_last d t hne hd, strtok_all_nil]

/-! ## The entries of a node group -/

theorem fmt_d_chars (n : Int) : ∀ c ∈ fmt_d n, (hex_of c).isSome = true ∨ c = '-' := by
  have hdig : ∀ k : Nat, ∀ c ∈ Nat.toDigits 10 k, (hex_of c).isSome = true := by
    intro k c hc
    obtain ⟨j, hj, e⟩ := toDigits_chars 10 (by decide) k c hc
    rw [e, hex_of_digitChar j (Nat.lt_trans hj (by decide))]; rfl
  intro c hc
  cases n with
  | ofNat k => exact Or.inl (hdig k c hc)
  | negSucc k =>
    rcases List.mem_cons.mp hc with h | h
    · exact Or.inr h
    · exact Or.inl (hdig _ c h)

theorem fmt_a_chars (a : ea_t) : ∀ c ∈ fmt_a a, (hex_of c).isSome = true := by
  intro c hc
  obtain ⟨j, hj, e⟩ := toDigits_chars 16 (by decide) a c hc
  rw [e, hex_of_digitChar j hj]; rfl

/-- The characters of an entry: none of them is a separator of the format. -/
theorem emit_node_chars (nd : pnodedef_t) : ∀ c ∈ emit_node nd,
    c ≠ ',' ∧ c ≠ '(' ∧ c ≠ ')' ∧ c ≠ ';' ∧ c ≠ '\n' := by
  have hhex : ∀ c, (hex_of c).isSome = true →
      c ≠ ',' ∧ c ≠ '(' ∧ c ≠ ')' ∧ c ≠ ';' ∧ c ≠ '\n' := by
    intro c hc
    obtain ⟨-, -, -, h1, h2, h3, h4, h5, -⟩ := hex_not_space c hc
    exact ⟨h1, h2, h3, h4, h5⟩
  intro c hc
  unfold emit_node at hc
  simp only [List.mem_append] at hc
  rcases hc with (((hc | hc) | hc) | hc) | hc
  · rcases fmt_d_chars _ c hc with h | h
    · exact hhex c h
    · subst h; decide
  · have : c = ' ' ∨ c = ':' := by
      have e : " : ".toList = [' ', ':', ' '] := rfl
      rw [e] at hc
      simp only [List.mem_cons, List.mem_singleton, List.not_mem_nil, or_false] at hc
      tauto
    rcases this with h | h <;> subst h <;> decide
  · exact hhex c (fmt_a_chars _ c hc)
  · have : c = ' ' ∨ c = ':' := by
      have e : " : ".toList = [' ', ':', ' '] := rfl
      rw [e] at hc
      simp only [List.mem_cons, List.mem_singleton, List.not_mem_nil, or_false] at hc
      tauto
    rcases this with h | h <;> subst h <;> decide
  · exact hhex c (fmt_a_chars _ c hc)

theorem fmt_a_head (a : ea_t) (rest : List Char) :
    ∃ c t, fmt_a a ++ rest = c :: t ∧ isspace c = false := by
  obtain ⟨j, t, hj, e⟩ := toDigits_cons 16 (by decide) a
  refine ⟨Nat.digitChar j, t ++ rest, by show Nat.toDigits 16 a ++ rest = _; rw [e]; rfl, ?_⟩
  exact (hex_not_space _ (by rw [hex_of_digitChar j hj]; rfl)).1

/-- An entry starts with a digit or a minus sign. -/
theorem emit_node_head (nd : pnodedef_t) :
    ∃ c t, emit_node nd = c :: t ∧ isspace c = false ∧ c ≠ ',' := by
  unfold emit_node
  cases hn : nd.nid with
  | ofNat k =>
    obtain ⟨j, t, hj, e⟩ := toDigits_cons 10 (by decide) k
    have hh : (hex_of (Nat.digitChar j)).isSome = true := by
      rw [hex_of_digitChar j (Nat.lt_trans hj (by decide))]; rfl
    obtain ⟨h1, -, -, h2, -⟩ := hex_not_space _ hh
    refine ⟨Nat.digitChar j,
      t ++ " : ".toList ++ fmt_a nd.start ++ " : ".toList ++ fmt_a nd.end_, ?_, h1, h2⟩
    show Nat.toDigits 10 k ++ _ ++ _ ++ _ ++ _ = _
    rw [e]
    simp only [List.cons_append]
  | negSucc k =>
    exact ⟨'-', _, rfl, by decide, by decide⟩

theorem scan_colon_fmt (X : List Char) (hX : X.dropWhile isspace = X) :
    scan_colon (" : ".toList ++ X) = some X := by
  show scan_colon (' ' :: ':' :: ' ' :: X) = some X
  unfold scan_colon
  have e1 : List.dropWhile isspace (' ' :: ':' :: ' ' :: X) = ':' :: ' ' :: X := by
    rw [List.dropWhile_cons]
    have : isspace ' ' = true := by decide
    rw [this]
    simp only [if_true]
    exact dropWhile_head isspace ':' _ (by decide)
  rw [e1]
  simp only
  have e2 : List.dropWhile isspace (' ' :: X) = X := by
    rw [List.dropWhile_cons]
    have : isspace ' ' = true := by decide
    rw [this]
    simp only [if_true]
    exact hX
  rw [e2]

/-- Reading back an entry gives the triple of its NodeDef. -/
theorem qsscanf_emit_node (nd : pnodedef_t) :
    qsscanf_d_a_a (emit_node nd) = some (nd_triple nd) := by
  have hsp : ∀ (a : ea_t) (rest : List Char),
      (fmt_a a ++ rest).dropWhile isspace = fmt_a a ++ rest := by
    intro a rest
    obtain ⟨c, t, e, hc⟩ := fmt_a_head a rest
    rw [e]
    exact dropWhile_head isspace c t hc
  have e0 : emit_node nd = fmt_d nd.nid ++
      (" : ".toList ++ (fmt_a nd.start ++ (" : ".toList ++ (fmt_a nd.end_ ++ [])))) := by
    unfold emit_node
    simp only [List.append_assoc, List.append_nil]
  have e3 : " : ".toList = [' ', ':', ' '] := rfl
  unfold qsscanf_d_a_a
  rw [e0, scan_d_fmt_d nd.nid _ (Or.inr ⟨' ', _, by rw [e3]; rfl, by decide⟩)]
  simp only
  rw [scan_colon_fmt _ (hsp _ _)]
  simp only
  rw [scan_a_fmt_a nd.start _ (Or.inr ⟨_, by rw [e3]; rfl⟩)]
  simp only
  rw [scan_colon_fmt _ (hsp _ _)]
  simp only
  rw [scan_a_fmt_a nd.end_ [] (Or.inl rfl)]
  rfl

theorem emit_node_ne_nil (nd : pnodedef_t) : emit_node nd ≠ [] := by
  obtain ⟨c, t, e, -⟩ := emit_node_head nd
  rw [e]; exact List.cons_ne_nil _ _

theorem emit_node_no_comma (nd : pnodedef_t) : ',' ∉ emit_node nd :=
  fun h => (emit_node_chars nd _ h).1 rfl

theorem skipSpaces_emit_node (nd : pnodedef_t) (rest : List Char) :
    skipSpaces (emit_node nd ++ rest) = emit_node nd ++ rest := by
  obtain ⟨c, t, e, hc, -⟩ := emit_node_head nd
  unfold skipSpaces
  rw [e, List.cons_append]
  exact dropWhile_head isspace c _ hc

theorem emit_nodes_cons2 (nd nd1 : pnodedef_t) (r : List pnodedef_t) :
    emit_nodes (nd :: nd1 :: r) = emit_node nd ++ ',' :: (' ' :: emit_nodes (nd1 :: r)) := by
  rw [emit_nodes]
  have e : ", ".toList = [',', ' '] := rfl
  rw [e]
  simp only [List.append_assoc, List.cons_append, List.nil_append]

/-- The characters of the entries of a group: no parenthesis, no `;`, no line
feed. -/
theorem emit_nodes_chars : ∀ (l : List pnodedef_t), ∀ c ∈ emit_nodes l,
    c ≠ '(' ∧ c ≠ ')' ∧ c ≠ ';' ∧ c ≠ '\n' := by
  intro l
  induction l with
  | nil => intro c hc; cases hc
  | cons nd r ih =>
    cases r with
    | nil =>
      intro c hc
      exact (emit_node_chars nd c hc).2
    | cons nd1 r =>
      intro c hc
      rw [emit_nodes_cons2] at hc
      rcases List.mem_append.mp hc with h | h
      · exact (emit_node_chars nd c h).2
      · rcases List.mem_cons.mp h with h | h
        · subst h; decide
        · rcases List.mem_cons.mp h with h | h
          · subst h; decide
          · exact ih c h

/-- The tokens that the inner loop of `parse_nodeset` finds after the first
entry. -/
theorem strtok_emit_nodes : ∀ (l : List pnodedef_t), l ≠ [] → ∀ f,
    (' ' :: emit_nodes l).length ≤ f →
    strtok_all ',' f (' ' :: emit_nodes l) = l.map (fun nd => ' ' :: emit_node nd) := by
  intro l
  induction l with
  | nil => intro h; exact absurd rfl h
  | cons nd r ih =>
    intro _ f hf
    have hno : ',' ∉ ' ' :: emit_node nd := by
      intro h
      rcases List.mem_cons.mp h with h | h
      · revert h; decide
      · exact emit_node_no_comma nd h
    cases r with
    | nil =>
      exact strtok_all_last ',' _ (List.cons_ne_nil _ _) hno f hf
    | cons nd1 r =>
      rw [emit_nodes_cons2, ← List.cons_append] at hf ⊢
      rw [strtok_all_cons ',' _ _ (List.cons_ne_nil _ _) hno f hf,
        ih (List.cons_ne_nil _ _) _ (Nat.le_refl _)]
      rfl

theorem takeWhile_head_false {α : Type} (p : α → Bool) (c : α) (t : List α)
    (h : p c = false) : (c :: t).takeWhile p = [] := by
  rw [List.takeWhile_cons, h]; rfl

/-- The strings that the inner loop of `parse_nodeset` visits for the entries
that `emit` has written. -/
theorem entry_strings_emit (nd : pnodedef_t) (r : List pnodedef_t) :
    entry_strings (emit_nodes (nd :: r))
      = emit_node nd :: r.map (fun x => ' ' :: emit_node x) := by
  obtain ⟨c, t, e, -, hc⟩ := emit_node_head nd
  have htw : ∀ rest, List.takeWhile (fun c => decide (c = ',')) (emit_node nd ++ rest) = [] := by
    intro rest
    rw [e, List.cons_append]
    exact takeWhile_head_false _ c _ (decide_eq_false hc)
  cases r with
  | nil =>
    unfold entry_strings
    have e1 : emit_nodes [nd] = emit_node nd := rfl
    rw [e1, qstrtok_last ',' _ (emit_node_ne_nil nd) (emit_node_no_comma nd)]
    simp only
    have := htw []
    rw [List.append_nil] at this
    rw [this, strtok_all_nil]
    rfl
  | cons nd1 r =>
    unfold entry_strings
    rw [emit_nodes_cons2, qstrtok_token ',' _ _ (emit_node_ne_nil nd) (emit_node_no_comma nd)]
    simp only
    rw [htw, strtok_emit_nodes (nd1 :: r) (List.cons_ne_nil _ _) _ (Nat.le_refl _)]
    rfl

/-- Reading back the entries of a group gives the triples of its NodeDefs. -/
theorem body_triples_emit (l : List pnodedef_t) :
    body_triples (emit_nodes l) = l.map nd_triple := by
  cases l with
  | nil => rfl
  | cons nd r =>
    unfold body_triples
    rw [entry_strings_emit, List.filterMap_cons]
    have h1 : skipSpaces (emit_node nd) = emit_node nd := by
      have := skipSpaces_emit_node nd []
      rw [List.append_nil] at this
      exact this
    rw [h1, qsscanf_emit_node]
    simp only [List.map_cons]
    congr 1
    induction r with
    | nil => rfl
    | cons x r ih =>
      rw [List.map_cons, List.filterMap_cons]
      have h2 : skipSpaces (' ' :: emit_node x) = emit_node x := by
        unfold skipSpaces
        rw [List.dropWhile_cons]
        have : isspace ' ' = true := by decide
        rw [this]
        simp only [if_true]
        have := skipSpaces_emit_node x []
        rw [List.append_nil] at this
        exact this
      rw [h2, qsscanf_emit_node, ih]
      rfl

/-! ## The groups of a super group -/

theorem strchr_cut_found (c : Char) : ∀ (pre X : List Char), c ∉ pre →
    strchr_cut c (pre ++ c :: X) = some (pre, X) := by
  intro pre
  induction pre with
  | nil =>
    intro X _
    simp only [List.nil_append, strchr_cut, if_true]
  | cons x pre ih =>
    intro X h
    have hx : x ≠ c := fun e => h (e ▸ List.mem_cons_self _ _)
    have hp : c ∉ pre := fun e => h (List.mem_cons_of_mem _ e)
    rw [List.cons_append, strchr_cut, if_neg hx, ih X hp]

theorem strchr_cut_none (c : Char) : ∀ (s : List Char), c ∉ s → strchr_cut c s = none := by
  intro s
  induction s with
  | nil => intro _; rfl
  | cons x s ih =>
    intro h
    have hx : x ≠ c := fun e => h (e ▸ List.mem_cons_self _ _)
    have hp : c ∉ s := fun e => h (List.mem_cons_of_mem _ e)
    rw [strchr_cut, if_neg hx, ih hp]

/-- The text of the groups of a super group, group by group. -/
theorem emit_groups_cons (g : nodegroup_t) (r : List nodegroup_t) :
    ∃ pre, emit_groups (g :: r) = '(' :: (emit_nodes g ++ ')' :: (pre ++ emit_groups r)) ∧
      '(' ∉ pre ∧ skipSpaces (pre ++ emit_groups r) = pre ++ emit_groups r ∧
      ∀ c ∈ pre, c = ',' ∨ c = ' ' := by
  cases r with
  | nil =>
    refine ⟨[], ?_, List.not_mem_nil _, rfl, fun c hc => absurd hc (List.not_mem_nil _)⟩
    show ['('] ++ emit_nodes g ++ [')'] = '(' :: (emit_nodes g ++ ')' :: ([] ++ []))
    simp only [List.cons_append, List.nil_append, List.append_nil]
  | cons g1 r =>
    refine ⟨[',', ' '], ?_, by decide, ?_, ?_⟩
    · show ['('] ++ emit_nodes g ++ [')'] ++ [',', ' '] ++ emit_groups (g1 :: r) = _
      simp only [List.cons_append, List.nil_append, List.append_assoc]
    · exact dropWhile_head isspace ',' _ (by decide)
    · intro c hc
      simp only [List.mem_cons, List.mem_singleton, List.not_mem_nil, or_false] at hc
      exact hc

theorem skipSpaces_body (g : nodegroup_t) (Y : List Char) :
    skipSpaces (emit_nodes g ++ ')' :: Y) = emit_nodes g ++ ')' :: Y := by
  cases g with
  | nil => exact dropWhile_head isspace ')' _ (by decide)
  | cons nd r =>
    cases r with
    | nil =>
      have e1 : emit_nodes [nd] = emit_node nd := rfl
      rw [e1]
      exact skipSpaces_emit_node nd _
    | cons nd1 r =>
      rw [emit_nodes_cons2, List.append_assoc]
      exact skipSpaces_emit_node nd _

/-- Reading back the groups of a super group gives the triples of their
NodeDefs, group by group. -/
theorem nodeset_triples_emit : ∀ (gs : List nodegroup_t) (pre : List Char) (f : Nat),
    '(' ∉ pre → (pre ++ emit_groups gs).length ≤ f →
    nodeset_triples f (pre ++ emit_groups gs) = gs.map (fun g => g.map nd_triple) := by
  intro gs
  induction gs with
  | nil =>
    intro pre f hpre _
    have e : emit_groups [] = [] := rfl
    rw [e, List.append_nil]
    cases f with
    | zero => rfl
    | succ f =>
      rw [nodeset_triples, strchr_cut_none '(' pre hpre]
      rfl
  | cons g r ih =>
    intro pre f hpre hf
    obtain ⟨pre2, e, hp2, hsk, -⟩ := emit_groups_cons g r
    rw [e] at hf ⊢
    cases f with
    | zero =>
      simp only [List.length_append, List.length_cons] at hf
      omega
    | succ f =>
      have hno : ')' ∉ emit_nodes g := fun h => (emit_nodes_chars g _ h).2.1 rfl
      have hl : (pre2 ++ emit_groups r).length ≤ f := by
        simp only [List.length_append, List.length_cons] at hf ⊢
        omega
      rw [nodeset_triples, strchr_cut_found '(' pre _ hpre]
      simp only
      rw [skipSpaces_body, strchr_cut_found ')' _ _ hno]
      simp only
      rw [hsk, ih pre2 f hp2 hl, body_triples_emit]
      rfl

/-! ## The line of a super group -/

theorem emit_groups_chars : ∀ (gs : List nodegroup_t), ∀ c ∈ emit_groups gs,
    c ≠ ';' ∧ c ≠ '\n' := by
  intro gs
  induction gs with
  | nil => intro c hc; cases hc
  | cons g r ih =>
    intro c hc
    obtain ⟨pre, e, -, -, hpre⟩ := emit_groups_cons g r
    rw [e] at hc
    rcases List.mem_cons.mp hc with h | h
    · subst h; decide
    · rcases List.mem_append.mp h with h | h
      · exact (emit_nodes_chars g c h).2.2
      · rcases List.mem_cons.mp h with h | h
        · subst h; decide
        · rcases List.mem_append.mp h with h | h
          · rcases hpre c h with h | h <;> subst h <;> decide
          · exact ih c h

theorem tokens_fold_cons (acc : sg_content) (t rest : List Char) (hne : t ≠ [])
    (hd : ';' ∉ t) :
    (strtok_all ';' (t ++ ';' :: rest).length (t ++ ';' :: rest)).foldl token_content acc
      = (strtok_all ';' rest.length rest).foldl token_content (token_content acc t) := by
  rw [strtok_all_cons ';' t rest hne hd _ (Nat.le_refl _)]
  rfl

theorem tokens_fold_last (acc : sg_content) (t : List Char) (hne : t ≠ []) (hd : ';' ∉ t) :
    (strtok_all ';' t.length t).foldl token_content acc = token_content acc t := by
  rw [strtok_all_last ';' t hne hd _ (Nat.le_refl _)]
  rfl

theorem token_content_id (acc : sg_content) (id : qstring) (hid : skipSpaces id = id) :
    token_content acc ("ID:".toList ++ id) = (id, acc.2.1, acc.2.2) := by
  have e : "ID:".toList ++ id = ['I', 'D'] ++ ':' :: id := rfl
  unfold token_content
  rw [e, strchr_cut_found ':' _ _ (by decide)]
  simp only [hid]
  have h1 : stricmp_eq (skipSpaces ['I', 'D']) "ID".toList = true := by decide
  rw [h1]
  simp only [if_true]

theorem token_content_name (acc : sg_content) (name : qstring)
    (hname : skipSpaces name = name) :
    token_content acc ("GROUPNAME:".toList ++ name) = (acc.1, name, acc.2.2) := by
  have e : "GROUPNAME:".toList ++ name
      = ['G', 'R', 'O', 'U', 'P', 'N', 'A', 'M', 'E'] ++ ':' :: name := rfl
  unfold token_content
  rw [e, strchr_cut_found ':' _ _ (by decide)]
  simp only [hname]
  have h1 : stricmp_eq (skipSpaces ['G', 'R', 'O', 'U', 'P', 'N', 'A', 'M', 'E'])
      "ID".toList = false := by decide
  have h2 : stricmp_eq (skipSpaces ['G', 'R', 'O', 'U', 'P', 'N', 'A', 'M', 'E'])
      "GROUPNAME".toList = true := by decide
  rw [h1, h2]
  simp only [Bool.false_eq_true, if_false, if_true]

theorem token_content_nodeset (acc : sg_content) (gs : List nodegroup_t) (hgs : gs ≠ []) :
    token_content acc ("NODESET:".toList ++ emit_groups gs)
      = (acc.1, acc.2.1, acc.2.2 ++ gs.map (fun g => g.map nd_triple)) := by
  have e : "NODESET:".toList ++ emit_groups gs
      = ['N', 'O', 'D', 'E', 'S', 'E', 'T'] ++ ':' :: emit_groups gs := rfl
  have hsk : skipSpaces (emit_groups gs) = emit_groups gs := by
    cases gs with
    | nil => exact absurd rfl hgs
    | cons g r =>
      obtain ⟨pre, e1, -⟩ := emit_groups_cons g r
      rw [e1]
      exact dropWhile_head isspace '(' _ (by decide)
  unfold token_content
  rw [e, strchr_cut_found ':' _ _ (by decide)]
  simp only [hsk]
  have h1 : stricmp_eq (skipSpaces ['N', 'O', 'D', 'E', 'S', 'E', 'T'])
      "ID".toList = false := by decide
  have h2 : stricmp_eq (skipSpaces ['N', 'O', 'D', 'E', 'S', 'E', 'T'])
      "GROUPNAME".toList = false := by decide
  have h3 : stricmp_eq (skipSpaces ['N', 'O', 'D', 'E', 'S', 'E', 'T'])
      "NODESET".toList = true := by decide
  rw [h1, h2, h3]
  simp only [Bool.false_eq_true, if_false, if_true]
  have h4 := nodeset_triples_emit gs [] (emit_groups gs).length (List.not_mem_nil _)
    (Nat.le_refl _)
  rw [List.nil_append] at h4
  rw [h4]

/-- Reading back the line of a super group gives its id, its name and the
triples of its groups. -/
theorem line_content_emit (id name : qstring) (gs : List nodegroup_t)
    (hid : plain_field id) (hname : plain_field name) :
    line_content (emit_line id name gs) = (id, name, gs.map (fun g => g.map nd_triple)) := by
  have e1 : ";".toList = [';'] := rfl
  -- the third part
  have h3 : ∀ acc : sg_content,
      (strtok_all ';' (if gs.length > 0 then "NODESET:".toList ++ emit_groups gs else []).length
        (if gs.length > 0 then "NODESET:".toList ++ emit_groups gs else [])).foldl
        token_content acc = (acc.1, acc.2.1, acc.2.2 ++ gs.map (fun g => g.map nd_triple)) := by
    intro acc
    cases gs with
    | nil =>
      simp only [List.length_nil, gt_iff_lt, Nat.lt_irrefl, if_false, strtok_all_nil,
        List.foldl_nil, List.map_nil, List.append_nil]
    | cons g r =>
      simp only [List.length_cons, gt_iff_lt, Nat.zero_lt_succ, if_true]
      rw [tokens_fold_last, token_content_nodeset acc (g :: r) (List.cons_ne_nil _ _)]
      · exact List.cons_ne_nil _ _
      · intro h
        rcases List.mem_append.mp h with h | h
        · revert h; decide
        · exact (emit_groups_chars _ _ h).1 rfl
  -- the second part
  have h2 : ∀ (acc : sg_content) (rest : List Char), acc.2.1 = [] →
      (strtok_all ';'
        ((if name ≠ [] then "GROUPNAME:".toList ++ name ++ ";".toList else []) ++ rest).length
        ((if name ≠ [] then "GROUPNAME:".toList ++ name ++ ";".toList else []) ++ rest)).foldl
        token_content acc
      = (strtok_all ';' rest.length rest).foldl token_content (acc.1, name, acc.2.2) := by
    intro acc rest hacc
    by_cases hn : name = []
    · subst hn
      simp only [ne_eq, not_true_eq_false, if_false, List.nil_append]
      rw [← hacc]
    · simp only [ne_eq, hn, not_false_eq_true, if_true]
      rw [e1, List.append_assoc, List.singleton_append, tokens_fold_cons,
        token_content_name acc name hname.2.2.2]
      · exact List.append_ne_nil_of_left_ne_nil (by decide) _
      · intro h
        rcases List.mem_append.mp h with h | h
        · revert h; decide
        · exact hname.1 h
  -- the first part
  have h1 : ∀ (rest : List Char),
      (strtok_all ';'
        ((if id ≠ [] then "ID:".toList ++ id ++ ";".toList else []) ++ rest).length
        ((if id ≠ [] then "ID:".toList ++ id ++ ";".toList else []) ++ rest)).foldl
        token_content ([], [], [])
      = (strtok_all ';' rest.length rest).foldl token_content (id, [], []) := by
    intro rest
    by_cases hn : id = []
    · subst hn
      simp only [ne_eq, not_true_eq_false, if_false, List.nil_append]
    · simp only [ne_eq, hn, not_false_eq_true, if_true]
      rw [e1, List.append_assoc, List.singleton_append, tokens_fold_cons,
        token_content_id _ id hid.2.2.2]
      · exact List.append_ne_nil_of_left_ne_nil (by decide) _
      · intro h
        rcases List.mem_append.mp h with h | h
        · revert h; decide
        · exact hid.1 h
  unfold line_content emit_line
  rw [List.append_assoc, h1, h2 _ _ rfl, h3]
  rfl

/-! ## The text of a manager -/

theorem getlines_line : ∀ (l rest : List Char), '\n' ∉ l →
    getlines (l ++ '\n' :: rest) = l :: getlines rest := by
  intro l
  induction l with
  | nil =>
    intro rest _
    rw [List.nil_append, getlines, if_pos rfl]
  | cons c l ih =>
    intro rest h
    have hc : c ≠ '\n' := fun e => h (e ▸ List.mem_cons_self _ _)
    have hl : '\n' ∉ l := fun e => h (List.mem_cons_of_mem _ e)
    rw [List.cons_append, getlines, if_neg hc, ih rest hl]

theorem emit_node_no_nul (nd : pnodedef_t) : '\x00' ∉ emit_node nd := by
  have hd : '\x00' ∉ fmt_d nd.nid := by
    intro h
    rcases fmt_d_chars nd.nid _ h with h1 | h1
    · revert h1; decide
    · revert h1; decide
  have ha : ∀ a : ea_t, '\x00' ∉ fmt_a a := by
    intro a h
    have := fmt_a_chars a _ h
    revert this; decide
  intro h
  unfold emit_node at h
  simp only [List.mem_append] at h
  rcases h with (((h | h) | h) | h) | h
  · exact hd h
  · revert h; decide
  · exact ha _ h
  · revert h; decide
  · exact ha _ h

theorem emit_nodes_no_nul : ∀ (l : List pnodedef_t), '\x00' ∉ emit_nodes l := by
  intro l
  induction l with
  | nil => intro h; cases h
  | cons nd r ih =>
    cases r with
    | nil => exact emit_node_no_nul nd
    | cons nd1 r1 =>
      intro h
      have e : emit_nodes (nd :: nd1 :: r1)
          = emit_node nd ++ ", ".toList ++ emit_nodes (nd1 :: r1) := rfl
      rw [e] at h
      simp only [List.mem_append] at h
      rcases h with (h | h) | h
      · exact emit_node_no_nul nd h
      · revert h; decide
      · exact ih h

theorem emit_groups_no_nul : ∀ (gs : List nodegroup_t), '\x00' ∉ emit_groups gs := by
  intro gs
  induction gs with
  | nil => intro h; cases h
  | cons g r ih =>
    cases r with
    | nil =>
      intro h
      have e : emit_groups [g] = "(".toList ++ emit_nodes g ++ ")".toList := rfl
      rw [e] at h
      simp only [List.mem_append] at h
      rcases h with (h | h) | h
      · revert h; decide
      · exact emit_nodes_no_nul g h
      · revert h; decide
    | cons g1 r1 =>
      intro h
      have e : emit_groups (g :: g1 :: r1)
          = "(".toList ++ emit_nodes g ++ ")".toList ++ ", ".toList
            ++ emit_groups (g1 :: r1) := rfl
      rw [e] at h
      simp only [List.mem_append] at h
      rcases h with (((h | h) | h) | h) | h
      · revert h; decide
      · exact emit_nodes_no_nul g h
      · revert h; decide
      · revert h; decide
      · exact ih h

/-- The line of a super group holds no NUL. -/
theorem emit_line_no_nul (p : qstring × qstring × List nodegroup_t) (hp : parts_ok p) :
    '\x00' ∉ emit_line p.1 p.2.1 p.2.2 := by
  obtain ⟨h1, h2, -⟩ := hp
  intro h
  unfold emit_line at h
  rcases List.mem_append.mp h with h | h
  · rcases List.mem_append.mp h with h | h
    · split_ifs at h
      · rcases List.mem_append.mp h with h | h
        · rcases List.mem_append.mp h with h | h
          · revert h; decide
          · exact h1.2.2.1 h
        · revert h; decide
      · cases h
    · split_ifs at h
      · rcases List.mem_append.mp h with h | h
        · rcases List.mem_append.mp h with h | h
          · revert h; decide
          · exact h2.2.2.1 h
        · revert h; decide
      · cases h
  · split_ifs at h
    · rcases List.mem_append.mp h with h | h
      · revert h; decide
      · exact emit_groups_no_nul _ h
    · cases h

/-- The line of a super group holds no line feed. -/
theorem emit_line_no_lf (p : qstring × qstring × List nodegroup_t) (hp : parts_ok p) :
    '\n' ∉ emit_line p.1 p.2.1 p.2.2 := by
  obtain ⟨h1, h2, -⟩ := hp
  intro h
  unfold emit_line at h
  rcases List.mem_append.mp h with h | h
  · rcases List.mem_append.mp h with h | h
    · split_ifs at h
      · rcases List.mem_append.mp h with h | h
        · rcases List.mem_append.mp h with h | h
          · revert h; decide
          · exact h1.2.1 h
        · revert h; decide
      · cases h
    · split_ifs at h
      · rcases List.mem_append.mp h with h | h
        · rcases List.mem_append.mp h with h | h
          · revert h; decide
          · exact h2.2.1 h
        · revert h; decide
      · cases h
  · split_ifs at h
    · rcases List.mem_append.mp h with h | h
      · revert h; decide
      · exact (emit_groups_chars _ _ h).2 rfl
    · cases h

/-- The line of a super group starts with the first letter of a key. -/
theorem emit_line_head (p : qstring × qstring × List nodegroup_t) (hp : parts_ok p) :
    ∃ c t, emit_line p.1 p.2.1 p.2.2 = c :: t ∧ (c = 'I' ∨ c = 'G' ∨ c = 'N') := by
  obtain ⟨-, -, h3⟩ := hp
  unfold emit_line
  by_cases hi : p.1 = []
  · by_cases hn : p.2.1 = []
    · have hg : p.2.2 ≠ [] := by
        rcases h3 with h | h | h
        · exact absurd hi h
        · exact absurd hn h
        · exact h
      have hl : p.2.2.length > 0 := List.length_pos.mpr hg
      simp only [hi, hn, hl, ne_eq, not_true_eq_false, if_false, if_true, List.nil_append]
      exact ⟨'N', _, rfl, Or.inr (Or.inr rfl)⟩
    · simp only [hi, hn, ne_eq, not_true_eq_false, not_false_eq_true, if_false, if_true,
        List.nil_append]
      exact ⟨'G', _, rfl, Or.inr (Or.inl rfl)⟩
  · simp only [hi, ne_eq, not_false_eq_true, if_true]
    exact ⟨'I', _, rfl, Or.inl rfl⟩

/-- A line of a super group is read by `parse` as a super group of the current
section. -/
theorem text_step_line (cur : sgl_ref) (ps : List sg_content × List sg_content)
    (p : qstring × qstring × List nodegroup_t) (hp : parts_ok p) :
    text_cstr (some cur, ps) (emit_line p.1 p.2.1 p.2.2)
      = (some cur, content_add cur ps (parts_view p)) := by
  have hv := line_content_emit p.1 p.2.1 p.2.2 hp.1 hp.2.1
  obtain ⟨c, t, e, hc⟩ := emit_line_head p hp
  rw [e] at hv
  rw [e]
  have hsp : isspace c = false := by
    rcases hc with h | h | h <;> subst h <;> decide
  have h1 : c ≠ '#' := by
    rcases hc with h | h | h <;> subst h <;> decide
  have h2 : c ≠ '-' := by
    rcases hc with h | h | h <;> subst h <;> decide
  have hs : skipSpaces (c :: t) = c :: t := dropWhile_head isspace c t hsp
  unfold text_cstr
  simp only [hs]
  rw [if_neg h1, if_neg (fun h => h2 h.1), hv]
  rfl

/-- The lines that `parse` reads from the lines of a list of super groups. -/
theorem getlines_parts : ∀ (l : List (qstring × qstring × List nodegroup_t))
    (rest : List Char), (∀ p ∈ l, parts_ok p) →
    getlines ((l.map parts_line).flatten ++ rest)
      = l.map (fun p => emit_line p.1 p.2.1 p.2.2) ++ getlines rest := by
  intro l
  induction l with
  | nil => intro rest _; rfl
  | cons p r ih =>
    intro rest h
    have e : parts_line p = emit_line p.1 p.2.1 p.2.2 ++ ['\n'] := rfl
    rw [List.map_cons, List.flatten_cons, List.append_assoc, e]
    rw [List.append_assoc, List.singleton_append,
      getlines_line _ _ (emit_line_no_lf p (h p (List.mem_cons_self _ _))),
      ih rest (fun q hq => h q (List.mem_cons_of_mem _ hq))]
    rfl

/-- The effect of the lines of a list of super groups on the contents that
`parse` reads. -/
theorem text_step_parts (cur : sgl_ref) :
    ∀ (l : List (qstring × qstring × List nodegroup_t)) (ps : List sg_content × List sg_content),
    (∀ p ∈ l, parts_ok p) →
    (l.map (fun p => emit_line p.1 p.2.1 p.2.2)).foldl text_step (some cur, ps)
      = (some cur, (l.map parts_view).foldl (content_add cur) ps) := by
  intro l
  induction l with
  | nil => intro ps _; rfl
  | cons p r ih =>
    intro ps h
    rw [List.map_cons, List.foldl_cons,
      text_step_no_nul _ _ (emit_line_no_nul p (h p (List.mem_cons_self _ _))),
      text_step_line cur ps p (h p (List.mem_cons_self _ _)),
      ih _ (fun q hq => h q (List.mem_cons_of_mem _ hq))]
    rfl

theorem content_add_path (l : List sg_content) : ∀ (ps : List sg_content × List sg_content),
    l.foldl (content_add .path) ps = (ps.1 ++ l, ps.2) := by
  induction l with
  | nil => intro ps; simp
  | cons c r ih =>
    intro ps
    rw [List.foldl_cons, ih]
    simp [content_add]

theorem content_add_similar (l : List sg_content) :
    ∀ (ps : List sg_content × List sg_content),
    l.foldl (content_add .similar) ps = (ps.1, ps.2 ++ l) := by
  induction l with
  | nil => intro ps; simp
  | cons c r ih =>
    intro ps
    rw [List.foldl_cons, ih]
    simp [content_add]

/-- Reading back the text that `emit` writes for the parts `lp` of the path
list and `ls` of the similar list gives their contents. -/
theorem text_content_emit (lp ls : List (qstring × qstring × List nodegroup_t))
    (hp : ∀ p ∈ lp, parts_ok p) (hs : ∀ p ∈ ls, parts_ok p) :
    text_content ("--PATHINFO\n".toList ++ (lp.map parts_line).flatten
        ++ "--SIMILARINFO\n".toList ++ (ls.map parts_line).flatten ++ [])
      = (lp.map parts_view, ls.map parts_view) := by
  have e1 : "--PATHINFO\n".toList = "--PATHINFO".toList ++ ['\n'] := rfl
  have e2 : "--SIMILARINFO\n".toList = "--SIMILARINFO".toList ++ ['\n'] := rfl
  have g0 : getlines [] = [[]] := rfl
  have t1 : ∀ st : Option sgl_ref × List sg_content × List sg_content,
      text_step st "--PATHINFO".toList = (some .path, st.2) := fun st => rfl
  have t2 : ∀ st : Option sgl_ref × List sg_content × List sg_content,
      text_step st "--SIMILARINFO".toList = (some .similar, st.2) := fun st => rfl
  have t3 : ∀ st : Option sgl_ref × List sg_content × List sg_content,
      text_step st [] = st := fun st => rfl
  unfold text_content
  rw [e1, e2]
  simp only [List.append_assoc, List.singleton_append, List.append_nil, List.cons_append,
    List.nil_append]
  rw [getlines_line _ _ (by decide), getlines_parts lp _ hp, getlines_line _ _ (by decide)]
  have := getlines_parts ls [] hs
  rw [List.append_nil] at this
  rw [this, g0]
  simp only [List.foldl_cons, List.foldl_append, List.foldl_nil, t1, t2, t3,
    text_step_parts .path lp _ hp, text_step_parts .similar ls _ hs,
    content_add_path, content_add_similar, List.nil_append]

theorem mapM_live (ngs : pnodegroup_t → Option nodegroup_t) (f : pnodegroup_t → nodegroup_t)
    (hf : ∀ g l, ngs g = some l → f g = l) :
    ∀ (gs : nodegroup_list_t), (∀ g ∈ gs, (ngs g).isSome = true) →
    gs.mapM ngs = some (gs.map f) := by
  intro gs
  induction gs with
  | nil => intro _; rfl
  | cons g r ih =>
    intro h
    obtain ⟨l, hl⟩ := Option.isSome_iff_exists.mp (h g (List.mem_cons_self _ _))
    rw [List.mapM_cons, hl, ih (fun x hx => h x (List.mem_cons_of_mem _ hx))]
    simp only [Option.pure_def, Option.bind_eq_bind, Option.some_bind, List.map_cons,
      hf g l hl]

/-- The text that `emit_sgl` writes for a list that can be written. -/
theorem emit_sgl_eq (m : groupman_t) : ∀ (sgl : supergroup_listp_t), emittable m sgl →
    emit_sgl m sgl = some ((sgl.map (fun sg => parts_line (sg_parts m sg))).flatten) := by
  have hone : ∀ sg, sg_emittable m sg →
      (do let s ← m.sgs sg; emit_sg m.ngs s) = some (parts_line (sg_parts m sg)) := by
    intro sg h
    unfold sg_emittable at h
    unfold sg_parts
    cases hs : m.sgs sg with
    | none => rw [hs] at h; exact absurd h (fun x => x)
    | some s =>
      rw [hs] at h
      simp only [Option.bind_eq_bind, Option.some_bind]
      unfold emit_sg
      rw [mapM_live m.ngs (ng_nodes m) (fun g l hg => by simp [ng_nodes, hg]) s.groups h.1]
      rfl
  have hall : ∀ (sgl : supergroup_listp_t), emittable m sgl →
      sgl.mapM (fun sg => do let s ← m.sgs sg; emit_sg m.ngs s)
        = some (sgl.map (fun sg => parts_line (sg_parts m sg))) := by
    intro sgl
    induction sgl with
    | nil => intro _; rfl
    | cons sg r ih =>
      intro h
      rw [List.mapM_cons, hone sg (h sg (List.mem_cons_self _ _)),
        ih (fun x hx => h x (List.mem_cons_of_mem _ hx))]
      rfl
  intro sgl h
  unfold emit_sgl
  rw [hall sgl h]
  rfl

theorem sgl_view_parts (m : groupman_t) (sgl : supergroup_listp_t) :
    sgl_view m sgl = (sgl.map (sg_parts m)).map parts_view := by
  unfold sgl_view
  rw [List.map_map]
  apply List.map_congr_left
  intro sg _
  simp only [Function.comp, sg_parts]
  cases m.sgs sg with
  | none => rfl
  | some s =>
    simp only [sg_view, parts_view, List.map_map]
    rfl

theorem parts_ok_of_emittable (m : groupman_t) (sgl : supergroup_listp_t)
    (h : emittable m sgl) : ∀ p ∈ sgl.map (sg_parts m), parts_ok p := by
  intro p hp
  obtain ⟨sg, hsg, rfl⟩ := List.mem_map.mp hp
  have := h sg hsg
  unfold sg_emittable at this
  unfold sg_parts
  cases hs : m.sgs sg with
  | none => rw [hs] at this; exact absurd this (fun x => x)
  | some s =>
    rw [hs] at this
    obtain ⟨-, h1, h2, h3⟩ := this
    refine ⟨h1, h2, ?_⟩
    rcases h3 with h3 | h3 | h3
    · exact Or.inl h3
    · exact Or.inr (Or.inl h3)
    · refine Or.inr (Or.inr ?_)
      intro e
      exact h3 (List.map_eq_nil_iff.mp e)

/-- The text that `emit` writes for a state whose lists can be written, and
what `parse` reads from it. -/
theorem emit_text_content (X : groupman_t) (hp : emittable X X.path_sgl)
    (hs : emittable X X.similar_sgl) :
    ∃ text, emit X none = some text ∧
      text_content text = (sgl_view X X.path_sgl, sgl_view X X.similar_sgl) := by
  refine ⟨"--PATHINFO\n".toList ++ ((X.path_sgl.map (sg_parts X)).map parts_line).flatten
      ++ "--SIMILARINFO\n".toList ++ ((X.similar_sgl.map (sg_parts X)).map parts_line).flatten
      ++ [], ?_, ?_⟩
  · unfold emit
    rw [emit_sgl_eq X _ hp, emit_sgl_eq X _ hs]
    simp only [Option.bind_eq_bind, Option.some_bind, Option.pure_def, List.map_map]
    rfl
  · rw [text_content_emit _ _ (parts_ok_of_emittable X _ hp) (parts_ok_of_emittable X _ hs),
      sgl_view_parts, sgl_view_parts]

/-! ## `emit` and `parse`: the round trip -/

/-- C1 (amended): for every manager state X whose path list and similar list
hold live super groups with live node groups, each with an id and a name that
hold no `;`, no line feed and no NUL and do not start with white space, and
each with a non-empty id, a non-empty name and at least one node group (one
of the three being non-empty is enough), `emit` writes a text, and `parse` of
this text (on a manager that `clear` can release) yields a manager whose path
list and similar list are live and hold the same sequence of super groups
(same id, same name), each with the same sequence of node groups, each with
the same sequence of (id, start, end) triples as X. -/
theorem parse_emit_round_trip (X m0 mc : groupman_t) (ic : Bool)
    (hp : emittable X X.path_sgl) (hs : emittable X X.similar_sgl)
    (hc : clear m0 = some mc) :
    ∃ text m1, emit X none = some text ∧ parse m0 text ic = some m1 ∧
      sgl_view m1 m1.path_sgl = sgl_view X X.path_sgl ∧
      sgl_view m1 m1.similar_sgl = sgl_view X X.similar_sgl ∧
      sgl_live m1 m1.path_sgl ∧ sgl_live m1 m1.similar_sgl := by
  obtain ⟨text, he, ht⟩ := emit_text_content X hp hs
  obtain ⟨m1, hpar, v1, v2, -, hW⟩ := parse_content m0 mc text ic hc
  refine ⟨text, m1, he, hpar, ?_, ?_, lists_below_brk_live m1 hW, ?_⟩
  · rw [v1, ht]
  · rw [v2, ht]
  · intro sg hsg
    obtain ⟨-, s, hs1, hg⟩ := hW sg (List.mem_append_right _ hsg)
    refine ⟨by rw [hs1]; rfl, ?_⟩
    intro ng hng
    have e : sg_groups m1 sg = s.groups := by simp [sg_groups, hs1]
    rw [e] at hng
    exact (hg ng hng).2

theorem parse_emit_round_trip_witness :
    emittable state_two state_two.path_sgl ∧ emittable state_two state_two.similar_sgl ∧
    clear groupman_t.new = some groupman_t.new ∧
    ∃ text m1, emit state_two none = some text ∧ parse groupman_t.new text true = some m1 ∧
      sgl_view m1 m1.path_sgl = sgl_view state_two state_two.path_sgl ∧
      sgl_view m1 m1.similar_sgl = sgl_view state_two state_two.similar_sgl ∧
      sgl_live m1 m1.path_sgl ∧ sgl_live m1 m1.similar_sgl :=
  ⟨by decide, by decide, rfl,
    parse_emit_round_trip state_two groupman_t.new groupman_t.new true (by decide) (by decide)
      rfl⟩

/-- C1, as stated, fails for a super group whose id holds a `;`: the super
group of `state_semicolon` has a non-empty id, a non-empty name and one node
group, `emit` writes its id `a;b` as it is, and `parse` reads the id `a` from
the text. -/
theorem parse_emit_semicolon_id :
    (state_semicolon.sgs 0).map (fun s => (s.id, s.name, s.groups))
      = some ("a;b".toList, "n".toList, [1]) ∧
    state_semicolon.path_sgl = [0] ∧ state_semicolon.similar_sgl = [] ∧
    emit state_semicolon none
      = some "--PATHINFO\nID:a;b;GROUPNAME:n;NODESET:(1 : 0 : 10)\n--SIMILARINFO\n".toList ∧
    sgl_view state_semicolon state_semicolon.path_sgl
      = [("a;b".toList, "n".toList, [[(1, 0, 16)]])] ∧
    (parse groupman_t.new
        "--PATHINFO\nID:a;b;GROUPNAME:n;NODESET:(1 : 0 : 10)\n--SIMILARINFO\n".toList true).map
      (fun m => (sgl_view m m.path_sgl, sgl_view m m.similar_sgl))
      = some ([("a".toList, "n".toList, [[(1, 0, 16)]])], []) := by
  refine ⟨rfl, rfl, rfl, ?_, ?_, ?_⟩
  · rfl
  · rfl
  · rfl

/-! ## The location index after a rebuild -/

/-- C7 (amended): `initialize_lookups` succeeds on a path list of live
pointers, and the rebuilt index is sound: a lookup gives `NULL` exactly for
the ids that no NodeDef of the path list carries (whatever the similar list
holds), and otherwise a location `(sg, ng, nd)` with `sg` in the path list,
`ng` a group of `sg`, `nd` a member of `ng` and `nd.nid = id`.  The same holds
after `parse` with `init_cache = true`, after `combine_ngl` on a non-empty
list, after `move_nodes_to_ng` and after `reset_groupping`.  In particular
the id of a NodeDef of the similar list that no NodeDef of the path list
carries is not found.  The four operations return on well-formed states. -/
theorem index_sound_after_rebuild :
    (∀ m : groupman_t, sgl_live m m.path_sgl → ∃ m1, initialize_lookups m = some m1) ∧
    (∀ m m1 : groupman_t, initialize_lookups m = some m1 → index_sound m1) ∧
    (∀ (m m1 : groupman_t) (nd : pnodedef_t), initialize_lookups m = some m1 →
      nd ∈ similar_nds m1 → (∀ x ∈ path_nds m1, x.nid ≠ nd.nid) →
      find_nodeid_loc m1 nd.nid = none) ∧
    (∀ (m m1 : groupman_t) (text : List Char), parse m text true = some m1 → index_sound m1) ∧
    (∀ (m m1 : groupman_t) (ngl : nodegroup_list_t) (r : Option pnodegroup_t),
      ngl ≠ [] → combine_ngl m ngl = some (r, m1) → index_sound m1) ∧
    (∀ (m m1 : groupman_t) (nds : List pnodedef_t) (r : Option pnodegroup_t),
      move_nodes_to_ng m nds = some (r, m1) → index_sound m1) ∧
    (∀ m m1 : groupman_t, reset_groupping m = some m1 → index_sound m1) ∧
    (∀ (m mc : groupman_t) (text : List Char), clear m = some mc →
      ∃ m1, parse m text true = some m1) ∧
    (∀ (m : groupman_t) (ngl : nodegroup_list_t), path_owned m → index_current m →
      (∀ g ∈ ngl, g ∈ path_ngs m) → ∃ r m1, combine_ngl m ngl = some (r, m1)) ∧
    (∀ (m : groupman_t) (nds : List pnodedef_t), path_owned m → m.ngs m.brk = none →
      index_current m → (path_ids m).Nodup → nds.Nodup → (∀ x ∈ nds, x ∈ path_nds m) →
      ∃ r m1, move_nodes_to_ng m nds = some (r, m1)) ∧
    (∀ m : groupman_t, path_owned m → ∃ m1, reset_groupping m = some m1) := by
  refine ⟨?_, initialize_lookups_sound, ?_, ?_, ?_, ?_, ?_, ?_, ?_, ?_, ?_⟩
  · intro m hl
    exact ⟨_, (initialize_lookups_iff m _).mpr ⟨hl, rfl⟩⟩
  · intro m m1 nd h _ hno
    exact ((initialize_lookups_sound m m1 h) nd.nid).1.mpr hno
  · intro m m1 text h
    obtain ⟨m0, h0⟩ := parse_rebuilds m m1 text h
    exact initialize_lookups_sound m0 m1 h0
  · intro m m1 ngl r hne h
    obtain ⟨m0, h0⟩ := combine_ngl_rebuilds m m1 ngl r hne h
    exact initialize_lookups_sound m0 m1 h0
  · intro m m1 nds r h
    obtain ⟨m0, h0⟩ := move_nodes_to_ng_rebuilds m m1 nds r h
    exact initialize_lookups_sound m0 m1 h0
  · intro m m1 h
    obtain ⟨m0, h0⟩ := reset_groupping_rebuilds m m1 h
    exact initialize_lookups_sound m0 m1 h0
  · intro m mc text hc
    obtain ⟨m1, h, -⟩ := parse_content m mc text true hc
    exact ⟨m1, h⟩
  · intro m ngl hown hidx hin
    obtain ⟨r, m1, h, -⟩ := combine_ngl_perm m ngl hown hidx hin
    exact ⟨r, m1, h⟩
  · intro m nds hown hfresh hidx hids hnd hin
    cases nds with
    | nil =>
      have hinit := (initialize_lookups_iff m _).mpr ⟨hown.live, rfl⟩
      refine ⟨none, { m with nid2loc := index_of [] (sgl_locs m m.path_sgl) }, ?_⟩
      simp only [move_nodes_to_ng, List.foldlM_nil, Option.pure_def, Option.bind_eq_bind,
        Option.some_bind, hinit]
    | cons nd rest =>
      obtain ⟨s0, g0, m1, -, -, -, -, hrun⟩ :=
        move_nodes_run m nd rest hown hfresh hidx hids hnd hin
      exact ⟨_, _, hrun⟩
  · intro m hown
    obtain ⟨m1, h, -⟩ := reset_groupping_run m hown
    exact ⟨m1, h⟩

theorem index_sound_after_rebuild_witness :
    (∃ m1, initialize_lookups state_stale = some m1) ∧
    index_sound { state_stale with
      nid2loc := index_of [] (sgl_locs state_stale state_stale.path_sgl) } :=
  ⟨index_sound_after_rebuild.1 state_stale (by decide),
   index_sound_after_rebuild.2.1 state_stale _
     ((initialize_lookups_iff state_stale _).mpr ⟨by decide, rfl⟩)⟩

/-- C7, as stated, fails for `combine_ngl` on an empty list: the call returns
`NULL` before the index is rebuilt.  In `state_stale` the NodeDef with id `1`
is in the path list, and after the call the lookup of `1` still gives `NULL`. -/
theorem combine_ngl_empty_keeps_stale_index :
    sample_nd 10 1 0 16 ∈ path_nds state_stale ∧
    (combine_ngl state_stale []).map (fun r => (r.1, find_nodeid_loc r.2 1, path_nds r.2))
      = some (none, none, path_nds state_stale) ∧
    ¬ (∀ (m m1 : groupman_t) (ngl : nodegroup_list_t) (r : Option pnodegroup_t),
        combine_ngl m ngl = some (r, m1) → index_sound m1) := by
  refine ⟨by decide, by decide, ?_⟩
  intro h
  have hs := h state_stale state_stale [] none rfl
  have h1 := (hs 1).1.mp (by decide)
  exact h1 (sample_nd 10 1 0 16) (by decide) rfl

/-! ## `get_display_name` and `copy_attr_from` -/

/-- C19: for every super group and every default value, `get_display_name`
returns the name when the name is non-empty, otherwise the id when the id is
non-empty, otherwise the default. -/
theorem get_display_name_order (s : supergroup_t) (defval : Option qstring) :
    get_display_name s defval
      = if s.name ≠ [] then some s.name else if s.id ≠ [] then some s.id else defval := by
  unfold get_display_name
  by_cases hn : s.name = []
  · by_cases hi : s.id = []
    · simp [hn, hi]
    · simp [hn, hi]
  · simp [hn]

theorem copy_calls_counter : ∀ (calls : List (supergroup_t × supergroup_t)) (n : Int),
    n + calls.length ≤ INT_MAX → copy_calls n calls = some (n + calls.length) := by
  intro calls
  induction calls with
  | nil => intro n _; simp [copy_calls]
  | cons c r ih =>
    intro n h
    have hlen : ((c :: r).length : Int) = (r.length : Int) + 1 := by simp
    have hn : n < INT_MAX := by rw [hlen] at h; omega
    have h1 : (copy_attr_from n c.1 c.2).map (fun r => r.1) = some (n + 1) := by
      simp [copy_attr_from, hn]
    have h2 := ih (n + 1) (by rw [hlen] at h; omega)
    unfold copy_calls at h2 ⊢
    rw [List.foldlM_cons, h1]
    simp only [Option.bind_eq_bind, Option.some_bind]
    rw [h2, hlen]
    congr 1
    omega

/-- C20: with the static counter as explicit state that starts at 1, the call
of `copy_attr_from` that follows `k - 1` earlier calls, whatever super groups
these were applied to, finds the counter at `k`; it sets the id of the
receiver to `<other.id> - copy_<k>` and its name to `<other.name> - copy_<k>`,
sets `is_synthetic` to false on the receiver and on the other super group,
leaves the node groups of both as they are and the other one's id and name
too, and increases the counter by exactly one.  The counter is an `int`: this
holds as long as it is below `INT_MAX`. -/
theorem copy_attr_from_kth (calls : List (supergroup_t × supergroup_t))
    (this sg : supergroup_t) (h : (calls.length : Int) + 1 < INT_MAX) :
    copy_calls 1 calls = some ((calls.length : Int) + 1) ∧
    copy_attr_from ((calls.length : Int) + 1) this sg
      = some ((calls.length : Int) + 1 + 1,
          { id := sg.id ++ " - copy_".toList ++ fmt_d ((calls.length : Int) + 1),
            name := sg.name ++ " - copy_".toList ++ fmt_d ((calls.length : Int) + 1),
            is_synthetic := false, groups := this.groups },
          { id := sg.id, name := sg.name, is_synthetic := false, groups := sg.groups }) := by
  constructor
  · have := copy_calls_counter calls 1 (by omega)
    rw [this]
    congr 1
    omega
  · simp [copy_attr_from, h, sprnt_copy]

theorem copy_attr_from_kth_witness :
    ((([] : List (supergroup_t × supergroup_t)).length : Int) + 1 < INT_MAX) ∧
    copy_calls 1 [] = some 1 ∧
    copy_attr_from 1 supergroup_t.new
        { id := "a".toList, name := "n".toList, is_synthetic := true, groups := [7] }
      = some (2,
          { id := "a - copy_1".toList, name := "n - copy_1".toList, is_synthetic := false,
            groups := [] },
          { id := "a".toList, name := "n".toList, is_synthetic := false, groups := [7] }) :=
  ⟨by decide,
    copy_attr_from_kth [] supergroup_t.new
      { id := "a".toList, name := "n".toList, is_synthetic := true, groups := [7] }
      (by decide)⟩

/-! ## `combine_ngl` on a list of one group -/

/-- C13: for every manager state (whose path list holds live pointers) and
every list of exactly one node group `g`, `combine_ngl` returns `g`; the node
groups, `g` among them, and the super groups are the same objects with the
same contents afterwards, and the path list, the similar list and the registry
are unchanged. -/
theorem combine_ngl_singleton (m : groupman_t) (g : pnodegroup_t)
    (hl : sgl_live m m.path_sgl) :
    ∃ m1, combine_ngl m [g] = some (some g, m1) ∧
      ng_nodes m1 g = ng_nodes m g ∧ m1.ngs = m.ngs ∧ m1.sgs = m.sgs ∧
      m1.path_sgl = m.path_sgl ∧ m1.similar_sgl = m.similar_sgl ∧
      m1.all_nodes = m.all_nodes := by
  have hinit := (initialize_lookups_iff m _).mpr ⟨hl, rfl⟩
  refine ⟨{ m with nid2loc := index_of [] (sgl_locs m m.path_sgl) }, ?_, rfl, rfl, rfl, rfl,
    rfl, rfl⟩
  have hfb : find_biggest m.ngs [g] = some (some g) := rfl
  have hloop : [g].foldlM (combine_ngl_step g) m = some m := by
    simp [combine_ngl_step]
  simp only [combine_ngl, hfb, Option.bind_eq_bind, Option.some_bind, hloop, hinit,
    Option.pure_def]

theorem combine_ngl_singleton_witness :
    sgl_live state_two state_two.path_sgl ∧
    ∃ m1, combine_ngl state_two [3] = some (some 3, m1) ∧
      ng_nodes m1 3 = ng_nodes state_two 3 ∧ m1.ngs = state_two.ngs ∧
      m1.sgs = state_two.sgs ∧
      m1.path_sgl = state_two.path_sgl ∧ m1.similar_sgl = state_two.similar_sgl ∧
      m1.all_nodes = state_two.all_nodes :=
  ⟨by decide, combine_ngl_singleton state_two 3 (by decide)⟩

/-! ## `get_first_nd` -/

/-- C16: `get_first_nd` returns `NULL` when the path list is empty, when its
first super group has no groups, and when the first group of that super group
is empty; otherwise it returns the first NodeDef of the first node group of
the first super group of the path list.  Parsing the text
`--PATHINFO`, `ID:g1;NODESET:(1 : 0x10 : 0x20, 2 : 0x20 : 0x30)` yields a path
list of one super group with the id `g1` and one node group that holds the
NodeDefs `(1, 0x10, 0x20)` and `(2, 0x20, 0x30)` in this order, and
`get_first_nd` then returns the NodeDef with the id 1. -/
theorem get_first_nd_first :
    (∀ m : groupman_t, m.path_sgl = [] → get_first_nd m = some none) ∧
    (∀ (m : groupman_t) (sg : psupergroup_t) (rest : supergroup_listp_t) (s : supergroup_t),
      m.path_sgl = sg :: rest → m.sgs sg = some s → s.groups = [] →
      get_first_nd m = some none) ∧
    (∀ (m : groupman_t) (sg : psupergroup_t) (rest : supergroup_listp_t) (s : supergroup_t)
      (g : pnodegroup_t) (gs : nodegroup_list_t),
      m.path_sgl = sg :: rest → m.sgs sg = some s → s.groups = g :: gs →
      m.ngs g = some [] → get_first_nd m = some none) ∧
    (∀ (m : groupman_t) (sg : psupergroup_t) (rest : supergroup_listp_t) (s : supergroup_t)
      (g : pnodegroup_t) (gs : nodegroup_list_t) (nd : pnodedef_t) (nds : nodegroup_t),
      m.path_sgl = sg :: rest → m.sgs sg = some s → s.groups = g :: gs →
      m.ngs g = some (nd :: nds) → get_first_nd m = some (some nd)) ∧
    (parse groupman_t.new
        "--PATHINFO\nID:g1;NODESET:(1 : 0x10 : 0x20, 2 : 0x20 : 0x30)\n".toList true).map
      (fun m => (m.path_sgl.length, sgl_view m m.path_sgl,
        (get_first_nd m).map (Option.map nd_triple)))
      = some (1, [("g1".toList, [], [[(1, 0x10, 0x20), (2, 0x20, 0x30)]])],
          some (some (1, 0x10, 0x20))) := by
  refine ⟨?_, ?_, ?_, ?_, ?_⟩
  · intro m h
    simp [get_first_nd, h]
  · intro m sg rest s h1 h2 h3
    simp [get_first_nd, h1, h2, h3]
  · intro m sg rest s g gs h1 h2 h3 h4
    simp [get_first_nd, h1, h2, h3, h4]
  · intro m sg rest s g gs nd nds h1 h2 h3 h4
    simp [get_first_nd, h1, h2, h3, h4]
  · rfl

theorem get_first_nd_first_witness :
    get_first_nd groupman_t.new = some none ∧
    get_first_nd state_two = some (some (sample_nd 10 1 0 16)) :=
  ⟨get_first_nd_first.1 groupman_t.new rfl,
   get_first_nd_first.2.2.2.1 state_two 0 [1]
     { id := "a".toList, name := [], is_synthetic := false, groups := [2] } 2 []
     (sample_nd 10 1 0 16) [] rfl rfl rfl rfl⟩

/-! ## `emit`: the text written -/

theorem emit_nodes_intercalate : ∀ (l : List pnodedef_t),
    emit_nodes l = (", ".toList).intercalate (l.map spec_entry) := by
  intro l
  induction l with
  | nil => rfl
  | cons nd r ih =>
    cases r with
    | nil =>
      show emit_node nd = _
      simp [List.intercalate, emit_node, spec_entry]
    | cons nd1 r =>
      rw [emit_nodes, ih]
      simp [List.intercalate, emit_node, spec_entry]

theorem emit_groups_intercalate : ∀ (gs : List nodegroup_t),
    emit_groups gs = (", ".toList).intercalate (gs.map spec_group) := by
  intro gs
  induction gs with
  | nil => rfl
  | cons g r ih =>
    cases r with
    | nil =>
      show "(".toList ++ emit_nodes g ++ ")".toList = _
      simp [List.intercalate, spec_group, emit_nodes_intercalate]
    | cons g1 r =>
      rw [emit_groups, ih]
      simp [List.intercalate, spec_group, emit_nodes_intercalate]

theorem emit_line_spec (id name : qstring) (gs : List nodegroup_t) :
    emit_line id name gs ++ "\n".toList = spec_line id name gs := by
  unfold emit_line spec_line
  rw [emit_groups_intercalate]
  have h : (gs.length > 0) = (gs ≠ []) := by
    cases gs <;> simp
  simp only [h]

/-- The text that `emit_sgl` writes for a list of live super groups with live
groups. -/
theorem emit_sgl_live (m : groupman_t) : ∀ (sgl : supergroup_listp_t), sgl_live m sgl →
    emit_sgl m sgl = some (spec_section m sgl) := by
  have hone : ∀ sg, (m.sgs sg).isSome = true →
      (∀ ng ∈ sg_groups m sg, (m.ngs ng).isSome = true) →
      (do let s ← m.sgs sg; emit_sg m.ngs s)
        = some (spec_line (sg_parts m sg).1 (sg_parts m sg).2.1 (sg_parts m sg).2.2) := by
    intro sg h1 h2
    obtain ⟨s, hs⟩ := Option.isSome_iff_exists.mp h1
    have hg : sg_groups m sg = s.groups := by simp [sg_groups, hs]
    rw [hg] at h2
    unfold sg_parts
    rw [hs]
    simp only [Option.bind_eq_bind, Option.some_bind]
    unfold emit_sg
    rw [mapM_live m.ngs (ng_nodes m) (fun g l hg => by simp [ng_nodes, hg]) s.groups h2]
    simp only [Option.bind_eq_bind, Option.some_bind, Option.pure_def, emit_line_spec]
  have hall : ∀ (sgl : supergroup_listp_t), sgl_live m sgl →
      sgl.mapM (fun sg => do let s ← m.sgs sg; emit_sg m.ngs s)
        = some (sgl.map (fun sg =>
            spec_line (sg_parts m sg).1 (sg_parts m sg).2.1 (sg_parts m sg).2.2)) := by
    intro sgl
    induction sgl with
    | nil => intro _; rfl
    | cons sg r ih =>
      intro h
      obtain ⟨h1, h2⟩ := h sg (List.mem_cons_self _ _)
      rw [List.mapM_cons, hone sg h1 h2, ih (fun x hx => h x (List.mem_cons_of_mem _ hx))]
      rfl
  intro sgl h
  unfold emit_sgl spec_section
  rw [hall sgl h]
  rfl

/-- C18: for every manager state (with live pointers in its two lists), the
text that `emit` writes without additional sections is the line `--PATHINFO`,
one line per super group of the path list in list order, the line
`--SIMILARINFO`, and one line per super group of the similar list in list
order; the line of a super group is `ID:<id>;` only if the id is non-empty,
`GROUPNAME:<name>;` only if the name is non-empty, and only if there is a
group `NODESET:` with the groups in order, joined by `, `, each group being
`(`, its entries `<id> : <start> : <end>` joined by `, `, and `)`; then a
line feed. -/
theorem emit_follows_format (m : groupman_t) (hp : sgl_live m m.path_sgl)
    (hs : sgl_live m m.similar_sgl) :
    emit m none = some (spec_emit m) := by
  unfold emit spec_emit
  rw [emit_sgl_live m _ hp, emit_sgl_live m _ hs]
  simp only [Option.bind_eq_bind, Option.some_bind, Option.pure_def, List.append_nil]

theorem emit_follows_format_witness :
    sgl_live state_two state_two.path_sgl ∧ sgl_live state_two state_two.similar_sgl ∧
    emit state_two none = some (spec_emit state_two) ∧
    spec_emit state_two
      = ("--PATHINFO\nID:a;NODESET:(1 : 0 : 10)\n"
          ++ "ID:b;NODESET:(2 : 10 : 20, 3 : 20 : 30), (4 : 30 : 40)\n--SIMILARINFO\n").toList :=
  ⟨by decide, by decide, emit_follows_format state_two (by decide) (by decide), by decide⟩

/-! ## `parse`: the lines of the text -/

/-- The test of `parse` for a section switch, in terms of `directive`. -/
theorem directive_cons (line : List Char) (c0 : Char) (r0 : List Char)
    (hs : skipSpaces line = c0 :: r0) :
    directive line
      = if c0 = '-' ∧ r0.head? = some '-' ∧ (r0.drop 1) ≠ [] then
          some (if (c0 :: r0).drop 2 = "PATHINFO".toList then some .path
            else if (c0 :: r0).drop 2 = "SIMILARINFO".toList then some .similar
            else none)
        else none := by
  unfold directive
  rw [hs]
  have e : "--".toList = ['-', '-'] := rfl
  have hcond : (List.take 2 (c0 :: r0) = "--".toList ∧ List.drop 2 (c0 :: r0) ≠ [])
      ↔ (c0 = '-' ∧ r0.head? = some '-' ∧ (r0.drop 1) ≠ []) := by
    rw [e]
    cases r0 with
    | nil => simp
    | cons c1 r1 =>
      simp only [List.take_succ_cons, List.take_zero, List.cons.injEq, and_true,
        List.drop_succ_cons, List.drop_zero, ne_eq, List.head?_cons, Option.some.injEq]
      tauto
  by_cases h : c0 = '-' ∧ r0.head? = some '-' ∧ (r0.drop 1) ≠ []
  · rw [if_pos h, if_pos (hcond.mpr h)]
  · rw [if_neg h, if_neg (fun x => h (hcond.mp x))]

/-- One iteration of the loop of `parse`, by the kind of the line. -/
theorem parse_step_kind (st : Option sgl_ref × groupman_t) (line : List Char) :
    (is_blank line ∨ is_comment line → parse_cstr st line = st) ∧
    (¬ (is_blank line ∨ is_comment line) →
      (∀ sec, directive line = some sec → parse_cstr st line = (sec, st.2)) ∧
      (directive line = none → st.1 = none → parse_cstr st line = st) ∧
      (directive line = none → ∀ cur, st.1 = some cur →
        parse_cstr st line = (some cur,
          { (parse_line (add_supergroup st.2 cur).2 supergroup_t.new (skipSpaces line)).1 with
            sgs := Function.update
              (parse_line (add_supergroup st.2 cur).2 supergroup_t.new (skipSpaces line)).1.sgs
              (add_supergroup st.2 cur).1
              (some (parse_line (add_supergroup st.2 cur).2 supergroup_t.new
                (skipSpaces line)).2) }))) := by
  unfold is_blank is_comment
  cases hs : skipSpaces line with
  | nil =>
    refine ⟨fun _ => ?_, fun h => absurd (Or.inl rfl) h⟩
    simp only [parse_cstr, hs]
  | cons c0 r0 =>
    have hd := directive_cons line c0 r0 hs
    by_cases hc : c0 = '#'
    · refine ⟨fun _ => ?_, fun h => absurd (Or.inr (by simp [hc])) h⟩
      simp only [parse_cstr, hs, hc, if_true]
    · refine ⟨fun h => ?_, fun _ => ?_⟩
      · exfalso
        rcases h with h | h
        · cases h
        · simp only [List.head?_cons, Option.some.injEq] at h
          exact hc h
      · by_cases hdir : c0 = '-' ∧ r0.head? = some '-' ∧ (r0.drop 1) ≠ []
        · rw [if_pos hdir] at hd
          refine ⟨?_, ?_, ?_⟩
          · intro sec hsec
            rw [hd] at hsec
            simp only [Option.some.injEq] at hsec
            simp only [parse_cstr, hs, hc, if_false]
            rw [if_pos hdir, ← hsec]
            by_cases e1 : List.drop 2 (c0 :: r0) = "PATHINFO".toList
            · rw [if_pos e1, if_pos e1]
            · rw [if_neg e1, if_neg e1]
              by_cases e2 : List.drop 2 (c0 :: r0) = "SIMILARINFO".toList
              · rw [if_pos e2, if_pos e2]
              · rw [if_neg e2, if_neg e2]
          · intro h; rw [hd] at h; cases h
          · intro h; rw [hd] at h; cases h
        · rw [if_neg hdir] at hd
          refine ⟨?_, ?_, ?_⟩
          · intro sec hsec; rw [hd] at hsec; cases hsec
          · intro _ hst
            simp only [parse_cstr, hs, hc, if_false]
            rw [if_neg hdir, hst]
          · intro _ cur hst
            simp only [parse_cstr, hs, hc, if_false]
            rw [if_neg hdir, hst]

/-- One step of the reading of a text, by the kind of the line. -/
theorem text_step_kind (ts : Option sgl_ref × List sg_content × List sg_content)
    (line : List Char) :
    text_cstr ts line
      = if is_blank line ∨ is_comment line then ts
        else
          match directive line with
          | some sec => (sec, ts.2)
          | none =>
            match ts.1 with
            | none => ts
            | some cur => (some cur, content_add cur ts.2 (line_content (skipSpaces line))) := by
  have key : ∀ s, skipSpaces line = s →
      text_cstr ts line
        = if s = [] ∨ s.head? = some '#' then ts
          else
            match directive line with
            | some sec => (sec, ts.2)
            | none =>
              match ts.1 with
              | none => ts
              | some cur => (some cur, content_add cur ts.2 (line_content s)) := by
    intro s hs
    cases s with
    | nil =>
      simp only [text_cstr, hs, true_or, if_true]
    | cons c0 r0 =>
      have hd := directive_cons line c0 r0 hs
      by_cases hc : c0 = '#'
      · have : ((c0 :: r0) = [] ∨ (c0 :: r0).head? = some '#') := Or.inr (by simp [hc])
        rw [if_pos this]
        simp only [text_cstr, hs, hc, if_true]
      · have : ¬ ((c0 :: r0) = [] ∨ (c0 :: r0).head? = some '#') := by
          rintro (h | h)
          · cases h
          · simp only [List.head?_cons, Option.some.injEq] at h
            exact hc h
        rw [if_neg this]
        simp only [text_cstr, hs, hc, if_false]
        by_cases hdir : c0 = '-' ∧ r0.head? = some '-' ∧ (r0.drop 1) ≠ []
        · rw [if_pos hdir] at hd
          rw [if_pos hdir, hd]
          simp only
          by_cases e1 : List.drop 2 (c0 :: r0) = "PATHINFO".toList
          · rw [if_pos e1, if_pos e1]
          · rw [if_neg e1, if_neg e1]
            by_cases e2 : List.drop 2 (c0 :: r0) = "SIMILARINFO".toList
            · rw [if_pos e2, if_pos e2]
            · rw [if_neg e2, if_neg e2]
        · rw [if_neg hdir] at hd
          rw [if_neg hdir, hd]
  exact key _ rfl

/-- The contents that `parse` reads are those of the lines that define a super
group, section by section. -/
theorem text_content_lines (text : List Char) (hnul : '\x00' ∉ text) :
    text_content text
      = ((spec_lines text).1.map (fun l => line_content (skipSpaces l)),
         (spec_lines text).2.map (fun l => line_content (skipSpaces l))) := by
  have hstep : ∀ (lines : List (List Char))
      (ts : Option sgl_ref × List sg_content × List sg_content)
      (ss : Option sgl_ref × List (List Char) × List (List Char)),
      ts = (ss.1, ss.2.1.map (fun l => line_content (skipSpaces l)),
            ss.2.2.map (fun l => line_content (skipSpaces l))) →
      lines.foldl text_cstr ts
        = ((lines.foldl spec_step ss).1,
           (lines.foldl spec_step ss).2.1.map (fun l => line_content (skipSpaces l)),
           (lines.foldl spec_step ss).2.2.map (fun l => line_content (skipSpaces l))) := by
    intro lines
    induction lines with
    | nil => intro ts ss h; exact h
    | cons l r ih =>
      intro ts ss h
      rw [List.foldl_cons, List.foldl_cons]
      apply ih
      rw [text_step_kind, h]
      unfold spec_step
      by_cases hb : is_blank l ∨ is_comment l
      · rw [if_pos hb, if_pos hb]
      · rw [if_neg hb, if_neg hb]
        cases directive l with
        | some sec => rfl
        | none =>
          obtain ⟨cur, p, s⟩ := ss
          cases cur with
          | none => rfl
          | some cur =>
            cases cur with
            | path => simp [content_add]
            | similar => simp [content_add]
  have h2 := hstep (getlines text) (some .path, [], []) (some .path, [], []) rfl
  rw [text_content_no_nul text hnul]
  unfold spec_lines
  rw [h2]

theorem qstrtok_subset (d : Char) (s t r : List Char) (h : qstrtok d s = some (t, r)) :
    (∀ c ∈ t, c ∈ s) ∧ (∀ c ∈ r, c ∈ s) := by
  unfold qstrtok at h
  cases hs : List.dropWhile (fun c => decide (c = d)) s with
  | nil => rw [hs] at h; cases h
  | cons x s1 =>
    rw [hs] at h
    simp only [Option.some.injEq, Prod.mk.injEq] at h
    obtain ⟨h1, h2⟩ := h
    have hsub : ∀ c ∈ x :: s1, c ∈ s := by
      intro c hc
      rw [← hs] at hc
      exact (List.dropWhile_suffix _).subset hc
    constructor
    · intro c hc
      rw [← h1] at hc
      exact hsub c ((List.takeWhile_prefix _).subset hc)
    · intro c hc
      rw [← h2] at hc
      exact hsub c ((List.dropWhile_suffix _).subset ((List.drop_sublist _ _).subset hc))

theorem strtok_all_subset (d : Char) : ∀ (f : Nat) (s : List Char),
    ∀ t ∈ strtok_all d f s, ∀ c ∈ t, c ∈ s := by
  intro f
  induction f with
  | zero => intro s t ht; cases ht
  | succ f ih =>
    intro s t ht
    unfold strtok_all at ht
    cases hq : qstrtok d s with
    | none => rw [hq] at ht; cases ht
    | some tr =>
      obtain ⟨t0, r⟩ := tr
      rw [hq] at ht
      obtain ⟨h1, h2⟩ := qstrtok_subset d s t0 r hq
      rcases List.mem_cons.mp ht with h | h
      · rw [h]; exact h1
      · intro c hc
        exact h2 c (ih r t h c hc)

/-- A line without a colon holds no key and value: the super group it defines
has no id, no name and no groups. -/
theorem line_content_no_colon (l : List Char) (h : ':' ∉ l) :
    line_content l = ([], [], []) := by
  unfold line_content
  have hall : ∀ (toks : List (List Char)) (acc : sg_content),
      (∀ t ∈ toks, ':' ∉ t) → toks.foldl token_content acc = acc := by
    intro toks
    induction toks with
    | nil => intro acc _; rfl
    | cons t r ih =>
      intro acc ht
      rw [List.foldl_cons]
      have : token_content acc t = acc := by
        unfold token_content
        rw [strchr_cut_none ':' t (ht t (List.mem_cons_self _ _))]
      rw [this]
      exact ih acc (fun x hx => ht x (List.mem_cons_of_mem _ hx))
  apply hall
  intro t ht hc
  exact h (strtok_all_subset ';' _ l t ht ':' hc)

/-- The node ids of the contents of the data of a list of super groups. -/
theorem content_ids_data : ∀ (d : List (qstring × qstring × List nodegroup_t)),
    content_ids (d.map parts_view) = data_ids d := by
  intro d
  induction d with
  | nil => rfl
  | cons p r ih =>
    have e : content_ids (parts_view p :: r.map parts_view)
        = content_ids [parts_view p] ++ content_ids (r.map parts_view) :=
      content_ids_append [parts_view p] (r.map parts_view)
    rw [List.map_cons, e, ih]
    simp only [data_ids, content_ids, parts_view, List.flatMap_cons, List.flatMap_nil,
      List.append_nil]
    congr 1
    generalize p.2.2 = gs
    induction gs with
    | nil => rfl
    | cons g gr ihg =>
      simp only [List.map_cons, List.flatMap_cons, ihg]
      congr 1
      simp [nd_triple]

/-- A line in the format is read as the data it was written from. -/
theorem line_content_format (l : List Char) (p : qstring × qstring × List nodegroup_t)
    (hl : l ++ "\n".toList = spec_line p.1 p.2.1 p.2.2) (hp : parts_ok p) :
    line_content (skipSpaces l) = parts_view p := by
  have e : l = emit_line p.1 p.2.1 p.2.2 := by
    rw [← emit_line_spec] at hl
    exact List.append_cancel_right hl
  obtain ⟨c, t, ec, hc⟩ := emit_line_head p hp
  have hsp : isspace c = false := by
    rcases hc with h | h | h <;> subst h <;> decide
  have hs : skipSpaces l = l := by
    rw [e, ec]
    exact dropWhile_head isspace c t hsp
  rw [hs, e]
  exact line_content_emit p.1 p.2.1 p.2.2 hp.1 hp.2.1

theorem map_line_content_format : ∀ (ls : List (List Char))
    (d : List (qstring × qstring × List nodegroup_t)),
    List.Forall₂ (fun l p => l ++ "\n".toList = spec_line p.1 p.2.1 p.2.2) ls d →
    (∀ p ∈ d, parts_ok p) →
    ls.map (fun l => line_content (skipSpaces l)) = d.map parts_view := by
  intro ls d h
  induction h with
  | nil => intro _; rfl
  | cons hab _ ih =>
    intro hok
    rw [List.map_cons, List.map_cons, line_content_format _ _ hab (hok _ (List.mem_cons_self _ _)),
      ih (fun q hq => hok q (List.mem_cons_of_mem _ hq))]

/-- The node ids of the data are carried by NodeDefs of the data. -/
theorem data_ids_mem (d : List (qstring × qstring × List nodegroup_t)) (k : Int)
    (h : k ∈ data_ids d) : ∃ p ∈ d, ∃ g ∈ p.2.2, ∃ nd ∈ g, nd.nid = k := by
  unfold data_ids at h
  obtain ⟨p, hp, h1⟩ := List.mem_flatMap.mp h
  obtain ⟨g, hg, h2⟩ := List.mem_flatMap.mp h1
  obtain ⟨nd, hnd, e⟩ := List.mem_map.mp h2
  exact ⟨p, hp, g, hg, nd, hnd, e⟩

/-- A text that lists a node id only in a similar section leaves this id in
the registry without a NodeDef in the path list. -/
theorem parse_similar_only_ids :
    (parse groupman_t.new "--SIMILARINFO\nNODESET:(5 : 0 : 1)".toList true).map
      (fun m => (m.all_nodes.map Prod.fst, path_ids m, decide (partition_inv m)))
      = some ([5], [], false) := by
  rfl

/-! ## `parse`: section directives -/

theorem getlines_ne_nil : ∀ (t : List Char), getlines t ≠ [] := by
  intro t
  induction t with
  | nil => exact List.cons_ne_nil _ _
  | cons c r ih =>
    unfold getlines
    by_cases hc : c = '\n'
    · rw [if_pos hc]; exact List.cons_ne_nil _ _
    · rw [if_neg hc]
      cases getlines r with
      | nil => exact List.cons_ne_nil _ _
      | cons l ls => exact List.cons_ne_nil _ _

/-- The lines of a text that continues after a line feed. -/
theorem getlines_append : ∀ (t rest : List Char),
    getlines (t ++ '\n' :: rest) = getlines t ++ getlines rest := by
  intro t
  induction t with
  | nil =>
    intro rest
    rw [List.nil_append]
    conv_lhs => rw [getlines, if_pos rfl]
    rfl
  | cons c r ih =>
    intro rest
    rw [List.cons_append]
    by_cases hc : c = '\n'
    · rw [getlines, if_pos hc, ih rest]
      conv_rhs => rw [getlines, if_pos hc]
      rfl
    · rw [getlines, if_neg hc, ih rest]
      conv_rhs => rw [getlines, if_neg hc]
      cases hg : getlines r with
      | nil => exact absurd hg (getlines_ne_nil r)
      | cons l ls => rfl

/-- A directive line is neither blank nor a comment. -/
theorem directive_not_skipped (line : List Char) (h : directive line ≠ none) :
    ¬ (is_blank line ∨ is_comment line) := by
  unfold directive at h
  by_cases hd : (skipSpaces line).take 2 = "--".toList ∧ (skipSpaces line).drop 2 ≠ []
  · unfold is_blank is_comment
    obtain ⟨h1, -⟩ := hd
    rintro (hb | hb)
    · rw [hb] at h1
      cases h1
    · cases hs : skipSpaces line with
      | nil => rw [hs] at h1; cases h1
      | cons c r =>
        rw [hs] at h1 hb
        simp only [List.head?_cons, Option.some.injEq] at hb
        rw [hb] at h1
        revert h1
        cases r <;> simp
  · rw [if_neg hd] at h
    exact absurd rfl h

/-- In the state in which lines are ignored, a line that is not one of the
two known directives changes nothing. -/
theorem parse_step_ignored (m : groupman_t) (line : List Char)
    (h1 : directive line ≠ some (some .path))
    (h2 : directive line ≠ some (some .similar)) :
    parse_cstr (none, m) line = (none, m) := by
  obtain ⟨k1, k2⟩ := parse_step_kind (none, m) line
  by_cases hb : is_blank line ∨ is_comment line
  · exact k1 hb
  · obtain ⟨a, b, -⟩ := k2 hb
    cases hd : directive line with
    | none => exact b hd rfl
    | some sec =>
      cases sec with
      | none => exact a none hd
      | some cur =>
        cases cur with
        | path => exact absurd hd h1
        | similar => exact absurd hd h2

theorem parse_loop_ignored : ∀ (lines : List (List Char)) (m : groupman_t),
    (∀ b ∈ lines, '\x00' ∉ b) →
    (∀ b ∈ lines, directive b ≠ some (some .path) ∧ directive b ≠ some (some .similar)) →
    lines.foldl parse_step (none, m) = (none, m) := by
  intro lines
  induction lines with
  | nil => intro m _ _; rfl
  | cons l r ih =>
    intro m hn h
    obtain ⟨h1, h2⟩ := h l (List.mem_cons_self _ _)
    rw [List.foldl_cons, parse_step_no_nul _ l (hn l (List.mem_cons_self _ _)),
      parse_step_ignored m l h1 h2]
    exact ih m (fun b hb => hn b (List.mem_cons_of_mem _ hb))
      (fun b hb => h b (List.mem_cons_of_mem _ hb))

/-- C15 (amended): a line without NUL (a line is read as a C string) that
begins, after leading white space, with `--` followed by at least one more
character, and that is not exactly `--PATHINFO` or `--SIMILARINFO`, creates no
super group and puts `parse` into the state in which lines are ignored; in
this state no line creates a super group, and only `--PATHINFO` and
`--SIMILARINFO` end it, selecting their list.  So such a line and the lines
after it, up to the next of these two directives, leave no trace in the
result of `parse`.  The keyword is compared exactly and with case.  A line
with a NUL is read up to the NUL: `--PATHINFO` followed by a NUL and more
characters selects the path list. -/
theorem unknown_directive_ignores :
    (∀ (st : Option sgl_ref × groupman_t) (line : List Char), '\x00' ∉ line →
      directive line = some none → parse_step st line = (none, st.2)) ∧
    (∀ (m : groupman_t) (line : List Char), '\x00' ∉ line →
      directive line ≠ some (some .path) → directive line ≠ some (some .similar) →
      parse_step (none, m) line = (none, m)) ∧
    (∀ (st : Option sgl_ref × groupman_t) (line : List Char) (sec : sgl_ref),
      '\x00' ∉ line →
      directive line = some (some sec) → parse_step st line = (some sec, st.2)) ∧
    (∀ (m0 : groupman_t) (text1 l text2 : List Char) (ic : Bool),
      '\n' ∉ l → '\x00' ∉ l → '\x00' ∉ text2 → directive l = some none →
      (∀ b ∈ getlines text2,
        directive b ≠ some (some .path) ∧ directive b ≠ some (some .similar)) →
      parse m0 (text1 ++ '\n' :: (l ++ '\n' :: text2)) ic = parse m0 text1 ic) ∧
    directive "--pathinfo".toList = some none ∧
    directive "--PATHINFO ".toList = some none ∧
    directive "--PATHINFOS".toList = some none ∧
    directive "  --PATHINFO".toList = some (some .path) ∧
    directive "--SIMILARINFO".toList = some (some .similar) ∧
    directive "--PATHINFO\x00junk".toList = some none ∧
    parse_step (none, groupman_t.new) "--PATHINFO\x00junk".toList
      = (some .path, groupman_t.new) := by
  refine ⟨?_, ?_, ?_, ?_, by decide, by decide, by decide, by decide, by decide, by decide,
    rfl⟩
  · intro st line hnul h
    have hn : ¬ (is_blank line ∨ is_comment line) :=
      directive_not_skipped line (by rw [h]; exact Option.noConfusion)
    rw [parse_step_no_nul st line hnul]
    exact ((parse_step_kind st line).2 hn).1 none h
  · intro m line hnul h1 h2
    rw [parse_step_no_nul _ line hnul]
    exact parse_step_ignored m line h1 h2
  · intro st line sec hnul h
    have hn : ¬ (is_blank line ∨ is_comment line) :=
      directive_not_skipped line (by rw [h]; exact Option.noConfusion)
    rw [parse_step_no_nul st line hnul]
    exact ((parse_step_kind st line).2 hn).1 (some sec) h
  · intro m0 text1 l text2 ic hl hnul hnul2 hd hrest
    have hn : ¬ (is_blank l ∨ is_comment l) :=
      directive_not_skipped l (by rw [hd]; exact Option.noConfusion)
    have hlines : getlines (text1 ++ '\n' :: (l ++ '\n' :: text2))
        = getlines text1 ++ l :: getlines text2 := by
      rw [getlines_append, getlines_line l text2 hl]
    unfold parse
    cases clear m0 with
    | none => rfl
    | some mc =>
      simp only [Option.bind_eq_bind, Option.some_bind]
      rw [hlines, List.foldl_append, List.foldl_cons, parse_step_no_nul _ l hnul,
        ((parse_step_kind _ l).2 hn).1 none hd,
        parse_loop_ignored _ _ (getlines_no_nul text2 hnul2) hrest]

theorem unknown_directive_ignores_witness :
    parse_step (some .path, groupman_t.new) "--OTHER".toList = (none, groupman_t.new) ∧
    parse_step (none, groupman_t.new) "ID:a".toList = (none, groupman_t.new) ∧
    parse_step (none, groupman_t.new) "--PATHINFO".toList = (some .path, groupman_t.new) ∧
    parse groupman_t.new ("ID:a".toList ++ '\n' :: ("--OTHER".toList ++ '\n' :: "ID:b".toList))
        true
      = parse groupman_t.new "ID:a".toList true :=
  ⟨unknown_directive_ignores.1 (some .path, groupman_t.new) "--OTHER".toList (by decide)
     (by decide),
   unknown_directive_ignores.2.1 groupman_t.new "ID:a".toList (by decide) (by decide)
     (by decide),
   unknown_directive_ignores.2.2.1 (some .path, groupman_t.new) "--PATHINFO".toList .path
     (by decide) (by decide),
   unknown_directive_ignores.2.2.2.1 groupman_t.new "ID:a".toList "--OTHER".toList
     "ID:b".toList true (by decide) (by decide) (by decide) (by decide) (by decide)⟩

/-- C15, as stated, fails for a line that is exactly `--`: it begins with `--`
and is neither `--PATHINFO` nor `--SIMILARINFO`, but `parse` reads it as a
line that defines a super group, and the line after it is read as well. -/
theorem parse_bare_dashes :
    (parse groupman_t.new "--\nID:a".toList true).map (fun m => sgl_view m m.path_sgl)
      = some [([], [], []), ("a".toList, [], [])] ∧
    directive "--".toList = none ∧
    parse_step (some .path, groupman_t.new) "--".toList
      ≠ (none, groupman_t.new) := by
  refine ⟨rfl, by decide, ?_⟩
  intro h
  have := congrArg Prod.fst h
  revert this
  decide

/-! ## `parse_nodeset`: entries that are not complete -/

theorem qsscanf_no_id (p : List Char) (h : scan_d p = none) : qsscanf_d_a_a p = none := by
  unfold qsscanf_d_a_a
  rw [h]

theorem qsscanf_with_id (p : List Char) (nid : Int) (r : List Char)
    (h : scan_d p = some (nid, r)) : ∃ start end_, qsscanf_d_a_a p = some (nid, start, end_) := by
  unfold qsscanf_d_a_a
  rw [h]
  simp only
  cases scan_colon r with
  | none => exact ⟨0, 0, rfl⟩
  | some r2 =>
    simp only
    cases scan_a r2 with
    | none => exact ⟨0, 0, rfl⟩
    | some sr =>
      obtain ⟨start, r3⟩ := sr
      simp only
      cases scan_colon r3 with
      | none => exact ⟨start, 0, rfl⟩
      | some r4 =>
        simp only
        cases scan_a r4 with
        | none => exact ⟨start, 0, rfl⟩
        | some er =>
          obtain ⟨end_, r5⟩ := er
          exact ⟨start, end_, rfl⟩

/-- An entry that holds only an id is read as a triple with the addresses 0. -/
theorem qsscanf_only_id (n : Int) : qsscanf_d_a_a (fmt_d n) = some (n, 0, 0) := by
  have h := scan_d_fmt_d n [] (Or.inl rfl)
  rw [List.append_nil] at h
  unfold qsscanf_d_a_a
  rw [h]
  rfl

/-- An entry that holds an id and one address is read as a triple with the
end address 0. -/
theorem qsscanf_id_start (n : Int) (a : ea_t) :
    qsscanf_d_a_a (fmt_d n ++ " : ".toList ++ fmt_a a) = some (n, a, 0) := by
  have e3 : " : ".toList = [' ', ':', ' '] := rfl
  have hsp : (fmt_a a ++ []).dropWhile isspace = fmt_a a ++ [] := by
    obtain ⟨c, t, e, hc⟩ := fmt_a_head a []
    rw [e]
    exact dropWhile_head isspace c t hc
  have e0 : fmt_d n ++ " : ".toList ++ fmt_a a = fmt_d n ++ (" : ".toList ++ (fmt_a a ++ [])) := by
    simp only [List.append_assoc, List.append_nil]
  unfold qsscanf_d_a_a
  rw [e0, scan_d_fmt_d n _ (Or.inr ⟨' ', _, by rw [e3]; rfl, by decide⟩)]
  simp only
  rw [scan_colon_fmt _ hsp]
  simp only
  rw [scan_a_fmt_a a [] (Or.inl rfl)]
  rfl

/-! ## The comma-separated entries of a group -/

theorem pieces_ne_nil (d : Char) : ∀ (s : List Char), pieces d s ≠ [] := by
  intro s
  induction s with
  | nil => exact List.cons_ne_nil _ _
  | cons c r ih =>
    unfold pieces
    by_cases hc : c = d
    · rw [if_pos hc]; exact List.cons_ne_nil _ _
    · rw [if_neg hc]
      cases pieces d r with
      | nil => exact List.cons_ne_nil _ _
      | cons l ls => exact List.cons_ne_nil _ _

/-- A string without the separator is one piece. -/
theorem pieces_no_delim (d : Char) : ∀ (s : List Char), d ∉ s → pieces d s = [s] := by
  intro s
  induction s with
  | nil => intro _; rfl
  | cons c r ih =>
    intro h
    have hc : c ≠ d := fun e => h (e ▸ List.mem_cons_self _ _)
    have hr : d ∉ r := fun e => h (List.mem_cons_of_mem _ e)
    rw [pieces, if_neg hc, ih hr]

/-- The pieces of a string that continues after a separator. -/
theorem pieces_split (d : Char) : ∀ (t rest : List Char), d ∉ t →
    pieces d (t ++ d :: rest) = t :: pieces d rest := by
  intro t
  induction t with
  | nil =>
    intro rest _
    rw [List.nil_append, pieces, if_pos rfl]
  | cons c r ih =>
    intro rest h
    have hc : c ≠ d := fun e => h (e ▸ List.mem_cons_self _ _)
    have hr : d ∉ r := fun e => h (List.mem_cons_of_mem _ e)
    rw [List.cons_append, pieces, if_neg hc, ih rest hr]

/-- A string that holds the separator is cut at its first occurrence. -/
theorem first_delim (d : Char) : ∀ (s : List Char), d ∈ s →
    ∃ t rest, s = t ++ d :: rest ∧ d ∉ t := by
  intro s
  induction s with
  | nil => intro h; cases h
  | cons c r ih =>
    intro h
    by_cases hc : c = d
    · exact ⟨[], r, by rw [hc]; rfl, List.not_mem_nil _⟩
    · have hr : d ∈ r := by
        rcases List.mem_cons.mp h with e | e
        · exact absurd e.symm hc
        · exact e
      obtain ⟨t, rest, e, ht⟩ := ih hr
      refine ⟨c :: t, rest, by rw [e]; rfl, ?_⟩
      intro hm
      rcases List.mem_cons.mp hm with e1 | e1
      · exact hc e1.symm
      · exact ht e1

/-- A leading separator is skipped by `qstrtok`. -/
theorem qstrtok_skip (d : Char) (rest : List Char) :
    qstrtok d (d :: rest) = qstrtok d rest := by
  unfold qstrtok
  have : List.dropWhile (fun c => decide (c = d)) (d :: rest)
      = List.dropWhile (fun c => decide (c = d)) rest := by
    rw [List.dropWhile_cons]
    simp
  rw [this]

/-- The tokens of a string, from its first token on. -/
theorem strtok_all_unfold (d : Char) (s : List Char) (f : Nat) (hf : s.length ≤ f)
    (hs : s ≠ []) :
    strtok_all d f s
      = match qstrtok d s with
        | none => []
        | some (t, r) => t :: strtok_all d r.length r := by
  cases f with
  | zero => exact absurd (List.length_eq_zero.mp (Nat.le_zero.mp hf)) hs
  | succ f =>
    rw [strtok_all]
    cases hq : qstrtok d s with
    | none => rfl
    | some tr =>
      obtain ⟨t, r⟩ := tr
      simp only
      have := qstrtok_length d s t r hq
      rw [strtok_all_fuel d f r r.length (by omega) (Nat.le_refl _)]

theorem strtok_all_skip (d : Char) (rest : List Char) :
    strtok_all d (d :: rest).length (d :: rest) = strtok_all d rest.length rest := by
  rw [strtok_all_unfold d (d :: rest) _ (Nat.le_refl _) (List.cons_ne_nil _ _), qstrtok_skip]
  cases rest with
  | nil => rfl
  | cons x r => rw [strtok_all_unfold d (x :: r) _ (Nat.le_refl _) (List.cons_ne_nil _ _)]

/-- The tokens of a string are its pieces that are not empty. -/
theorem strtok_pieces (d : Char) : ∀ (n : Nat) (s : List Char), s.length ≤ n →
    strtok_all d s.length s = (pieces d s).filter (fun e => decide (e ≠ [])) := by
  intro n
  induction n with
  | zero =>
    intro s h
    have hs : s = [] := List.length_eq_zero.mp (Nat.le_zero.mp h)
    subst hs
    rfl
  | succ n ih =>
    intro s h
    by_cases hd : d ∈ s
    · obtain ⟨t, rest, e, ht⟩ := first_delim d s hd
      subst e
      have hl : rest.length ≤ n := by
        simp only [List.length_append, List.length_cons] at h
        omega
      rw [pieces_split d t rest ht]
      by_cases hne : t = []
      · subst hne
        rw [List.nil_append, strtok_all_skip, ih rest hl]
        simp
      · rw [strtok_all_cons d t rest hne ht _ (Nat.le_refl _), ih rest hl,
          List.filter_cons_of_pos (by simpa using hne)]
    · rw [pieces_no_delim d s hd]
      by_cases hne : s = []
      · subst hne
        rfl
      · rw [strtok_all_last d s hne hd _ (Nat.le_refl _),
          List.filter_cons_of_pos (by simpa using hne)]
        rfl

theorem read_entry_nil : read_entry [] = none := rfl

/-- Nothing is read from a string that starts with a comma. -/
theorem read_entry_comma (x : List Char) : read_entry (',' :: x) = none := by
  have hs : skipSpaces (',' :: x) = ',' :: x := dropWhile_head isspace ',' x (by decide)
  unfold read_entry
  rw [hs]
  apply qsscanf_no_id
  unfold scan_d
  have hs2 : List.dropWhile isspace (',' :: x) = ',' :: x := hs
  rw [hs2]
  rfl

/-- The empty pieces give no NodeDef. -/
theorem filterMap_read_filter (l : List (List Char)) :
    (l.filter (fun e => decide (e ≠ []))).filterMap read_entry = l.filterMap read_entry := by
  induction l with
  | nil => rfl
  | cons e r ih =>
    by_cases he : e = []
    · subst he
      rw [List.filter_cons_of_neg (by simp), List.filterMap_cons, read_entry_nil]
      exact ih
    · rw [List.filter_cons_of_pos (by simpa using he), List.filterMap_cons, List.filterMap_cons,
        ih]

/-- The inner loop of `parse_nodeset` reads the comma-separated entries of the
text of a group, except the first entry that is not empty when the text begins
with a comma. -/
theorem body_triples_spec (body : List Char) : body_triples body = spec_group_read body := by
  have hbt : body_triples body = (entry_strings body).filterMap read_entry := rfl
  cases body with
  | nil => rfl
  | cons c r =>
    have hall := strtok_all_unfold ',' (c :: r) _ (Nat.le_refl _) (List.cons_ne_nil _ _)
    have hp := strtok_pieces ',' _ (c :: r) (Nat.le_refl _)
    by_cases hc : c = ','
    · subst hc
      have hh : (',' :: r).head? = some ',' := rfl
      have e : spec_group_read (',' :: r)
          = (((pieces ',' (',' :: r)).filter (fun e => decide (e ≠ []))).drop 1).filterMap
              read_entry := by
        unfold spec_group_read
        rw [if_pos hh]
      rw [e, ← hp, hall, hbt]
      unfold entry_strings
      cases hq : qstrtok ',' (',' :: r) with
      | none =>
        simp only [List.filterMap_cons, read_entry_comma, List.filterMap_nil, List.drop_nil]
      | some ts =>
        obtain ⟨t, saved⟩ := ts
        simp only [List.drop_succ_cons, List.drop_zero]
        have htw : List.takeWhile (fun c => decide (c = ',')) (',' :: r)
            = ',' :: List.takeWhile (fun c => decide (c = ',')) r := by
          rw [List.takeWhile_cons]
          simp
        rw [htw, List.cons_append, List.filterMap_cons, read_entry_comma]
    · have hh : ¬ (c :: r).head? = some ',' := by
        simp only [List.head?_cons, Option.some.injEq]
        exact hc
      have e : spec_group_read (c :: r) = (pieces ',' (c :: r)).filterMap read_entry := by
        unfold spec_group_read
        rw [if_neg hh]
      rw [e, ← filterMap_read_filter, ← hp, hall, hbt]
      unfold entry_strings
      have htw : List.takeWhile (fun x => decide (x = ',')) (c :: r) = [] :=
        takeWhile_head_false _ c r (decide_eq_false hc)
      cases hq : qstrtok ',' (c :: r) with
      | none =>
        exfalso
        unfold qstrtok at hq
        rw [dropWhile_head _ c r (decide_eq_false hc)] at hq
        cases hq
      | some ts =>
        obtain ⟨t, saved⟩ := ts
        simp only [htw, List.nil_append]

/-! ## The groups of a nodeset string -/

theorem strchr_cut_length (c : Char) : ∀ (s a b : List Char),
    strchr_cut c s = some (a, b) → b.length < s.length := by
  intro s
  induction s with
  | nil => intro a b h; cases h
  | cons x r ih =>
    intro a b h
    rw [strchr_cut] at h
    by_cases hx : x = c
    · rw [if_pos hx] at h
      simp only [Option.some.injEq, Prod.mk.injEq] at h
      rw [← h.2]
      exact Nat.lt_succ_self _
    · rw [if_neg hx] at h
      cases hr : strchr_cut c r with
      | none => rw [hr] at h; cases h
      | some ab =>
        obtain ⟨a1, b1⟩ := ab
        rw [hr] at h
        simp only [Option.some.injEq, Prod.mk.injEq] at h
        rw [← h.2]
        exact Nat.lt_succ_of_lt (ih a1 b1 hr)

/-- With enough fuel, the outer loop of `parse_nodeset` does not depend on the
fuel. -/
theorem parse_nodeset_loop_fuel : ∀ (f1 f2 : Nat) (m : groupman_t) (sg : supergroup_t)
    (s : List Char), s.length ≤ f1 → s.length ≤ f2 →
    parse_nodeset_loop f1 m sg s = parse_nodeset_loop f2 m sg s := by
  intro f1
  induction f1 with
  | zero =>
    intro f2 m sg s h _
    have hs : s = [] := List.length_eq_zero.mp (Nat.le_zero.mp h)
    subst hs
    cases f2 with
    | zero => rfl
    | succ f2 => simp [parse_nodeset_loop, strchr_cut]
  | succ f1 ih =>
    intro f2 m sg s h1 h2
    cases f2 with
    | zero =>
      have hs : s = [] := List.length_eq_zero.mp (Nat.le_zero.mp h2)
      subst hs
      simp [parse_nodeset_loop, strchr_cut]
    | succ f2 =>
      rw [parse_nodeset_loop, parse_nodeset_loop]
      cases hc1 : strchr_cut '(' s with
      | none => rfl
      | some ab =>
        obtain ⟨before, after_open⟩ := ab
        simp only
        cases hc2 : strchr_cut ')' (skipSpaces after_open) with
        | none => rfl
        | some bc =>
          obtain ⟨body, after_close⟩ := bc
          simp only
          have l1 := strchr_cut_length '(' s before after_open hc1
          have l2 := length_dropWhile_le isspace after_open
          have l3 := strchr_cut_length ')' _ body after_close hc2
          have l4 := length_dropWhile_le isspace after_close
          have l2' : (skipSpaces after_open).length ≤ after_open.length := l2
          have l4' : (skipSpaces after_close).length ≤ after_close.length := l4
          exact ih f2 _ _ _ (by omega) (by omega)

/-- White space is skipped up to a character that is not white space. -/
theorem skipSpaces_append (c : Char) (hc : isspace c = false) : ∀ (b rest : List Char),
    skipSpaces (b ++ c :: rest) = skipSpaces b ++ c :: rest := by
  intro b
  induction b with
  | nil =>
    intro rest
    exact dropWhile_head isspace c rest hc
  | cons x r ih =>
    intro rest
    by_cases hx : isspace x = true
    · have e1 : skipSpaces ((x :: r) ++ c :: rest) = skipSpaces (r ++ c :: rest) := by
        unfold skipSpaces
        rw [List.cons_append, List.dropWhile_cons, if_pos hx]
      have e2 : skipSpaces (x :: r) = skipSpaces r := by
        unfold skipSpaces
        rw [List.dropWhile_cons, if_pos hx]
      rw [e1, e2, ih rest]
    · have hx' : isspace x = false := by simpa using hx
      have e1 : skipSpaces ((x :: r) ++ c :: rest) = (x :: r) ++ c :: rest := by
        rw [List.cons_append]
        exact dropWhile_head isspace x _ hx'
      have e2 : skipSpaces (x :: r) = x :: r := dropWhile_head isspace x r hx'
      rw [e1, e2]

/-- The group between the first `(` of a nodeset string and the next `)`:
`parse_nodeset` adds a group with the NodeDefs of its entries and goes on with
the rest of the string. -/
theorem parse_nodeset_group (m : groupman_t) (sg : supergroup_t) (pre b rest : List Char)
    (hpre : '(' ∉ pre) (hb : ')' ∉ b) :
    parse_nodeset m sg (pre ++ '(' :: (b ++ ')' :: rest))
      = parse_nodeset
          { ((entry_strings (skipSpaces b)).foldl parse_entry
                ({ m with brk := m.brk + 1 }, [])).1 with
            ngs := Function.update
              ((entry_strings (skipSpaces b)).foldl parse_entry
                ({ m with brk := m.brk + 1 }, [])).1.ngs m.brk
              (some ((entry_strings (skipSpaces b)).foldl parse_entry
                ({ m with brk := m.brk + 1 }, [])).2) }
          { sg with groups := sg.groups ++ [m.brk] } (skipSpaces rest) := by
  have hb2 : ')' ∉ skipSpaces b := fun h => hb ((List.dropWhile_suffix _).subset h)
  have e1 : strchr_cut '(' (pre ++ '(' :: (b ++ ')' :: rest)) = some (pre, b ++ ')' :: rest) :=
    strchr_cut_found '(' pre _ hpre
  have e2 : skipSpaces (b ++ ')' :: rest) = skipSpaces b ++ ')' :: rest :=
    skipSpaces_append ')' (by decide) b rest
  have e3 : strchr_cut ')' (skipSpaces b ++ ')' :: rest) = some (skipSpaces b, rest) :=
    strchr_cut_found ')' _ _ hb2
  have hlen : (pre ++ '(' :: (b ++ ')' :: rest)).length
      = (pre.length + b.length + rest.length + 1) + 1 := by
    simp only [List.length_append, List.length_cons]
    omega
  have hl : (skipSpaces rest).length ≤ pre.length + b.length + rest.length + 1 := by
    have : (skipSpaces rest).length ≤ rest.length := length_dropWhile_le isspace rest
    omega
  unfold parse_nodeset
  rw [hlen, parse_nodeset_loop]
  simp only [e1, e2, e3]
  exact parse_nodeset_loop_fuel _ _ _ _ _ hl (Nat.le_refl _)

/-- A nodeset string without `(` holds no group. -/
theorem parse_nodeset_no_open (m : groupman_t) (sg : supergroup_t) (s : List Char)
    (h : '(' ∉ s) : parse_nodeset m sg s = (m, sg) := by
  unfold parse_nodeset
  cases hl : s.length with
  | zero => rfl
  | succ n => rw [parse_nodeset_loop, strchr_cut_none '(' s h]

/-- A nodeset string without `)` after its first `(` holds no group. -/
theorem parse_nodeset_no_close (m : groupman_t) (sg : supergroup_t) (pre x : List Char)
    (hpre : '(' ∉ pre) (hx : ')' ∉ x) : parse_nodeset m sg (pre ++ '(' :: x) = (m, sg) := by
  have hx2 : ')' ∉ skipSpaces x := fun h => hx ((List.dropWhile_suffix _).subset h)
  unfold parse_nodeset
  cases hl : (pre ++ '(' :: x).length with
  | zero => rfl
  | succ n =>
    rw [parse_nodeset_loop, strchr_cut_found '(' pre x hpre]
    simp only [strchr_cut_none ')' _ hx2]

/-- Leading white space does not matter to `qsscanf`. -/
theorem qsscanf_skipSpaces (p : List Char) : qsscanf_d_a_a (skipSpaces p) = qsscanf_d_a_a p := by
  have h : scan_d (skipSpaces p) = scan_d p := by
    unfold scan_d skipSpaces
    rw [List.dropWhile_idempotent]
  unfold qsscanf_d_a_a
  rw [h]

/-- C11 (amended): on a well-formed state with an up-to-date index in which no
node id is carried by two NodeDefs of the path list, if the path list holds no
empty node group and no super group without groups, then `combine_ngl` on
distinct groups of the path list and `move_nodes_to_ng` on a non-empty
collection of distinct NodeDefs of the path list return, and the path list
still holds no empty node group and no super group without groups. -/
theorem no_empty_preserved :
    (∀ (m : groupman_t) (ngl : nodegroup_list_t),
      path_owned m → index_current m → (path_ids m).Nodup → no_empty m →
      ngl.Nodup → (∀ g ∈ ngl, g ∈ path_ngs m) →
      ∃ r m1, combine_ngl m ngl = some (r, m1) ∧ no_empty m1) ∧
    (∀ (m : groupman_t) (nds : List pnodedef_t),
      path_owned m → m.ngs m.brk = none → index_current m → (path_ids m).Nodup →
      no_empty m → nds ≠ [] → nds.Nodup → (∀ x ∈ nds, x ∈ path_nds m) →
      ∃ r m1, move_nodes_to_ng m nds = some (r, m1) ∧ no_empty m1) := by
  constructor
  · intro m ngl hown hidx hids hno hnd hin
    by_cases hne : ngl = []
    · subst hne
      exact ⟨none, m, rfl, hno⟩
    · obtain ⟨d, m1, -, -, -, inv, hrun⟩ := combine_ngl_run m ngl hown hidx hids hne hnd hin
      refine ⟨_, _, hrun, ?_, ?_⟩
      · intro g hg
        have hg1 : g ∈ path_ngs m1 := hg
        show ng_nodes m1 g ≠ []
        rw [inv.ngs, List.mem_filter] at hg1
        obtain ⟨hgm, hgd⟩ := hg1
        have hgd1 : g ∉ merged_groups m d ngl := by simpa using hgd
        by_cases h : g = d
        · rw [h, inv.dnodes]
          intro e
          have hd0 : ng_nodes m d = [] := (List.append_eq_nil.mp e).1
          rw [h] at hgm
          exact hno.1 d hgm hd0
        · rw [inv.others g h hgd1]
          exact hno.1 g hgm
      · intro sg hsg
        have hsg1 : sg ∈ m1.path_sgl := hsg
        show sg_groups m1 sg ≠ []
        rw [inv.path, List.mem_filter] at hsg1
        obtain ⟨hsm, hc⟩ := hsg1
        simp only [decide_eq_true_eq] at hc
        rcases hc with hc | hc
        · exact hc
        · exact absurd hc (hno.2 sg hsm)
  · intro m nds hown hfresh hidx hids hno hne hnd hin
    cases nds with
    | nil => exact absurd rfl hne
    | cons nd rest =>
      obtain ⟨s0, g0, m1, -, -, -, inv, hrun⟩ :=
        move_nodes_run m nd rest hown hfresh hidx hids hnd hin
      refine ⟨_, _, hrun, ?_, ?_⟩
      · intro g hg
        have hg1 : g ∈ path_ngs m1 := hg
        show ng_nodes m1 g ≠ []
        by_cases h : g = m.brk
        · rw [h]
          have : ng_nodes m1 m.brk = nd :: rest := by simp [ng_nodes, inv.newg]
          rw [this]
          exact List.cons_ne_nil _ _
        · intro e
          exact hno.1 g (inv.sub_ng g hg1 h) (inv.empty_ng g hg1 h e)
      · intro sg hsg
        have hsg1 : sg ∈ m1.path_sgl := hsg
        show sg_groups m1 sg ≠ []
        intro e
        exact hno.2 sg (inv.sub_sg sg hsg1) (inv.empty_sg sg hsg1 e)

theorem no_empty_preserved_witness :
    (∃ r m1, combine_ngl state_two [2, 3] = some (r, m1) ∧ no_empty m1) ∧
    (∃ r m1, move_nodes_to_ng state_two [sample_nd 10 1 0 16, sample_nd 12 3 32 48]
        = some (r, m1) ∧ no_empty m1) :=
  ⟨no_empty_preserved.1 state_two [2, 3] (by decide) (index_current_of_eq _ (by decide))
      (by decide) (by decide) (by decide) (by decide),
   no_empty_preserved.2 state_two [sample_nd 10 1 0 16, sample_nd 12 3 32 48]
      (by decide) (by decide) (index_current_of_eq _ (by decide)) (by decide) (by decide)
      (by decide) (by decide) (by decide)⟩

/-- C11, as stated, fails when two NodeDefs of the path list carry the same
id: `state_dup` has no empty node group and no super group without groups, its
index is up to date, and after `combine_ngl` on its two groups the group `2`
is empty and still a group of the super group `0` of the path list. -/
theorem combine_ngl_leaves_empty_group :
    path_owned state_dup ∧ index_current state_dup ∧ no_empty state_dup ∧
    ([3, 2] : nodegroup_list_t).Nodup ∧
    (∀ g ∈ ([3, 2] : nodegroup_list_t), g ∈ path_ngs state_dup) ∧
    (combine_ngl state_dup [3, 2]).map
        (fun r => (r.2.path_sgl, sg_groups r.2 0, ng_nodes r.2 2, decide (no_empty r.2)))
      = some ([0, 1], [2], [], false) :=
  ⟨by decide, index_current_of_eq _ (by decide), by decide, by decide, by decide, by decide⟩

/-! ## `move_nodes_to_ng` on two super groups of one node each -/

theorem list_remove_single {α : Type} [DecidableEq α] (x : α) : list_remove [x] x = [] := by
  simp [list_remove]

/-- C12 (amended): in a well-formed state with an up-to-date index and without
duplicate ids, let two different super groups `s1` and `s2` of the path list
each consist of exactly one node group that holds exactly one node, `n1` and
`n2`.  Then `move_nodes_to_ng` on `n1`, `n2` returns a new node group that
holds `n1` and `n2`; it is the only group of `s1`, the super group of the
first input node, which stays in the path list, and `s2` is removed from the
path list, which is otherwise unchanged. -/
theorem move_nodes_two_singletons (m : groupman_t) (s1 s2 : psupergroup_t)
    (g1 g2 : pnodegroup_t) (n1 n2 : pnodedef_t)
    (hown : path_owned m) (hfresh : m.ngs m.brk = none) (hidx : index_current m)
    (hids : (path_ids m).Nodup) (h1 : s1 ∈ m.path_sgl) (h2 : s2 ∈ m.path_sgl)
    (hne : s1 ≠ s2) (hg1 : sg_groups m s1 = [g1]) (hn1 : ng_nodes m g1 = [n1])
    (hg2 : sg_groups m s2 = [g2]) (hn2 : ng_nodes m g2 = [n2]) :
    ∃ p m1, move_nodes_to_ng m [n1, n2] = some (some p, m1) ∧ p ∉ path_ngs m ∧
      sg_groups m1 s1 = [p] ∧ ng_nodes m1 p = [n1, n2] ∧
      s1 ∈ m1.path_sgl ∧ s2 ∉ m1.path_sgl ∧ m1.path_sgl = list_remove m.path_sgl s2 := by
  -- the objects involved
  have hg1s : g1 ∈ sg_groups m s1 := by rw [hg1]; exact List.mem_singleton.mpr rfl
  have hg2s : g2 ∈ sg_groups m s2 := by rw [hg2]; exact List.mem_singleton.mpr rfl
  have hg1p : g1 ∈ path_ngs m := (path_ngs_mem m g1).mpr ⟨s1, h1, hg1s⟩
  have hg2p : g2 ∈ path_ngs m := (path_ngs_mem m g2).mpr ⟨s2, h2, hg2s⟩
  have hg12 : g1 ≠ g2 := by
    intro e
    rw [← e] at hg2s
    exact hne (nodup_flatMap_owner hown.nodup_ng h1 h2 hg1s hg2s)
  have hp : m.brk ∉ path_ngs m := fresh_not_in_path m hown hfresh
  have hp1 : m.brk ≠ g1 := fun e => hp (by rw [e]; exact hg1p)
  have hp2 : m.brk ≠ g2 := fun e => hp (by rw [e]; exact hg2p)
  obtain ⟨sA, hsA, hgA⟩ := path_owned_live_sg hown h1
  obtain ⟨sB, hsB, hgB⟩ := path_owned_live_sg hown h2
  rw [hg1] at hgA
  rw [hg2] at hgB
  obtain ⟨l1, hl1, hl1n⟩ := path_owned_live_ng hown hg1p
  obtain ⟨l2, hl2, hl2n⟩ := path_owned_live_ng hown hg2p
  rw [hn1] at hl1n
  rw [hn2] at hl2n
  subst hl1n hl2n
  have hloc1 := index_locates m hown hidx hids s1 g1 n1 h1 hg1s (by rw [hn1]; simp)
  have hloc2 := index_locates m hown hidx hids s2 g2 n2 h2 hg2s (by rw [hn2]; simp)
  have hn12 : n1 ≠ n2 := by
    intro e
    rw [e, hloc2] at hloc1
    have := congrArg nodeloc_t.sg (Option.some.inj hloc1)
    exact hne this.symm
  -- the first iteration
  have e1 := move_nodes_step_first m n1 (nodeloc_t.mk s1 g1 n1) sA hloc1 hsA
  have e2 := move_nodes_step_eq s1 m.brk (with_new_group m s1 sA) n1 (nodeloc_t.mk s1 g1 n1)
    [n1] [] { sA with groups := sA.groups ++ [m.brk] } hloc1
    (by
      show (Function.update m.ngs m.brk (some [])) g1 = some [n1]
      rw [Function.update_noteq (fun e => hp1 e.symm), hl1])
    (by
      show (Function.update m.ngs m.brk (some [])) m.brk = some []
      rw [Function.update_same])
    hp1
    (by
      show (Function.update m.sgs s1 (some { sA with groups := sA.groups ++ [m.brk] })) s1 = _
      rw [Function.update_same])
  generalize hm2 : after_move (with_new_group m s1 sA) m.brk (nodeloc_t.mk s1 g1 n1) [n1] []
    { sA with groups := sA.groups ++ [m.brk] } = m2 at e2
  have hA' : (with_new_group m s1 sA).sgs s1
      = some { sA with groups := sA.groups ++ [m.brk] } := by
    show (Function.update m.sgs s1 (some { sA with groups := sA.groups ++ [m.brk] })) s1 = _
    rw [Function.update_same]
  -- the views of the state after the first iteration
  have m2_idx : find_nodeid_loc m2 n2.nid = some (nodeloc_t.mk s2 g2 n2) := by
    have := (after_move_frame (with_new_group m s1 sA) m.brk (nodeloc_t.mk s1 g1 n1) [n1] []
      { sA with groups := sA.groups ++ [m.brk] }).1
    rw [hm2] at this
    unfold find_nodeid_loc
    rw [this]
    exact hloc2
  have m2_ngs : ∀ x, m2.ngs x = if x = m.brk then some [n1]
      else if x = g1 then none else m.ngs x := by
    intro x
    rw [← hm2, after_move_ngs]
    simp only [list_remove_single, List.nil_append, if_true]
    by_cases hx : x = m.brk
    · rw [if_pos hx, if_pos hx]
    · rw [if_neg hx, if_neg hx]
      by_cases hx1 : x = g1
      · rw [if_pos hx1, if_pos hx1]
      · rw [if_neg hx1, if_neg hx1]
        show (Function.update m.ngs m.brk (some [])) x = m.ngs x
        rw [Function.update_noteq hx]
  have m2_sgs2 : m2.sgs s2 = some sB := by
    rw [← hm2, after_move_sgs]
    have : ¬ (s2 = s1 ∧ list_remove [n1] n1 = []) := fun h => hne h.1.symm
    rw [if_neg this]
    show (Function.update m.sgs s1 _) s2 = some sB
    rw [Function.update_noteq (fun e => hne e.symm), hsB]
  have m2_groups : ∀ x, sg_groups m2 x = if x = s1 then [m.brk] else sg_groups m x := by
    intro x
    rw [← hm2, after_move_groups _ _ _ _ _ _ hA', with_new_group_groups m s1 sA hsA]
    simp only [list_remove_single, and_true]
    by_cases hx : x = s1
    · rw [if_pos hx, if_pos hx, if_pos hx, hx, hg1]
      simp [list_remove, hp1]
    · rw [if_neg hx, if_neg hx, if_neg hx]
  have m2_path : m2.path_sgl = m.path_sgl := by
    rw [← hm2, after_move_path]
    have : ¬ (list_remove [n1] n1 = [] ∧
        list_remove ({ sA with groups := sA.groups ++ [m.brk] } : supergroup_t).groups g1
          = []) := by
      rintro ⟨-, h⟩
      have hmem : m.brk ∈ list_remove (sA.groups ++ [m.brk]) g1 :=
        (mem_list_remove _ _ _).mpr ⟨by simp, hp1⟩
      rw [h] at hmem
      cases hmem
    rw [if_neg this]
    rfl
  -- the second iteration
  have e3 := move_nodes_step_eq s1 m.brk m2 n2 (nodeloc_t.mk s2 g2 n2) [n2] [n1] sB m2_idx
    (by
      show m2.ngs g2 = some [n2]
      rw [m2_ngs, if_neg (fun e => hp2 e.symm), if_neg (fun e => hg12 e.symm), hl2])
    (by rw [m2_ngs, if_pos rfl])
    hp2 m2_sgs2
  generalize hm3 : after_move m2 m.brk (nodeloc_t.mk s2 g2 n2) [n2] [n1] sB = m3 at e3
  have m3_groups : sg_groups m3 s1 = [m.brk] := by
    rw [← hm3, after_move_groups _ _ _ _ _ _ m2_sgs2]
    have : ¬ (s1 = s2 ∧ list_remove [n2] n2 = []) := fun h => hne h.1
    rw [if_neg this, m2_groups, if_pos rfl]
  have m3_nodes : ng_nodes m3 m.brk = [n1, n2] := by
    rw [← hm3, after_move_nodes, if_pos rfl]
    rfl
  have m3_path : m3.path_sgl = list_remove m.path_sgl s2 := by
    rw [← hm3, after_move_path, ← hgB]
    have : list_remove [n2] n2 = [] ∧ list_remove [g2] g2 = [] :=
      ⟨list_remove_single n2, list_remove_single g2⟩
    rw [if_pos this, m2_path]
  have hfold : [n1, n2].foldlM move_nodes_step { sg0 := none, new_ng := none, m := m }
      = some { sg0 := some s1, new_ng := some m.brk, m := m3 } := by
    simp only [List.foldlM_cons, List.foldlM_nil, Option.bind_eq_bind, e1, e2,
      Option.some_bind, e3, Option.pure_def]
  -- the call returns
  obtain ⟨s0, g0, mr, -, -, -, -, hrun⟩ := move_nodes_run m n1 [n2] hown hfresh hidx hids
    (by simp [hn12])
    (by
      intro x hx
      rcases List.mem_cons.mp hx with h | h
      · rw [h]; exact (path_nds_mem m n1).mpr ⟨g1, hg1p, by rw [hn1]; simp⟩
      · rw [List.mem_singleton.mp h]
        exact (path_nds_mem m n2).mpr ⟨g2, hg2p, by rw [hn2]; simp⟩)
  have hrun2 := hrun
  simp only [move_nodes_to_ng, hfold, Option.bind_eq_bind, Option.some_bind] at hrun2
  cases hinit : initialize_lookups m3 with
  | none => rw [hinit] at hrun2; cases hrun2
  | some m4 =>
    obtain ⟨-, rfl⟩ := (initialize_lookups_iff m3 m4).mp hinit
    refine ⟨m.brk, { m3 with nid2loc := index_of [] (sgl_locs m3 m3.path_sgl) }, ?_, hp,
      m3_groups, m3_nodes, ?_, ?_, m3_path⟩
    · simp only [move_nodes_to_ng, hfold, Option.bind_eq_bind, Option.some_bind, hinit,
        Option.pure_def]
    · show s1 ∈ m3.path_sgl
      rw [m3_path]
      exact (mem_list_remove _ _ _).mpr ⟨h1, hne⟩
    · show s2 ∉ m3.path_sgl
      rw [m3_path]
      intro h
      exact ((mem_list_remove _ _ _).mp h).2 rfl

theorem move_nodes_two_singletons_witness :
    path_owned state_pair ∧ index_current state_pair ∧ (path_ids state_pair).Nodup ∧
    ∃ p m1, move_nodes_to_ng state_pair [sample_nd 10 1 0 16, sample_nd 11 2 16 32]
        = some (some p, m1) ∧ p ∉ path_ngs state_pair ∧
      sg_groups m1 0 = [p] ∧ ng_nodes m1 p = [sample_nd 10 1 0 16, sample_nd 11 2 16 32] ∧
      0 ∈ m1.path_sgl ∧ 1 ∉ m1.path_sgl ∧ m1.path_sgl = list_remove state_pair.path_sgl 1 :=
  ⟨by decide, index_current_of_eq _ (by decide), by decide,
   move_nodes_two_singletons state_pair 0 1 2 3 (sample_nd 10 1 0 16) (sample_nd 11 2 16 32)
     (by decide) (by decide) (index_current_of_eq _ (by decide)) (by decide) (by decide)
     (by decide) (by decide) (by decide) (by decide) (by decide) (by decide)⟩

/-- C12, as stated, fails: in `state_pair` the super groups `0` and `1` each
consist of one node group that holds one node; `move_nodes_to_ng` on the two
nodes returns the new group `12`, which is the only group of the super group
`0` of the first input node, and the path list afterwards is `[0]`: the super
group `1` is removed, and the super group `0` is not. -/
theorem move_nodes_keeps_first_super_group :
    path_owned state_pair ∧ index_current state_pair ∧
    state_pair.path_sgl = [0, 1] ∧
    sg_groups state_pair 0 = [2] ∧ ng_nodes state_pair 2 = [sample_nd 10 1 0 16] ∧
    sg_groups state_pair 1 = [3] ∧ ng_nodes state_pair 3 = [sample_nd 11 2 16 32] ∧
    (move_nodes_to_ng state_pair [sample_nd 10 1 0 16, sample_nd 11 2 16 32]).map
        (fun r => (r.1, r.2.path_sgl, sg_groups r.2 0, ng_nodes r.2 12))
      = some (some 12, [0], [12], [sample_nd 10 1 0 16, sample_nd 11 2 16 32]) :=
  ⟨by decide, index_current_of_eq _ (by decide), rfl, by decide, by decide, by decide,
    by decide, by decide⟩

/-! ## `find_biggest` on a list with several groups of maximal size -/

/-- C22 (amended): for every list of (live) node groups in which the maximal
element count is reached by more than one group, the comparison `<` of
`find_biggest` makes it return the first-seen group of maximal size: every
group before the returned one is strictly smaller, and a group of the same
size follows it. -/
theorem find_biggest_tie_first (ngs : pnodegroup_t → Option nodegroup_t)
    (l1 l2 l3 : nodegroup_list_t) (a b : pnodegroup_t)
    (hl : ngl_live ngs (l1 ++ a :: (l2 ++ b :: l3)))
    (hab : ng_size ngs a = ng_size ngs b)
    (hmax : ∀ x ∈ l1 ++ a :: (l2 ++ b :: l3), ng_size ngs x ≤ ng_size ngs a) :
    ∃ g pre post, find_biggest ngs (l1 ++ a :: (l2 ++ b :: l3)) = some (some g) ∧
      l1 ++ a :: (l2 ++ b :: l3) = pre ++ g :: post ∧
      (∀ p ∈ pre, ng_size ngs p < ng_size ngs g) ∧
      ng_size ngs g = ng_size ngs a ∧
      ∃ h ∈ post, ng_size ngs h = ng_size ngs g := by
  have hne : l1 ++ a :: (l2 ++ b :: l3) ≠ [] := by simp
  cases hL : l1 ++ a :: (l2 ++ b :: l3) with
  | nil => exact absurd hL hne
  | cons f l =>
    rw [hL] at hl hmax
    obtain ⟨g, hfb, -, pre, post, hdec, hpre, hpost⟩ := find_biggest_cons ngs f l hl
    have ha_mem : a ∈ f :: l := by rw [← hL]; simp
    have hg_mem : g ∈ f :: l := by rw [hdec]; simp
    have hga : ng_size ngs g = ng_size ngs a := by
      apply Nat.le_antisymm (hmax g hg_mem)
      rw [hdec] at ha_mem
      rcases List.mem_append.mp ha_mem with h | h
      · exact Nat.le_of_lt (hpre a h)
      · rcases List.mem_cons.mp h with h | h
        · rw [h]
        · exact hpost a h
    have ha_pre : a ∉ pre := fun h => by
      have := hpre a h
      omega
    have hb_pre : b ∉ pre := fun h => by
      have := hpre b h
      omega
    refine ⟨g, pre, post, hfb, hdec, hpre, hga, ?_⟩
    have heq : (l1 ++ a :: l2) ++ b :: l3 = pre ++ g :: post := by
      rw [← hdec, ← hL]
      simp
    rcases List.append_eq_append_iff.mp heq with ⟨a', h1, h2⟩ | ⟨c', h1, h2⟩
    · -- `pre = (l1 ++ a :: l2) ++ a'`: then `a` is in `pre`
      exfalso
      apply ha_pre
      rw [h1]
      simp
    · -- `l1 ++ a :: l2 = pre ++ c'` and `g :: post = c' ++ b :: l3`
      cases c' with
      | nil =>
        exfalso
        apply ha_pre
        rw [List.append_nil] at h1
        rw [← h1]
        simp
      | cons x c'' =>
        rw [List.cons_append] at h2
        obtain ⟨-, h3⟩ := List.cons.inj h2
        refine ⟨b, by rw [h3]; simp, ?_⟩
        rw [hga, hab]

theorem find_biggest_tie_first_witness :
    ngl_live store_3552 ([0] ++ 1 :: ([] ++ 2 :: [3])) ∧
    ∃ g pre post, find_biggest store_3552 ([0] ++ 1 :: ([] ++ 2 :: [3])) = some (some g) ∧
      [0] ++ 1 :: ([] ++ 2 :: [3]) = pre ++ g :: post ∧
      (∀ p ∈ pre, ng_size store_3552 p < ng_size store_3552 g) ∧
      ng_size store_3552 g = ng_size store_3552 1 ∧
      ∃ h ∈ post, ng_size store_3552 h = ng_size store_3552 g :=
  ⟨by decide, find_biggest_tie_first store_3552 [0] [] [3] 1 2 (by decide) (by decide)
    (by decide)⟩

/-- C22, as stated, fails: of the four groups `0`, `1`, `2`, `3` with 3, 5, 5
and 2 elements, the groups `1` and `2` have the maximal size, and
`find_biggest` returns the group `1`, which is seen first, not the group `2`,
which is seen last. -/
theorem find_biggest_tie_keeps_first :
    [0, 1, 2, 3].map (ng_size store_3552) = [3, 5, 5, 2] ∧
    find_biggest store_3552 [0, 1, 2, 3] = some (some 1) ∧
    find_biggest store_3552 [0, 1, 2, 3] ≠ some (some 2) := by
  refine ⟨by decide, by decide, by decide⟩

/-! ## `move_nodes_to_ng` on an empty collection -/

/-- C25: for every manager state (whose path list holds live pointers),
`move_nodes_to_ng` on an empty collection returns `NULL`: no node group is
created, the stores are unchanged, and so are the path list, the similar list
and the registry. -/
theorem move_nodes_to_ng_empty (m : groupman_t) (hl : sgl_live m m.path_sgl) :
    ∃ m1, move_nodes_to_ng m [] = some (none, m1) ∧
      m1.ngs = m.ngs ∧ m1.sgs = m.sgs ∧ m1.brk = m.brk ∧
      m1.path_sgl = m.path_sgl ∧ m1.similar_sgl = m.similar_sgl ∧
      m1.all_nodes = m.all_nodes := by
  have hinit := (initialize_lookups_iff m _).mpr ⟨hl, rfl⟩
  refine ⟨{ m with nid2loc := index_of [] (sgl_locs m m.path_sgl) }, ?_, rfl, rfl, rfl, rfl,
    rfl, rfl⟩
  simp only [move_nodes_to_ng, List.foldlM_nil, Option.pure_def, Option.bind_eq_bind,
    Option.some_bind, hinit]

theorem move_nodes_to_ng_empty_witness :
    sgl_live state_two state_two.path_sgl ∧
    ∃ m1, move_nodes_to_ng state_two [] = some (none, m1) ∧
      m1.ngs = state_two.ngs ∧ m1.sgs = state_two.sgs ∧ m1.brk = state_two.brk ∧
      m1.path_sgl = state_two.path_sgl ∧ m1.similar_sgl = state_two.similar_sgl ∧
      m1.all_nodes = state_two.all_nodes :=
  ⟨by decide, move_nodes_to_ng_empty state_two (by decide)⟩

/-! ## What `reset_groupping` leaves unchanged -/

/-- The last loop of `reset_groupping` writes only to new objects. -/
theorem reset_add_frame : ∀ (es : nid2ndef_t) (m : groupman_t),
    m.brk ≤ (es.foldl (fun a e => reset_add a e.2) m).brk ∧
    ∀ x, x < m.brk →
      (es.foldl (fun a e => reset_add a e.2) m).sgs x = m.sgs x ∧
      (es.foldl (fun a e => reset_add a e.2) m).ngs x = m.ngs x := by
  intro es
  induction es with
  | nil => intro m; exact ⟨Nat.le_refl _, fun _ _ => ⟨rfl, rfl⟩⟩
  | cons e r ih =>
    intro m
    obtain ⟨h1, h2⟩ := ih (reset_add m e.2)
    have hb : (reset_add m e.2).brk = m.brk + 2 := rfl
    simp only [List.foldl_cons]
    refine ⟨by rw [hb] at h1; omega, ?_⟩
    intro x hx
    obtain ⟨a, b⟩ := h2 x (by rw [hb]; omega)
    rw [a, b]
    have n1 : x ≠ m.brk := by omega
    have n2 : x ≠ m.brk + 1 := by omega
    constructor
    · simp only [reset_add, add_supergroup, set_sgl, get_sgl, Function.update_noteq n1]
    · simp only [reset_add, add_supergroup, set_sgl, get_sgl, Function.update_noteq n2]

/-- C21: on a well-formed state `reset_groupping` returns and leaves the
registry and the similar list as they were: the registry has the same entries
(the same ids mapped to the same NodeDefs, with the same id, start and end),
no NodeDef is deleted, the similar list holds the same pointers, and every
super group and node group object that does not belong to the path list is
untouched, so that the content of a similar list that shares no object with
the path list is the same.  Only the path list (with its objects) and the
location index change. -/
theorem reset_groupping_keeps (m : groupman_t) (hown : path_owned m) :
    ∃ m1, reset_groupping m = some m1 ∧
      m1.all_nodes = m.all_nodes ∧
      reset_groupping_nodes m = some [] ∧
      m1.similar_sgl = m.similar_sgl ∧
      (∀ x, x < m.brk → x ∉ m.path_sgl → m1.sgs x = m.sgs x) ∧
      (∀ g, g < m.brk → g ∉ path_ngs m → m1.ngs g = m.ngs g) ∧
      ((∀ sg ∈ m.similar_sgl, sg < m.brk ∧ sg ∉ m.path_sgl ∧
          ∀ g ∈ sg_groups m sg, g < m.brk ∧ g ∉ path_ngs m) →
        sgl_view m1 m1.similar_sgl = sgl_view m m.similar_sgl) := by
  obtain ⟨m1, hr, -, hsim, hreg⟩ := reset_groupping_run m hown
  obtain ⟨ma, ea, a1, a2, a3, a4, a5, a6⟩ := clear_refs_ok m.path_sgl m hown.live
  obtain ⟨-, a7⟩ := clear_refs_eq _ _ _ ea
  have hGa : sg_groups ma = sg_groups m := by
    funext x; simp [sg_groups, a1]
  have hla : sgl_live ma ma.path_sgl := by
    rw [a2]
    intro x hx
    obtain ⟨u, v⟩ := hown.live x hx
    refine ⟨by rw [a1]; exact u, ?_⟩
    intro g hg
    rw [a6]
    rw [hGa] at hg
    exact v g hg
  have hna : (ma.path_sgl.flatMap (sg_groups ma)).Nodup := by
    rw [a2, hGa]
    exact hown.nodup_ng
  have hN : (ma.path_sgl.flatMap (sg_groups ma)).flatMap (ng_nodes ma) = [] := by
    rw [a2]
    exact clear_refs_nodes m ma m.path_sgl ea
  obtain ⟨mb, eb, b1, b2, b3, b4, b5, b6, b7, b8⟩ :=
    delete_all_ok ma.path_sgl ma (a2 ▸ hown.nodup_sg) hla hna
      (by rw [hN]; exact List.nodup_nil) (by rw [hN]; intro nd hx; cases hx)
  have hclear : clear_sgl ma .path = some (set_sgl mb .path []) := by
    simp only [clear_sgl, get_sgl, eb]
  obtain ⟨-, c2⟩ := reset_add_frame (set_sgl mb .path []).all_nodes (set_sgl mb .path [])
  have hm1 : m1 = { ((set_sgl mb .path []).all_nodes).foldl (fun a e => reset_add a e.2)
      (set_sgl mb .path []) with nid2loc := m1.nid2loc } := by
    simp only [reset_groupping, ea, Option.bind_eq_bind, Option.some_bind, hclear] at hr
    obtain ⟨-, e⟩ := (initialize_lookups_iff _ _).mp hr
    rw [e]
  have hsgs : ∀ x, x < m.brk → x ∉ m.path_sgl → m1.sgs x = m.sgs x := by
    intro x hx hnp
    rw [hm1]
    show (((set_sgl mb .path []).all_nodes).foldl (fun a e => reset_add a e.2)
      (set_sgl mb .path [])).sgs x = _
    rw [(c2 x (by show x < mb.brk; rw [b4, a5]; exact hx)).1]
    show mb.sgs x = _
    rw [b6, a2, if_neg hnp, a1]
  have hngs : ∀ g, g < m.brk → g ∉ path_ngs m → m1.ngs g = m.ngs g := by
    intro g hg hnp
    have hnp' : g ∉ m.path_sgl.flatMap (sg_groups m) := hnp
    rw [hm1]
    show (((set_sgl mb .path []).all_nodes).foldl (fun a e => reset_add a e.2)
      (set_sgl mb .path [])).ngs g = _
    rw [(c2 g (by show g < mb.brk; rw [b4, a5]; exact hg)).2]
    show mb.ngs g = _
    rw [b7, a2, hGa, if_neg hnp', a7, if_neg hnp']
  refine ⟨m1, hr, hreg, ?_, hsim, hsgs, hngs, ?_⟩
  · -- no NodeDef is deleted: the groups are empty when they are deleted
    simp only [reset_groupping_nodes, ea, Option.map_some', Option.some.injEq, clear_sgl_nodes,
      get_sgl, free_nodegroup_nodes]
    rw [a2, hGa]
    apply List.flatMap_eq_nil_iff.mpr
    intro sg hsg
    apply List.flatMap_eq_nil_iff.mpr
    intro g hg
    have : g ∈ m.path_sgl.flatMap (sg_groups m) := List.mem_flatMap.mpr ⟨sg, hsg, hg⟩
    rw [a7, if_pos this]
  · intro hdis
    rw [hsim]
    unfold sgl_view
    apply List.map_congr_left
    intro sg hsg
    obtain ⟨h1, h2, h3⟩ := hdis sg hsg
    rw [hsgs sg h1 h2]
    cases hs : m.sgs sg with
    | none => rfl
    | some s =>
      simp only [sg_view]
      congr 2
      apply List.map_congr_left
      intro g hg
      have hg' : g ∈ sg_groups m sg := by simp [sg_groups, hs, hg]
      obtain ⟨h4, h5⟩ := h3 g hg'
      simp only [ng_nodes, hngs g h4 h5]

theorem reset_groupping_keeps_witness :
    path_owned state_both ∧
    ∃ m1, reset_groupping state_both = some m1 ∧
      m1.all_nodes = state_both.all_nodes ∧
      reset_groupping_nodes state_both = some [] ∧
      m1.similar_sgl = state_both.similar_sgl ∧
      (∀ x, x < state_both.brk → x ∉ state_both.path_sgl → m1.sgs x = state_both.sgs x) ∧
      (∀ g, g < state_both.brk → g ∉ path_ngs state_both → m1.ngs g = state_both.ngs g) ∧
      ((∀ sg ∈ state_both.similar_sgl, sg < state_both.brk ∧ sg ∉ state_both.path_sgl ∧
          ∀ g ∈ sg_groups state_both sg, g < state_both.brk ∧ g ∉ path_ngs state_both) →
        sgl_view m1 m1.similar_sgl = sgl_view state_both state_both.similar_sgl) :=
  ⟨by decide, reset_groupping_keeps state_both (by decide)⟩

/-! ## `clear` and the location index -/

/-- On a state whose two lists are well formed `clear` returns. -/
theorem clear_ok (m : groupman_t) (h : lists_owned m) : ∃ mc, clear m = some mc := by
  have hnd := List.nodup_append.mp h.nodup_sg
  have hng : (m.path_sgl.flatMap (sg_groups m) ++ m.similar_sgl.flatMap (sg_groups m)).Nodup := by
    rw [← List.flatMap_append]
    exact h.nodup_ng
  have hng2 := List.nodup_append.mp hng
  have hN : lists_nds m = (m.path_sgl.flatMap (sg_groups m)).flatMap (ng_nodes m)
      ++ (m.similar_sgl.flatMap (sg_groups m)).flatMap (ng_nodes m) := by
    unfold lists_nds
    rw [List.flatMap_append, List.flatMap_append]
  have hna := h.nodup_nd
  rw [hN, List.map_append] at hna
  obtain ⟨n1, n2, n3⟩ := List.nodup_append.mp hna
  have hfr : ∀ nd ∈ lists_nds m, nd.addr ∉ m.freed := h.live_nd
  rw [hN] at hfr
  have hlp : sgl_live m m.path_sgl := fun x hx => h.live x (List.mem_append_left _ hx)
  obtain ⟨ma, ea, a1, a2, a3, a4, a5, a6, a7, a8⟩ :=
    delete_all_ok m.path_sgl m hnd.1 hlp hng2.1 n1
      (fun nd hx => hfr nd (List.mem_append_left _ hx))
  have e1 : clear_sgl m .path = some (set_sgl ma .path []) := by
    simp only [clear_sgl, get_sgl, ea]
  have hG : ∀ x ∈ m.similar_sgl, sg_groups (set_sgl ma .path []) x = sg_groups m x := by
    intro x hx
    have hxp : x ∉ m.path_sgl := fun hp => hnd.2.2 hp hx
    have : (set_sgl ma .path []).sgs x = m.sgs x := by
      show ma.sgs x = m.sgs x
      rw [a6, if_neg hxp]
    simp only [sg_groups, this]
  have hfl : m.similar_sgl.flatMap (sg_groups (set_sgl ma .path []))
      = m.similar_sgl.flatMap (sg_groups m) := List.flatMap_congr hG
  have hNd : ∀ g ∈ m.similar_sgl.flatMap (sg_groups m),
      ng_nodes (set_sgl ma .path []) g = ng_nodes m g := by
    intro g hg
    have hgp : g ∉ m.path_sgl.flatMap (sg_groups m) := fun hp => hng2.2.2 hp hg
    show (match ma.ngs g with | some l => l | none => []) = _
    rw [a7, if_neg hgp]
    rfl
  have hnl : (m.similar_sgl.flatMap (sg_groups (set_sgl ma .path []))).flatMap
      (ng_nodes (set_sgl ma .path []))
      = (m.similar_sgl.flatMap (sg_groups m)).flatMap (ng_nodes m) := by
    rw [hfl]
    exact List.flatMap_congr hNd
  have hls : sgl_live (set_sgl ma .path []) m.similar_sgl := by
    intro x hx
    have hxp : x ∉ m.path_sgl := fun hp => hnd.2.2 hp hx
    obtain ⟨u, v⟩ := h.live x (List.mem_append_right _ hx)
    constructor
    · show (ma.sgs x).isSome = true
      rw [a6, if_neg hxp]
      exact u
    · intro g hg
      rw [hG x hx] at hg
      show (ma.ngs g).isSome = true
      rw [a7, if_neg]
      · exact v g hg
      · intro hp
        exact hng2.2.2 hp (List.mem_flatMap.mpr ⟨x, hx, hg⟩)
  have hsim : (set_sgl ma .path []).similar_sgl = m.similar_sgl := a2
  obtain ⟨mb, eb, -⟩ := delete_all_ok m.similar_sgl (set_sgl ma .path []) hnd.2.1 hls
    (by rw [hfl]; exact hng2.2.1) (by rw [hnl]; exact n2)
    (by
      rw [hnl]
      intro nd hx hm
      have hm' : nd.addr ∈ ma.freed := hm
      rw [a8] at hm'
      rcases List.mem_append.mp hm' with e | e
      · exact n3 (List.mem_reverse.mp e) (List.mem_map.mpr ⟨nd, hx, rfl⟩)
      · exact hfr nd (List.mem_append_right _ hx) e)
  have e2 : clear_sgl (set_sgl ma .path []) .similar = some (set_sgl mb .similar []) := by
    simp only [clear_sgl, get_sgl, hsim, eb]
  refine ⟨{ set_sgl mb .similar [] with all_nodes := [] }, ?_⟩
  simp only [clear, e1, e2, Option.bind_eq_bind, Option.some_bind, Option.pure_def]

/-- When `clear` succeeds, `parse` without the rebuild of the lookups returns
a state with the index of the state it was called on. -/
theorem parse_false_index (m0 mc : groupman_t) (text : List Char)
    (hc : clear m0 = some mc) :
    ∃ m1, parse m0 text false = some m1 ∧ m1.nid2loc = m0.nid2loc := by
  obtain ⟨c1, c2, c3, c4⟩ := clear_frame m0 mc hc
  have h0 : parse_sim mc (some .path, mc) (some .path, [], []) := by
    refine ⟨?_, ?_, rfl, rfl, ?_, ?_⟩
    · intro sg hsg
      simp only [c1, c2, List.append_nil, List.not_mem_nil] at hsg
    · intro k
      simp only [has_key, c1, c2, c3, sgl_view, content_ids, map_find, List.map_nil,
        List.flatMap_nil, List.not_mem_nil, or_self, Option.isSome_none, Bool.false_eq_true]
    · show sgl_view mc mc.path_sgl = []
      rw [c1]; rfl
    · show sgl_view mc mc.similar_sgl = []
      rw [c2]; rfl
  obtain ⟨-, -, hi, -⟩ := parse_loop_spec mc (getlines text) _ _ h0
  refine ⟨((getlines text).foldl parse_step (some .path, mc)).2, ?_, hi.trans c4⟩
  simp only [parse, hc, Option.bind_eq_bind, Option.some_bind, Bool.false_eq_true, if_false,
    Option.pure_def]

/-- C23: on a state whose two lists are well formed (every super group, node
group and NodeDef of the lists is a live object that `clear` meets once)
`clear` returns; it empties the path list, the similar list and the registry
and leaves the location index as it was, so that `find_nodeid_loc` gives for
every id the same result after `clear` as before it.  Consequently `parse`
with `init_cache = false` returns a state in which every lookup by id gives
what it gave before the call, not a location of the hierarchy just read: on
the state `state_pair`, whose index locates the ids 1 and 2 in the super
groups `0` and `1`, reading a text with one super group for the id 2 leaves
the lookups of 1 and of 2 as they were, although the objects they name are
deleted and the new NodeDef with the id 2 lies in another group.  A state in
which the two lists share a NodeDef, as `parse` and then `reset_groupping`
leave it for a text that lists the id 1 in both sections, is not well formed:
`clear` deletes the NodeDef twice and has no defined outcome. -/
theorem clear_keeps_index :
    (∀ m : groupman_t, lists_owned m →
      ∃ mc, clear m = some mc ∧ mc.path_sgl = [] ∧ mc.similar_sgl = [] ∧
        mc.all_nodes = [] ∧ mc.nid2loc = m.nid2loc ∧
        ∀ id, find_nodeid_loc mc id = find_nodeid_loc m id) ∧
    (∀ (m : groupman_t) (text : List Char), lists_owned m →
      ∃ m1, parse m text false = some m1 ∧ m1.nid2loc = m.nid2loc ∧
        ∀ id, find_nodeid_loc m1 id = find_nodeid_loc m id) ∧
    (∃ m1, parse state_pair "ID:x;NODESET:(2 : 0 : 1)".toList false = some m1 ∧
      sgl_view m1 m1.path_sgl = [("x".toList, [], [[(2, 0, 1)]])] ∧
      sgl_locs m1 m1.path_sgl = [nodeloc_t.mk 12 13 (sample_nd 14 2 0 1)] ∧
      find_nodeid_loc m1 2 = some (nodeloc_t.mk 1 3 (sample_nd 11 2 16 32)) ∧
      find_nodeid_loc m1 1 = some (nodeloc_t.mk 0 2 (sample_nd 10 1 0 16)) ∧
      m1.sgs 1 = none ∧ m1.ngs 3 = none ∧ m1.freed = [11, 10]) ∧
    (∃ m2, (parse groupman_t.new
          "ID:a;NODESET:(1 : 0 : 1)\n--SIMILARINFO\nID:b;NODESET:(1 : 0 : 1)".toList true).bind
        reset_groupping = some m2 ∧
      path_nds m2 = [sample_nd 5 1 0 1] ∧ similar_nds m2 = [sample_nd 5 1 0 1] ∧
      ¬ lists_owned m2 ∧ clear m2 = none) := by
  refine ⟨?_, ?_, ?_, ?_⟩
  · intro m h
    obtain ⟨mc, hc⟩ := clear_ok m h
    obtain ⟨c1, c2, c3, c4⟩ := clear_frame m mc hc
    refine ⟨mc, hc, c1, c2, c3, c4, ?_⟩
    intro id
    simp only [find_nodeid_loc, c4]
  · intro m text h
    obtain ⟨mc, hc⟩ := clear_ok m h
    obtain ⟨m1, h1, h2⟩ := parse_false_index m mc text hc
    refine ⟨m1, h1, h2, ?_⟩
    intro id
    simp only [find_nodeid_loc, h2]
  · exact ⟨_, rfl, rfl, rfl, rfl, rfl, rfl, rfl, rfl⟩
  · exact ⟨_, rfl, rfl, rfl, by decide, rfl⟩

theorem clear_keeps_index_witness :
    lists_owned state_both ∧
    (∃ mc, clear state_both = some mc ∧ mc.path_sgl = [] ∧ mc.similar_sgl = [] ∧
      mc.all_nodes = [] ∧ mc.nid2loc = state_both.nid2loc ∧
      ∀ id, find_nodeid_loc mc id = find_nodeid_loc state_both id) ∧
    (∃ m1, parse state_both "ID:x;NODESET:(2 : 0 : 1)".toList false = some m1 ∧
      m1.nid2loc = state_both.nid2loc ∧
      ∀ id, find_nodeid_loc m1 id = find_nodeid_loc state_both id) :=
  ⟨by decide, clear_keeps_index.1 state_both (by decide),
   clear_keeps_index.2.1 state_both "ID:x;NODESET:(2 : 0 : 1)".toList (by decide)⟩

/-! ## `parse`: the section at the start of the text -/

/-- While no directive is read in the path section, the lines that are
neither blank nor comments are appended to the content of the path list. -/
theorem text_fold_path : ∀ (ls : List (List Char)) (p s : List sg_content),
    (∀ l ∈ ls, directive l = none) →
    ls.foldl text_cstr (some .path, p, s)
      = (some .path,
         p ++ (ls.filter (fun l => decide (¬ (is_blank l ∨ is_comment l)))).map
           (fun l => line_content (skipSpaces l)), s) := by
  intro ls
  induction ls with
  | nil => intro p s _; simp
  | cons l r ih =>
    intro p s h
    have hd : directive l = none := h l (List.mem_cons_self _ _)
    have hr : ∀ x ∈ r, directive x = none := fun x hx => h x (List.mem_cons_of_mem _ hx)
    rw [List.foldl_cons, text_step_kind]
    by_cases hb : is_blank l ∨ is_comment l
    · rw [if_pos hb, ih p s hr, List.filter_cons_of_neg (by simp [hb])]
    · rw [if_neg hb, hd]
      simp only [content_add]
      rw [ih _ s hr, List.filter_cons_of_pos (by simp [hb]), List.map_cons,
        List.append_assoc]
      rfl

/-- The loop over the lines only appends to the content of the path list. -/
theorem text_fold_prefix : ∀ (ls : List (List Char))
    (ts : Option sgl_ref × List sg_content × List sg_content),
    ∃ more, (ls.foldl text_cstr ts).2.1 = ts.2.1 ++ more := by
  intro ls
  induction ls with
  | nil => intro ts; exact ⟨[], by simp⟩
  | cons l r ih =>
    intro ts
    obtain ⟨more, hm⟩ := ih (text_cstr ts l)
    have h1 : ∃ one, (text_cstr ts l).2.1 = ts.2.1 ++ one := by
      rw [text_step_kind]
      by_cases hb : is_blank l ∨ is_comment l
      · rw [if_pos hb]; exact ⟨[], by simp⟩
      · rw [if_neg hb]
        cases directive l with
        | some sec => exact ⟨[], by simp⟩
        | none =>
          obtain ⟨cur, p, s⟩ := ts
          cases cur with
          | none => exact ⟨[], by simp⟩
          | some cur =>
            cases cur with
            | path => exact ⟨[line_content (skipSpaces l)], rfl⟩
            | similar => exact ⟨[], by simp [content_add]⟩
    obtain ⟨one, ho⟩ := h1
    refine ⟨one ++ more, ?_⟩
    rw [List.foldl_cons, hm, ho, List.append_assoc]

end GraphSlick
